import Mathlib

/-!
# sh2elf: a shallow embedding of the parser, the code generator and the ELF writer

The development follows `src/sh2elf.c`.  Bytes are natural numbers.  A C
string (`const char *`) is a list of bytes; reading at the end of the list
yields the terminating NUL, and a NUL byte inside the list ends the string
the same way, as it does for the C code.
-/

namespace Sh2elf

/-! ## Parser data model (`Stage`, `Pipeline`, `Script`) -/

/-- Bytes of an ASCII string literal, used for the string constants of the source. -/
def bytes (s : String) : List Nat := s.toList.map Char.toNat

/-- The `Stage` struct: `argv` (a `StrV`), `in_redir`, `out_redir` (NULL is `none`)
and the `int out_append`. -/
structure Stage where
  argv : List (List Nat)
  in_redir : Option (List Nat)
  out_redir : Option (List Nat)
  out_append : Nat
deriving DecidableEq, Repr

/-- The value `(Stage){0}`. -/
def Stage.zero : Stage := ⟨[], none, none, 0⟩

/-- The `Pipeline` struct: a growable array of stages. -/
abbrev Pipeline := List Stage

/-- The `Script` struct: a growable array of pipelines. -/
abbrev Script := List Pipeline

/-- One constructor per message passed to `parse_error`, which prints
`parse error: <message>` and exits with status 1. -/
inductive ParseError
  | trailing_escape
  | unterminated_escape_in_quotes
  | unterminated_double_quote
  | unterminated_single_quote
  | redirection_without_command
  | pipeline_stage_missing_command
  | empty_pipeline_stage
  | missing_redirection_target
  | expected_word
deriving DecidableEq, Repr

/-- `skip_inline_ws`: advance over space, tab and carriage return. -/
def skip_inline_ws : List Nat → List Nat
  | [] => []
  | c :: p => if c = 32 ∨ c = 9 ∨ c = 13 then skip_inline_ws p else c :: p

/-- `is_token_terminator`: NUL, space, tab, CR, LF, `|`, `;`, `<`, `>`. -/
def is_token_terminator (c : Nat) : Bool :=
  c = 0 || c = 32 || c = 9 || c = 13 || c = 10 || c = 124 || c = 59 || c = 60 || c = 62

/-- Outcome of `parse_word`: a fatal `parse_error`, the return value NULL
(`*pp` is left untouched), or a word together with the new value of `*pp`. -/
inductive WordRes
  | error (e : ParseError)
  | null
  | word (w : List Nat) (rest : List Nat)
deriving DecidableEq, Repr

/-- The tail of `parse_word` (lines 405 to 408): NULL when the buffer is empty,
else the buffer as a C string and the advanced position. -/
def word_end (buf p : List Nat) : WordRes :=
  if buf.length = 0 then .null else .word buf p

mutual
/-- The outer `while(*p)` loop of `parse_word` (lines 359 to 404): `buf` is the
buffer built so far, the list is the text at `p`. -/
def pw_bare (buf : List Nat) : List Nat → WordRes
  | [] => word_end buf []
  | c :: p =>
    if c = 0 then word_end buf (c :: p)
    else if c = 92 then
      match p with
      | [] => .error .trailing_escape
      | d :: q => if d = 0 then .error .trailing_escape else pw_bare (buf ++ [d]) q
    else if c = 34 then pw_dq buf p
    else if c = 39 then pw_sq buf p
    else if is_token_terminator c then word_end buf (c :: p)
    else pw_bare (buf ++ [c]) p
/-- The inner loop of a double-quoted run (lines 369 to 390), entered after the
opening quote. -/
def pw_dq (buf : List Nat) : List Nat → WordRes
  | [] => .error .unterminated_double_quote
  | c :: p =>
    if c = 0 then .error .unterminated_double_quote
    else if c = 34 then pw_bare buf p
    else if c = 92 then
      match p with
      | [] => .error .unterminated_escape_in_quotes
      | e :: q =>
        if e = 0 then .error .unterminated_escape_in_quotes
        else if e = 34 ∨ e = 92 ∨ e = 36 ∨ e = 96 then pw_dq (buf ++ [e]) q
        else if e = 10 then pw_dq buf q
        else pw_dq (buf ++ [92, e]) q
    else pw_dq (buf ++ [c]) p
/-- The inner loop of a single-quoted run (lines 395 to 399), entered after the
opening quote. -/
def pw_sq (buf : List Nat) : List Nat → WordRes
  | [] => .error .unterminated_single_quote
  | c :: p =>
    if c = 0 then .error .unterminated_single_quote
    else if c = 39 then pw_bare buf p
    else pw_sq (buf ++ [c]) p
end

/-- `parse_word`: starts with an empty buffer at `*pp`. -/
def parse_word (p : List Nat) : WordRes := pw_bare [] p

/-- `finish_stage`: a stage without argv is dropped (an error when it carries a
redirection); otherwise it is pushed onto the pipeline and reset to zero. -/
def finish_stage (pl : Pipeline) (st : Stage) : Except ParseError (Pipeline × Stage) :=
  if st.argv.length = 0 then
    if st.in_redir.isSome ∨ st.out_redir.isSome then .error .redirection_without_command
    else .ok (pl, st)
  else .ok (pl ++ [st], Stage.zero)

/-- The local variables of `parse`: `sc`, `cur`, `st` and `expect_stage`. -/
structure PState where
  sc : Script
  cur : Pipeline
  st : Stage
  expect_stage : Bool
deriving DecidableEq, Repr

/-- The initial values of the locals of `parse` (lines 421 to 425). -/
def PState.init : PState := ⟨[], [], Stage.zero, false⟩

/-- Outcome of one iteration of the main loop of `parse`. -/
inductive Step
  | error (e : ParseError)
  | done (s : PState)
  | next (s : PState) (p : List Nat)
deriving DecidableEq, Repr

/-- The statements that close the pending stage at a separator (lines 431 to
435) and at the end of the input (lines 478 to 482): `finish_stage` when the
stage has argv, an error when it has only redirections. -/
def close_stage (cur : Pipeline) (st : Stage) : Except ParseError (Pipeline × Stage) :=
  if st.argv.length > 0 then finish_stage cur st
  else if st.in_redir.isSome ∨ st.out_redir.isSome then .error .redirection_without_command
  else .ok (cur, st)

/-- The statement separators, newline and `;`, as the test of line 441. -/
def is_sep (c : Nat) : Bool := decide (c = 10 ∨ c = 59)

/-- The statement-separator branch (lines 430 to 442), entered with `*p` a
newline or `;`; `p` is the text at that byte. -/
def sep_branch (s : PState) (p : List Nat) : Step :=
  if s.expect_stage then .error .pipeline_stage_missing_command
  else
    match close_stage s.cur s.st with
    | .error e => .error e
    | .ok (cur, st) =>
      if cur.length > 0 then .next ⟨s.sc ++ [cur], [], st, false⟩ (p.dropWhile is_sep)
      else .next ⟨s.sc, cur, st, false⟩ (p.dropWhile is_sep)

/-- The `|` branch (lines 445 to 449); `p` is the text after the bar. -/
def pipe_branch (s : PState) (p : List Nat) : Step :=
  if s.st.argv.length = 0 then .error .empty_pipeline_stage
  else
    match finish_stage s.cur s.st with
    | .error e => .error e
    | .ok (cur, st) => .next ⟨s.sc, cur, st, true⟩ p

/-- The second half of the redirection branch (lines 458 to 470): `p2` is the
text after the operator and the inline white space, `append` the flag computed
from the operator. -/
def redir_target (s : PState) (op append : Nat) (p2 : List Nat) : Step :=
  let c := p2.headD 0
  if c = 0 ∨ c = 10 ∨ c = 124 ∨ c = 59 ∨ c = 60 ∨ c = 62 then
    .error .missing_redirection_target
  else
    match parse_word p2 with
    | .error e => .error e
    | .null => .error .missing_redirection_target
    | .word target p3 =>
      if op = 60 then .next { s with st := { s.st with in_redir := some target } } p3
      else .next { s with st := { s.st with out_redir := some target, out_append := append } } p3

/-- The redirection branch (lines 452 to 470); `op` is the operator byte and `p`
the text after it.  A `>` directly after `>` makes the operator `>>`. -/
def redir_branch (s : PState) (op : Nat) (p : List Nat) : Step :=
  if op = 62 ∧ p.headD 0 = 62 then redir_target s op 1 (skip_inline_ws p.tail)
  else redir_target s op 0 (skip_inline_ws p)

/-- The word branch (lines 472 to 475); `p` is the text at the first byte of the word. -/
def word_branch (s : PState) (p : List Nat) : Step :=
  match parse_word p with
  | .error e => .error e
  | .null => .error .expected_word
  | .word w p2 =>
    .next { s with st := { s.st with argv := s.st.argv ++ [w] }, expect_stage := false } p2

/-- One iteration of `while(*p)` in `parse` (lines 426 to 476): `done` is the
exit of the loop, by the loop condition or by the `break` after skipping inline
white space. -/
def parse_iter (s : PState) (p0 : List Nat) : Step :=
  match skip_inline_ws p0 with
  | [] => .done s
  | c :: p =>
    if c = 0 then .done s
    else if c = 10 ∨ c = 59 then sep_branch s (c :: p)
    else if c = 124 then pipe_branch s p
    else if c = 62 ∨ c = 60 then redir_branch s c p
    else word_branch s (c :: p)

/-- The code after the loop of `parse` (lines 477 to 484). -/
def parse_end (s : PState) : Except ParseError Script :=
  if s.expect_stage then .error .pipeline_stage_missing_command
  else
    match close_stage s.cur s.st with
    | .error e => .error e
    | .ok (cur, _) => if cur.length > 0 then .ok (s.sc ++ [cur]) else .ok s.sc

/-- Result of running `parse`: the script, a fatal parse error, or the model
running out of loop iterations (which `parse` never does, see
`parse_never_out_of_fuel`). -/
inductive ParseResult
  | ok (sc : Script)
  | error (e : ParseError)
  | out_of_fuel
deriving DecidableEq, Repr

/-- The main loop of `parse`, bounded by a number of iterations. -/
def parse_loop : Nat → PState → List Nat → ParseResult
  | 0, _, _ => .out_of_fuel
  | fuel + 1, s, p =>
    match parse_iter s p with
    | .error e => .error e
    | .done s2 =>
      match parse_end s2 with
      | .error e => .error e
      | .ok sc => .ok sc
    | .next s2 p2 => parse_loop fuel s2 p2

/-- `parse`: every iteration that does not leave the loop consumes at least one
byte, so `src.length + 1` iterations suffice. -/
def parse (src : List Nat) : ParseResult :=
  parse_loop (src.length + 1) PState.init src

/-! ## Byte buffers, string pool, relocations -/

/-- The C string held in a byte list: the bytes before the first NUL. -/
def cstr (s : List Nat) : List Nat := s.takeWhile (fun c => c ≠ 0)

/-- `strlen`. -/
def strlen (s : List Nat) : Nat := (cstr s).length

/-- The `n` low bytes of `x`, least significant first: the byte image of an
`n`-byte unsigned integer on the little-endian host, and what `le16`, `le32`,
`le64` store. -/
def le_bytes : Nat → Nat → List Nat
  | 0, _ => []
  | n + 1, x => (x % 256) :: le_bytes n (x / 256)

/-- Overwrite the bytes of `buf` from offset `off` on with `bs` (`memcpy` into an
existing buffer, `patch32`); the buffer keeps its length. -/
def write_at (buf : List Nat) (off : Nat) (bs : List Nat) : List Nat :=
  (buf.take off ++ bs ++ buf.drop (off + bs.length)).take buf.length

/-- The `StrPool` struct: the pool bytes and the offset of every entry. -/
structure StrPool where
  pool : List Nat
  offs : List Nat
deriving DecidableEq, Repr

/-- `sp_add`: append the string and its NUL, record its offset, return its index. -/
def sp_add (sp : StrPool) (s : List Nat) : StrPool × Nat :=
  (⟨sp.pool ++ cstr s ++ [0], sp.offs ++ [sp.pool.length]⟩, sp.offs.length)

/-- The `Rel` struct: code offset `at` and string index. -/
structure Rel where
  at_ : Nat
  str_idx : Nat
deriving DecidableEq, Repr

/-- The `Gen` struct; `code` is the byte buffer of `Code`. -/
structure Gen where
  code : List Nat
  strs : StrPool
  rels : List Rel
  bss_base : Nat
  bss_off : Nat
deriving DecidableEq, Repr

/-! ## Instruction emitters

Every emitter of the source takes `Code *c`, which always points into the `Gen`
it is called with, so the emitters here map a `Gen` to a `Gen`. -/

/-- `cpos`. -/
def cpos (g : Gen) : Nat := g.code.length

/-- `c8`: append one byte. -/
def c8 (g : Gen) (x : Nat) : Gen := { g with code := g.code ++ [x % 256] }

/-- `c32`: append the four bytes of a `uint32_t`. -/
def c32 (g : Gen) (x : Nat) : Gen := { g with code := g.code ++ le_bytes 4 x }

/-- The call `bput(&c->code,&x,8)` on a `uint64_t`. -/
def c64 (g : Gen) (x : Nat) : Gen := { g with code := g.code ++ le_bytes 8 x }

/-- `patch32`. -/
def patch32 (g : Gen) (off v : Nat) : Gen := { g with code := write_at g.code off (le_bytes 4 v) }

def mov_rax_imm32 (g : Gen) (x : Nat) : Gen := c32 (c8 (c8 (c8 g 0x48) 0xC7) 0xC0) x
def mov_rdi_imm64 (g : Gen) (x : Nat) : Gen := c64 (c8 (c8 g 0x48) 0xBF) x
def mov_rsi_imm64 (g : Gen) (x : Nat) : Gen := c64 (c8 (c8 g 0x48) 0xBE) x
def mov_rdx_imm64 (g : Gen) (x : Nat) : Gen := c64 (c8 (c8 g 0x48) 0xBA) x
def mov_r10_imm64 (g : Gen) (x : Nat) : Gen := c64 (c8 (c8 g 0x49) 0xBA) x
def xor_rsi_rsi (g : Gen) : Gen := c8 (c8 (c8 g 0x48) 0x31) 0xF6
def xor_rdx_rdx (g : Gen) : Gen := c8 (c8 (c8 g 0x48) 0x31) 0xD2
def xor_r10_r10 (g : Gen) : Gen := c8 (c8 (c8 g 0x4D) 0x31) 0xD2
def mov_rsi_rdi (g : Gen) : Gen := c8 (c8 (c8 g 0x48) 0x89) 0xFE
def mov_rdi_rax (g : Gen) : Gen := c8 (c8 (c8 g 0x48) 0x89) 0xC7
def mov_eax_mrdi (g : Gen) : Gen := c8 (c8 g 0x8B) 0x07
def syscall_ (g : Gen) : Gen := c8 (c8 g 0x0F) 0x05

/-- `je_rel32`: the new state and the offset of the rel32 placeholder. -/
def je_rel32 (g : Gen) : Gen × Nat :=
  let g1 := c8 (c8 g 0x0F) 0x84
  (c32 g1 0, cpos g1)

/-- `jne_rel32`: the new state and the offset of the rel32 placeholder. -/
def jne_rel32 (g : Gen) : Gen × Nat :=
  let g1 := c8 (c8 g 0x0F) 0x85
  (c32 g1 0, cpos g1)

/-- `patch_here`; at every call `at + 4 ≤ cpos`. -/
def patch_here (g : Gen) (at_ : Nat) : Gen := patch32 g at_ (cpos g - (at_ + 4))

def mov_m8_rdi_disp32_rax (g : Gen) (disp : Nat) : Gen := c32 (c8 (c8 (c8 g 0x48) 0x89) 0x87) disp

def sys_write (g : Gen) : Gen := syscall_ (mov_rax_imm32 g 1)
def sys_exit (g : Gen) : Gen := syscall_ (mov_rax_imm32 g 60)
def sys_chdir (g : Gen) : Gen := syscall_ (mov_rax_imm32 g 80)
def sys_fork (g : Gen) : Gen := syscall_ (mov_rax_imm32 g 57)
def sys_execve (g : Gen) : Gen := syscall_ (mov_rax_imm32 g 59)
def sys_wait4 (g : Gen) : Gen := syscall_ (mov_rax_imm32 g 61)
def sys_pipe (g : Gen) : Gen := syscall_ (mov_rax_imm32 g 22)
def sys_dup2 (g : Gen) : Gen := syscall_ (mov_rax_imm32 g 33)
def sys_close (g : Gen) : Gen := syscall_ (mov_rax_imm32 g 3)
def sys_openat (g : Gen) : Gen := syscall_ (mov_rax_imm32 g 257)

/-! ## Code generator -/

/-- `add_str`. -/
def add_str (g : Gen) (s : List Nat) : Gen × Nat :=
  ({ g with strs := (sp_add g.strs s).1 }, (sp_add g.strs s).2)

/-- `rels_add_here`. -/
def rels_add_here (g : Gen) (at_ sidx : Nat) : Gen := { g with rels := g.rels ++ [⟨at_, sidx⟩] }

/-- `mov_rdi_str`: opcode, eight zero bytes, relocation at the placeholder. -/
def mov_rdi_str (g : Gen) (sidx : Nat) : Gen :=
  let g1 := c8 (c8 g 0x48) 0xBF
  rels_add_here (c64 g1 0) (cpos g1) sidx

/-- `mov_rsi_str`. -/
def mov_rsi_str (g : Gen) (sidx : Nat) : Gen :=
  let g1 := c8 (c8 g 0x48) 0xBE
  rels_add_here (c64 g1 0) (cpos g1) sidx

/-- `write_literal`. -/
def write_literal (g : Gen) (s : List Nat) : Gen :=
  let r := add_str g s
  sys_write (mov_rdx_imm64 (mov_rdi_imm64 (mov_rsi_str r.1 r.2) 1) (strlen s))

/-- The loop of `build_argv` (lines 540 to 548), from index `i` on. -/
def build_argv_loop : Nat → List Nat → Gen → Gen
  | _, [], g => g
  | i, sidx :: rest, g =>
    let g1 := c8 (c8 g 0x48) 0xB8
    let g2 := rels_add_here (c64 g1 0) (cpos g1) sidx
    build_argv_loop (i + 1) rest (mov_m8_rdi_disp32_rax g2 (i * 8))

/-- `build_argv`; `sidxv` holds `argc` indices. -/
def build_argv (g : Gen) (bss_off : Nat) (sidxv : List Nat) : Gen :=
  let g1 := mov_rdi_imm64 g (g.bss_base + bss_off)
  let g2 := build_argv_loop 0 sidxv g1
  mov_rsi_rdi (mov_m8_rdi_disp32_rax (mov_rax_imm32 g2 0) (sidxv.length * 8))

/-- The input half of `emit_redirs` (lines 556 to 566). -/
def emit_redir_in (g : Gen) (path : List Nat) : Gen :=
  let r := add_str g path
  let g2 := mov_rdi_imm64 r.1 (2 ^ 64 - 100)
  let g3 := mov_rsi_str g2 r.2
  let g4 := mov_rdx_imm64 g3 0
  let g5 := sys_openat (xor_r10_r10 g4)
  let g6 := sys_dup2 (mov_rsi_imm64 (mov_rdi_rax g5) 0)
  sys_close (mov_rdi_rax g6)

/-- The output half of `emit_redirs` (lines 569 to 580). -/
def emit_redir_out (g : Gen) (path : List Nat) (append : Nat) : Gen :=
  let r := add_str g path
  let flags := 1 ||| 64 ||| (if append ≠ 0 then 1024 else 512)
  let g2 := mov_rdi_imm64 r.1 (2 ^ 64 - 100)
  let g3 := mov_rsi_str g2 r.2
  let g4 := mov_rdx_imm64 g3 flags
  let g5 := sys_openat (mov_r10_imm64 g4 0o644)
  let g6 := sys_dup2 (mov_rsi_imm64 (mov_rdi_rax g5) 1)
  sys_close (mov_rdi_rax g6)

/-- `emit_redirs`. -/
def emit_redirs (g : Gen) (in_redir out_redir : Option (List Nat)) (append : Nat) : Gen :=
  let g1 := match in_redir with
    | some path => emit_redir_in g path
    | none => g
  match out_redir with
  | some path => emit_redir_out g1 path append
  | none => g1

/-- `is_builtin`: `strcmp` against `echo`, `cd`, `exit`. -/
def is_builtin (cmd : List Nat) : Bool :=
  cstr cmd = bytes "echo" || cstr cmd = bytes "cd" || cstr cmd = bytes "exit"

/-- The value `st->argv.v[0]`; every stage the parser produces has one. -/
def Stage.cmd (st : Stage) : List Nat := st.argv.headD []

/-- The `echo` loop of `emit_builtin` (lines 591 to 594) over `argv[1..]`: each
argument, and a space after every argument but the last. -/
def echo_args : List (List Nat) → Gen → Gen
  | [], g => g
  | [a], g => write_literal g a
  | a :: b :: rest, g => echo_args (b :: rest) (write_literal (write_literal g a) (bytes " "))

/-- `emit_builtin`. -/
def emit_builtin (g : Gen) (st : Stage) : Gen :=
  if cstr st.cmd = bytes "echo" then
    write_literal (echo_args st.argv.tail g) [10]
  else if cstr st.cmd = bytes "cd" then
    if st.argv.length ≥ 2 then
      let r := add_str g (st.argv.getD 1 [])
      sys_chdir (mov_rdi_str r.1 r.2)
    else g
  else if cstr st.cmd = bytes "exit" then
    sys_exit (mov_rdi_imm64 g 0)
  else g

/-- The loop of `emit_exec` that pools every argv entry (line 615), returning
the indices `sidxv`. -/
def add_argv : List (List Nat) → Gen → Gen × List Nat
  | [], g => (g, [])
  | a :: rest, g =>
    let r := add_str g a
    let r2 := add_argv rest r.1
    (r2.1, r.2 :: r2.2)

/-- The tail shared by both branches of `emit_exec`: write `exec failed` and
`exit(127)`. -/
def exec_failed (g : Gen) : Gen :=
  sys_exit (mov_rdi_imm64 (write_literal g (bytes "exec failed" ++ [10])) 127)

/-- `snprintf(buf, 256, fmt, cmd0)` for a format that is a fixed text followed by
`%s`: at most 255 bytes are stored. -/
def snprintf256 (pre cmd0 : List Nat) : List Nat := (pre ++ cstr cmd0).take 255

/-- The two `execve` attempts of `emit_exec` (lines 635 to 646) on the pooled
paths `s1` and `s2`. -/
def exec_paths (g : Gen) (s1 s2 : Nat) : Gen :=
  let g7 := sys_execve (mov_rdi_str g s1)
  let g8 := c8 (c8 (c8 g7 0x48) 0x85) 0xC0
  let j := jne_rel32 g8
  let g10 := patch_here j.1 j.2
  exec_failed (sys_execve (mov_rdi_str g10 s2))

/-- The part of `emit_exec` after `s_path0` is pooled (lines 621 to 649). -/
def exec_dispatch (g : Gen) (cmd0 : List Nat) (s_path0 : Nat) : Gen :=
  if 47 ∈ cstr cmd0 then
    exec_failed (sys_execve (mov_rdi_str g s_path0))
  else
    let r1 := add_str g (snprintf256 (bytes "/bin/") cmd0)
    let r2 := add_str r1.1 (snprintf256 (bytes "/usr/bin/") cmd0)
    exec_paths r2.1 r1.2 r2.2

/-- `emit_exec`. -/
def emit_exec (g : Gen) (st : Stage) (argv_area_off envp_off : Nat) : Gen :=
  let r := add_argv st.argv g
  let g2 := build_argv r.1 argv_area_off r.2
  let g3 := mov_rdx_imm64 g2 (g2.bss_base + envp_off)
  let cmd0 := st.cmd
  let r4 := add_str g3 cmd0
  exec_dispatch r4.1 cmd0 r4.2

/-- `emit_simple_cmd`. -/
def emit_simple_cmd (g : Gen) (st : Stage) (argv_area_off envp_off : Nat) : Gen :=
  if is_builtin st.cmd then emit_builtin g st
  else
    let g1 := sys_fork g
    let g2 := c8 (c8 (c8 (c8 g1 0x48) 0x83) 0xF8) 0x00
    let j := jne_rel32 g2
    let g4 := emit_redirs j.1 st.in_redir st.out_redir st.out_append
    let g5 := emit_exec g4 st argv_area_off envp_off
    let g6 := patch_here g5 j.2
    let g7 := c8 (c8 (c8 g6 0x48) 0x89) 0xC7
    sys_wait4 (xor_r10_r10 (xor_rdx_rdx (xor_rsi_rsi g7)))

/-- The BSS offsets fixed at the head of `emit_pipeline` (lines 677 to 684). -/
structure PipeOffs where
  envp_off : Nat
  prev_read_off : Nat
  pid_arr_off : Nat
  pipe_area_off : Nat
deriving DecidableEq, Repr

/-- The child-side code for a stage with a predecessor (lines 703 to 715). -/
def emit_child_prev (g : Gen) (o : PipeOffs) : Gen :=
  let g1 := mov_rdi_imm64 g (g.bss_base + o.prev_read_off)
  let g2 := c8 (c8 (c8 g1 0x48) 0x8B) 0x07
  let g3 := sys_dup2 (mov_rsi_imm64 (mov_rdi_rax g2) 0)
  let g4 := mov_rdi_imm64 g3 (g3.bss_base + o.prev_read_off)
  let g5 := c8 (c8 (c8 g4 0x48) 0x8B) 0x07
  sys_close (mov_rdi_rax g5)

/-- The child-side code for a stage with a successor (lines 718 to 730). -/
def emit_child_next (g : Gen) (o : PipeOffs) : Gen :=
  let g1 := mov_rdi_imm64 g (g.bss_base + o.pipe_area_off + 4)
  let g2 := sys_dup2 (mov_rsi_imm64 (mov_rdi_rax (mov_eax_mrdi g1)) 1)
  let g3 := mov_rdi_imm64 g2 (g2.bss_base + o.pipe_area_off + 0)
  let g4 := sys_close (mov_rdi_rax (mov_eax_mrdi g3))
  let g5 := mov_rdi_imm64 g4 (g4.bss_base + o.pipe_area_off + 4)
  sys_close (mov_rdi_rax (mov_eax_mrdi g5))

/-- The parent-side code for a stage with a successor (lines 748 to 757). -/
def emit_parent_next (g : Gen) (o : PipeOffs) : Gen :=
  let g1 := mov_eax_mrdi (mov_rdi_imm64 g (g.bss_base + o.pipe_area_off + 0))
  let g2 := mov_rdi_imm64 g1 (g1.bss_base + o.prev_read_off)
  let g3 := c8 (c8 (c8 g2 0x48) 0x89) 0x07
  let g4 := mov_rdi_imm64 g3 (g3.bss_base + o.pipe_area_off + 4)
  sys_close (mov_rdi_rax (mov_eax_mrdi g4))

/-- The body of the stage loop of `emit_pipeline` (lines 691 to 758) for stage
`i` of `n`. -/
def emit_stage (g : Gen) (o : PipeOffs) (n i : Nat) (st : Stage) : Gen :=
  let has_next : Bool := i + 1 < n
  let g1 := if has_next then sys_pipe (mov_rdi_imm64 g (g.bss_base + o.pipe_area_off)) else g
  let g2 := sys_fork g1
  let g3 := c8 (c8 (c8 (c8 g2 0x48) 0x83) 0xF8) 0x00
  let j := jne_rel32 g3
  let g5 := if i > 0 then emit_child_prev j.1 o else j.1
  let g6 := if has_next then emit_child_next g5 o else g5
  let g7 := emit_redirs g6 st.in_redir st.out_redir st.out_append
  let g8 :=
    if is_builtin st.cmd then
      sys_exit (mov_rdi_imm64 (emit_builtin g7 st) 0)
    else
      let argv_area_off := g7.bss_off
      emit_exec { g7 with bss_off := g7.bss_off + 8 * (st.argv.length + 1) } st argv_area_off
        o.envp_off
  let g9 := patch_here g8 j.2
  let g10 := mov_rdi_imm64 g9 (g9.bss_base + o.pid_arr_off + i * 8)
  let g11 := c8 (c8 (c8 g10 0x48) 0x89) 0x07
  if has_next then emit_parent_next g11 o else g11

/-- The stage loop of `emit_pipeline` (line 690), from stage `i` on. -/
def emit_stages (o : PipeOffs) (n : Nat) : Nat → List Stage → Gen → Gen
  | _, [], g => g
  | i, st :: rest, g => emit_stages o n (i + 1) rest (emit_stage g o n i st)

/-- The body of the wait loop of `emit_pipeline` (lines 773 to 781). -/
def emit_wait (g : Gen) (o : PipeOffs) (i : Nat) : Gen :=
  let g1 := mov_rdi_imm64 g (g.bss_base + o.pid_arr_off + i * 8)
  let g2 := c8 (c8 (c8 g1 0x48) 0x8B) 0x07
  sys_wait4 (xor_r10_r10 (xor_rdx_rdx (xor_rsi_rsi (mov_rdi_rax g2))))

/-- `emit_pipeline`. -/
def emit_pipeline (g : Gen) (pl : Pipeline) : Gen :=
  let n := pl.length
  let o : PipeOffs := ⟨g.bss_off, g.bss_off + 8, g.bss_off + 8 + 8, g.bss_off + 8 + 8 + 8 * n⟩
  let g0 : Gen := { g with bss_off := g.bss_off + 8 + 8 + 8 * n + 8 * 2 }
  let g1 := mov_rdx_imm64 (mov_rdi_imm64 g0 (g0.bss_base + o.prev_read_off)) (2 ^ 64 - 1)
  let g2 := c8 (c8 (c8 g1 0x48) 0x89) 0x17
  let g3 := emit_stages o n 0 pl g2
  let g4 := mov_rdi_imm64 g3 (g3.bss_base + o.prev_read_off)
  let g5 := c8 (c8 (c8 g4 0x48) 0x8B) 0x07
  let g6 := c8 (c8 (c8 (c8 g5 0x48) 0x83) 0xF8) 0x00
  let j := je_rel32 g6
  let g8 := sys_close (mov_rdi_rax j.1)
  let g9 := patch_here g8 j.2
  (List.range n).foldl (fun acc i => emit_wait acc o i) g9

/-- The body of the loop of `gen_script` (lines 871 to 885). -/
def gen_pipeline (g : Gen) (pl : Pipeline) : Gen :=
  if pl.length = 1 then
    let st := pl.headD Stage.zero
    if is_builtin st.cmd then emit_builtin g st
    else
      let envp_off := g.bss_off
      let argv_area_off := g.bss_off + 8
      emit_simple_cmd { g with bss_off := g.bss_off + 8 + 8 * (st.argv.length + 1) } st
        argv_area_off envp_off
  else emit_pipeline g pl

/-- `gen_script`: reset code, pool, relocations and `bss_off`, emit every
pipeline, then `exit(0)`. -/
def gen_script (g : Gen) (sc : Script) : Gen :=
  let g0 : Gen := { g with code := [], strs := ⟨[], []⟩, rels := [], bss_off := 0 }
  sys_exit (mov_rdi_imm64 (sc.foldl gen_pipeline g0) 0)

/-- The value of `Gen g` in `main` before `gen_script` (lines 910 to 911). -/
def Gen.start : Gen := ⟨[], ⟨[], []⟩, [], 0x600000, 0⟩

/-! ## ELF writer -/

/-- The relocation loop of `write_elf` (lines 793 to 797) applied to the code
buffer. -/
def apply_rels (code : List Nat) (offs : List Nat) (ro_base_vaddr : Nat) : List Rel → List Nat
  | [] => code
  | r :: rest =>
    apply_rels (write_at code r.at_ (le_bytes 8 (ro_base_vaddr + offs.getD r.str_idx 0))) offs
      ro_base_vaddr rest

/-- The header stores of `write_elf` (lines 806 to 826) on the file buffer `E`. -/
def write_ehdr (E : List Nat) (code_off : Nat) : List Nat :=
  let E := write_at E 0 [0x7F, 69, 76, 70, 2, 1, 1]
  let E := write_at E 7 (List.replicate 9 0)
  let E := write_at E 0x10 (le_bytes 2 2)
  let E := write_at E 0x12 (le_bytes 2 0x3E)
  let E := write_at E 0x14 (le_bytes 4 1)
  let E := write_at E 0x18 (le_bytes 8 (0x400000 + code_off))
  let E := write_at E 0x20 (le_bytes 8 0x40)
  let E := write_at E 0x28 (le_bytes 8 0)
  let E := write_at E 0x30 (le_bytes 4 0)
  let E := write_at E 0x34 (le_bytes 2 0x40)
  let E := write_at E 0x36 (le_bytes 2 0x38)
  let E := write_at E 0x38 (le_bytes 2 2)
  let E := write_at E 0x3A (le_bytes 2 0)
  let E := write_at E 0x3C (le_bytes 2 0)
  write_at E 0x3E (le_bytes 2 0)

/-- The stores of one program header (lines 828 to 835 and 837 to 844) at file
offset `P`. -/
def write_phdr (F : List Nat) (P flags offset vaddr paddr filesz memsz align : Nat) : List Nat :=
  let F := write_at F (P + 0x00) (le_bytes 4 1)
  let F := write_at F (P + 0x04) (le_bytes 4 flags)
  let F := write_at F (P + 0x08) (le_bytes 8 offset)
  let F := write_at F (P + 0x10) (le_bytes 8 vaddr)
  let F := write_at F (P + 0x18) (le_bytes 8 paddr)
  let F := write_at F (P + 0x20) (le_bytes 8 filesz)
  let F := write_at F (P + 0x28) (le_bytes 8 memsz)
  write_at F (P + 0x30) (le_bytes 8 align)

/-- `write_elf`: the bytes handed to `fwrite`. -/
def write_elf (g : Gen) : List Nat :=
  let ehdr := 0x40
  let phdr := 0x38 * 2
  let code_off := ehdr + phdr
  let code_len := g.code.length
  let ro_off := code_off + code_len
  let ro_len := g.strs.pool.length
  let bss_base := 0x600000
  let ro_base_vaddr := 0x400000 + ro_off
  let code := apply_rels g.code g.strs.offs ro_base_vaddr g.rels
  let file_len := code_off + code_len + ro_len
  let file := List.replicate file_len 0
  let file := write_at file code_off (code.take code_len)
  let file := write_at file ro_off g.strs.pool
  let file := write_ehdr file code_off
  let file := write_phdr file 0x40 5 0 0x400000 0x400000 (code_len + ro_len) (code_len + ro_len)
    0x1000
  write_phdr file (0x40 + 0x38) 6 0 bss_base bss_base 0
    (if g.bss_off ≠ 0 then g.bss_off else 0x1000) 0x1000

/-- The compiler pipeline of `main`: parse, generate, lay out the ELF file. -/
def compile (src : List Nat) : Option (List Nat) :=
  match parse src with
  | .ok sc => some (write_elf (gen_script Gen.start sc))
  | _ => none

/-! ## Specification-side predicates -/

/-- Well-formedness of a script: every pipeline has at least one stage and
every stage has at least one argv entry. -/
def Script.wf (sc : Script) : Prop :=
  ∀ pl ∈ sc, 1 ≤ pl.length ∧ ∀ st ∈ pl, 1 ≤ st.argv.length

/-- The 64-byte ELF header as the specification lists it: the identification
bytes, then `e_type`, `e_machine`, `e_version`, `e_entry`, `e_phoff`, `e_shoff`,
`e_flags`, `e_ehsize`, `e_phentsize`, `e_phnum`, `e_shentsize`, `e_shnum`,
`e_shstrndx`, each little-endian in its ELF64 width. -/
def ehdr_bytes : List Nat :=
  [0x7F, 0x45, 0x4C, 0x46, 2, 1, 1] ++ List.replicate 9 0 ++ le_bytes 2 2 ++ le_bytes 2 0x3E ++
    le_bytes 4 1 ++ le_bytes 8 (0x400000 + 0xB0) ++ le_bytes 8 0x40 ++ le_bytes 8 0 ++
    le_bytes 4 0 ++ le_bytes 2 0x40 ++ le_bytes 2 0x38 ++ le_bytes 2 2 ++ le_bytes 2 0 ++
    le_bytes 2 0 ++ le_bytes 2 0

/-- A 56-byte ELF64 program header of type `PT_LOAD`: `p_type`, `p_flags`,
`p_offset`, `p_vaddr`, `p_paddr`, `p_filesz`, `p_memsz`, `p_align`. -/
def phdr_bytes (flags offset vaddr paddr filesz memsz align : Nat) : List Nat :=
  le_bytes 4 1 ++ le_bytes 4 flags ++ le_bytes 8 offset ++ le_bytes 8 vaddr ++ le_bytes 8 paddr ++
    le_bytes 8 filesz ++ le_bytes 8 memsz ++ le_bytes 8 align

/-- The code buffer after the relocation loop of `write_elf`. -/
def patched_code (g : Gen) : List Nat :=
  apply_rels g.code g.strs.offs (0x400000 + (0xB0 + g.code.length)) g.rels

/-- The value of the `n`-byte little-endian integer stored in `bs`. -/
def le_val : List Nat → Nat
  | [] => 0
  | b :: bs => b + 256 * le_val bs

/-- The 8-byte little-endian value stored at offset `off` of `bs`. -/
def rd64 (bs : List Nat) (off : Nat) : Nat := le_val ((bs.drop off).take 8)

/-- The pool obtained by adding the strings `ss` in order to an empty pool. -/
def pool_of (ss : List (List Nat)) : StrPool :=
  ss.foldl (fun sp s => (sp_add sp s).1) ⟨[], []⟩

/-- Soundness of the relocation list of a generator state: every slot lies in
the code, slots appear in increasing order without overlap, every string index
is a pool entry, and the pool is a sequence of `sp_add` results. -/
structure Gen.ok (g : Gen) : Prop where
  rels_in : ∀ r ∈ g.rels, r.at_ + 8 ≤ g.code.length
  rels_sep : g.rels.Pairwise (fun a b => a.at_ + 8 ≤ b.at_)
  rels_idx : ∀ r ∈ g.rels, r.str_idx < g.strs.offs.length
  pool : ∃ ss, g.strs = pool_of ss

/-- The step relation used for the generator: `g2` keeps the relocation list
sound when `g1` has it so, and has at least as many pool entries. -/
def Ext (g1 g2 : Gen) : Prop :=
  (g1.ok → g2.ok) ∧ g1.strs.offs.length ≤ g2.strs.offs.length

/-- The main loop of `parse` run from state `s` on text `p` with the number of
iterations that always suffices. -/
def parse_from (s : PState) (p : List Nat) : ParseResult := parse_loop (p.length + 1) s p

/-- The main loop of `parse`, started in state `s` on text `p`, leaves the loop
without error in state `s2`. -/
inductive Runs : PState → List Nat → PState → Prop
  | done {s s2 : PState} {p : List Nat} : parse_iter s p = .done s2 → Runs s p s2
  | next {s s1 s2 : PState} {p p1 : List Nat} :
      parse_iter s p = .next s1 p1 → Runs s1 p1 s2 → Runs s p s2

/-- The result of `parse` seen from the state at the exit of the loop. -/
def end_result (s : PState) : ParseResult :=
  match parse_end s with
  | .error e => .error e
  | .ok sc => .ok sc

/-- A state between statements: nothing pending in the current stage or
pipeline. -/
def PState.fresh (s : PState) : Prop :=
  s.expect_stage = false ∧ s.cur = [] ∧ s.st.argv = [] ∧ s.st.in_redir = none ∧
    s.st.out_redir = none

/-- The source that puts a backslash before every byte of `w`. -/
def escape_all : List Nat → List Nat
  | [] => []
  | c :: w => 92 :: c :: escape_all w

/-- Double-quote decoding as the specification words it: a backslash followed by
`"`, `\`, `$` or a backtick yields that byte, backslash-newline yields nothing,
a backslash followed by any other byte yields both bytes, every other byte is
copied. -/
def dq_decode : List Nat → List Nat
  | [] => []
  | [c] => [c]
  | c :: e :: rest =>
    if c = 92 then
      if e = 34 ∨ e = 92 ∨ e = 36 ∨ e = 96 then e :: dq_decode rest
      else if e = 10 then dq_decode rest
      else 92 :: e :: dq_decode rest
    else c :: dq_decode (e :: rest)

/-- A body of a double-quoted run: every `"` in it follows an escaping
backslash and the body does not end in an escaping backslash. -/
def dq_body : List Nat → Bool
  | [] => true
  | [c] => c ≠ 92 && c ≠ 34
  | c :: e :: rest =>
    if c = 92 then dq_body rest
    else if c = 34 then false
    else dq_body (e :: rest)

/-- The stage being built has `out_append` set only together with `out_redir`. -/
def PState.tidy (s : PState) : Prop := s.st.out_redir = none → s.st.out_append = 0

/-- The state `s` with the pipelines `sc1` put before its script. -/
def PState.prepend (sc1 : Script) (s : PState) : PState := { s with sc := sc1 ++ s.sc }

/-- A loop step with the pipelines `sc1` put before the script of its state. -/
def Step.prepend (sc1 : Script) : Step → Step
  | .error e => .error e
  | .done s => .done (s.prepend sc1)
  | .next s p => .next (s.prepend sc1) p

/-- A result with the pipelines `sc1` put before its script. -/
def ParseResult.prepend (sc1 : Script) : ParseResult → ParseResult
  | .ok sc => .ok (sc1 ++ sc)
  | .error e => .error e
  | .out_of_fuel => .out_of_fuel

/-- Inline white space: space, tab, carriage return. -/
def is_inline_ws (c : Nat) : Bool := decide (c = 32 ∨ c = 9 ∨ c = 13)

/-- The text `txt` is a NUL-free text that `parse_word` reads completely, as
the word `w`. -/
def word_text (txt w : List Nat) : Bool :=
  txt.all (fun c => decide (c ≠ 0)) && decide (parse_word txt = .word w [])

/-- One item of a stage as it is written in the source: a word, an input
redirection `<`, or an output redirection `>` or `>>` (`app`), each after the
inline white space `ws`; a redirection has inline white space `ws2` between
operator and target.  `txt` is the text of the word or target and `w` the word
it denotes. -/
inductive Item
  | word (ws txt w : List Nat)
  | rin (ws ws2 txt w : List Nat)
  | rout (ws : List Nat) (app : Bool) (ws2 txt w : List Nat)
deriving DecidableEq, Repr

/-- The source text of an item. -/
def Item.render : Item → List Nat
  | .word ws txt _ => ws ++ txt
  | .rin ws ws2 txt _ => ws ++ 60 :: (ws2 ++ txt)
  | .rout ws app ws2 txt _ => ws ++ (if app then 62 :: 62 :: (ws2 ++ txt) else 62 :: (ws2 ++ txt))

/-- The white space of an item is inline white space and its text denotes its
word. -/
def Item.valid : Item → Bool
  | .word ws txt w => ws.all is_inline_ws && word_text txt w
  | .rin ws ws2 txt w => ws.all is_inline_ws && ws2.all is_inline_ws && word_text txt w
  | .rout ws _ ws2 txt w => ws.all is_inline_ws && ws2.all is_inline_ws && word_text txt w

/-- An item that can follow another item: a word needs white space before it. -/
def Item.spaced : Item → Bool
  | .word ws _ _ => !ws.isEmpty
  | _ => true

def Item.is_word : Item → Bool
  | .word _ _ _ => true
  | _ => false

/-- The source text of a stage: its items one after the other. -/
def render_items : List Item → List Nat
  | [] => []
  | it :: items => it.render ++ render_items items

/-- A stage text that the parser must accept: valid items, white space before
every word but the first item, at least one word. -/
def items_ok (items : List Item) : Bool :=
  items.all Item.valid && items.tail.all Item.spaced && items.any Item.is_word

/-- The words of a stage, in order. -/
def stage_words : List Item → List (List Nat)
  | [] => []
  | .word _ _ w :: items => w :: stage_words items
  | _ :: items => stage_words items

/-- The target of the last `<` written in a stage, if any. -/
def last_in : List Item → Option (List Nat)
  | [] => none
  | .rin _ _ _ w :: items => (last_in items).or (some w)
  | _ :: items => last_in items

/-- The target of the last `>` or `>>` written in a stage, if any. -/
def last_out : List Item → Option (List Nat)
  | [] => none
  | .rout _ _ _ _ w :: items => (last_out items).or (some w)
  | _ :: items => last_out items

/-- Whether the last output operator written in a stage is `>>`; `false` when
the stage has none. -/
def last_is_append : List Item → Bool
  | [] => false
  | .rout _ app _ _ _ :: items => if (last_out items).isSome then last_is_append items else app
  | _ :: items => last_is_append items

/-- The stage that the specification assigns to a stage text: its words, and per
direction the target of the last redirection written. -/
def stage_of (items : List Item) : Stage :=
  ⟨stage_words items, last_in items, last_out items, if last_is_append items then 1 else 0⟩

/-- What the parser does to the stage being built when it reads an item. -/
def Item.apply (st : Stage) : Item → Stage
  | .word _ _ w => { st with argv := st.argv ++ [w] }
  | .rin _ _ _ w => { st with in_redir := some w }
  | .rout _ app _ _ w => { st with out_redir := some w, out_append := if app then 1 else 0 }

/-- What the parser does to its state when it reads an item. -/
def PState.item (s : PState) (it : Item) : PState :=
  { s with st := it.apply s.st, expect_stage := if it.is_word then false else s.expect_stage }

/-- The text of one stage: its items and the inline white space after them. -/
structure StageText where
  items : List Item
  trail : List Nat
deriving DecidableEq, Repr

/-- The source text of a stage. -/
def StageText.render (t : StageText) : List Nat := render_items t.items ++ t.trail

/-- A stage text that the parser must accept. -/
def StageText.ok (t : StageText) : Bool := items_ok t.items && t.trail.all is_inline_ws

/-- The source text of a pipeline: its stages separated by `|`. -/
def render_pipeline : List StageText → List Nat
  | [] => []
  | [t] => t.render
  | t :: more => t.render ++ 124 :: render_pipeline more

/-- A pipeline text that the parser must accept: at least one stage, every
stage acceptable. -/
def pipeline_ok (pl : List StageText) : Bool := !pl.isEmpty && pl.all StageText.ok

/-- Bytes that may stand between statements: separators and inline white space. -/
def is_gap (c : Nat) : Bool := is_sep c || is_inline_ws c

/-- What follows a pipeline in the source: nothing, or a separator followed by
any separators and inline white space. -/
def gap_ok : List Nat → Bool
  | [] => true
  | c :: more => is_sep c && more.all is_gap

/-- The source text of a script: every pipeline followed by its gap. -/
def render_script : List (List StageText × List Nat) → List Nat
  | [] => []
  | (pl, gap) :: more => render_pipeline pl ++ gap ++ render_script more

/-- A script text that the parser must accept: acceptable pipelines, each
followed by a gap that is empty only after the last one. -/
def script_ok : List (List StageText × List Nat) → Bool
  | [] => true
  | [(pl, gap)] => pipeline_ok pl && gap_ok gap
  | (pl, gap) :: more => pipeline_ok pl && gap_ok gap && !gap.isEmpty && script_ok more

/-- The script that the specification assigns to a script text. -/
def script_of (l : List (List StageText × List Nat)) : Script :=
  l.map (fun x => x.1.map (fun t => stage_of t.items))

/-- The outcome of `parse_word` with the text `x` put after what is left. -/
def WordRes.extend (x : List Nat) : WordRes → WordRes
  | .word w rest => .word w (rest ++ x)
  | r => r

/-- The outcome of a loop iteration with the text `x` put after what is left. -/
def Step.extend (x : List Nat) : Step → Step
  | .next s p => .next s (p ++ x)
  | r => r

/-! ## Relocation placeholders and code growth -/

/-- A relocation placeholder at code offset `at_`: the two bytes before it are a
`mov r64, imm64` opcode (`48 BF` for rdi, `48 BE` for rsi, `48 B8` for rax) and
the eight bytes from `at_` on are zero. -/
def is_slot (code : List Nat) (at_ : Nat) : Bool :=
  decide (2 ≤ at_) &&
    ((code.drop (at_ - 2)).take 10 == [0x48, 0xBF, 0, 0, 0, 0, 0, 0, 0, 0] ||
      (code.drop (at_ - 2)).take 10 == [0x48, 0xBE, 0, 0, 0, 0, 0, 0, 0, 0] ||
      (code.drop (at_ - 2)).take 10 == [0x48, 0xB8, 0, 0, 0, 0, 0, 0, 0, 0])

/-- The step relation for code growth: `g2` extends the code of `g1` without
touching it, every relocation it adds lies in the new code at a placeholder, and
the BSS base is the same. -/
structure Grow (g1 g2 : Gen) : Prop where
  code : g1.code <+: g2.code
  rels : ∃ nr, g2.rels = g1.rels ++ nr ∧
    ∀ r ∈ nr, g1.code.length + 2 ≤ r.at_ ∧ is_slot g2.code r.at_ = true
  base : g2.bss_base = g1.bss_base

/-- A growth step that leaves the BSS cursor where it is. -/
def Low (g1 g2 : Gen) : Prop := Grow g1 g2 ∧ g2.bss_off = g1.bss_off

/-! ## Shapes of emitted code used by the claims -/

/-- The bytes of a pool that holds the strings `es` in order, each followed by
its NUL. -/
def pool_bytes : List (List Nat) → List Nat
  | [] => []
  | e :: rest => cstr e ++ [0] ++ pool_bytes rest

/-- The offsets of the strings `es` in a pool in which the first of them starts
at offset `o`. -/
def pool_offsets : Nat → List (List Nat) → List Nat
  | _, [] => []
  | o, e :: rest => o :: pool_offsets (o + strlen e + 1) rest

/-- The instruction sequence of one `write(1, addr, len)`:
`mov rsi, addr; mov rdi, 1; mov rdx, len; mov rax, 1; syscall`. -/
def write_seq (addr len : Nat) : List Nat :=
  [0x48, 0xBE] ++ le_bytes 8 addr ++ ([0x48, 0xBF] ++ le_bytes 8 1) ++
    ([0x48, 0xBA] ++ le_bytes 8 len) ++ ([0x48, 0xC7, 0xC0] ++ le_bytes 4 1) ++ [0x0F, 0x05]

/-- The instruction sequence `mov rdi, code; mov rax, 60; syscall`. -/
def exit_seq (code : Nat) : List Nat :=
  [0x48, 0xBF] ++ le_bytes 8 code ++ ([0x48, 0xC7, 0xC0] ++ le_bytes 4 60) ++ [0x0F, 0x05]

/-- One write sequence per string of `es`, the `i`-th entry (counted from `i`)
loading the address `addr i`. -/
def lits_code (addr : Nat → Nat) : Nat → List (List Nat) → List Nat
  | _, [] => []
  | i, e :: rest => write_seq (addr i) (strlen e) ++ lits_code addr (i + 1) rest

/-- The relocations of the write sequences of `es` when the first sequence starts
at code offset `c` and its string has pool index `n`. -/
def lits_rels : Nat → Nat → List (List Nat) → List Rel
  | _, _, [] => []
  | c, n, _ :: rest => ⟨c + 2, n⟩ :: lits_rels (c + 39) (n + 1) rest

/-- The pool entries of `echo a1 ... ak`: the arguments with a space between
neighbours, then the newline. -/
def echo_entries (args : List (List Nat)) : List (List Nat) :=
  args.intersperse (bytes " ") ++ [[10]]

/-- The instruction sequence `mov rdi, addr; mov rax, 59; syscall` of one
`execve` attempt. -/
def execve_seq (addr : Nat) : List Nat :=
  [0x48, 0xBF] ++ le_bytes 8 addr ++ ([0x48, 0xC7, 0xC0] ++ le_bytes 4 59) ++ [0x0F, 0x05]

/-- The code of the two `execve` attempts of `emit_exec` for a command without
`/`: `execve(a1)`, `test rax, rax`, `jne` to the next instruction, `execve(a2)`,
then `write(1, a3, 12)` of the failure message and `exit(127)`. -/
def exec_paths_code (a1 a2 a3 : Nat) : List Nat :=
  execve_seq a1 ++ [0x48, 0x85, 0xC0] ++ ([0x0F, 0x85] ++ le_bytes 4 0) ++ execve_seq a2 ++
    write_seq a3 12 ++ exit_seq 127

/-! ## A reference machine for the emitted instructions

The claims about what the emitted bytes do when they run are stated against
this small model of the x86-64 instructions that the generator emits: the
registers the code uses, the zero flag, and a log of the system calls made.
System call results and memory contents are parameters, so every statement
holds for all of them. -/

/-- The registers used by the emitted code, and the zero flag. -/
structure Regs where
  rax : Nat
  rdi : Nat
  rsi : Nat
  rdx : Nat
  r10 : Nat
  zf : Bool
deriving DecidableEq, Repr

/-- One system call as the kernel sees it: the number in rax and the arguments
in rdi, rsi, rdx, r10. -/
structure Sys where
  nr : Nat
  rdi : Nat
  rsi : Nat
  rdx : Nat
  r10 : Nat
deriving DecidableEq, Repr

/-- Sign extension of a 32-bit immediate to 64 bits. -/
def sext32 (v : Nat) : Nat := if v < 2 ^ 31 then v else v + (2 ^ 64 - 2 ^ 32)

/-- Sign extension of an 8-bit immediate to 64 bits. -/
def sext8 (v : Nat) : Nat := if v < 2 ^ 7 then v else v + (2 ^ 64 - 2 ^ 8)

/-- Run the instruction stream `code` from its first byte until it is used up.
`res k` is the value the kernel returns in rax for the `k`-th system call,
`mem a` the 64-bit value stored at address `a`.  The result is the final
registers and the system calls made, in order; `none` when the fuel runs out or
the bytes are not one of the instructions below.

* `48 BF/BE/BA/B8 imm64`, `49 BA imm64`: `mov rdi/rsi/rdx/rax/r10, imm64`
* `48 C7 C0 imm32`: `mov rax, imm32` (sign-extended)
* `48 31 F6`, `48 31 D2`, `4D 31 D2`: `xor rsi/rdx/r10` with itself
* `48 89 C7`: `mov rdi, rax`; `48 89 FE`: `mov rsi, rdi`
* `48 8B 07`: `mov rax, [rdi]`; `8B 07`: `mov eax, [rdi]` (zero-extended)
* `48 83 F8 ib`: `cmp rax, imm8` (sign-extended); `48 85 C0`: `test rax, rax`
* `0F 84 rel32`, `0F 85 rel32`: `je`, `jne`, forward displacements only
* `0F 05`: `syscall` -/
def exec (res : Nat → Nat) (mem : Nat → Nat) : Nat → List Nat → Regs → List Sys →
    Option (Regs × List Sys)
  | 0, _, _, _ => none
  | fuel + 1, code, r, tr =>
    if code = [] then some (r, tr)
    else if code.take 2 = [0x48, 0xBF] then
      exec res mem fuel (code.drop 10) { r with rdi := le_val ((code.drop 2).take 8) } tr
    else if code.take 2 = [0x48, 0xBE] then
      exec res mem fuel (code.drop 10) { r with rsi := le_val ((code.drop 2).take 8) } tr
    else if code.take 2 = [0x48, 0xBA] then
      exec res mem fuel (code.drop 10) { r with rdx := le_val ((code.drop 2).take 8) } tr
    else if code.take 2 = [0x48, 0xB8] then
      exec res mem fuel (code.drop 10) { r with rax := le_val ((code.drop 2).take 8) } tr
    else if code.take 2 = [0x49, 0xBA] then
      exec res mem fuel (code.drop 10) { r with r10 := le_val ((code.drop 2).take 8) } tr
    else if code.take 3 = [0x48, 0xC7, 0xC0] then
      exec res mem fuel (code.drop 7) { r with rax := sext32 (le_val ((code.drop 3).take 4)) } tr
    else if code.take 3 = [0x48, 0x31, 0xF6] then
      exec res mem fuel (code.drop 3) { r with rsi := 0, zf := true } tr
    else if code.take 3 = [0x48, 0x31, 0xD2] then
      exec res mem fuel (code.drop 3) { r with rdx := 0, zf := true } tr
    else if code.take 3 = [0x4D, 0x31, 0xD2] then
      exec res mem fuel (code.drop 3) { r with r10 := 0, zf := true } tr
    else if code.take 3 = [0x48, 0x89, 0xC7] then
      exec res mem fuel (code.drop 3) { r with rdi := r.rax } tr
    else if code.take 3 = [0x48, 0x89, 0xFE] then
      exec res mem fuel (code.drop 3) { r with rsi := r.rdi } tr
    else if code.take 3 = [0x48, 0x8B, 0x07] then
      exec res mem fuel (code.drop 3) { r with rax := mem r.rdi % 2 ^ 64 } tr
    else if code.take 2 = [0x8B, 0x07] then
      exec res mem fuel (code.drop 2) { r with rax := mem r.rdi % 2 ^ 32 } tr
    else if code.take 3 = [0x48, 0x83, 0xF8] then
      exec res mem fuel (code.drop 4)
        { r with zf := decide (r.rax = sext8 ((code.drop 3).headD 0)) } tr
    else if code.take 3 = [0x48, 0x85, 0xC0] then
      exec res mem fuel (code.drop 3) { r with zf := decide (r.rax = 0) } tr
    else if code.take 2 = [0x0F, 0x84] then
      if le_val ((code.drop 2).take 4) < 2 ^ 31 then
        exec res mem fuel
          (if r.zf then code.drop (6 + le_val ((code.drop 2).take 4)) else code.drop 6) r tr
      else none
    else if code.take 2 = [0x0F, 0x85] then
      if le_val ((code.drop 2).take 4) < 2 ^ 31 then
        exec res mem fuel
          (if r.zf then code.drop 6 else code.drop (6 + le_val ((code.drop 2).take 4))) r tr
      else none
    else if code.take 2 = [0x0F, 0x05] then
      exec res mem fuel (code.drop 2) { r with rax := res tr.length % 2 ^ 64 }
        (tr ++ [⟨r.rax, r.rdi, r.rsi, r.rdx, r.r10⟩])
    else none

/-- The code of the input half of `emit_redirs` with the path address `a` in the
relocation slot: `openat(-100, a, 0, 0)`, `mov rdi, rax`, `mov rsi, 0`, `dup2`,
`mov rdi, rax`, `close`. -/
def redir_in_code (a : Nat) : List Nat :=
  [0x48, 0xBF] ++ le_bytes 8 (2 ^ 64 - 100) ++ ([0x48, 0xBE] ++ le_bytes 8 a) ++
    ([0x48, 0xBA] ++ le_bytes 8 0) ++ [0x4D, 0x31, 0xD2] ++
    ([0x48, 0xC7, 0xC0] ++ le_bytes 4 257) ++ [0x0F, 0x05] ++ [0x48, 0x89, 0xC7] ++
    ([0x48, 0xBE] ++ le_bytes 8 0) ++ ([0x48, 0xC7, 0xC0] ++ le_bytes 4 33) ++ [0x0F, 0x05] ++
    [0x48, 0x89, 0xC7] ++ ([0x48, 0xC7, 0xC0] ++ le_bytes 4 3) ++ [0x0F, 0x05]

/-- The code of the output half of `emit_redirs` with the path address `a` in
the relocation slot and the open flags `flags`. -/
def redir_out_code (a flags : Nat) : List Nat :=
  [0x48, 0xBF] ++ le_bytes 8 (2 ^ 64 - 100) ++ ([0x48, 0xBE] ++ le_bytes 8 a) ++
    ([0x48, 0xBA] ++ le_bytes 8 flags) ++ ([0x49, 0xBA] ++ le_bytes 8 0o644) ++
    ([0x48, 0xC7, 0xC0] ++ le_bytes 4 257) ++ [0x0F, 0x05] ++ [0x48, 0x89, 0xC7] ++
    ([0x48, 0xBE] ++ le_bytes 8 1) ++ ([0x48, 0xC7, 0xC0] ++ le_bytes 4 33) ++ [0x0F, 0x05] ++
    [0x48, 0x89, 0xC7] ++ ([0x48, 0xC7, 0xC0] ++ le_bytes 4 3) ++ [0x0F, 0x05]

/-- The generator state at the end of the stage loop of `emit_pipeline` (after
line 759): the allocations and the initial store of lines 677 to 689, then every
stage. -/
def pipeline_stages_end (g : Gen) (pl : Pipeline) : Gen :=
  let n := pl.length
  let o : PipeOffs := ⟨g.bss_off, g.bss_off + 8, g.bss_off + 8 + 8, g.bss_off + 8 + 8 + 8 * n⟩
  let g0 : Gen := { g with bss_off := g.bss_off + 8 + 8 + 8 * n + 8 * 2 }
  let g1 := mov_rdx_imm64 (mov_rdi_imm64 g0 (g0.bss_base + o.prev_read_off)) (2 ^ 64 - 1)
  let g2 := c8 (c8 (c8 g1 0x48) 0x89) 0x17
  emit_stages o n 0 pl g2

/-- The code that initialises the `prev_read` slot at address `addr` (lines 685
to 689): `mov rdi, addr; mov rdx, -1; mov [rdi], rdx`. -/
def sentinel_code (addr : Nat) : List Nat :=
  [0x48, 0xBF] ++ le_bytes 8 addr ++ ([0x48, 0xBA] ++ le_bytes 8 (2 ^ 64 - 1)) ++
    [0x48, 0x89, 0x17]

/-- The code between the stage loop and the wait loop of `emit_pipeline` (lines
760 to 771) for the `prev_read` slot at address `addr`: `mov rdi, addr`,
`mov rax, [rdi]`, the bytes `48 83 F8 00`, `je` over the next 12 bytes,
`mov rdi, rax`, `mov rax, 3`, `syscall`. -/
def guard_code (addr : Nat) : List Nat :=
  [0x48, 0xBF] ++ le_bytes 8 addr ++ [0x48, 0x8B, 0x07] ++ [0x48, 0x83, 0xF8, 0x00] ++
    ([0x0F, 0x84] ++ le_bytes 4 12) ++ [0x48, 0x89, 0xC7] ++
    ([0x48, 0xC7, 0xC0] ++ le_bytes 4 3) ++ [0x0F, 0x05]

/-! ## BSS regions

The generator hands out BSS offsets by advancing `bss_off`, and the emitters
load absolute addresses `bss_base + off` into rdi or rdx.  `*_allocs` lists the
regions handed out, in order; `*_uses` lists, emitter by emitter, the region
behind every such address: its offset and the number of bytes the emitted
instructions read or write there. -/

/-- What a BSS region is for. -/
inductive Purpose
  | envp
  | prev_read
  | pid
  | pipe
  | argv
deriving DecidableEq, Repr

/-- A BSS region: `size` bytes from offset `off`. -/
structure Region where
  kind : Purpose
  off : Nat
  size : Nat
deriving DecidableEq, Repr

/-- The BSS offsets of `emit_pipeline` (lines 677 to 684). -/
def pipeline_offs (g : Gen) (pl : Pipeline) : PipeOffs :=
  ⟨g.bss_off, g.bss_off + 8, g.bss_off + 8 + 8, g.bss_off + 8 + 8 + 8 * pl.length⟩

/-- The generator state at the start of the stage loop of `emit_pipeline` (after
line 689). -/
def pipeline_start (g : Gen) (pl : Pipeline) : Gen :=
  let o := pipeline_offs g pl
  let g0 : Gen := { g with bss_off := g.bss_off + 8 + 8 + 8 * pl.length + 8 * 2 }
  let g1 := mov_rdx_imm64 (mov_rdi_imm64 g0 (g0.bss_base + o.prev_read_off)) (2 ^ 64 - 1)
  c8 (c8 (c8 g1 0x48) 0x89) 0x17

/-- The generator state of the child branch of stage `i` after `emit_redirs`
(line 732), where line 738 reads `bss_off` for the argv area. -/
def stage_child (g : Gen) (o : PipeOffs) (n i : Nat) (st : Stage) : Gen :=
  let has_next : Bool := i + 1 < n
  let g1 := if has_next then sys_pipe (mov_rdi_imm64 g (g.bss_base + o.pipe_area_off)) else g
  let g2 := sys_fork g1
  let g3 := c8 (c8 (c8 (c8 g2 0x48) 0x83) 0xF8) 0x00
  let j := jne_rel32 g3
  let g5 := if i > 0 then emit_child_prev j.1 o else j.1
  let g6 := if has_next then emit_child_next g5 o else g5
  emit_redirs g6 st.in_redir st.out_redir st.out_append

/-- The regions addressed by `emit_exec`: `build_argv` loads the argv area and
stores `argc` pointers and the terminating null there (lines 538 to 550), and
line 617 loads the address of the envp slot. -/
def exec_uses (st : Stage) (argv_area_off envp_off : Nat) : List Region :=
  [⟨.argv, argv_area_off, 8 * (st.argv.length + 1)⟩, ⟨.envp, envp_off, 8⟩]

/-- The regions addressed by the code of stage `i` of `n` (lines 691 to 758), in
the order of the address loads: the pipe area for `pipe`, the `prev_read` slot
twice, the two pipe descriptors, the regions of `emit_exec` for an external
command, the pid slot, and on the parent side the read end, the `prev_read`
slot and the write end. -/
def stage_uses (g : Gen) (o : PipeOffs) (n i : Nat) (st : Stage) : List Region :=
  (if i + 1 < n then [⟨.pipe, o.pipe_area_off, 8⟩] else []) ++
    (if i > 0 then [⟨.prev_read, o.prev_read_off, 8⟩, ⟨.prev_read, o.prev_read_off, 8⟩]
      else []) ++
    (if i + 1 < n then
      [⟨.pipe, o.pipe_area_off + 4, 4⟩, ⟨.pipe, o.pipe_area_off + 0, 4⟩,
        ⟨.pipe, o.pipe_area_off + 4, 4⟩]
      else []) ++
    (if is_builtin st.cmd then []
      else exec_uses st (stage_child g o n i st).bss_off o.envp_off) ++
    [⟨.pid, o.pid_arr_off + i * 8, 8⟩] ++
    (if i + 1 < n then
      [⟨.pipe, o.pipe_area_off + 0, 4⟩, ⟨.prev_read, o.prev_read_off, 8⟩,
        ⟨.pipe, o.pipe_area_off + 4, 4⟩]
      else [])

/-- The region handed out for stage `i` (lines 738 and 739): the argv area of an
external command. -/
def stage_allocs (g : Gen) (o : PipeOffs) (n i : Nat) (st : Stage) : List Region :=
  if is_builtin st.cmd then []
  else [⟨.argv, (stage_child g o n i st).bss_off, 8 * (st.argv.length + 1)⟩]

/-- The regions addressed by the stage loop from stage `i` on. -/
def stages_uses (o : PipeOffs) (n : Nat) : Nat → List Stage → Gen → List Region
  | _, [], _ => []
  | i, st :: rest, g => stage_uses g o n i st ++ stages_uses o n (i + 1) rest (emit_stage g o n i st)

/-- The regions handed out by the stage loop from stage `i` on. -/
def stages_allocs (o : PipeOffs) (n : Nat) : Nat → List Stage → Gen → List Region
  | _, [], _ => []
  | i, st :: rest, g =>
    stage_allocs g o n i st ++ stages_allocs o n (i + 1) rest (emit_stage g o n i st)

/-- The regions addressed by the code of `emit_pipeline`: the `prev_read` slot
for the initial store, the stages, the `prev_read` slot for the guard, and the
pid slots of the wait loop. -/
def pipeline_uses (g : Gen) (pl : Pipeline) : List Region :=
  [⟨.prev_read, (pipeline_offs g pl).prev_read_off, 8⟩] ++
    stages_uses (pipeline_offs g pl) pl.length 0 pl (pipeline_start g pl) ++
    [⟨.prev_read, (pipeline_offs g pl).prev_read_off, 8⟩] ++
    (List.range pl.length).map (fun i => ⟨.pid, (pipeline_offs g pl).pid_arr_off + i * 8, 8⟩)

/-- The regions handed out by `emit_pipeline`: the envp slot, the `prev_read`
slot, one pid slot per stage, the pipe area (lines 677 to 684), then the argv
areas of the stages. -/
def pipeline_allocs (g : Gen) (pl : Pipeline) : List Region :=
  [⟨.envp, g.bss_off, 8⟩, ⟨.prev_read, g.bss_off + 8, 8⟩] ++
    (List.range pl.length).map (fun i => ⟨.pid, g.bss_off + 8 + 8 + i * 8, 8⟩) ++
    [⟨.pipe, g.bss_off + 8 + 8 + 8 * pl.length, 8 * 2⟩] ++
    stages_allocs (pipeline_offs g pl) pl.length 0 pl (pipeline_start g pl)

/-- The regions addressed by the code of one pipeline of the script (lines 871
to 885). -/
def gen_pipeline_uses (g : Gen) (pl : Pipeline) : List Region :=
  if pl.length = 1 then
    if is_builtin (pl.headD Stage.zero).cmd then []
    else exec_uses (pl.headD Stage.zero) (g.bss_off + 8) g.bss_off
  else pipeline_uses g pl

/-- The regions handed out for one pipeline of the script: for a single
external command the envp slot and the argv area (lines 877 to 880). -/
def gen_pipeline_allocs (g : Gen) (pl : Pipeline) : List Region :=
  if pl.length = 1 then
    if is_builtin (pl.headD Stage.zero).cmd then []
    else [⟨.envp, g.bss_off, 8⟩,
      ⟨.argv, g.bss_off + 8, 8 * ((pl.headD Stage.zero).argv.length + 1)⟩]
  else pipeline_allocs g pl

/-- The regions addressed by the code of the pipelines `sc`, generated from
state `g` on. -/
def script_uses : Script → Gen → List Region
  | [], _ => []
  | pl :: rest, g => gen_pipeline_uses g pl ++ script_uses rest (gen_pipeline g pl)

/-- The regions handed out for the pipelines `sc`, from state `g` on. -/
def script_allocs : Script → Gen → List Region
  | [], _ => []
  | pl :: rest, g => gen_pipeline_allocs g pl ++ script_allocs rest (gen_pipeline g pl)

/-- The regions addressed by the program `gen_script` generates. -/
def gen_script_uses (g : Gen) (sc : Script) : List Region :=
  script_uses sc { g with code := [], strs := ⟨[], []⟩, rels := [], bss_off := 0 }

/-- The regions handed out by `gen_script`. -/
def gen_script_allocs (g : Gen) (sc : Script) : List Region :=
  script_allocs sc { g with code := [], strs := ⟨[], []⟩, rels := [], bss_off := 0 }

/-- A list of regions handed out one after the other between the cursor values
`lo` and `hi`. -/
structure Chain (lo hi : Nat) (l : List Region) : Prop where
  sorted : l.Pairwise (fun a b => a.off + a.size ≤ b.off)
  within : ∀ r ∈ l, lo ≤ r.off ∧ r.off + r.size ≤ hi
  le : lo ≤ hi

/-- Region `u` lies inside a region of the same purpose in `l`. -/
def covered (l : List Region) (u : Region) : Bool :=
  l.any (fun a => decide (a.kind = u.kind) && decide (a.off ≤ u.off) &&
    decide (u.off + u.size ≤ a.off + a.size))

/-! ## Dependence of the code on the BSS base -/

/-- Two code fragments generated for the BSS bases `B` and `C` that are equal
byte for byte except in the immediates of the instructions `mov rdi, imm64`
(`48 BF`) and `mov rdx, imm64` (`48 BA`) that load the address of the regions
`us`, in order: there the first holds `B + off` and the second `C + off`. -/
inductive Rebased (B C : Nat) : List Nat → List Nat → List Region → Prop
  | nil : Rebased B C [] [] []
  | same (x : Nat) {c d : List Nat} {us : List Region} :
      Rebased B C c d us → Rebased B C (x :: c) (x :: d) us
  | addr (r : Region) (op : Nat) {c d : List Nat} {us : List Region} :
      op = 0xBF ∨ op = 0xBA → Rebased B C c d us →
      Rebased B C (0x48 :: op :: (le_bytes 8 (B + r.off) ++ c))
        (0x48 :: op :: (le_bytes 8 (C + r.off) ++ d)) (r :: us)

/-- Two runs of the generator, one from `g` to `h` for the BSS base `B` and one
from `gc` to `hc` for the base `C`: both append code that differs only in the
addresses of the regions `us`, and agree on pool, relocations and BSS cursor. -/
structure Par (B C : Nat) (g gc h hc : Gen) (us : List Region) : Prop where
  code : ∃ t tc, h.code = g.code ++ t ∧ hc.code = gc.code ++ tc ∧ Rebased B C t tc us
  len : gc.code.length = g.code.length
  strs : hc.strs = h.strs
  rels : hc.rels = h.rels
  off : hc.bss_off = h.bss_off
  base : h.bss_base = B
  base2 : hc.bss_base = C

/-- The generator state of stage `i` right before the `jne` to the parent
branch is emitted (lines 692 to 700): `pipe` when there is a next stage, `fork`,
and the comparison of rax with zero. -/
def stage_fork (g : Gen) (o : PipeOffs) (n i : Nat) : Gen :=
  let has_next : Bool := i + 1 < n
  let g1 := if has_next then sys_pipe (mov_rdi_imm64 g (g.bss_base + o.pipe_area_off)) else g
  let g2 := sys_fork g1
  c8 (c8 (c8 (c8 g2 0x48) 0x83) 0xF8) 0x00

/-! ## Properties of the words of a script -/

/-- Every argv entry and every redirection target of the stage satisfies `P`. -/
def Stage.words_ok (P : List Nat → Prop) (st : Stage) : Prop :=
  (∀ w ∈ st.argv, P w) ∧ (∀ w, st.in_redir = some w → P w) ∧
    (∀ w, st.out_redir = some w → P w)

/-- Every word of the script satisfies `P`. -/
def Script.words_ok (P : List Nat → Prop) (sc : Script) : Prop :=
  ∀ pl ∈ sc, ∀ st ∈ pl, Stage.words_ok P st

/-- Every word held in the locals of `parse` satisfies `P`. -/
def PState.words_ok (P : List Nat → Prop) (s : PState) : Prop :=
  Script.words_ok P s.sc ∧ (∀ st ∈ s.cur, Stage.words_ok P st) ∧ Stage.words_ok P s.st

/-- Source text of a run of empty quote pairs: `true` stands for `""`, `false`
for `''`. -/
def empty_quotes : List Bool → List Nat
  | [] => []
  | true :: k => 34 :: 34 :: empty_quotes k
  | false :: k => 39 :: 39 :: empty_quotes k

/-! ## Memory accesses of the running code -/

/-- One step of the running code that reaches outside the registers: a load of
`width` bytes from address `addr`, a store of `width` bytes to address `addr`,
or a system call. -/
inductive Event
  | load (addr width : Nat)
  | store (addr width : Nat)
  | sys (s : Sys)
deriving DecidableEq, Repr

/-- Run the instruction stream `code` like `exec` does, and log every memory
access next to the system calls.  The instructions are those of `exec` and the
three stores the generator emits:

* `48 89 17`: `mov [rdi], rdx`; `48 89 07`: `mov [rdi], rax` (8 bytes at rdi)
* `48 89 87 disp32`: `mov [rdi + disp32], rax` (8 bytes at rdi plus the
  sign-extended displacement, modulo `2 ^ 64`)

The loads `48 8B 07` and `8B 07` read 8 and 4 bytes at rdi.  Nothing is assumed
about what memory holds or what the kernel returns: the value a load or a system
call leaves in rax is `inp k`, where `k` is the number of events logged before
it, and every system call is taken to return.  A statement that holds for every
`inp` therefore holds for the parent and the child of every `fork` and for
every content of memory. -/
def run (inp : Nat → Nat) : Nat → List Nat → Regs → List Event → Option (Regs × List Event)
  | 0, _, _, _ => none
  | fuel + 1, code, r, tr =>
    if code = [] then some (r, tr)
    else if code.take 2 = [0x48, 0xBF] then
      run inp fuel (code.drop 10) { r with rdi := le_val ((code.drop 2).take 8) } tr
    else if code.take 2 = [0x48, 0xBE] then
      run inp fuel (code.drop 10) { r with rsi := le_val ((code.drop 2).take 8) } tr
    else if code.take 2 = [0x48, 0xBA] then
      run inp fuel (code.drop 10) { r with rdx := le_val ((code.drop 2).take 8) } tr
    else if code.take 2 = [0x48, 0xB8] then
      run inp fuel (code.drop 10) { r with rax := le_val ((code.drop 2).take 8) } tr
    else if code.take 2 = [0x49, 0xBA] then
      run inp fuel (code.drop 10) { r with r10 := le_val ((code.drop 2).take 8) } tr
    else if code.take 3 = [0x48, 0xC7, 0xC0] then
      run inp fuel (code.drop 7) { r with rax := sext32 (le_val ((code.drop 3).take 4)) } tr
    else if code.take 3 = [0x48, 0x31, 0xF6] then
      run inp fuel (code.drop 3) { r with rsi := 0, zf := true } tr
    else if code.take 3 = [0x48, 0x31, 0xD2] then
      run inp fuel (code.drop 3) { r with rdx := 0, zf := true } tr
    else if code.take 3 = [0x4D, 0x31, 0xD2] then
      run inp fuel (code.drop 3) { r with r10 := 0, zf := true } tr
    else if code.take 3 = [0x48, 0x89, 0xC7] then
      run inp fuel (code.drop 3) { r with rdi := r.rax } tr
    else if code.take 3 = [0x48, 0x89, 0xFE] then
      run inp fuel (code.drop 3) { r with rsi := r.rdi } tr
    else if code.take 3 = [0x48, 0x8B, 0x07] then
      run inp fuel (code.drop 3) { r with rax := inp tr.length % 2 ^ 64 } (tr ++ [.load r.rdi 8])
    else if code.take 2 = [0x8B, 0x07] then
      run inp fuel (code.drop 2) { r with rax := inp tr.length % 2 ^ 32 } (tr ++ [.load r.rdi 4])
    else if code.take 3 = [0x48, 0x89, 0x17] then
      run inp fuel (code.drop 3) r (tr ++ [.store r.rdi 8])
    else if code.take 3 = [0x48, 0x89, 0x07] then
      run inp fuel (code.drop 3) r (tr ++ [.store r.rdi 8])
    else if code.take 3 = [0x48, 0x89, 0x87] then
      run inp fuel (code.drop 7) r
        (tr ++ [.store ((r.rdi + sext32 (le_val ((code.drop 3).take 4))) % 2 ^ 64) 8])
    else if code.take 3 = [0x48, 0x83, 0xF8] then
      run inp fuel (code.drop 4)
        { r with zf := decide (r.rax = sext8 ((code.drop 3).headD 0)) } tr
    else if code.take 3 = [0x48, 0x85, 0xC0] then
      run inp fuel (code.drop 3) { r with zf := decide (r.rax = 0) } tr
    else if code.take 2 = [0x0F, 0x84] then
      if le_val ((code.drop 2).take 4) < 2 ^ 31 then
        run inp fuel
          (if r.zf then code.drop (6 + le_val ((code.drop 2).take 4)) else code.drop 6) r tr
      else none
    else if code.take 2 = [0x0F, 0x85] then
      if le_val ((code.drop 2).take 4) < 2 ^ 31 then
        run inp fuel
          (if r.zf then code.drop 6 else code.drop (6 + le_val ((code.drop 2).take 4))) r tr
      else none
    else if code.take 2 = [0x0F, 0x05] then
      run inp fuel (code.drop 2) { r with rax := inp tr.length % 2 ^ 64 }
        (tr ++ [.sys ⟨r.rax, r.rdi, r.rsi, r.rdx, r.r10⟩])
    else none

/-- The `w` bytes at address `a` lie inside one of the regions `us` of a BSS
that starts at address `B`. -/
def in_regions (B : Nat) (us : List Region) (a w : Nat) : Bool :=
  us.any (fun u => decide (B + u.off ≤ a) && decide (a + w ≤ B + u.off + u.size))

/-- Address `a` is the first byte of a region of purpose `k` among `us` that is
at least `w` bytes long. -/
def region_start (B : Nat) (us : List Region) (k : Purpose) (a w : Nat) : Bool :=
  us.any (fun u => decide (u.kind = k) && decide (a = B + u.off) && decide (w ≤ u.size))

/-- The event stays inside the regions `us`: a load or a store touches only
bytes of one region; `pipe` (system call 22) gets in rdi the start of a pipe
region of at least 8 bytes, where the kernel stores the two descriptors;
`execve` (system call 59) gets in rsi the start of an argv region and in rdx
the start of an envp region, each of at least 8 bytes.  The other system calls
the generator emits take no pointer into the BSS; no condition is put on them. -/
def Event.safe (B : Nat) (us : List Region) : Event → Bool
  | .load a w => in_regions B us a w
  | .store a w => in_regions B us a w
  | .sys s =>
    (s.nr != 22 || region_start B us .pipe s.rdi 8) &&
      (s.nr != 59 || (region_start B us .argv s.rsi 8 && region_start B us .envp s.rdx 8))

/-- The relocation loop of `write_elf` with the value `v idx` stored for string
index `idx`. -/
def fill (v : Nat → Nat) (code : List Nat) : List Rel → List Nat
  | [] => code
  | r :: rest => fill v (write_at code r.at_ (le_bytes 8 (v r.str_idx))) rest

/-- What is known about the registers at a point of the code: `some x` when the
register holds `x` on every path to that point. -/
structure Known where
  rax : Option Nat
  rdi : Option Nat
  rsi : Option Nat
  rdx : Option Nat
deriving DecidableEq, Repr

/-- Nothing is known. -/
def Known.top : Known := ⟨none, none, none, none⟩

/-- The registers `r` agree with what `a` knows. -/
def Known.holds (a : Known) (r : Regs) : Prop :=
  (∀ x, a.rax = some x → r.rax = x) ∧ (∀ x, a.rdi = some x → r.rdi = x) ∧
    (∀ x, a.rsi = some x → r.rsi = x) ∧ (∀ x, a.rdx = some x → r.rdx = x)

/-- Running the fragment `t` from registers that satisfy `P`, whatever code `k`
follows it: the run reaches `k` after at most `t.length` instructions, with
registers that satisfy `Q`, and has logged only events that satisfy `E`. -/
def Frag (inp : Nat → Nat) (E : Event → Prop) (P : Regs → Prop) (t : List Nat)
    (Q : Regs → Prop) : Prop :=
  ∀ (k : List Nat) (r : Regs) (tr : List Event), P r →
    ∃ (n : Nat) (r2 : Regs) (evs : List Event), n ≤ t.length ∧ Q r2 ∧ (∀ e ∈ evs, E e) ∧
      ∀ fuel, run inp (fuel + n) (t ++ k) r tr = run inp fuel k r2 (tr ++ evs)

/-- A run of the generator from `g` to `h` for the BSS base `B`: with the
relocation slots filled by `v`, the code of `h` is that of `g` followed by a
fragment that, started with the registers known as `a0`, ends with them known
as `a` and logs only events inside the regions `us`.  This is required when
the fragment is shorter than `2 ^ 31` bytes and the regions are smaller than
that and end at or below `2 ^ 64`, so that neither a jump displacement nor an
address wraps around. -/
structure Emits (v : Nat → Nat) (B : Nat) (g h : Gen) (a0 a : Known) (us : List Region) :
    Prop where
  code : ∃ t, fill v h.code h.rels = fill v g.code g.rels ++ t ∧
    (t.length < 2 ^ 31 → (∀ u ∈ us, u.size < 2 ^ 31 ∧ B + u.off + u.size ≤ 2 ^ 64) →
      ∀ inp, Frag inp (fun e => Event.safe B us e = true) a0.holds t a.holds)
  okg : ∀ r ∈ g.rels, r.at_ + 8 ≤ g.code.length
  okh : ∀ r ∈ h.rels, r.at_ + 8 ≤ h.code.length
  rels : ∃ nr, h.rels = g.rels ++ nr ∧ ∀ r ∈ nr, g.code.length ≤ r.at_
  base : h.bss_base = B

/-! # Theorems -/

/-! ## The parser keeps scripts well formed -/

/-- The invariant of the main loop of `parse`: the script built so far is well
formed and every stage already pushed onto the current pipeline has argv. -/
def PState.inv (s : PState) : Prop :=
  Script.wf s.sc ∧ ∀ st ∈ s.cur, 1 ≤ st.argv.length

theorem finish_stage_keeps {pl pl2 : Pipeline} {st st2 : Stage}
    (h : finish_stage pl st = .ok (pl2, st2))
    (hpl : ∀ x ∈ pl, 1 ≤ x.argv.length) : ∀ x ∈ pl2, 1 ≤ x.argv.length := by
  unfold finish_stage at h
  split at h
  · split at h
    · cases h
    · cases h; exact hpl
  · rename_i hne
    cases h
    intro x hx
    rcases List.mem_append.mp hx with hx | hx
    · exact hpl x hx
    · simp at hx; subst hx; omega

theorem wf_push {sc : Script} {cur : Pipeline} (hsc : Script.wf sc)
    (hcur : ∀ x ∈ cur, 1 ≤ x.argv.length) (hlen : cur.length > 0) :
    Script.wf (sc ++ [cur]) := by
  intro pl hpl
  rcases List.mem_append.mp hpl with hpl | hpl
  · exact hsc pl hpl
  · simp at hpl; subst hpl; exact ⟨hlen, hcur⟩

/-- What `close_stage` returns without error: the stage pushed and reset, or an
empty stage left as it is. -/
theorem close_stage_ok {cur cur2 : Pipeline} {st st2 : Stage}
    (h : close_stage cur st = .ok (cur2, st2)) :
    (st.argv ≠ [] ∧ cur2 = cur ++ [st] ∧ st2 = Stage.zero) ∨
      (st.argv = [] ∧ st.in_redir = none ∧ st.out_redir = none ∧ cur2 = cur ∧ st2 = st) := by
  unfold close_stage at h
  split at h
  · rename_i hlen
    unfold finish_stage at h
    split at h
    · omega
    · cases h
      exact Or.inl ⟨by intro e; rw [e] at hlen; simp at hlen, rfl, rfl⟩
  · rename_i hlen
    split at h
    · cases h
    · rename_i hred
      cases h
      refine Or.inr ⟨List.length_eq_zero.mp (by omega), ?_, ?_, rfl, rfl⟩
      · cases hi : st.in_redir with
        | none => rfl
        | some v => rw [hi] at hred; simp at hred
      · cases ho : st.out_redir with
        | none => rfl
        | some v => rw [ho] at hred; simp at hred

theorem close_stage_keeps {pl pl2 : Pipeline} {st st2 : Stage}
    (h : close_stage pl st = .ok (pl2, st2))
    (hpl : ∀ x ∈ pl, 1 ≤ x.argv.length) : ∀ x ∈ pl2, 1 ≤ x.argv.length := by
  rcases close_stage_ok h with ⟨h1, h2, _⟩ | ⟨_, _, _, h2, _⟩
  · subst h2
    intro x hx
    rcases List.mem_append.mp hx with hx | hx
    · exact hpl x hx
    · simp only [List.mem_singleton] at hx
      subst hx
      exact Nat.one_le_iff_ne_zero.mpr (fun e => h1 (List.length_eq_zero.mp e))
  · subst h2
    exact hpl

theorem sep_branch_inv {s s2 : PState} {p p2 : List Nat} (hs : s.inv)
    (h : sep_branch s p = .next s2 p2) : s2.inv := by
  unfold sep_branch at h
  split at h
  · cases h
  · split at h
    · cases h
    · rename_i cur st hr
      have hcur : ∀ x ∈ cur, 1 ≤ x.argv.length := close_stage_keeps hr hs.2
      split at h
      · rename_i hlen
        cases h
        exact ⟨wf_push hs.1 hcur hlen, by simp⟩
      · cases h
        exact ⟨hs.1, hcur⟩

theorem pipe_branch_inv {s s2 : PState} {p p2 : List Nat} (hs : s.inv)
    (h : pipe_branch s p = .next s2 p2) : s2.inv := by
  unfold pipe_branch at h
  split at h
  · cases h
  · split at h
    · cases h
    · rename_i cur st hr
      cases h
      exact ⟨hs.1, finish_stage_keeps hr hs.2⟩

theorem redir_branch_inv {s s2 : PState} {op : Nat} {p p2 : List Nat} (hs : s.inv)
    (h : redir_branch s op p = .next s2 p2) : s2.inv := by
  unfold redir_branch redir_target at h
  simp only at h
  repeat' split at h
  all_goals first | (cases h; exact hs) | cases h

theorem word_branch_inv {s s2 : PState} {p p2 : List Nat} (hs : s.inv)
    (h : word_branch s p = .next s2 p2) : s2.inv := by
  unfold word_branch at h
  split at h
  · cases h
  · cases h
  · cases h; exact hs

theorem parse_iter_inv {s s2 : PState} {p p2 : List Nat} (hs : s.inv)
    (h : parse_iter s p = .next s2 p2) : s2.inv := by
  unfold parse_iter at h
  split at h
  · cases h
  · split at h
    · cases h
    · split at h
      · exact sep_branch_inv hs h
      · split at h
        · exact pipe_branch_inv hs h
        · split at h
          · exact redir_branch_inv hs h
          · exact word_branch_inv hs h

theorem parse_iter_done {s s2 : PState} {p : List Nat}
    (h : parse_iter s p = .done s2) : s2 = s := by
  unfold parse_iter at h
  split at h
  · cases h; rfl
  · split at h
    · cases h; rfl
    · exfalso
      unfold sep_branch pipe_branch redir_branch redir_target word_branch at h
      simp only at h
      repeat (first | contradiction | split at h)

theorem parse_end_wf {s : PState} {sc : Script} (hs : s.inv)
    (h : parse_end s = .ok sc) : Script.wf sc := by
  unfold parse_end at h
  split at h
  · cases h
  · split at h
    · cases h
    · rename_i cur st hr
      have hcur : ∀ x ∈ cur, 1 ≤ x.argv.length := close_stage_keeps hr hs.2
      split at h
      · rename_i hlen
        cases h
        exact wf_push hs.1 hcur hlen
      · cases h
        exact hs.1

theorem parse_loop_wf (fuel : Nat) : ∀ (s : PState) (p : List Nat) (sc : Script),
    s.inv → parse_loop fuel s p = .ok sc → Script.wf sc := by
  induction fuel with
  | zero => intro s p sc _ h; cases h
  | succ n ih =>
    intro s p sc hs h
    unfold parse_loop at h
    split at h
    · cases h
    · rename_i s2 hit
      have := parse_iter_done hit
      subst this
      split at h
      · cases h
      · rename_i sc2 hend
        cases h
        exact parse_end_wf hs hend
    · rename_i s2 p2 hit
      exact ih s2 p2 sc (parse_iter_inv hs hit) h

theorem init_inv : PState.init.inv :=
  And.intro (by intro pl h; cases h) (by intro st h; cases h)

/-- C1: every source that `parse` accepts yields a well-formed script: each
pipeline has at least one stage and each stage has at least one argv entry. -/
theorem parse_wellformed (src : List Nat) (sc : Script) (h : parse src = .ok sc) :
    ∀ pl ∈ sc, 1 ≤ pl.length ∧ ∀ st ∈ pl, 1 ≤ st.argv.length :=
  parse_loop_wf _ PState.init src sc init_inv h

/-- Witness for C1 on `a < in | b > out; c`. -/
theorem parse_wellformed_witness :
    parse (bytes "a < in | b > out; c") =
        .ok [[⟨[bytes "a"], some (bytes "in"), none, 0⟩,
              ⟨[bytes "b"], none, some (bytes "out"), 0⟩], [⟨[bytes "c"], none, none, 0⟩]] ∧
      ∀ pl ∈ ([[⟨[bytes "a"], some (bytes "in"), none, 0⟩,
              ⟨[bytes "b"], none, some (bytes "out"), 0⟩], [⟨[bytes "c"], none, none, 0⟩]] : Script),
        1 ≤ pl.length ∧ ∀ st ∈ pl, 1 ≤ st.argv.length :=
  ⟨by decide, parse_wellformed (bytes "a < in | b > out; c") _ (by decide)⟩

/-! ## A builtin that is alone in its pipeline loses its redirection -/

/-- C2 fails on the code: for `echo hi > out.txt` the parser records the output
redirection, yet `gen_script` produces exactly the program of `echo hi`: the pool
holds only `hi` and the newline, and the two relocations are those of the two
`write` calls.  Nothing opens `out.txt`. -/
theorem echo_redirect_dropped :
    parse (bytes "echo hi > out.txt") =
        .ok [[⟨[bytes "echo", bytes "hi"], none, some (bytes "out.txt"), 0⟩]] ∧
      gen_script Gen.start [[⟨[bytes "echo", bytes "hi"], none, some (bytes "out.txt"), 0⟩]] =
        gen_script Gen.start [[⟨[bytes "echo", bytes "hi"], none, none, 0⟩]] ∧
      (gen_script Gen.start
        [[⟨[bytes "echo", bytes "hi"], none, some (bytes "out.txt"), 0⟩]]).strs.pool =
        bytes "hi" ++ [0, 10, 0] ∧
      (gen_script Gen.start
        [[⟨[bytes "echo", bytes "hi"], none, some (bytes "out.txt"), 0⟩]]).rels =
        [⟨2, 0⟩, ⟨41, 1⟩] :=
  ⟨by decide, by decide!, by decide!, by decide!⟩

/-- The sibling path: inside a pipeline of two stages the same stage does get
its redirection, the path `out.txt` is the first pool entry. -/
theorem echo_redirect_in_pipeline :
    ((gen_script Gen.start
        [[⟨[bytes "echo", bytes "hi"], none, some (bytes "out.txt"), 0⟩,
          ⟨[bytes "cat"], none, none, 0⟩]]).strs.pool).take 8 = bytes "out.txt" ++ [0] := by
  decide!

/-- In general `gen_pipeline` ignores the redirections of a builtin that is the
only stage of its pipeline. -/
theorem gen_pipeline_builtin_alone (g : Gen) (st : Stage) (h : is_builtin st.cmd = true) :
    gen_pipeline g [st] =
      gen_pipeline g [{ st with in_redir := none, out_redir := none, out_append := 0 }] := by
  have h2 : is_builtin (st.argv.head?.getD []) = true := by simpa [Stage.cmd] using h
  simp [gen_pipeline, h2, Stage.cmd, emit_builtin]

/-! ## Layout of the file written by `write_elf` -/

@[simp] theorem le_bytes_length (n x : Nat) : (le_bytes n x).length = n := by
  induction n generalizing x with
  | zero => rfl
  | succ k ih => simp [le_bytes, ih]

@[simp] theorem write_at_length (buf : List Nat) (off : Nat) (bs : List Nat) :
    (write_at buf off bs).length = buf.length := by
  unfold write_at
  simp only [List.length_take, List.length_append, List.length_drop]
  omega

theorem write_at_block (a old c bs : List Nat) (off : Nat) (hoff : off = a.length)
    (hlen : bs.length = old.length) : write_at (a ++ old ++ c) off bs = a ++ bs ++ c := by
  subst hoff
  unfold write_at
  have h1 : (a ++ old ++ c).take a.length = a := by
    rw [List.append_assoc, List.take_left]
  have h2 : (a ++ old ++ c).drop (a.length + bs.length) = c := by
    have : a.length + bs.length = (a ++ old).length := by simp [hlen]
    rw [this, List.drop_left]
  rw [h1, h2]
  apply List.take_of_length_le
  simp [hlen]

theorem write_at_zeros (d rest bs : List Nat) (n off : Nat) (hoff : off = d.length)
    (hlen : bs.length ≤ n) :
    write_at (d ++ List.replicate n 0 ++ rest) off bs =
      (d ++ bs) ++ List.replicate (n - bs.length) 0 ++ rest := by
  have hn : List.replicate n 0 =
      List.replicate bs.length 0 ++ List.replicate (n - bs.length) 0 := by
    rw [← List.replicate_add]; congr 1; omega
  rw [hn]
  have := write_at_block d (List.replicate bs.length 0)
    (List.replicate (n - bs.length) 0 ++ rest) bs off hoff (by simp)
  simp only [List.append_assoc] at this ⊢
  exact this

/-- The header stores of `write_elf`, run on a file whose first 176 bytes are
still zero, produce the ELF header and the two program headers. -/
theorem header_layout (rest : List Nat) (X M : Nat) :
    write_phdr
        (write_phdr (write_ehdr ([] ++ List.replicate 176 0 ++ rest) 176) 0x40 5 0 0x400000
          0x400000 X X 0x1000)
        (0x40 + 0x38) 6 0 0x600000 0x600000 0 M 0x1000 =
      ehdr_bytes ++ phdr_bytes 5 0 0x400000 0x400000 X X 0x1000 ++
        phdr_bytes 6 0 0x600000 0x600000 0 M 0x1000 ++ rest := by
  unfold write_ehdr write_phdr
  simp only []
  repeat rw [write_at_zeros _ _ _ _ _ (by simp) (by simp)]
  simp [ehdr_bytes, phdr_bytes]

@[simp] theorem apply_rels_length (offs : List Nat) (base : Nat) (rels : List Rel) :
    ∀ code : List Nat, (apply_rels code offs base rels).length = code.length := by
  induction rels with
  | nil => intro code; rfl
  | cons r rest ih => intro code; simp [apply_rels, ih]

@[simp] theorem patched_code_length (g : Gen) : (patched_code g).length = g.code.length := by
  simp [patched_code]

/-- The bytes of the file: header, two program headers, patched code, pool. -/
theorem write_elf_layout (g : Gen) :
    write_elf g =
      ehdr_bytes ++
        phdr_bytes 5 0 0x400000 0x400000 (g.code.length + g.strs.pool.length)
          (g.code.length + g.strs.pool.length) 0x1000 ++
        phdr_bytes 6 0 0x600000 0x600000 0 (if g.bss_off ≠ 0 then g.bss_off else 0x1000) 0x1000 ++
        (patched_code g ++ g.strs.pool) := by
  have hz : List.replicate (0x40 + 0x38 * 2 + g.code.length + g.strs.pool.length) 0 =
      List.replicate 176 0 ++ List.replicate g.code.length 0 ++
        List.replicate g.strs.pool.length 0 := by
    rw [← List.replicate_add, ← List.replicate_add]
  have htake : (patched_code g).take g.code.length = patched_code g :=
    List.take_of_length_le (by rw [patched_code_length])
  have h1 : write_at (List.replicate (0x40 + 0x38 * 2 + g.code.length + g.strs.pool.length) 0)
      (0x40 + 0x38 * 2) ((patched_code g).take g.code.length) =
      List.replicate 176 0 ++ patched_code g ++ List.replicate g.strs.pool.length 0 := by
    rw [hz, htake]
    exact write_at_block _ _ _ _ _ (by rw [List.length_replicate])
      (by rw [List.length_replicate, patched_code_length])
  have h2 : write_at (List.replicate 176 0 ++ patched_code g ++
      List.replicate g.strs.pool.length 0) (0x40 + 0x38 * 2 + g.code.length) g.strs.pool =
      [] ++ List.replicate 176 0 ++ (patched_code g ++ g.strs.pool) := by
    have := write_at_block (List.replicate 176 0 ++ patched_code g)
      (List.replicate g.strs.pool.length 0) [] g.strs.pool (0x40 + 0x38 * 2 + g.code.length)
      (by rw [List.length_append, List.length_replicate, patched_code_length])
      (by rw [List.length_replicate])
    rw [List.append_nil, List.append_nil] at this
    rw [this, List.nil_append, List.append_assoc]
  have h3 := header_layout (patched_code g ++ g.strs.pool) (g.code.length + g.strs.pool.length)
    (if g.bss_off ≠ 0 then g.bss_off else 0x1000)
  rw [← h2, ← h1] at h3
  exact h3

/-- C4: for every generator state the file written by `write_elf` has length
`0xB0 + code_len + ro_len` and consists of the 64-byte ELF header with the
listed field values, two 56-byte program headers, the relocated code bytes,
which therefore start at file offset `0x40 + 2*0x38`, and the string pool right
after them. -/
theorem write_elf_exact (g : Gen) :
    (write_elf g).length = 0xB0 + g.code.length + g.strs.pool.length ∧
      ehdr_bytes.length = 64 ∧
      ehdr_bytes.take 16 = [0x7F, 0x45, 0x4C, 0x46, 2, 1, 1, 0, 0, 0, 0, 0, 0, 0, 0, 0] ∧
      (patched_code g).length = g.code.length ∧
      ∃ ph1 ph2 : List Nat, ph1.length = 56 ∧ ph2.length = 56 ∧
        write_elf g = ehdr_bytes ++ ph1 ++ ph2 ++ patched_code g ++ g.strs.pool ∧
        (write_elf g).drop (0x40 + 2 * 0x38) = patched_code g ++ g.strs.pool := by
  have hl := write_elf_layout g
  have he : ehdr_bytes.length = 64 := by decide
  have hp : ∀ a b c d e f h : Nat, (phdr_bytes a b c d e f h).length = 56 := by
    intro a b c d e f h
    simp only [phdr_bytes, List.length_append, le_bytes_length]
  refine ⟨?_, he, by decide, patched_code_length g,
    phdr_bytes 5 0 0x400000 0x400000 (g.code.length + g.strs.pool.length)
      (g.code.length + g.strs.pool.length) 0x1000,
    phdr_bytes 6 0 0x600000 0x600000 0 (if g.bss_off ≠ 0 then g.bss_off else 0x1000) 0x1000,
    hp _ _ _ _ _ _ _, hp _ _ _ _ _ _ _, ?_, ?_⟩
  · rw [hl]
    simp only [List.length_append, he, hp, patched_code_length]
    omega
  · rw [hl]; simp only [List.append_assoc]
  · rw [hl]
    have : (ehdr_bytes ++
        phdr_bytes 5 0 0x400000 0x400000 (g.code.length + g.strs.pool.length)
          (g.code.length + g.strs.pool.length) 0x1000 ++
        phdr_bytes 6 0 0x600000 0x600000 0 (if g.bss_off ≠ 0 then g.bss_off else 0x1000)
          0x1000).length = 0x40 + 2 * 0x38 := by
      simp only [List.length_append, he, hp]
    rw [← this, List.drop_left]

/-! ## The generator keeps the relocation list sound -/

theorem Ext.refl (g : Gen) : Ext g g := ⟨id, le_rfl⟩

theorem Ext.trans {a b c : Gen} (h1 : Ext a b) (h2 : Ext b c) : Ext a c :=
  ⟨fun h => h2.1 (h1.1 h), le_trans h1.2 h2.2⟩

/-- A step that leaves pool and relocations alone and does not shrink the code. -/
theorem Ext.code {g0 g g2 : Gen} (h : Ext g0 g) (hs : g2.strs = g.strs) (hr : g2.rels = g.rels)
    (hl : g.code.length ≤ g2.code.length) : Ext g0 g2 := by
  refine h.trans ⟨fun ok => ?_, by rw [hs]⟩
  refine ⟨?_, ?_, ?_, ?_⟩
  · intro r hr2; rw [hr] at hr2; exact le_trans (ok.rels_in r hr2) hl
  · rw [hr]; exact ok.rels_sep
  · intro r hr2; rw [hr] at hr2; rw [hs]; exact ok.rels_idx r hr2
  · rw [hs]; exact ok.pool

theorem ext_c8 {g0 g : Gen} (x : Nat) (h : Ext g0 g) : Ext g0 (c8 g x) :=
  h.code rfl rfl (by simp [c8])

theorem ext_c32 {g0 g : Gen} (x : Nat) (h : Ext g0 g) : Ext g0 (c32 g x) :=
  h.code rfl rfl (by simp [c32])

theorem ext_c64 {g0 g : Gen} (x : Nat) (h : Ext g0 g) : Ext g0 (c64 g x) :=
  h.code rfl rfl (by simp [c64])

theorem ext_patch_here {g0 g : Gen} (a : Nat) (h : Ext g0 g) : Ext g0 (patch_here g a) :=
  h.code rfl rfl (by simp [patch_here, patch32])

theorem ext_bss {g0 g : Gen} (n : Nat) (h : Ext g0 g) : Ext g0 { g with bss_off := n } :=
  h.code rfl rfl le_rfl

theorem ext_mov_rax_imm32 {g0 g : Gen} (x : Nat) (h : Ext g0 g) : Ext g0 (mov_rax_imm32 g x) :=
  ext_c32 _ (ext_c8 _ (ext_c8 _ (ext_c8 _ h)))

theorem ext_mov_rdi_imm64 {g0 g : Gen} (x : Nat) (h : Ext g0 g) : Ext g0 (mov_rdi_imm64 g x) :=
  ext_c64 _ (ext_c8 _ (ext_c8 _ h))

theorem ext_mov_rsi_imm64 {g0 g : Gen} (x : Nat) (h : Ext g0 g) : Ext g0 (mov_rsi_imm64 g x) :=
  ext_c64 _ (ext_c8 _ (ext_c8 _ h))

theorem ext_mov_rdx_imm64 {g0 g : Gen} (x : Nat) (h : Ext g0 g) : Ext g0 (mov_rdx_imm64 g x) :=
  ext_c64 _ (ext_c8 _ (ext_c8 _ h))

theorem ext_mov_r10_imm64 {g0 g : Gen} (x : Nat) (h : Ext g0 g) : Ext g0 (mov_r10_imm64 g x) :=
  ext_c64 _ (ext_c8 _ (ext_c8 _ h))

theorem ext_xor_rsi_rsi {g0 g : Gen} (h : Ext g0 g) : Ext g0 (xor_rsi_rsi g) :=
  ext_c8 _ (ext_c8 _ (ext_c8 _ h))

theorem ext_xor_rdx_rdx {g0 g : Gen} (h : Ext g0 g) : Ext g0 (xor_rdx_rdx g) :=
  ext_c8 _ (ext_c8 _ (ext_c8 _ h))

theorem ext_xor_r10_r10 {g0 g : Gen} (h : Ext g0 g) : Ext g0 (xor_r10_r10 g) :=
  ext_c8 _ (ext_c8 _ (ext_c8 _ h))

theorem ext_mov_rsi_rdi {g0 g : Gen} (h : Ext g0 g) : Ext g0 (mov_rsi_rdi g) :=
  ext_c8 _ (ext_c8 _ (ext_c8 _ h))

theorem ext_mov_rdi_rax {g0 g : Gen} (h : Ext g0 g) : Ext g0 (mov_rdi_rax g) :=
  ext_c8 _ (ext_c8 _ (ext_c8 _ h))

theorem ext_mov_eax_mrdi {g0 g : Gen} (h : Ext g0 g) : Ext g0 (mov_eax_mrdi g) :=
  ext_c8 _ (ext_c8 _ h)

theorem ext_syscall {g0 g : Gen} (h : Ext g0 g) : Ext g0 (syscall_ g) :=
  ext_c8 _ (ext_c8 _ h)

theorem ext_mov_m8 {g0 g : Gen} (d : Nat) (h : Ext g0 g) : Ext g0 (mov_m8_rdi_disp32_rax g d) :=
  ext_c32 _ (ext_c8 _ (ext_c8 _ (ext_c8 _ h)))

theorem ext_sys_write {g0 g : Gen} (h : Ext g0 g) : Ext g0 (sys_write g) :=
  ext_syscall (ext_mov_rax_imm32 _ h)

theorem ext_sys_exit {g0 g : Gen} (h : Ext g0 g) : Ext g0 (sys_exit g) :=
  ext_syscall (ext_mov_rax_imm32 _ h)

theorem ext_sys_chdir {g0 g : Gen} (h : Ext g0 g) : Ext g0 (sys_chdir g) :=
  ext_syscall (ext_mov_rax_imm32 _ h)

theorem ext_sys_fork {g0 g : Gen} (h : Ext g0 g) : Ext g0 (sys_fork g) :=
  ext_syscall (ext_mov_rax_imm32 _ h)

theorem ext_sys_execve {g0 g : Gen} (h : Ext g0 g) : Ext g0 (sys_execve g) :=
  ext_syscall (ext_mov_rax_imm32 _ h)

theorem ext_sys_wait4 {g0 g : Gen} (h : Ext g0 g) : Ext g0 (sys_wait4 g) :=
  ext_syscall (ext_mov_rax_imm32 _ h)

theorem ext_sys_pipe {g0 g : Gen} (h : Ext g0 g) : Ext g0 (sys_pipe g) :=
  ext_syscall (ext_mov_rax_imm32 _ h)

theorem ext_sys_dup2 {g0 g : Gen} (h : Ext g0 g) : Ext g0 (sys_dup2 g) :=
  ext_syscall (ext_mov_rax_imm32 _ h)

theorem ext_sys_close {g0 g : Gen} (h : Ext g0 g) : Ext g0 (sys_close g) :=
  ext_syscall (ext_mov_rax_imm32 _ h)

theorem ext_sys_openat {g0 g : Gen} (h : Ext g0 g) : Ext g0 (sys_openat g) :=
  ext_syscall (ext_mov_rax_imm32 _ h)

theorem ext_jne_rel32 {g0 g : Gen} (h : Ext g0 g) : Ext g0 (jne_rel32 g).1 :=
  ext_c32 _ (ext_c8 _ (ext_c8 _ h))

theorem ext_je_rel32 {g0 g : Gen} (h : Ext g0 g) : Ext g0 (je_rel32 g).1 :=
  ext_c32 _ (ext_c8 _ (ext_c8 _ h))

theorem pool_of_snoc (ss : List (List Nat)) (s : List Nat) :
    pool_of (ss ++ [s]) = (sp_add (pool_of ss) s).1 := by
  simp [pool_of, List.foldl_append]

/-- `add_str` keeps the relocation list sound and returns a valid index. -/
theorem ext_add_str {g0 g : Gen} (s : List Nat) (h : Ext g0 g) :
    Ext g0 (add_str g s).1 ∧ (add_str g s).2 < (add_str g s).1.strs.offs.length := by
  refine ⟨h.trans ⟨fun ok => ?_, by simp [add_str, sp_add]⟩, by simp [add_str, sp_add]⟩
  refine ⟨ok.rels_in, ok.rels_sep, ?_, ?_⟩
  · intro r hr
    have := ok.rels_idx r hr
    simp [add_str, sp_add]
    omega
  · obtain ⟨ss, hss⟩ := ok.pool
    exact ⟨ss ++ [s], by rw [pool_of_snoc, ← hss]; rfl⟩

/-- Emitting an eight-byte zero placeholder and recording a relocation at it. -/
theorem ext_rel_slot {g0 g : Gen} (sidx : Nat) (h : Ext g0 g)
    (hi : sidx < g.strs.offs.length) : Ext g0 (rels_add_here (c64 g 0) (cpos g) sidx) := by
  refine h.trans ⟨fun ok => ?_, le_rfl⟩
  refine ⟨?_, ?_, ?_, ok.pool⟩
  · intro r hr
    simp only [rels_add_here, c64, List.mem_append, List.mem_singleton] at hr
    simp only [rels_add_here, c64, List.length_append, le_bytes_length]
    rcases hr with hr | hr
    · have := ok.rels_in r hr; omega
    · subst hr; simp [cpos]
  · simp only [rels_add_here, c64]
    rw [List.pairwise_append]
    refine ⟨ok.rels_sep, List.pairwise_singleton _ _, ?_⟩
    intro a ha b hb
    simp only [List.mem_singleton] at hb
    subst hb
    exact ok.rels_in a ha
  · intro r hr
    simp only [rels_add_here, c64, List.mem_append, List.mem_singleton] at hr
    rcases hr with hr | hr
    · exact ok.rels_idx r hr
    · subst hr; exact hi

theorem ext_mov_rdi_str {g0 g : Gen} (sidx : Nat) (h : Ext g0 g)
    (hi : sidx < g.strs.offs.length) : Ext g0 (mov_rdi_str g sidx) :=
  ext_rel_slot sidx (ext_c8 _ (ext_c8 _ h)) hi

theorem ext_mov_rsi_str {g0 g : Gen} (sidx : Nat) (h : Ext g0 g)
    (hi : sidx < g.strs.offs.length) : Ext g0 (mov_rsi_str g sidx) :=
  ext_rel_slot sidx (ext_c8 _ (ext_c8 _ h)) hi

theorem ext_write_literal {g0 g : Gen} (s : List Nat) (h : Ext g0 g) :
    Ext g0 (write_literal g s) := by
  obtain ⟨h1, h2⟩ := ext_add_str s h
  exact ext_sys_write (ext_mov_rdx_imm64 _ (ext_mov_rdi_imm64 _ (ext_mov_rsi_str _ h1 h2)))

theorem ext_build_argv_loop {g0 : Gen} (sidxv : List Nat) :
    ∀ (i : Nat) (g : Gen), Ext g0 g → (∀ s ∈ sidxv, s < g.strs.offs.length) →
      Ext g0 (build_argv_loop i sidxv g) := by
  induction sidxv with
  | nil => intro i g h _; exact h
  | cons s rest ih =>
    intro i g h hs
    have h1 : Ext g0 (mov_m8_rdi_disp32_rax
        (rels_add_here (c64 (c8 (c8 g 0x48) 0xB8) 0) (cpos (c8 (c8 g 0x48) 0xB8)) s) (i * 8)) :=
      ext_mov_m8 _ (ext_rel_slot s (ext_c8 _ (ext_c8 _ h)) (hs s (List.mem_cons_self _ _)))
    refine ih (i + 1) _ h1 ?_
    intro t ht
    exact hs t (List.mem_cons_of_mem _ ht)

theorem ext_build_argv {g0 g : Gen} (off : Nat) (sidxv : List Nat) (h : Ext g0 g)
    (hs : ∀ s ∈ sidxv, s < g.strs.offs.length) : Ext g0 (build_argv g off sidxv) :=
  ext_mov_rsi_rdi (ext_mov_m8 _ (ext_mov_rax_imm32 _
    (ext_build_argv_loop sidxv 0 _ (ext_mov_rdi_imm64 _ h) hs)))

theorem ext_emit_redir_in {g0 g : Gen} (path : List Nat) (h : Ext g0 g) :
    Ext g0 (emit_redir_in g path) := by
  obtain ⟨h1, h2⟩ := ext_add_str path h
  exact ext_sys_close (ext_mov_rdi_rax (ext_sys_dup2 (ext_mov_rsi_imm64 _ (ext_mov_rdi_rax
    (ext_sys_openat (ext_xor_r10_r10 (ext_mov_rdx_imm64 _
      (ext_mov_rsi_str _ (ext_mov_rdi_imm64 _ h1) h2))))))))

theorem ext_emit_redir_out {g0 g : Gen} (path : List Nat) (append : Nat) (h : Ext g0 g) :
    Ext g0 (emit_redir_out g path append) := by
  obtain ⟨h1, h2⟩ := ext_add_str path h
  exact ext_sys_close (ext_mov_rdi_rax (ext_sys_dup2 (ext_mov_rsi_imm64 _ (ext_mov_rdi_rax
    (ext_sys_openat (ext_mov_r10_imm64 _ (ext_mov_rdx_imm64 _
      (ext_mov_rsi_str _ (ext_mov_rdi_imm64 _ h1) h2))))))))

theorem ext_emit_redirs {g0 g : Gen} (i o : Option (List Nat)) (append : Nat) (h : Ext g0 g) :
    Ext g0 (emit_redirs g i o append) := by
  cases i <;> cases o <;> simp only [emit_redirs]
  · exact h
  · exact ext_emit_redir_out _ _ h
  · exact ext_emit_redir_in _ h
  · exact ext_emit_redir_out _ _ (ext_emit_redir_in _ h)

theorem ext_echo_args {g0 : Gen} : ∀ (args : List (List Nat)) (g : Gen), Ext g0 g →
    Ext g0 (echo_args args g)
  | [], _, h => h
  | [a], _, h => ext_write_literal a h
  | a :: b :: rest, _, h =>
    ext_echo_args (b :: rest) _ (ext_write_literal _ (ext_write_literal a h))

theorem ext_emit_builtin {g0 g : Gen} (st : Stage) (h : Ext g0 g) :
    Ext g0 (emit_builtin g st) := by
  unfold emit_builtin
  split
  · exact ext_write_literal _ (ext_echo_args _ _ h)
  · split
    · split
      · obtain ⟨h1, h2⟩ := ext_add_str (st.argv.getD 1 []) h
        exact ext_sys_chdir (ext_mov_rdi_str _ h1 h2)
      · exact h
    · split
      · exact ext_sys_exit (ext_mov_rdi_imm64 _ h)
      · exact h

theorem ext_add_argv {g0 : Gen} : ∀ (args : List (List Nat)) (g : Gen), Ext g0 g →
    Ext g0 (add_argv args g).1 ∧
      ∀ s ∈ (add_argv args g).2, s < (add_argv args g).1.strs.offs.length
  | [], _, h => ⟨h, by intro s hs; cases hs⟩
  | a :: rest, g, h => by
    obtain ⟨h1, h2⟩ := ext_add_str a h
    obtain ⟨h3, h4⟩ := ext_add_argv rest _ h1
    have h5 : Ext (add_str g a).1 (add_argv rest (add_str g a).1).1 :=
      (ext_add_argv rest _ (Ext.refl _)).1
    refine ⟨h3, ?_⟩
    intro s hs
    simp only [add_argv, List.mem_cons] at hs
    rcases hs with hs | hs
    · subst hs
      exact lt_of_lt_of_le h2 h5.2
    · exact h4 s hs

theorem ext_exec_failed {g0 g : Gen} (h : Ext g0 g) : Ext g0 (exec_failed g) :=
  ext_sys_exit (ext_mov_rdi_imm64 _ (ext_write_literal _ h))

theorem ext_exec_paths {g0 g : Gen} (s1 s2 : Nat) (h : Ext g0 g)
    (i1 : s1 < g.strs.offs.length) (i2 : s2 < g.strs.offs.length) :
    Ext g0 (exec_paths g s1 s2) := by
  have m : Ext g (patch_here
      (jne_rel32 (c8 (c8 (c8 (sys_execve (mov_rdi_str g s1)) 0x48) 0x85) 0xC0)).1
      (jne_rel32 (c8 (c8 (c8 (sys_execve (mov_rdi_str g s1)) 0x48) 0x85) 0xC0)).2) :=
    ext_patch_here _ (ext_jne_rel32 (ext_c8 _ (ext_c8 _ (ext_c8 _
      (ext_sys_execve (ext_mov_rdi_str _ (Ext.refl _) i1))))))
  exact ext_exec_failed (ext_sys_execve (ext_mov_rdi_str _ (h.trans m) (lt_of_lt_of_le i2 m.2)))

theorem ext_exec_dispatch {g0 g : Gen} (cmd0 : List Nat) (s0 : Nat) (h : Ext g0 g)
    (i0 : s0 < g.strs.offs.length) : Ext g0 (exec_dispatch g cmd0 s0) := by
  unfold exec_dispatch
  split
  · exact ext_exec_failed (ext_sys_execve (ext_mov_rdi_str _ h i0))
  · obtain ⟨h5, i1⟩ := ext_add_str (snprintf256 (bytes "/bin/") cmd0) h
    obtain ⟨h6, i2⟩ := ext_add_str (snprintf256 (bytes "/usr/bin/") cmd0) h5
    have e6 := (ext_add_str (g := (add_str g (snprintf256 (bytes "/bin/") cmd0)).1)
      (snprintf256 (bytes "/usr/bin/") cmd0) (Ext.refl _)).1.2
    exact ext_exec_paths _ _ h6 (lt_of_lt_of_le i1 e6) i2

theorem ext_emit_exec {g0 g : Gen} (st : Stage) (a e : Nat) (h : Ext g0 g) :
    Ext g0 (emit_exec g st a e) := by
  obtain ⟨h1, hs⟩ := ext_add_argv st.argv g h
  have h3 := ext_mov_rdx_imm64
    ((build_argv (add_argv st.argv g).1 a (add_argv st.argv g).2).bss_base + e)
    (ext_build_argv a _ h1 hs)
  obtain ⟨h4, i0⟩ := ext_add_str st.cmd h3
  exact ext_exec_dispatch st.cmd _ h4 i0

theorem ext_emit_simple_cmd {g0 g : Gen} (st : Stage) (a e : Nat) (h : Ext g0 g) :
    Ext g0 (emit_simple_cmd g st a e) := by
  unfold emit_simple_cmd
  split
  · exact ext_emit_builtin st h
  · exact ext_sys_wait4 (ext_xor_r10_r10 (ext_xor_rdx_rdx (ext_xor_rsi_rsi (ext_c8 _ (ext_c8 _
      (ext_c8 _ (ext_patch_here _ (ext_emit_exec st a e (ext_emit_redirs _ _ _
        (ext_jne_rel32 (ext_c8 _ (ext_c8 _ (ext_c8 _ (ext_c8 _ (ext_sys_fork h)))))))))))))))

theorem ext_emit_child_prev {g0 g : Gen} (o : PipeOffs) (h : Ext g0 g) :
    Ext g0 (emit_child_prev g o) :=
  ext_sys_close (ext_mov_rdi_rax (ext_c8 _ (ext_c8 _ (ext_c8 _ (ext_mov_rdi_imm64 _
    (ext_sys_dup2 (ext_mov_rsi_imm64 _ (ext_mov_rdi_rax (ext_c8 _ (ext_c8 _ (ext_c8 _
      (ext_mov_rdi_imm64 _ h))))))))))))

theorem ext_emit_child_next {g0 g : Gen} (o : PipeOffs) (h : Ext g0 g) :
    Ext g0 (emit_child_next g o) :=
  ext_sys_close (ext_mov_rdi_rax (ext_mov_eax_mrdi (ext_mov_rdi_imm64 _
    (ext_sys_close (ext_mov_rdi_rax (ext_mov_eax_mrdi (ext_mov_rdi_imm64 _
      (ext_sys_dup2 (ext_mov_rsi_imm64 _ (ext_mov_rdi_rax (ext_mov_eax_mrdi
        (ext_mov_rdi_imm64 _ h))))))))))))

theorem ext_emit_parent_next {g0 g : Gen} (o : PipeOffs) (h : Ext g0 g) :
    Ext g0 (emit_parent_next g o) :=
  ext_sys_close (ext_mov_rdi_rax (ext_mov_eax_mrdi (ext_mov_rdi_imm64 _
    (ext_c8 _ (ext_c8 _ (ext_c8 _ (ext_mov_rdi_imm64 _ (ext_mov_eax_mrdi
      (ext_mov_rdi_imm64 _ h)))))))))

theorem ext_emit_stage {g0 g : Gen} (o : PipeOffs) (n i : Nat) (st : Stage) (h : Ext g0 g) :
    Ext g0 (emit_stage g o n i st) := by
  unfold emit_stage
  simp only []
  have h1 : Ext g0 (if (decide (i + 1 < n)) = true then
      sys_pipe (mov_rdi_imm64 g (g.bss_base + o.pipe_area_off)) else g) := by
    split
    · exact ext_sys_pipe (ext_mov_rdi_imm64 _ h)
    · exact h
  generalize (if (decide (i + 1 < n)) = true then
      sys_pipe (mov_rdi_imm64 g (g.bss_base + o.pipe_area_off)) else g) = g1 at h1 ⊢
  have h4 : Ext g0 (jne_rel32 (c8 (c8 (c8 (c8 (sys_fork g1) 0x48) 0x83) 0xF8) 0x00)).1 :=
    ext_jne_rel32 (ext_c8 _ (ext_c8 _ (ext_c8 _ (ext_c8 _ (ext_sys_fork h1)))))
  generalize (jne_rel32 (c8 (c8 (c8 (c8 (sys_fork g1) 0x48) 0x83) 0xF8) 0x00)) = j at h4 ⊢
  have h5 : Ext g0 (if i > 0 then emit_child_prev j.1 o else j.1) := by
    split
    · exact ext_emit_child_prev o h4
    · exact h4
  generalize (if i > 0 then emit_child_prev j.1 o else j.1) = g5 at h5 ⊢
  have h6 : Ext g0 (if (decide (i + 1 < n)) = true then emit_child_next g5 o else g5) := by
    split
    · exact ext_emit_child_next o h5
    · exact h5
  generalize (if (decide (i + 1 < n)) = true then emit_child_next g5 o else g5) = g6 at h6 ⊢
  have h7 := ext_emit_redirs st.in_redir st.out_redir st.out_append h6
  generalize emit_redirs g6 st.in_redir st.out_redir st.out_append = g7 at h7 ⊢
  have h8 : Ext g0 (if is_builtin st.cmd = true then
      sys_exit (mov_rdi_imm64 (emit_builtin g7 st) 0)
    else emit_exec { g7 with bss_off := g7.bss_off + 8 * (st.argv.length + 1) } st g7.bss_off
      o.envp_off) := by
    split
    · exact ext_sys_exit (ext_mov_rdi_imm64 _ (ext_emit_builtin st h7))
    · exact ext_emit_exec st _ _ (ext_bss _ h7)
  generalize (if is_builtin st.cmd = true then
      sys_exit (mov_rdi_imm64 (emit_builtin g7 st) 0)
    else emit_exec { g7 with bss_off := g7.bss_off + 8 * (st.argv.length + 1) } st g7.bss_off
      o.envp_off) = g8 at h8 ⊢
  have h11 := ext_c8 0x07 (ext_c8 0x89 (ext_c8 0x48
    (ext_mov_rdi_imm64 ((patch_here g8 j.2).bss_base + o.pid_arr_off + i * 8)
      (ext_patch_here j.2 h8))))
  split
  · exact ext_emit_parent_next o h11
  · exact h11

theorem ext_emit_stages {g0 : Gen} (o : PipeOffs) (n : Nat) :
    ∀ (sts : List Stage) (i : Nat) (g : Gen), Ext g0 g → Ext g0 (emit_stages o n i sts g)
  | [], _, _, h => h
  | st :: rest, i, _, h => ext_emit_stages o n rest (i + 1) _ (ext_emit_stage o n i st h)

theorem ext_emit_wait {g0 g : Gen} (o : PipeOffs) (i : Nat) (h : Ext g0 g) :
    Ext g0 (emit_wait g o i) :=
  ext_sys_wait4 (ext_xor_r10_r10 (ext_xor_rdx_rdx (ext_xor_rsi_rsi (ext_mov_rdi_rax
    (ext_c8 _ (ext_c8 _ (ext_c8 _ (ext_mov_rdi_imm64 _ h))))))))

theorem ext_wait_loop {g0 : Gen} (o : PipeOffs) (l : List Nat) :
    ∀ g : Gen, Ext g0 g → Ext g0 (l.foldl (fun acc i => emit_wait acc o i) g) := by
  induction l with
  | nil => intro g h; exact h
  | cons i rest ih =>
    intro g h
    rw [List.foldl_cons]
    exact ih (emit_wait g o i) (ext_emit_wait o i h)

theorem ext_emit_pipeline {g0 g : Gen} (pl : Pipeline) (h : Ext g0 g) :
    Ext g0 (emit_pipeline g pl) := by
  unfold emit_pipeline
  simp only []
  refine ext_wait_loop _ _ _ (ext_patch_here _ (ext_sys_close (ext_mov_rdi_rax (ext_je_rel32
    (ext_c8 _ (ext_c8 _ (ext_c8 _ (ext_c8 _ (ext_c8 _ (ext_c8 _ (ext_c8 _
      (ext_mov_rdi_imm64 _ (ext_emit_stages _ _ _ _ _ (ext_c8 _ (ext_c8 _ (ext_c8 _
        (ext_mov_rdx_imm64 _ (ext_mov_rdi_imm64 _ (ext_bss _ h)))))))))))))))))))

theorem ext_gen_pipeline {g0 g : Gen} (pl : Pipeline) (h : Ext g0 g) :
    Ext g0 (gen_pipeline g pl) := by
  unfold gen_pipeline
  split
  · simp only []
    split
    · exact ext_emit_builtin _ h
    · exact ext_emit_simple_cmd _ _ _ (ext_bss _ h)
  · exact ext_emit_pipeline pl h

theorem ext_gen_loop {g0 : Gen} (sc : Script) :
    ∀ g : Gen, Ext g0 g → Ext g0 (sc.foldl gen_pipeline g) := by
  induction sc with
  | nil => intro g h; exact h
  | cons pl rest ih =>
    intro g h
    rw [List.foldl_cons]
    exact ih (gen_pipeline g pl) (ext_gen_pipeline pl h)

/-- The state produced by `gen_script` has a sound relocation list. -/
theorem gen_script_ok (g : Gen) (sc : Script) : (gen_script g sc).ok := by
  have h0 : Gen.ok { g with code := [], strs := ⟨[], []⟩, rels := [], bss_off := 0 } :=
    Gen.ok.mk (by intro r hr; cases hr) List.Pairwise.nil (by intro r hr; cases hr) ⟨[], rfl⟩
  exact (ext_sys_exit (ext_mov_rdi_imm64 0 (ext_gen_loop sc _ (Ext.refl _)))).1 h0

/-! ## Relocation slots after `write_elf` -/

theorem write_at_eq (buf : List Nat) (off : Nat) (bs : List Nat)
    (h : off + bs.length ≤ buf.length) :
    write_at buf off bs = buf.take off ++ bs ++ buf.drop (off + bs.length) := by
  unfold write_at
  apply List.take_of_length_le
  simp only [List.length_take, List.length_append, List.length_drop]
  omega

theorem write_at_take_le (buf : List Nat) (off k : Nat) (bs : List Nat)
    (h : off + bs.length ≤ buf.length) (hk : k ≤ off) :
    (write_at buf off bs).take k = buf.take k := by
  rw [write_at_eq buf off bs h, List.append_assoc,
    List.take_append_of_le_length (by simp only [List.length_take]; omega), List.take_take]
  congr 1
  omega

theorem write_at_take_end (buf : List Nat) (off : Nat) (bs : List Nat)
    (h : off + bs.length ≤ buf.length) :
    (write_at buf off bs).take (off + bs.length) = buf.take off ++ bs := by
  rw [write_at_eq buf off bs h]
  have : off + bs.length = (buf.take off ++ bs).length := by
    simp only [List.length_take, List.length_append]; omega
  rw [this, List.take_left]

theorem apply_rels_take (offs : List Nat) (base k : Nat) (rels : List Rel) :
    ∀ code : List Nat, (∀ r ∈ rels, k ≤ r.at_ ∧ r.at_ + 8 ≤ code.length) →
      (apply_rels code offs base rels).take k = code.take k := by
  induction rels with
  | nil => intro code _; rfl
  | cons r rest ih =>
    intro code h
    have hr := h r (List.mem_cons_self _ _)
    rw [apply_rels, ih]
    · exact write_at_take_le _ _ _ _ (by rw [le_bytes_length]; exact hr.2) hr.1
    · intro x hx
      rw [write_at_length]
      exact h x (List.mem_cons_of_mem _ hx)

/-- After the relocation loop every slot holds the eight bytes of
`ro_base_vaddr + offs[idx]`. -/
theorem apply_rels_slot (offs : List Nat) (base : Nat) (rels : List Rel) :
    ∀ code : List Nat, (∀ r ∈ rels, r.at_ + 8 ≤ code.length) →
      rels.Pairwise (fun a b => a.at_ + 8 ≤ b.at_) →
      ∀ r ∈ rels, ((apply_rels code offs base rels).drop r.at_).take 8 =
        le_bytes 8 (base + offs.getD r.str_idx 0) := by
  induction rels with
  | nil => intro code _ _ r hr; cases hr
  | cons x rest ih =>
    intro code hin hsep r hr
    rw [List.pairwise_cons] at hsep
    have hx := hin x (List.mem_cons_self _ _)
    rcases List.mem_cons.mp hr with h | h
    · subst h
      have h1 := apply_rels_take offs base (r.at_ + 8) rest
        (write_at code r.at_ (le_bytes 8 (base + offs.getD r.str_idx 0)))
        (by
          intro y hy
          rw [write_at_length]
          exact ⟨hsep.1 y hy, hin y (List.mem_cons_of_mem _ hy)⟩)
      have h2 := write_at_take_end code r.at_ (le_bytes 8 (base + offs.getD r.str_idx 0))
        (by rw [le_bytes_length]; exact hx)
      rw [le_bytes_length] at h2
      rw [apply_rels, List.take_drop, h1, h2]
      have : r.at_ = (code.take r.at_).length := by
        simp only [List.length_take]; omega
      rw [List.drop_append_of_le_length (by omega), List.drop_of_length_le (by omega),
        List.nil_append]
    · rw [apply_rels]
      exact ih _ (by
        intro y hy
        rw [write_at_length]
        exact hin y (List.mem_cons_of_mem _ hy)) hsep.2 r h

theorem le_val_le_bytes (n : Nat) : ∀ v : Nat, le_val (le_bytes n v) = v % 256 ^ n := by
  induction n with
  | zero => intro v; simp [le_bytes, le_val, Nat.mod_one]
  | succ k ih =>
    intro v
    rw [le_bytes, le_val, ih, pow_succ', Nat.mod_mul]

/-- Entry `i` of a pool built by `sp_add` starts at `offs[i]` and is followed
by its NUL. -/
theorem pool_of_entry (ss : List (List Nat)) :
    (pool_of ss).offs.length = ss.length ∧
      ∀ i, i < ss.length → ∃ rest,
        (pool_of ss).pool.drop ((pool_of ss).offs.getD i 0) = cstr (ss.getD i []) ++ 0 :: rest := by
  induction ss using List.reverseRecOn with
  | nil => exact ⟨rfl, by intro i hi; cases hi⟩
  | append_singleton ss s ih =>
    obtain ⟨hlen, hent⟩ := ih
    rw [pool_of_snoc]
    refine ⟨by simp [sp_add, hlen], ?_⟩
    intro i hi
    simp only [List.length_append, List.length_singleton] at hi
    by_cases hlt : i < ss.length
    · obtain ⟨rest, hrest⟩ := hent i hlt
      have hget : ((pool_of ss).offs ++ [(pool_of ss).pool.length]).getD i 0 =
          (pool_of ss).offs.getD i 0 := by
        rw [List.getD_append _ _ _ _ (by omega)]
      have hle : (pool_of ss).offs.getD i 0 ≤ (pool_of ss).pool.length := by
        by_contra hc
        rw [List.drop_of_length_le (by omega)] at hrest
        exact absurd hrest (by simp)
      refine ⟨rest ++ (cstr s ++ [0]), ?_⟩
      simp only [sp_add]
      rw [hget, List.append_assoc, List.drop_append_of_le_length hle, hrest,
        List.getD_append _ _ _ _ hlt]
      simp
    · have hi2 : i = ss.length := by omega
      subst hi2
      refine ⟨[], ?_⟩
      simp only [sp_add]
      rw [List.getD_append_right _ _ _ _ (by omega), List.getD_append_right _ _ _ _ (le_refl _)]
      simp [hlen]

theorem hdr_length (X M : Nat) :
    (ehdr_bytes ++ phdr_bytes 5 0 0x400000 0x400000 X X 0x1000 ++
      phdr_bytes 6 0 0x600000 0x600000 0 M 0x1000).length = 0xB0 := by
  have he : ehdr_bytes.length = 64 := by decide
  simp only [List.length_append, he, phdr_bytes, le_bytes_length]

/-- For a generator state with a sound relocation list, the file holds at every
slot the address `0x400000 + F`, with `F` the file offset of the pool entry. -/
theorem reloc_slot_sound (g : Gen) (ok : g.ok) (ss : List (List Nat)) (hss : g.strs = pool_of ss)
    (hsz : 0x400000 + 0xB0 + g.code.length + g.strs.pool.length < 2 ^ 64)
    (r : Rel) (hr : r ∈ g.rels) :
    r.str_idx < ss.length ∧
      rd64 (write_elf g) (0xB0 + r.at_) =
        0x400000 + (0xB0 + g.code.length + g.strs.offs.getD r.str_idx 0) ∧
      ((write_elf g).drop (0xB0 + g.code.length + g.strs.offs.getD r.str_idx 0)).take
          ((cstr (ss.getD r.str_idx [])).length + 1) = cstr (ss.getD r.str_idx []) ++ [0] ∧
      g.strs.offs.getD r.str_idx 0 < g.strs.pool.length := by
  obtain ⟨hlen, hent⟩ := pool_of_entry ss
  have hidx : r.str_idx < ss.length := by
    have := ok.rels_idx r hr
    rw [hss, hlen] at this
    exact this
  obtain ⟨rest, hrest⟩ := hent r.str_idx hidx
  rw [← hss] at hrest
  have ho : g.strs.offs.getD r.str_idx 0 < g.strs.pool.length := by
    by_contra hc
    rw [List.drop_of_length_le (by omega)] at hrest
    exact absurd hrest (by simp)
  have hslot := apply_rels_slot g.strs.offs (0x400000 + (0xB0 + g.code.length)) g.rels g.code
    ok.rels_in ok.rels_sep r hr
  have hin := ok.rels_in r hr
  have hl := write_elf_layout g
  have hH := hdr_length (g.code.length + g.strs.pool.length)
    (if g.bss_off ≠ 0 then g.bss_off else 0x1000)
  refine ⟨hidx, ?_, ?_, ho⟩
  · unfold rd64
    rw [hl, ← hH, List.drop_append,
      List.drop_append_of_le_length (by rw [patched_code_length]; omega),
      List.take_append_of_le_length
        (by rw [List.length_drop, patched_code_length]; omega)]
    change le_val (List.take 8 (List.drop r.at_
      (apply_rels g.code g.strs.offs (0x400000 + (0xB0 + g.code.length)) g.rels))) = _
    rw [hslot, le_val_le_bytes, hH]
    have h256 : (256 : Nat) ^ 8 = 2 ^ 64 := by norm_num
    rw [Nat.mod_eq_of_lt (by omega)]
    omega
  · have e1 : 0xB0 + g.code.length + g.strs.offs.getD r.str_idx 0 =
        0xB0 + ((patched_code g).length + g.strs.offs.getD r.str_idx 0) := by
      rw [patched_code_length]; omega
    rw [hl, e1, ← hH, List.drop_append, List.drop_append, hrest]
    have : (cstr (ss.getD r.str_idx [])).length + 1 =
        (cstr (ss.getD r.str_idx []) ++ [0]).length := by simp
    rw [this, show cstr (ss.getD r.str_idx []) ++ 0 :: rest =
      (cstr (ss.getD r.str_idx []) ++ [0]) ++ rest by simp, List.take_left]

/-- C3: for every accepted script and every recorded relocation `(at, idx)`, the
eight-byte little-endian value that the written file holds at offset `0xB0 + at`
equals `0x400000 + F`, where `F = 0xB0 + code_len + offs[idx]` is the file offset
at which pool string `idx` begins (the file holds the string and its NUL from
`F` on); the value lies in `[ro_base_vaddr, ro_base_vaddr + ro_len)` for
`ro_base_vaddr = 0x400000 + 0xB0 + code_len`, the address of the first pool
byte.  Sizes are those of a 64-bit machine: the image ends below `2^64`. -/
theorem reloc_value (src : List Nat) (sc : Script) (g : Gen) (_hacc : parse src = .ok sc)
    (hg : g = gen_script Gen.start sc)
    (hsz : 0x400000 + 0xB0 + g.code.length + g.strs.pool.length < 2 ^ 64) :
    ∃ ss : List (List Nat), g.strs = pool_of ss ∧
      ∀ r ∈ g.rels,
        r.str_idx < ss.length ∧
        rd64 (write_elf g) (0xB0 + r.at_) =
          0x400000 + (0xB0 + g.code.length + g.strs.offs.getD r.str_idx 0) ∧
        ((write_elf g).drop (0xB0 + g.code.length + g.strs.offs.getD r.str_idx 0)).take
          ((cstr (ss.getD r.str_idx [])).length + 1) = cstr (ss.getD r.str_idx []) ++ [0] ∧
        0x400000 + (0xB0 + g.code.length) ≤ rd64 (write_elf g) (0xB0 + r.at_) ∧
        rd64 (write_elf g) (0xB0 + r.at_) <
          0x400000 + (0xB0 + g.code.length) + g.strs.pool.length := by
  have ok : g.ok := by rw [hg]; exact gen_script_ok _ _
  obtain ⟨ss, hss⟩ := ok.pool
  refine ⟨ss, hss, fun r hr => ?_⟩
  obtain ⟨h1, h2, h3, h4⟩ := reloc_slot_sound g ok ss hss hsz r hr
  refine ⟨h1, h2, h3, ?_, ?_⟩ <;> rw [h2] <;> omega

/-- Witness for C3 on the script `cat < in.txt`. -/
theorem reloc_value_witness :
    parse (bytes "cat < in.txt") = .ok [[⟨[bytes "cat"], some (bytes "in.txt"), none, 0⟩]] ∧
      ∃ ss : List (List Nat),
        (gen_script Gen.start [[⟨[bytes "cat"], some (bytes "in.txt"), none, 0⟩]]).strs =
          pool_of ss ∧
        ∀ r ∈ (gen_script Gen.start [[⟨[bytes "cat"], some (bytes "in.txt"), none, 0⟩]]).rels,
          r.str_idx < ss.length ∧
          rd64 (write_elf (gen_script Gen.start
              [[⟨[bytes "cat"], some (bytes "in.txt"), none, 0⟩]])) (0xB0 + r.at_) =
            0x400000 + (0xB0 +
              (gen_script Gen.start
                [[⟨[bytes "cat"], some (bytes "in.txt"), none, 0⟩]]).code.length +
              (gen_script Gen.start
                [[⟨[bytes "cat"], some (bytes "in.txt"), none, 0⟩]]).strs.offs.getD r.str_idx 0) :=
  ⟨by decide,
    (reloc_value (bytes "cat < in.txt") [[⟨[bytes "cat"], some (bytes "in.txt"), none, 0⟩]]
      _ (by decide) rfl (by decide!)).imp
      fun _ h => ⟨h.1, fun r hr => ⟨(h.2 r hr).1, (h.2 r hr).2.1⟩⟩⟩

/-! ## Progress of `parse_word` and of the main loop -/

theorem word_end_word {buf p w rest : List Nat} (h : word_end buf p = .word w rest) :
    w = buf ∧ rest = p ∧ buf ≠ [] := by
  unfold word_end at h
  split at h
  · cases h
  · rename_i hne
    cases h
    exact ⟨rfl, rfl, by intro hb; apply hne; rw [hb]; rfl⟩

theorem word_end_stay {buf p w rest : List Nat} (h : word_end buf p = .word w rest) :
    rest <:+ p ∧ (rest.length = p.length → w = buf) ∧ w ≠ [] := by
  obtain ⟨h1, h2, h3⟩ := word_end_word h
  subst h1 h2
  exact ⟨List.suffix_refl _, fun _ => rfl, h3⟩

theorem suffix_step {c : Nat} {p r : List Nat} (hr : r <:+ p) :
    r <:+ c :: p ∧ r.length < (c :: p).length :=
  ⟨hr.trans (List.suffix_cons c p), by
    have := hr.length_le
    simp only [List.length_cons]
    omega⟩

theorem suffix_step2 {c d : Nat} {q r : List Nat} (hr : r <:+ q) :
    r <:+ c :: d :: q ∧ r.length < (c :: d :: q).length :=
  ⟨(hr.trans (List.suffix_cons d q)).trans (List.suffix_cons c _), by
    have := hr.length_le
    simp only [List.length_cons]
    omega⟩

/-- What `parse_word` leaves is a suffix of its input and the word is not
empty; a quoted run always consumes bytes, the outer loop does so unless it
returns the buffer as it is. -/
theorem pw_suffix (n : Nat) : ∀ p : List Nat, p.length ≤ n → ∀ buf w rest : List Nat,
    (pw_bare buf p = .word w rest →
      rest <:+ p ∧ (rest.length = p.length → w = buf) ∧ w ≠ []) ∧
    (pw_dq buf p = .word w rest → rest <:+ p ∧ rest.length < p.length ∧ w ≠ []) ∧
    (pw_sq buf p = .word w rest → rest <:+ p ∧ rest.length < p.length ∧ w ≠ []) := by
  induction n with
  | zero =>
    intro p hp buf w rest
    have : p = [] := List.length_eq_zero.mp (Nat.le_zero.mp hp)
    subst this
    refine ⟨?_, ?_, ?_⟩
    · intro h
      rw [pw_bare] at h
      exact word_end_stay h
    · intro h; rw [pw_dq] at h; cases h
    · intro h; rw [pw_sq] at h; cases h
  | succ n ih =>
    intro p hp buf w rest
    cases p with
    | nil =>
      refine ⟨?_, ?_, ?_⟩
      · intro h
        rw [pw_bare] at h
        exact word_end_stay h
      · intro h; rw [pw_dq] at h; cases h
      · intro h; rw [pw_sq] at h; cases h
    | cons c p =>
      have hp1 : p.length ≤ n := by simpa using hp
      have bare1 : ∀ b : List Nat, pw_bare b p = .word w rest →
          rest <:+ c :: p ∧ rest.length < (c :: p).length ∧ w ≠ [] := fun b h =>
        ⟨(suffix_step ((ih p hp1 b w rest).1 h).1).1,
          (suffix_step ((ih p hp1 b w rest).1 h).1).2, ((ih p hp1 b w rest).1 h).2.2⟩
      have dq1 : ∀ b : List Nat, pw_dq b p = .word w rest →
          rest <:+ c :: p ∧ rest.length < (c :: p).length ∧ w ≠ [] := fun b h =>
        ⟨(suffix_step ((ih p hp1 b w rest).2.1 h).1).1,
          (suffix_step ((ih p hp1 b w rest).2.1 h).1).2, ((ih p hp1 b w rest).2.1 h).2.2⟩
      have sq1 : ∀ b : List Nat, pw_sq b p = .word w rest →
          rest <:+ c :: p ∧ rest.length < (c :: p).length ∧ w ≠ [] := fun b h =>
        ⟨(suffix_step ((ih p hp1 b w rest).2.2 h).1).1,
          (suffix_step ((ih p hp1 b w rest).2.2 h).1).2, ((ih p hp1 b w rest).2.2 h).2.2⟩
      have weak : rest <:+ c :: p ∧ rest.length < (c :: p).length ∧ w ≠ [] →
          rest <:+ c :: p ∧ (rest.length = (c :: p).length → w = buf) ∧ w ≠ [] :=
        fun h => ⟨h.1, fun e => by omega, h.2.2⟩
      refine ⟨?_, ?_, ?_⟩
      · intro h
        rw [pw_bare.eq_def] at h; simp only [] at h
        split at h
        · exact word_end_stay h
        · split at h
          · split at h
            · cases h
            · rename_i d q
              split at h
              · cases h
              · have hq : q.length ≤ n := by simp only [List.length_cons] at hp1; omega
                have h2 := (ih q hq _ w rest).1 h
                exact weak ⟨(suffix_step2 h2.1).1, (suffix_step2 h2.1).2, h2.2.2⟩
          · split at h
            · exact weak (dq1 _ h)
            · split at h
              · exact weak (sq1 _ h)
              · split at h
                · exact word_end_stay h
                · exact weak (bare1 _ h)
      · intro h
        rw [pw_dq.eq_def] at h; simp only [] at h
        split at h
        · cases h
        · split at h
          · exact bare1 _ h
          · split at h
            · split at h
              · cases h
              · rename_i d q
                have hq : q.length ≤ n := by simp only [List.length_cons] at hp1; omega
                have key : ∀ b : List Nat, pw_dq b q = .word w rest →
                    rest <:+ c :: d :: q ∧ rest.length < (c :: d :: q).length ∧ w ≠ [] :=
                  fun b h =>
                    ⟨(suffix_step2 ((ih q hq b w rest).2.1 h).1).1,
                      (suffix_step2 ((ih q hq b w rest).2.1 h).1).2,
                      ((ih q hq b w rest).2.1 h).2.2⟩
                split at h
                · cases h
                · split at h
                  · exact key _ h
                  · split at h
                    · exact key _ h
                    · exact key _ h
            · exact dq1 _ h
      · intro h
        rw [pw_sq.eq_def] at h; simp only [] at h
        split at h
        · cases h
        · split at h
          · exact bare1 _ h
          · exact sq1 _ h

/-- A word returned by `parse_word` is non-empty and what is left is a strictly
shorter suffix of the input. -/
theorem parse_word_progress {p w rest : List Nat} (h : parse_word p = .word w rest) :
    w ≠ [] ∧ rest <:+ p ∧ rest.length < p.length := by
  unfold parse_word at h
  have h1 := (pw_suffix p.length p le_rfl [] w rest).1 h
  refine ⟨h1.2.2, h1.1, ?_⟩
  have := h1.1.length_le
  rcases Nat.lt_or_ge rest.length p.length with hlt | hge
  · exact hlt
  · exact absurd (h1.2.1 (by omega)) h1.2.2

theorem skip_inline_ws_suffix (p : List Nat) : skip_inline_ws p <:+ p := by
  induction p with
  | nil => exact List.suffix_refl _
  | cons c p ih =>
    unfold skip_inline_ws
    split
    · exact ih.trans (List.suffix_cons c p)
    · exact List.suffix_refl _

theorem dropWhile_suffix (f : Nat → Bool) (p : List Nat) : p.dropWhile f <:+ p :=
  List.dropWhile_suffix f

/-- Every iteration of the main loop that continues has consumed input. -/
theorem parse_iter_progress {s s2 : PState} {p p2 : List Nat}
    (h : parse_iter s p = .next s2 p2) : p2 <:+ p ∧ p2.length < p.length := by
  unfold parse_iter at h
  have hws := skip_inline_ws_suffix p
  split at h
  · cases h
  · rename_i c q hq
    rw [hq] at hws
    have hlen := hws.length_le
    simp only [List.length_cons] at hlen
    have fin : ∀ {r : List Nat} {t : PState}, r <:+ q → Step.next t r = Step.next s2 p2 →
        p2 <:+ p ∧ p2.length < p.length := by
      intro r t hr e
      cases e
      exact ⟨(hr.trans (List.suffix_cons c q)).trans hws, by have := hr.length_le; omega⟩
    split at h
    · cases h
    · split at h
      · rename_i hc
        unfold sep_branch at h
        have hd : (c :: q).dropWhile is_sep = q.dropWhile is_sep := by
          rw [List.dropWhile_cons]
          simp [is_sep, hc]
        rw [hd] at h
        repeat' split at h
        all_goals first | exact fin (List.dropWhile_suffix _) h | cases h
      · split at h
        · unfold pipe_branch at h
          repeat' split at h
          all_goals first | exact fin (List.suffix_refl _) h | cases h
        · split at h
          · have key : ∀ (a : Nat) (r : List Nat), r <:+ q →
                redir_target s c a r = .next s2 p2 → p2 <:+ p ∧ p2.length < p.length := by
              intro a r hp2 h
              unfold redir_target at h
              simp only at h
              split at h
              · cases h
              · split at h
                · cases h
                · cases h
                · rename_i target p3 hw
                  have h3 := (parse_word_progress hw).2.1
                  split at h <;> exact fin (h3.trans hp2) h
            unfold redir_branch at h
            split at h
            · exact key _ _ ((skip_inline_ws_suffix _).trans (List.tail_suffix q)) h
            · exact key _ _ (skip_inline_ws_suffix _) h
          · unfold word_branch at h
            split at h
            · cases h
            · cases h
            · rename_i w p3 hw
              have h3 := parse_word_progress hw
              cases h
              exact ⟨h3.2.1.trans hws, by have := h3.2.2; simp only [List.length_cons] at this; omega⟩

/-! ## The loop bound of the model is never reached -/

theorem parse_loop_step (fuel : Nat) (s : PState) (p : List Nat) :
    parse_loop (fuel + 1) s p =
      match parse_iter s p with
      | .error e => .error e
      | .done s2 => end_result s2
      | .next s2 p2 => parse_loop fuel s2 p2 := by
  rw [parse_loop]
  rfl

/-- Any two loop bounds above the length of the text give the same result. -/
theorem parse_loop_fuel (f : Nat) : ∀ (f2 : Nat) (s : PState) (p : List Nat),
    p.length < f → p.length < f2 → parse_loop f s p = parse_loop f2 s p := by
  induction f with
  | zero => intro f2 s p h; omega
  | succ f ih =>
    intro f2 s p h h2
    cases f2 with
    | zero => omega
    | succ f2 =>
      rw [parse_loop_step, parse_loop_step]
      cases hit : parse_iter s p with
      | error e => rfl
      | done s2 => rfl
      | next s2 p2 =>
        have := (parse_iter_progress hit).2
        exact ih f2 s2 p2 (by omega) (by omega)

/-- With a bound above the length of the text the loop finishes. -/
theorem parse_loop_finishes (f : Nat) : ∀ (s : PState) (p : List Nat),
    p.length < f → parse_loop f s p ≠ .out_of_fuel := by
  induction f with
  | zero => intro s p h; omega
  | succ f ih =>
    intro s p h
    rw [parse_loop_step]
    cases hit : parse_iter s p with
    | error e => simp
    | done s2 =>
      simp only [end_result]
      cases parse_end s2 <;> simp
    | next s2 p2 =>
      have := (parse_iter_progress hit).2
      exact ih s2 p2 (by omega)

/-- The loop as a recursion on the text, without a bound. -/
theorem parse_from_step (s : PState) (p : List Nat) :
    parse_from s p =
      match parse_iter s p with
      | .error e => .error e
      | .done s2 => end_result s2
      | .next s2 p2 => parse_from s2 p2 := by
  unfold parse_from
  rw [parse_loop_step]
  cases hit : parse_iter s p with
  | error e => rfl
  | done s2 => rfl
  | next s2 p2 =>
    have := (parse_iter_progress hit).2
    exact parse_loop_fuel _ _ s2 p2 (by omega) (by omega)

theorem parse_eq_from (src : List Nat) : parse src = parse_from PState.init src := rfl

theorem parse_never_out_of_fuel (src : List Nat) : parse src ≠ .out_of_fuel :=
  parse_loop_finishes _ _ _ (Nat.lt_succ_self _)

theorem parse_from_of_iter_next {s s2 : PState} {p p2 : List Nat}
    (h : parse_iter s p = .next s2 p2) : parse_from s p = parse_from s2 p2 := by
  rw [parse_from_step, h]

theorem parse_from_of_iter_done {s s2 : PState} {p : List Nat}
    (h : parse_iter s p = .done s2) : parse_from s p = end_result s2 := by
  rw [parse_from_step, h]

theorem parse_from_of_iter_error {s : PState} {p : List Nat} {e : ParseError}
    (h : parse_iter s p = .error e) : parse_from s p = .error e := by
  rw [parse_from_step, h]

/-- A run to the end of the loop determines the result. -/
theorem Runs.result {s s2 : PState} {p : List Nat} (h : Runs s p s2) :
    parse_from s p = end_result s2 := by
  induction h with
  | done hit => exact parse_from_of_iter_done hit
  | next hit _ ih => rw [parse_from_of_iter_next hit, ih]

/-- An accepted text has a run to the end of the loop. -/
theorem runs_of_ok (n : Nat) : ∀ (s : PState) (p : List Nat) (sc : Script), p.length ≤ n →
    parse_from s p = .ok sc → ∃ s2, Runs s p s2 ∧ parse_end s2 = .ok sc := by
  induction n with
  | zero =>
    intro s p sc hp h
    rw [parse_from_step] at h
    cases hit : parse_iter s p with
    | error e => rw [hit] at h; cases h
    | done s2 =>
      rw [hit] at h
      simp only [end_result] at h
      refine ⟨s2, Runs.done hit, ?_⟩
      cases he : parse_end s2 with
      | error e => rw [he] at h; cases h
      | ok sc2 => rw [he] at h; cases h; rfl
    | next s2 p2 =>
      have := (parse_iter_progress hit).2
      omega
  | succ n ih =>
    intro s p sc hp h
    rw [parse_from_step] at h
    cases hit : parse_iter s p with
    | error e => rw [hit] at h; cases h
    | done s2 =>
      rw [hit] at h
      simp only [end_result] at h
      refine ⟨s2, Runs.done hit, ?_⟩
      cases he : parse_end s2 with
      | error e => rw [he] at h; cases h
      | ok sc2 => rw [he] at h; cases h; rfl
    | next s2 p2 =>
      rw [hit] at h
      have := (parse_iter_progress hit).2
      obtain ⟨s3, hr, he⟩ := ih s2 p2 sc (by omega) h
      exact ⟨s3, Runs.next hit hr, he⟩


/-! ## Locality of `parse_word` and of one loop iteration -/

theorem terminator_not_special {t : Nat} (h : is_token_terminator t = true) :
    t ≠ 92 ∧ t ≠ 34 ∧ t ≠ 39 := by
  refine ⟨?_, ?_, ?_⟩ <;> (intro e; subst e; revert h; decide)

theorem pw_bare_at_terminator (buf : List Nat) {t : Nat} (x : List Nat)
    (h : is_token_terminator t = true) : pw_bare buf (t :: x) = word_end buf (t :: x) := by
  obtain ⟨h1, h2, h3⟩ := terminator_not_special h
  rw [pw_bare.eq_def]
  simp only [h1, h2, h3, h, if_false, if_true, ite_self]

/-- A word that `parse_word` finds in a NUL-free text is found unchanged when
the text is followed by a token terminator and anything after it. -/
theorem pw_append (n : Nat) : ∀ p : List Nat, p.length ≤ n → (∀ c ∈ p, c ≠ 0) →
    ∀ (buf w rest : List Nat) (t : Nat) (x : List Nat), is_token_terminator t = true →
    (pw_bare buf p = .word w rest → pw_bare buf (p ++ t :: x) = .word w (rest ++ t :: x)) ∧
    (pw_dq buf p = .word w rest → pw_dq buf (p ++ t :: x) = .word w (rest ++ t :: x)) ∧
    (pw_sq buf p = .word w rest → pw_sq buf (p ++ t :: x) = .word w (rest ++ t :: x)) := by
  induction n with
  | zero =>
    intro p hp _ buf w rest t x ht
    have : p = [] := List.length_eq_zero.mp (Nat.le_zero.mp hp)
    subst this
    refine ⟨?_, ?_, ?_⟩
    · intro h
      rw [pw_bare] at h
      obtain ⟨h1, h2, h3⟩ := word_end_word h
      subst h1 h2
      rw [List.nil_append, pw_bare_at_terminator _ _ ht]
      simp [word_end, h3]
    · intro h; rw [pw_dq] at h; cases h
    · intro h; rw [pw_sq] at h; cases h
  | succ n ih =>
    intro p hp h0 buf w rest t x ht
    cases p with
    | nil =>
      refine ⟨?_, ?_, ?_⟩
      · intro h
        rw [pw_bare] at h
        obtain ⟨h1, h2, h3⟩ := word_end_word h
        subst h1 h2
        rw [List.nil_append, pw_bare_at_terminator _ _ ht]
        simp [word_end, h3]
      · intro h; rw [pw_dq] at h; cases h
      · intro h; rw [pw_sq] at h; cases h
    | cons c p =>
      have hp1 : p.length ≤ n := by simpa using hp
      have hc0 : c ≠ 0 := h0 c (List.mem_cons_self _ _)
      have hp0 : ∀ d ∈ p, d ≠ 0 := fun d hd => h0 d (List.mem_cons_of_mem _ hd)
      have IH := fun b => ih p hp1 hp0 b w rest t x ht
      refine ⟨?_, ?_, ?_⟩
      · intro h
        rw [pw_bare.eq_def] at h ⊢
        simp only [List.cons_append, hc0, if_false] at h ⊢
        by_cases h1 : c = 92
        · simp only [h1, if_true] at h ⊢
          cases p with
          | nil => cases h
          | cons d q =>
            have hd0 : d ≠ 0 := hp0 d (List.mem_cons_self _ _)
            have hq : q.length ≤ n := by simp only [List.length_cons] at hp1; omega
            simp only [List.cons_append, hd0, if_false] at h ⊢
            exact (ih q hq (fun e he => hp0 e (List.mem_cons_of_mem _ he)) _ w rest t x ht).1 h
        · simp only [h1, if_false] at h ⊢
          by_cases h2 : c = 34
          · simp only [h2, if_true] at h ⊢
            exact (IH _).2.1 h
          · simp only [h2, if_false] at h ⊢
            by_cases h3 : c = 39
            · simp only [h3, if_true] at h ⊢
              exact (IH _).2.2 h
            · simp only [h3, if_false] at h ⊢
              by_cases h4 : is_token_terminator c = true
              · simp only [h4, if_true] at h ⊢
                obtain ⟨e1, e2, e3⟩ := word_end_word h
                subst e1 e2
                simp [word_end, e3]
              · simp only [h4, if_false] at h ⊢
                exact (IH _).1 h
      · intro h
        rw [pw_dq.eq_def] at h ⊢
        simp only [List.cons_append, hc0, if_false] at h ⊢
        by_cases h1 : c = 34
        · simp only [h1, if_true] at h ⊢
          exact (IH _).1 h
        · simp only [h1, if_false] at h ⊢
          by_cases h2 : c = 92
          · simp only [h2, if_true] at h ⊢
            cases p with
            | nil => cases h
            | cons d q =>
              have hd0 : d ≠ 0 := hp0 d (List.mem_cons_self _ _)
              have hq : q.length ≤ n := by simp only [List.length_cons] at hp1; omega
              have IQ := fun b => (ih q hq (fun e he => hp0 e (List.mem_cons_of_mem _ he))
                b w rest t x ht).2.1
              simp only [List.cons_append, hd0, if_false] at h ⊢
              split at h
              · rename_i hd
                rw [if_pos hd]
                exact IQ _ h
              · rename_i hd
                rw [if_neg hd]
                split at h
                · rename_i hd2
                  rw [if_pos hd2]
                  exact IQ _ h
                · rename_i hd2
                  rw [if_neg hd2]
                  exact IQ _ h
          · simp only [h2, if_false] at h ⊢
            exact (IH _).2.1 h
      · intro h
        rw [pw_sq.eq_def] at h ⊢
        simp only [List.cons_append, hc0, if_false] at h ⊢
        by_cases h1 : c = 39
        · simp only [h1, if_true] at h ⊢
          exact (IH _).1 h
        · simp only [h1, if_false] at h ⊢
          exact (IH _).2.2 h

theorem parse_word_append {p w rest : List Nat} (h0 : ∀ c ∈ p, c ≠ 0)
    (h : parse_word p = .word w rest) (t : Nat) (x : List Nat)
    (ht : is_token_terminator t = true) :
    parse_word (p ++ t :: x) = .word w (rest ++ t :: x) :=
  (pw_append p.length p le_rfl h0 [] w rest t x ht).1 h


theorem nul_free_suffix {p q : List Nat} (h : q <:+ p) (h0 : ∀ c ∈ p, c ≠ 0) :
    ∀ c ∈ q, c ≠ 0 := fun c hc => h0 c (h.subset hc)

theorem skip_inline_ws_idem (p : List Nat) :
    skip_inline_ws (skip_inline_ws p) = skip_inline_ws p := by
  induction p with
  | nil => rfl
  | cons c p ih =>
    by_cases h : c = 32 ∨ c = 9 ∨ c = 13
    · simp only [skip_inline_ws, h, if_true, ih]
    · have e : skip_inline_ws (c :: p) = c :: p := by simp only [skip_inline_ws, h, if_false]
      rw [e, e]

theorem skip_inline_ws_append_nil {p : List Nat} (x : List Nat) (h : skip_inline_ws p = []) :
    skip_inline_ws (p ++ x) = skip_inline_ws x := by
  induction p with
  | nil => rfl
  | cons c p ih =>
    by_cases hc : c = 32 ∨ c = 9 ∨ c = 13
    · simp only [skip_inline_ws, hc, if_true, List.cons_append] at h ⊢
      exact ih h
    · simp only [skip_inline_ws, hc, if_false] at h
      cases h

theorem skip_inline_ws_append_cons {p q : List Nat} {c : Nat} (x : List Nat)
    (h : skip_inline_ws p = c :: q) : skip_inline_ws (p ++ x) = c :: (q ++ x) := by
  induction p with
  | nil => cases h
  | cons d p ih =>
    by_cases hd : d = 32 ∨ d = 9 ∨ d = 13
    · simp only [skip_inline_ws, hd, if_true, List.cons_append] at h ⊢
      exact ih h
    · simp only [skip_inline_ws, hd, if_false, List.cons_append] at h ⊢
      cases h
      rfl

theorem skip_inline_ws_head (p : List Nat) {c : Nat} {q : List Nat}
    (h : skip_inline_ws p = c :: q) : ¬ (c = 32 ∨ c = 9 ∨ c = 13) := by
  have := skip_inline_ws_idem p
  rw [h] at this
  intro hc
  simp only [skip_inline_ws, hc, if_true] at this
  have h1 := (skip_inline_ws_suffix q).length_le
  rw [this] at h1
  simp at h1

theorem parse_iter_at (s : PState) {p q : List Nat} {c : Nat} (h : skip_inline_ws p = c :: q) :
    parse_iter s p =
      if c = 0 then .done s
      else if c = 10 ∨ c = 59 then sep_branch s (c :: q)
      else if c = 124 then pipe_branch s q
      else if c = 62 ∨ c = 60 then redir_branch s c q
      else word_branch s (c :: q) := by
  unfold parse_iter
  rw [h]

/-- One iteration depends on the text only through what follows the inline
white space. -/
theorem parse_iter_skip (s : PState) (p : List Nat) :
    parse_iter s (skip_inline_ws p) = parse_iter s p := by
  unfold parse_iter
  rw [skip_inline_ws_idem]

theorem parse_from_skip (s : PState) (p : List Nat) :
    parse_from s (skip_inline_ws p) = parse_from s p := by
  rw [parse_from_step, parse_from_step s p, parse_iter_skip]

theorem sep_branch_fresh {s s2 : PState} {p p2 : List Nat}
    (h : sep_branch s p = .next s2 p2) : s2.fresh := by
  unfold sep_branch at h
  split at h
  · cases h
  · split at h
    · cases h
    · rename_i cur st hr
      have hst : st.argv = [] ∧ st.in_redir = none ∧ st.out_redir = none := by
        rcases close_stage_ok hr with ⟨_, _, h3⟩ | ⟨h1, h2, h3, _, h5⟩
        · subst h3; exact ⟨rfl, rfl, rfl⟩
        · subst h5; exact ⟨h1, h2, h3⟩
      split at h
      · cases h
        exact ⟨rfl, rfl, hst.1, hst.2.1, hst.2.2⟩
      · rename_i hlen
        have hcur : cur = [] := List.length_eq_zero.mp (by omega)
        cases h
        exact ⟨rfl, hcur, hst.1, hst.2.1, hst.2.2⟩

/-- Between statements, leading separators change nothing. -/
theorem parse_from_fresh_seps {s : PState} (hs : s.fresh) (x : List Nat) :
    parse_from s (x.dropWhile is_sep) = parse_from s x := by
  cases x with
  | nil => rfl
  | cons c q =>
    by_cases hc : c = 10 ∨ c = 59
    · have hws : skip_inline_ws (c :: q) = c :: q := by
        have : ¬ (c = 32 ∨ c = 9 ∨ c = 13) := by omega
        simp only [skip_inline_ws, this, if_false]
      have hc0 : c ≠ 0 := by omega
      have hit : parse_iter s (c :: q) = .next s ((c :: q).dropWhile is_sep) := by
        obtain ⟨h1, h2, h3, h4, h5⟩ := hs
        unfold parse_iter
        rw [hws]
        simp only [hc0, hc, if_false, if_true]
        unfold sep_branch close_stage
        obtain ⟨sc, cur, st, e⟩ := s
        simp only at h1 h2 h3 h4 h5
        subst h1 h2
        simp [h3, h4, h5]
      rw [parse_from_of_iter_next hit]
    · have : is_sep c = false := by simp [is_sep, hc]
      rw [List.dropWhile_cons, this]
      rfl


theorem redir_target_append {s s1 : PState} {op a : Nat} {r r1 : List Nat}
    (h0 : ∀ c ∈ r, c ≠ 0) (h : redir_target s op a r = .next s1 r1) (t : Nat) (x : List Nat)
    (ht : is_token_terminator t = true) :
    redir_target s op a (r ++ t :: x) = .next s1 (r1 ++ t :: x) := by
  unfold redir_target at h ⊢
  simp only at h ⊢
  cases r with
  | nil => simp at h
  | cons d r =>
    simp only [List.cons_append, List.headD_cons] at h ⊢
    split at h
    · cases h
    · rename_i hd
      rw [if_neg hd]
      split at h
      · cases h
      · cases h
      · rename_i target p3 hw
        have := parse_word_append h0 hw t x ht
        rw [List.cons_append] at this
        rw [this]
        simp only []
        split at h
        · rename_i ho
          rw [if_pos ho]; cases h; rfl
        · rename_i ho
          rw [if_neg ho]; cases h; rfl

/-- One continuing iteration on a NUL-free text behaves the same when the text
is followed by a token terminator and anything after it. -/
theorem parse_iter_append {s s1 : PState} {p p1 : List Nat} (h0 : ∀ c ∈ p, c ≠ 0)
    (h : parse_iter s p = .next s1 p1) (t : Nat) (x : List Nat)
    (ht : is_token_terminator t = true) :
    parse_from s (p ++ t :: x) = parse_from s1 (p1 ++ t :: x) := by
  have hws := skip_inline_ws_suffix p
  unfold parse_iter at h
  split at h
  · cases h
  · rename_i c q hq
    rw [hq] at hws
    have hq0 := nul_free_suffix hws h0
    have hc0 : c ≠ 0 := hq0 c (List.mem_cons_self _ _)
    have hskip := skip_inline_ws_append_cons (t :: x) hq
    have hstep : ∀ r, parse_iter s (p ++ t :: x) = .next s1 r →
        parse_from s (p ++ t :: x) = parse_from s1 r := fun r hr => parse_from_of_iter_next hr
    simp only [hc0, if_false] at h
    split at h
    · rename_i hc
      have hfresh := sep_branch_fresh h
      have hit : parse_iter s (p ++ t :: x) =
          .next s1 ((c :: (q ++ t :: x)).dropWhile is_sep) := by
        unfold parse_iter
        rw [hskip]
        simp only [hc0, hc, if_false, if_true]
        unfold sep_branch at h ⊢
        repeat' split at h
        all_goals cases h
        all_goals simp_all
      rw [hstep _ hit]
      have hp1 : p1 = (c :: q).dropWhile is_sep := by
        unfold sep_branch at h
        repeat' split at h
        all_goals cases h
        all_goals rfl
      have hd : (c :: (q ++ t :: x)).dropWhile is_sep =
          if ((c :: q).dropWhile is_sep).isEmpty then (t :: x).dropWhile is_sep
          else (c :: q).dropWhile is_sep ++ t :: x := by
        rw [← List.cons_append, List.dropWhile_append]
      rw [hd, ← hp1]
      cases p1 with
      | nil =>
        simp only [List.isEmpty_nil, if_true, List.nil_append]
        exact parse_from_fresh_seps hfresh _
      | cons e p1 => simp
    · split at h
      · rename_i hc
        have hit : parse_iter s (p ++ t :: x) = .next s1 (p1 ++ t :: x) := by
          unfold parse_iter
          rw [hskip]
          simp only [hc0, hc, if_false, if_true]
          unfold pipe_branch at h ⊢
          repeat' split at h
          all_goals cases h
          all_goals simp_all
        exact hstep _ hit
      · split at h
        · rename_i hn1 hn2 hc
          have hit : parse_iter s (p ++ t :: x) = .next s1 (p1 ++ t :: x) := by
            unfold parse_iter
            rw [hskip]
            simp only [hc0, hn1, hn2, hc, if_false, if_true]
            unfold redir_branch at h ⊢
            cases q with
            | nil =>
              simp only [List.headD_nil, List.tail_nil] at h
              have : ¬ (c = 62 ∧ (0 : Nat) = 62) := by omega
              rw [if_neg this] at h
              simp [redir_target, skip_inline_ws] at h
            | cons d q =>
              have hq1 := fun e he => hq0 e (List.mem_cons_of_mem _ he)
              simp only [List.cons_append, List.headD_cons, List.tail_cons] at h ⊢
              split at h
              · rename_i hop
                rw [if_pos hop]
                cases hs2 : skip_inline_ws q with
                | nil => rw [hs2] at h; simp [redir_target] at h
                | cons e r =>
                  rw [hs2] at h
                  rw [skip_inline_ws_append_cons (t :: x) hs2, ← List.cons_append]
                  have hsf : e :: r <:+ q := by rw [← hs2]; exact skip_inline_ws_suffix _
                  exact redir_target_append
                    (nul_free_suffix (hsf.trans (List.suffix_cons d q)) hq1) h t x ht
              · rename_i hop
                rw [if_neg hop]
                cases hs2 : skip_inline_ws (d :: q) with
                | nil => rw [hs2] at h; simp [redir_target] at h
                | cons e r =>
                  rw [hs2] at h
                  have := skip_inline_ws_append_cons (t :: x) hs2
                  rw [List.cons_append] at this
                  rw [this, ← List.cons_append]
                  have hsf : e :: r <:+ d :: q := by rw [← hs2]; exact skip_inline_ws_suffix _
                  exact redir_target_append (nul_free_suffix hsf hq1) h t x ht
          exact hstep _ hit
        · rename_i hn1 hn2 hn3
          have hit : parse_iter s (p ++ t :: x) = .next s1 (p1 ++ t :: x) := by
            unfold parse_iter
            rw [hskip]
            simp only [hc0, hn1, hn2, hn3, if_false]
            unfold word_branch at h ⊢
            split at h
            · cases h
            · cases h
            · rename_i w p2 hw
              have := parse_word_append hq0 hw t x ht
              rw [List.cons_append] at this
              rw [this]
              cases h
              rfl
          exact hstep _ hit

/-- The loop on a NUL-free text, followed by a token terminator and anything
after it, continues on that rest in the state in which the text alone leaves
the loop. -/
theorem runs_append {s s2 : PState} {p : List Nat} (h : Runs s p s2) :
    (∀ c ∈ p, c ≠ 0) → ∀ (t : Nat) (x : List Nat), is_token_terminator t = true →
      parse_from s (p ++ t :: x) = parse_from s2 (t :: x) := by
  induction h with
  | @done s s2 p hit =>
    intro h0 t x _
    have hs := parse_iter_done hit
    subst hs
    have hnil : skip_inline_ws p = [] := by
      unfold parse_iter at hit
      split at hit
      · assumption
      · rename_i c q hq
        have hsf : c :: q <:+ p := by rw [← hq]; exact skip_inline_ws_suffix _
        have hc0 : c ≠ 0 := nul_free_suffix hsf h0 c (List.mem_cons_self _ _)
        simp only [hc0, if_false] at hit
        unfold sep_branch pipe_branch redir_branch redir_target word_branch at hit
        simp only at hit
        exfalso
        repeat (first | contradiction | split at hit)
    rw [← parse_from_skip, skip_inline_ws_append_nil _ hnil, parse_from_skip]
  | @next s s1 s2 p p1 hit _ ih =>
    intro h0 t x ht
    rw [parse_iter_append h0 hit t x ht]
    exact ih (nul_free_suffix (parse_iter_progress hit).1 h0) t x ht


/-! ## A NUL byte ends the source like the end of the buffer -/

theorem word_end_extend (buf p x : List Nat) :
    (word_end buf p).extend x = word_end buf (p ++ x) := by
  unfold word_end
  split <;> rfl

/-- On a NUL-free text followed by a NUL, `parse_word` does what it does on the
text alone. -/
theorem pw_nul (n : Nat) : ∀ p : List Nat, p.length ≤ n → (∀ c ∈ p, c ≠ 0) →
    ∀ (buf x : List Nat),
      pw_bare buf (p ++ 0 :: x) = (pw_bare buf p).extend (0 :: x) ∧
      pw_dq buf (p ++ 0 :: x) = (pw_dq buf p).extend (0 :: x) ∧
      pw_sq buf (p ++ 0 :: x) = (pw_sq buf p).extend (0 :: x) := by
  induction n with
  | zero =>
    intro p hp _ buf x
    have : p = [] := List.length_eq_zero.mp (Nat.le_zero.mp hp)
    subst this
    refine ⟨?_, ?_, ?_⟩
    · rw [List.nil_append, pw_bare.eq_def, pw_bare]
      simp only [if_true, word_end_extend, List.nil_append]
    · rw [List.nil_append, pw_dq.eq_def, pw_dq]
      simp [WordRes.extend]
    · rw [List.nil_append, pw_sq.eq_def, pw_sq]
      simp [WordRes.extend]
  | succ n ih =>
    intro p hp h0 buf x
    cases p with
    | nil =>
      refine ⟨?_, ?_, ?_⟩
      · rw [List.nil_append, pw_bare.eq_def, pw_bare]
        simp only [if_true, word_end_extend, List.nil_append]
      · rw [List.nil_append, pw_dq.eq_def, pw_dq]
        simp [WordRes.extend]
      · rw [List.nil_append, pw_sq.eq_def, pw_sq]
        simp [WordRes.extend]
    | cons c p =>
      have hp1 : p.length ≤ n := by simpa using hp
      have hc0 : c ≠ 0 := h0 c (List.mem_cons_self _ _)
      have hp0 : ∀ d ∈ p, d ≠ 0 := fun d hd => h0 d (List.mem_cons_of_mem _ hd)
      have IH := fun b => ih p hp1 hp0 b x
      refine ⟨?_, ?_, ?_⟩
      · rw [List.cons_append, pw_bare.eq_def, pw_bare.eq_def buf (c :: p)]
        simp only [hc0, if_false]
        by_cases h1 : c = 92
        · simp only [h1, if_true]
          cases p with
          | nil => simp [WordRes.extend]
          | cons d q =>
            have hd0 : d ≠ 0 := hp0 d (List.mem_cons_self _ _)
            have hq : q.length ≤ n := by simp only [List.length_cons] at hp1; omega
            simp only [List.cons_append, hd0, if_false]
            exact (ih q hq (fun e he => hp0 e (List.mem_cons_of_mem _ he)) _ x).1
        · simp only [h1, if_false]
          by_cases h2 : c = 34
          · simp only [h2, if_true]
            exact (IH _).2.1
          · simp only [h2, if_false]
            by_cases h3 : c = 39
            · simp only [h3, if_true]
              exact (IH _).2.2
            · simp only [h3, if_false]
              by_cases h4 : is_token_terminator c = true
              · simp only [h4, if_true, word_end_extend, List.cons_append]
              · simp only [h4, if_false]
                exact (IH _).1
      · rw [List.cons_append, pw_dq.eq_def, pw_dq.eq_def buf (c :: p)]
        simp only [hc0, if_false]
        by_cases h1 : c = 34
        · simp only [h1, if_true]
          exact (IH _).1
        · simp only [h1, if_false]
          by_cases h2 : c = 92
          · simp only [h2, if_true]
            cases p with
            | nil => simp [WordRes.extend]
            | cons d q =>
              have hd0 : d ≠ 0 := hp0 d (List.mem_cons_self _ _)
              have hq : q.length ≤ n := by simp only [List.length_cons] at hp1; omega
              have IQ := fun b => (ih q hq (fun e he => hp0 e (List.mem_cons_of_mem _ he))
                b x).2.1
              simp only [List.cons_append, hd0, if_false]
              split
              · exact IQ _
              · split
                · exact IQ _
                · exact IQ _
          · simp only [h2, if_false]
            exact (IH _).2.1
      · rw [List.cons_append, pw_sq.eq_def, pw_sq.eq_def buf (c :: p)]
        simp only [hc0, if_false]
        by_cases h1 : c = 39
        · simp only [h1, if_true]
          exact (IH _).1
        · simp only [h1, if_false]
          exact (IH _).2.2

theorem parse_word_nul {p : List Nat} (h0 : ∀ c ∈ p, c ≠ 0) (x : List Nat) :
    parse_word (p ++ 0 :: x) = (parse_word p).extend (0 :: x) :=
  (pw_nul p.length p le_rfl h0 [] x).1

theorem redir_target_nul (s : PState) (op a : Nat) {r : List Nat} (h0 : ∀ c ∈ r, c ≠ 0)
    (x : List Nat) :
    redir_target s op a (r ++ 0 :: x) = (redir_target s op a r).extend (0 :: x) := by
  unfold redir_target
  simp only
  have hh : (r ++ 0 :: x).headD 0 = r.headD 0 := by
    cases r <;> rfl
  rw [hh]
  split
  · rfl
  · rw [parse_word_nul h0]
    cases parse_word r with
    | error e => rfl
    | null => rfl
    | word w p3 =>
      simp only [WordRes.extend]
      split <;> rfl

/-- On a NUL-free text followed by a NUL, one iteration of the loop does what
it does on the text alone. -/
theorem parse_iter_nul (s : PState) {p : List Nat} (h0 : ∀ c ∈ p, c ≠ 0) (x : List Nat) :
    parse_iter s (p ++ 0 :: x) = (parse_iter s p).extend (0 :: x) := by
  cases hq : skip_inline_ws p with
  | nil =>
    have h1 : skip_inline_ws (p ++ 0 :: x) = 0 :: x := by
      rw [skip_inline_ws_append_nil _ hq]
      rfl
    rw [parse_iter_at s h1, if_pos rfl]
    unfold parse_iter
    rw [hq]
    rfl
  | cons c q =>
    have hsf : c :: q <:+ p := by rw [← hq]; exact skip_inline_ws_suffix _
    have hq0 := nul_free_suffix hsf h0
    have hc0 : c ≠ 0 := hq0 c (List.mem_cons_self _ _)
    have hq1 : ∀ d ∈ q, d ≠ 0 := fun d hd => hq0 d (List.mem_cons_of_mem _ hd)
    rw [parse_iter_at s (skip_inline_ws_append_cons (0 :: x) hq), parse_iter_at s hq,
      if_neg hc0, if_neg hc0]
    split
    · unfold sep_branch
      have hd : (c :: (q ++ 0 :: x)).dropWhile is_sep = (c :: q).dropWhile is_sep ++ 0 :: x := by
        rw [← List.cons_append, List.dropWhile_append]
        split
        · rename_i he
          rw [List.isEmpty_iff.mp he]
          rfl
        · rfl
      rw [hd]
      split
      · rfl
      · cases close_stage s.cur s.st with
        | error e => rfl
        | ok r =>
          obtain ⟨cur, st⟩ := r
          simp only
          split <;> rfl
    · split
      · unfold pipe_branch
        split
        · rfl
        · cases finish_stage s.cur s.st with
          | error e => rfl
          | ok r => rfl
      · split
        · unfold redir_branch
          cases q with
          | nil =>
            have hn : ¬ (c = 62 ∧ ([] : List Nat).headD 0 = 62) := by
              intro h; cases h.2
            have hn2 : ¬ (c = 62 ∧ ([] ++ 0 :: x : List Nat).headD 0 = 62) := by
              intro h; cases h.2
            rw [if_neg hn, if_neg hn2]
            unfold redir_target
            simp [skip_inline_ws]
            rfl
          | cons d q =>
            simp only [List.cons_append, List.headD_cons, List.tail_cons]
            have key : ∀ r : List Nat, (∀ e ∈ r, e ≠ 0) → ∀ a : Nat,
                redir_target s c a (skip_inline_ws (r ++ 0 :: x)) =
                  (redir_target s c a (skip_inline_ws r)).extend (0 :: x) := by
              intro r hr a
              cases hs : skip_inline_ws r with
              | nil =>
                rw [skip_inline_ws_append_nil _ hs]
                unfold redir_target
                simp [skip_inline_ws]
                rfl
              | cons e r2 =>
                rw [skip_inline_ws_append_cons _ hs, ← List.cons_append]
                have hsf2 : e :: r2 <:+ r := by rw [← hs]; exact skip_inline_ws_suffix _
                exact redir_target_nul s c a (nul_free_suffix hsf2 hr) x
            split
            · exact key q (fun e he => hq1 e (List.mem_cons_of_mem _ he)) 1
            · have := key (d :: q) hq1 0
              rw [List.cons_append] at this
              exact this
        · unfold word_branch
          have := parse_word_nul hq0 x
          rw [List.cons_append] at this
          rw [this]
          cases parse_word (c :: q) with
          | error e => rfl
          | null => rfl
          | word w p2 => rfl

/-- The loop on a NUL-free text followed by a NUL gives what it gives on the
text alone. -/
theorem parse_from_nul (n : Nat) : ∀ (s : PState) (p : List Nat), p.length ≤ n →
    (∀ c ∈ p, c ≠ 0) → ∀ x : List Nat, parse_from s (p ++ 0 :: x) = parse_from s p := by
  induction n with
  | zero =>
    intro s p hp h0 x
    rw [parse_from_step, parse_from_step s p, parse_iter_nul s h0]
    cases hit : parse_iter s p with
    | error e => rfl
    | done s2 => rfl
    | next s2 p2 => have := (parse_iter_progress hit).2; omega
  | succ n ih =>
    intro s p hp h0 x
    rw [parse_from_step, parse_from_step s p, parse_iter_nul s h0]
    cases hit : parse_iter s p with
    | error e => rfl
    | done s2 => rfl
    | next s2 p2 =>
      have hp2 := parse_iter_progress hit
      exact ih s2 p2 (by omega) (nul_free_suffix hp2.1 h0) x

theorem cstr_nul_free (s : List Nat) : ∀ c ∈ cstr s, c ≠ 0 := by
  intro c hc
  have := List.mem_takeWhile_imp hc
  simpa using this

theorem dropWhile_head_false (f : Nat → Bool) : ∀ (s : List Nat) (c : Nat) (x : List Nat),
    s.dropWhile f = c :: x → f c = false := by
  intro s
  induction s with
  | nil => intro c x h; cases h
  | cons d s ih =>
    intro c x h
    rw [List.dropWhile_cons] at h
    split at h
    · exact ih c x h
    · rename_i hd
      cases h
      simpa using hd

/-- Every source is parsed as the C string it holds, which has no NUL byte. -/
theorem parse_cstr (s : List Nat) : parse s = parse (cstr s) := by
  have hsplit : s = cstr s ++ s.dropWhile (fun c => c ≠ 0) :=
    (List.takeWhile_append_dropWhile _ s).symm
  cases hd : s.dropWhile (fun c => decide (c ≠ 0)) with
  | nil =>
    rw [hd, List.append_nil] at hsplit
    rw [← hsplit]
  | cons c x =>
    have hc : c = 0 := by
      have := dropWhile_head_false _ s c x hd
      simpa using this
    subst hc
    rw [hd] at hsplit
    have := parse_from_nul (cstr s).length PState.init (cstr s) le_rfl (cstr_nul_free s) x
    rw [← hsplit] at this
    exact this


theorem cstr_of_nul_free (s : List Nat) (h : ∀ c ∈ s, c ≠ 0) : cstr s = s := by
  unfold cstr
  rw [List.takeWhile_eq_self_iff]
  intro c hc
  simpa using h c hc

/-- An accepted source has a run of the loop on the C string it holds. -/
theorem runs_of_accepted_cstr {src : List Nat} {sc : Script} (h : parse src = .ok sc) :
    ∃ s2, Runs PState.init (cstr src) s2 ∧ parse_end s2 = .ok sc := by
  rw [parse_cstr] at h
  exact runs_of_ok (cstr src).length PState.init (cstr src) sc le_rfl h

/-! ## Escapes and quotes -/

theorem pw_bare_escape_all (w : List Nat) (h0 : ∀ c ∈ w, c ≠ 0) :
    ∀ buf : List Nat, pw_bare buf (escape_all w) = word_end (buf ++ w) [] := by
  induction w with
  | nil => intro buf; rw [escape_all, pw_bare, List.append_nil]
  | cons c w ih =>
    intro buf
    have hc : c ≠ 0 := h0 c (List.mem_cons_self _ _)
    rw [escape_all, pw_bare.eq_def]
    simp only [hc, if_false, if_true, show (92 : Nat) ≠ 0 by decide]
    rw [ih (fun d hd => h0 d (List.mem_cons_of_mem _ hd)), List.append_assoc]
    rfl

theorem parse_iter_nil (s : PState) : parse_iter s [] = .done s := rfl

theorem parse_from_nil (s : PState) : parse_from s [] = end_result s := rfl

/-- C10: putting a backslash before every byte of a non-empty NUL-free byte
string `w` gives a source that is accepted and parses to one pipeline of one
stage whose argv is `[w]`, without redirections. -/
theorem escape_roundtrip (w : List Nat) (hne : w ≠ []) (h0 : ∀ c ∈ w, c ≠ 0) :
    parse (escape_all w) = .ok [[⟨[w], none, none, 0⟩]] := by
  cases w with
  | nil => exact absurd rfl hne
  | cons c w =>
    have hw : parse_word (escape_all (c :: w)) = .word (c :: w) [] := by
      unfold parse_word
      rw [pw_bare_escape_all _ h0]
      rfl
    have hit : parse_iter PState.init (escape_all (c :: w)) =
        .next ⟨[], [], ⟨[c :: w], none, none, 0⟩, false⟩ [] := by
      unfold parse_iter
      have : skip_inline_ws (escape_all (c :: w)) = escape_all (c :: w) := rfl
      rw [this]
      have e : escape_all (c :: w) = 92 :: c :: escape_all w := rfl
      rw [e] at hw ⊢
      simp only [show (92 : Nat) ≠ 0 by decide, show ¬ ((92 : Nat) = 10 ∨ (92 : Nat) = 59) by decide,
        show (92 : Nat) ≠ 124 by decide, show ¬ ((92 : Nat) = 62 ∨ (92 : Nat) = 60) by decide,
        if_false]
      unfold word_branch
      rw [hw]
      rfl
    rw [parse_eq_from, parse_from_of_iter_next hit, parse_from_nil]
    rfl

/-- Witness for C10 on the three bytes space, `|`, backslash. -/
theorem escape_roundtrip_witness :
    parse (escape_all [32, 124, 92]) = .ok [[⟨[[32, 124, 92]], none, none, 0⟩]] :=
  escape_roundtrip [32, 124, 92] (by decide) (by decide)

theorem dq_body_tail {c : Nat} {rest : List Nat} (h : dq_body (c :: rest) = true)
    (hc : c ≠ 92) : c ≠ 34 ∧ dq_body rest = true := by
  cases rest with
  | nil =>
    simp only [dq_body, Bool.and_eq_true, decide_eq_true_eq] at h
    exact ⟨h.2, rfl⟩
  | cons e rest =>
    simp only [dq_body, hc, if_false] at h
    split at h
    · cases h
    · rename_i h34
      exact ⟨h34, h⟩

theorem dq_decode_plain {c : Nat} (rest : List Nat) (hc : c ≠ 92) :
    dq_decode (c :: rest) = c :: dq_decode rest := by
  cases rest with
  | nil => rfl
  | cons e rest => simp only [dq_decode, hc, if_false]

/-- The inner loop of a double-quoted run computes `dq_decode` of the body and
hands over to the outer loop after the closing quote. -/
theorem pw_dq_body (n : Nat) : ∀ body : List Nat, body.length ≤ n → (∀ c ∈ body, c ≠ 0) →
    dq_body body = true → ∀ buf rest : List Nat,
      pw_dq buf (body ++ 34 :: rest) = pw_bare (buf ++ dq_decode body) rest := by
  induction n with
  | zero =>
    intro body hb _ _ buf rest
    have : body = [] := List.length_eq_zero.mp (Nat.le_zero.mp hb)
    subst this
    rw [List.nil_append, pw_dq.eq_def]
    simp [dq_decode]
  | succ n ih =>
    intro body hb h0 hok buf rest
    cases body with
    | nil =>
      rw [List.nil_append, pw_dq.eq_def]
      simp [dq_decode]
    | cons c body =>
      have hc0 : c ≠ 0 := h0 c (List.mem_cons_self _ _)
      have hb0 : ∀ d ∈ body, d ≠ 0 := fun d hd => h0 d (List.mem_cons_of_mem _ hd)
      have hb1 : body.length ≤ n := by simpa using hb
      by_cases hc : c = 92
      · subst hc
        cases body with
        | nil => simp [dq_body] at hok
        | cons e body =>
          have he0 : e ≠ 0 := hb0 e (List.mem_cons_self _ _)
          have hb2 : body.length ≤ n := by simp only [List.length_cons] at hb1; omega
          have hok2 : dq_body body = true := by simpa [dq_body] using hok
          have IH := fun b => ih body hb2 (fun d hd => hb0 d (List.mem_cons_of_mem _ hd)) hok2 b rest
          rw [List.cons_append, List.cons_append, pw_dq.eq_def]
          simp only [show (92 : Nat) ≠ 0 by decide, show (92 : Nat) ≠ 34 by decide, he0, if_false,
            if_true]
          simp only [dq_decode, if_true]
          split
          · rw [IH, List.append_assoc]; rfl
          · split
            · rw [IH]
            · rw [IH, List.append_assoc]; rfl
      · obtain ⟨h34, hok2⟩ := dq_body_tail hok hc
        rw [List.cons_append, pw_dq.eq_def]
        simp only [hc0, h34, hc, if_false]
        rw [ih body hb1 hb0 hok2, dq_decode_plain _ hc, List.append_assoc]
        rfl

/-- C9: for a NUL-free body in which every `"` follows an escaping backslash
and which does not end in an escaping backslash, `parse_word` on the body in
double quotes, followed by a token terminator or the end of the input, yields
the decoding of the body when that is not empty. -/
theorem dq_word (body rest : List Nat) (h0 : ∀ c ∈ body, c ≠ 0) (hok : dq_body body = true)
    (hne : dq_decode body ≠ []) (hrest : is_token_terminator (rest.headD 0) = true) :
    parse_word (34 :: body ++ 34 :: rest) = .word (dq_decode body) rest := by
  unfold parse_word
  rw [List.cons_append, pw_bare.eq_def]
  simp only [show (34 : Nat) ≠ 0 by decide, show (34 : Nat) ≠ 92 by decide, if_false, if_true]
  rw [pw_dq_body body.length body le_rfl h0 hok, List.nil_append]
  have hend : pw_bare (dq_decode body) rest = word_end (dq_decode body) rest := by
    cases rest with
    | nil => rw [pw_bare]
    | cons t x => exact pw_bare_at_terminator _ _ hrest
  rw [hend]
  unfold word_end
  rw [if_neg (by intro h; exact hne (List.length_eq_zero.mp h))]

/-- Witness for C9 on the body `a\"b\$ c\x`, followed by `;`. -/
theorem dq_word_witness :
    parse_word (34 :: [97, 92, 34, 98, 92, 36, 32, 99, 92, 120] ++ 34 :: [59, 100]) =
      .word [97, 34, 98, 36, 32, 99, 92, 120] [59, 100] :=
  dq_word [97, 92, 34, 98, 92, 36, 32, 99, 92, 120] [59, 100] (by decide) (by decide)
    (by decide) (by decide)


/-! ## Sources that end inside an unfinished construct -/

/-- An accepted source has a run of the loop from the initial state. -/
theorem runs_of_accepted {src : List Nat} {sc : Script} (h : parse src = .ok sc) :
    ∃ s2, Runs PState.init src s2 ∧ parse_end s2 = .ok sc :=
  runs_of_ok src.length PState.init src sc le_rfl h

/-- Without a closing quote the inner loop of a double-quoted run fails. -/
theorem pw_dq_unterminated (n : Nat) : ∀ w : List Nat, w.length ≤ n → (∀ c ∈ w, c ≠ 34) →
    ∀ buf : List Nat, pw_dq buf w = .error .unterminated_double_quote ∨
      pw_dq buf w = .error .unterminated_escape_in_quotes := by
  induction n with
  | zero =>
    intro w hw _ buf
    have : w = [] := List.length_eq_zero.mp (Nat.le_zero.mp hw)
    subst this
    left; rw [pw_dq]
  | succ n ih =>
    intro w hw h34 buf
    cases w with
    | nil => left; rw [pw_dq]
    | cons c w =>
      have hc : c ≠ 34 := h34 c (List.mem_cons_self _ _)
      have hw34 : ∀ d ∈ w, d ≠ 34 := fun d hd => h34 d (List.mem_cons_of_mem _ hd)
      have hw1 : w.length ≤ n := by simpa using hw
      rw [pw_dq.eq_def]
      simp only [hc, if_false]
      split
      · left; rfl
      · split
        · cases w with
          | nil => right; rfl
          | cons e w =>
            have hw2 : w.length ≤ n := by simp only [List.length_cons] at hw1; omega
            have IH := ih w hw2 (fun d hd => hw34 d (List.mem_cons_of_mem _ hd))
            simp only []
            split
            · right; rfl
            · split
              · exact IH _
              · split
                · exact IH _
                · exact IH _
        · exact ih w hw1 hw34 _

/-- Without a closing quote the inner loop of a single-quoted run fails. -/
theorem pw_sq_unterminated (w : List Nat) (h39 : ∀ c ∈ w, c ≠ 39) :
    ∀ buf : List Nat, pw_sq buf w = .error .unterminated_single_quote := by
  induction w with
  | nil => intro buf; rw [pw_sq]
  | cons c w ih =>
    intro buf
    have hc : c ≠ 39 := h39 c (List.mem_cons_self _ _)
    rw [pw_sq.eq_def]
    simp only [hc, if_false]
    split
    · rfl
    · exact ih (fun d hd => h39 d (List.mem_cons_of_mem _ hd)) _

/-- A word that fails makes the loop fail, whatever the state, when it comes
after a space. -/
theorem parse_from_space_word_error (s : PState) (c : Nat) (x : List Nat) (e : ParseError)
    (hc : c = 34 ∨ c = 39 ∨ c = 120) (h : parse_word (c :: x) = .error e) :
    parse_from s (32 :: c :: x) = .error e := by
  have hit : parse_iter s (32 :: c :: x) = .error e := by
    unfold parse_iter
    have hws : skip_inline_ws (32 :: c :: x) = c :: x := by
      rcases hc with hc | hc | hc <;> subst hc <;> rfl
    rw [hws]
    have h1 : c ≠ 0 := by omega
    have h2 : ¬ (c = 10 ∨ c = 59) := by omega
    have h3 : c ≠ 124 := by omega
    have h4 : ¬ (c = 62 ∨ c = 60) := by omega
    simp only [h1, h2, h3, h4, if_false]
    unfold word_branch
    rw [h]
  exact parse_from_of_iter_error hit

/-- C6: a source that ends inside an unfinished lexical construct is rejected.
For every accepted source `s` and every byte string `w`, NUL-free or not: `s`, a
space, `"` and `w` is rejected when `w` has no `"`; `s`, a space, `'` and `w` is
rejected when `w` has no `'`; `s` followed by a space, `x` and a backslash is
rejected as a trailing escape.  The source is the C string `cstr s` held in
`s`, which is `s` itself when `s` has no NUL byte (`cstr_of_nul_free`). -/
theorem unfinished_rejected (s : List Nat) (sc : Script) (hacc : parse s = .ok sc) :
    (∀ w : List Nat, (∀ c ∈ w, c ≠ 34) →
        parse (cstr s ++ [32, 34] ++ w) = .error .unterminated_double_quote ∨
        parse (cstr s ++ [32, 34] ++ w) = .error .unterminated_escape_in_quotes) ∧
      (∀ w : List Nat, (∀ c ∈ w, c ≠ 39) →
        parse (cstr s ++ [32, 39] ++ w) = .error .unterminated_single_quote) ∧
      parse (cstr s ++ [32, 120, 92]) = .error .trailing_escape := by
  obtain ⟨s2, hruns, _⟩ := runs_of_accepted_cstr hacc
  have key : ∀ x : List Nat, parse (cstr s ++ 32 :: x) = parse_from s2 (32 :: x) := fun x =>
    runs_append hruns (cstr_nul_free s) 32 x (by decide)
  refine ⟨?_, ?_, ?_⟩
  · intro w h34
    have e : cstr s ++ [32, 34] ++ w = cstr s ++ 32 :: 34 :: w := by simp
    rw [e, key]
    have hw : parse_word (34 :: w) = pw_dq [] w := by
      unfold parse_word
      rw [pw_bare.eq_def]
      simp
    rcases pw_dq_unterminated w.length w le_rfl h34 [] with h | h
    · left
      exact parse_from_space_word_error s2 34 w _ (Or.inl rfl) (by rw [hw, h])
    · right
      exact parse_from_space_word_error s2 34 w _ (Or.inl rfl) (by rw [hw, h])
  · intro w h39
    have e : cstr s ++ [32, 39] ++ w = cstr s ++ 32 :: 39 :: w := by simp
    rw [e, key]
    have hw : parse_word (39 :: w) = pw_sq [] w := by
      unfold parse_word
      rw [pw_bare.eq_def]
      simp
    exact parse_from_space_word_error s2 39 w _ (Or.inr (Or.inl rfl))
      (by rw [hw, pw_sq_unterminated w h39])
  · have e : cstr s ++ [32, 120, 92] = cstr s ++ 32 :: [120, 92] := by simp
    rw [e, key]
    exact parse_from_space_word_error s2 120 [92] _ (Or.inr (Or.inr rfl)) (by decide)

/-- Witness for C6 on `echo` followed by `"unterminated`, `'unterminated` and
`x\`. -/
theorem unfinished_rejected_witness :
    (parse (bytes "echo" ++ [32, 34] ++ bytes "unterminated") =
        .error .unterminated_double_quote ∨
      parse (bytes "echo" ++ [32, 34] ++ bytes "unterminated") =
        .error .unterminated_escape_in_quotes) ∧
      parse (bytes "echo" ++ [32, 39] ++ bytes "unterminated") =
        .error .unterminated_single_quote ∧
      parse (bytes "echo" ++ [32, 120, 92]) = .error .trailing_escape :=
  have h := unfinished_rejected (bytes "echo") [[⟨[bytes "echo"], none, none, 0⟩]] (by decide)
  ⟨h.1 (bytes "unterminated") (by decide), h.2.1 (bytes "unterminated") (by decide), h.2.2⟩


/-! ## Statement separators compose scripts -/

theorem redir_target_tidy {s s1 : PState} {op a : Nat} {p p1 : List Nat} (hs : s.tidy)
    (h : redir_target s op a p = .next s1 p1) : s1.tidy := by
  unfold redir_target at h
  simp only at h
  split at h
  · cases h
  · split at h
    · cases h
    · cases h
    · split at h
      · cases h; exact hs
      · cases h; intro hn; cases hn

theorem parse_iter_tidy {s s1 : PState} {p p1 : List Nat} (hs : s.tidy)
    (h : parse_iter s p = .next s1 p1) : s1.tidy := by
  have hz : ∀ st : Stage, st = Stage.zero ∨ st = s.st → st.out_redir = none →
      st.out_append = 0 := by
    intro st hst
    rcases hst with e | e
    · subst e; intro _; rfl
    · subst e; exact hs
  unfold parse_iter at h
  split at h
  · cases h
  · split at h
    · cases h
    · split at h
      · unfold sep_branch at h
        split at h
        · cases h
        · split at h
          · cases h
          · rename_i cur st hr
            have hst : st = Stage.zero ∨ st = s.st := by
              rcases close_stage_ok hr with ⟨_, _, h3⟩ | ⟨_, _, _, _, h5⟩
              · exact Or.inl h3
              · exact Or.inr h5
            split at h <;> (cases h; exact hz st hst)
      · split at h
        · unfold pipe_branch at h
          split at h
          · cases h
          · rename_i hlen
            unfold finish_stage at h
            rw [if_neg hlen] at h
            cases h
            intro _
            rfl
        · split at h
          · unfold redir_branch at h
            split at h <;> exact redir_target_tidy hs h
          · unfold word_branch at h
            split at h
            · cases h
            · cases h
            · cases h; exact hs

theorem runs_tidy {s s2 : PState} {p : List Nat} (h : Runs s p s2) : s.tidy → s2.tidy := by
  induction h with
  | done hit => intro hs; rw [parse_iter_done hit]; exact hs
  | next hit _ ih => intro hs; exact ih (parse_iter_tidy hs hit)

/-- At a separator, a state that would end the parse with script `sc1` goes on
with `sc1` and nothing pending. -/
theorem sep_of_end {s : PState} {sc1 : Script} (hend : parse_end s = .ok sc1) (ht : s.tidy)
    (c : Nat) (x : List Nat) (hc : c = 10 ∨ c = 59) :
    parse_iter s (c :: x) = .next ⟨sc1, [], Stage.zero, false⟩ ((c :: x).dropWhile is_sep) := by
  have hws : skip_inline_ws (c :: x) = c :: x := by
    have : ¬ (c = 32 ∨ c = 9 ∨ c = 13) := by omega
    simp only [skip_inline_ws, this, if_false]
  have hc0 : c ≠ 0 := by omega
  unfold parse_iter
  rw [hws]
  simp only [hc0, hc, if_false, if_true]
  unfold parse_end at hend
  unfold sep_branch
  split at hend
  · cases hend
  · rename_i he
    rw [if_neg he]
    split at hend
    · cases hend
    · rename_i cur st hr
      have hst : st = Stage.zero := by
        rcases close_stage_ok hr with ⟨_, _, h3⟩ | ⟨h1, h2, h3, _, h5⟩
        · exact h3
        · rw [h5]
          have ha : s.st.out_append = 0 := ht h3
          cases hs : s.st with
          | mk argv i o a =>
            rw [hs] at h1 h2 h3 ha
            simp only at h1 h2 h3 ha
            subst h1 h2 h3 ha
            rfl
      subst hst
      split at hend
      · rename_i hlen
        rw [if_pos hlen]
        cases hend
        rfl
      · rename_i hlen
        rw [if_neg hlen]
        have hcur : cur = [] := List.length_eq_zero.mp (by omega)
        subst hcur
        cases hend
        rfl

theorem parse_end_prepend (sc1 : Script) (s : PState) :
    end_result (s.prepend sc1) = (end_result s).prepend sc1 := by
  obtain ⟨sc, cur, st, e⟩ := s
  unfold end_result parse_end PState.prepend
  simp only
  cases e with
  | true => rfl
  | false =>
    simp only [Bool.false_eq_true, if_false]
    cases close_stage cur st with
    | error e => rfl
    | ok r =>
      obtain ⟨cur2, st2⟩ := r
      simp only
      by_cases hlen : cur2.length > 0
      · simp [hlen, ParseResult.prepend]
      · simp [hlen, ParseResult.prepend]

theorem sep_branch_prepend (sc1 : Script) (s : PState) (p : List Nat) :
    sep_branch (s.prepend sc1) p = (sep_branch s p).prepend sc1 := by
  obtain ⟨sc, cur, st, e⟩ := s
  unfold sep_branch PState.prepend
  simp only
  cases e with
  | true => rfl
  | false =>
    simp only [Bool.false_eq_true, if_false]
    cases close_stage cur st with
    | error e => rfl
    | ok r =>
      obtain ⟨cur2, st2⟩ := r
      simp only
      by_cases hlen : cur2.length > 0
      · simp [hlen, Step.prepend, PState.prepend]
      · simp [hlen, Step.prepend, PState.prepend]

theorem pipe_branch_prepend (sc1 : Script) (s : PState) (p : List Nat) :
    pipe_branch (s.prepend sc1) p = (pipe_branch s p).prepend sc1 := by
  obtain ⟨sc, cur, st, e⟩ := s
  unfold pipe_branch PState.prepend
  simp only
  split
  · rfl
  · cases finish_stage cur st with
    | error e => rfl
    | ok r => rfl

theorem redir_target_prepend (sc1 : Script) (s : PState) (op a : Nat) (p : List Nat) :
    redir_target (s.prepend sc1) op a p = (redir_target s op a p).prepend sc1 := by
  obtain ⟨sc, cur, st, e⟩ := s
  unfold redir_target PState.prepend
  simp only
  split
  · rfl
  · cases parse_word p with
    | error e => rfl
    | null => rfl
    | word w r =>
      simp only
      split <;> rfl

theorem word_branch_prepend (sc1 : Script) (s : PState) (p : List Nat) :
    word_branch (s.prepend sc1) p = (word_branch s p).prepend sc1 := by
  obtain ⟨sc, cur, st, e⟩ := s
  unfold word_branch PState.prepend
  cases parse_word p with
  | error e => rfl
  | null => rfl
  | word w r => rfl

theorem parse_iter_prepend (sc1 : Script) (s : PState) (p : List Nat) :
    parse_iter (s.prepend sc1) p = (parse_iter s p).prepend sc1 := by
  unfold parse_iter
  split
  · rfl
  · split
    · rfl
    · split
      · exact sep_branch_prepend _ _ _
      · split
        · exact pipe_branch_prepend _ _ _
        · split
          · unfold redir_branch
            split <;> exact redir_target_prepend _ _ _ _ _
          · exact word_branch_prepend _ _ _

/-- Pipelines already in the script are carried through unchanged. -/
theorem parse_from_prepend (sc1 : Script) (n : Nat) : ∀ (s : PState) (p : List Nat),
    p.length ≤ n → parse_from (s.prepend sc1) p = (parse_from s p).prepend sc1 := by
  induction n with
  | zero =>
    intro s p hp
    rw [parse_from_step, parse_from_step s p, parse_iter_prepend]
    cases hit : parse_iter s p with
    | error e => rfl
    | done s2 => exact parse_end_prepend sc1 s2
    | next s2 p2 => have := (parse_iter_progress hit).2; omega
  | succ n ih =>
    intro s p hp
    rw [parse_from_step, parse_from_step s p, parse_iter_prepend]
    cases hit : parse_iter s p with
    | error e => rfl
    | done s2 => exact parse_end_prepend sc1 s2
    | next s2 p2 =>
      have := (parse_iter_progress hit).2
      exact ih s2 p2 (by omega)

theorem dropWhile_sep_run (sep s2 : List Nat) (hsep : ∀ c ∈ sep, c = 10 ∨ c = 59) :
    (sep ++ s2).dropWhile is_sep = s2.dropWhile is_sep := by
  induction sep with
  | nil => rfl
  | cons c sep ih =>
    have hc : is_sep c = true := by
      simp [is_sep, hsep c (List.mem_cons_self _ _)]
    rw [List.cons_append, List.dropWhile_cons, hc]
    exact ih (fun d hd => hsep d (List.mem_cons_of_mem _ hd))

theorem init_tidy : PState.init.tidy := fun _ => rfl

/-- C7: for accepted sources `s1` and `s2` and a non-empty run `sep` of newlines
and `;`, the source made of `s1`, `sep` and `s2` is accepted and its script is
the script of `s1` followed by the script of `s2`.  The first source is the C
string `cstr s1` held in `s1`, which is `s1` itself when `s1` has no NUL byte
(`cstr_of_nul_free`). -/
theorem separator_composes (s1 s2 sep : List Nat) (sc1 sc2 : Script)
    (hsep : ∀ c ∈ sep, c = 10 ∨ c = 59) (hne : sep ≠ [])
    (h1 : parse s1 = .ok sc1) (h2 : parse s2 = .ok sc2) :
    parse (cstr s1 ++ sep ++ s2) = .ok (sc1 ++ sc2) := by
  have h0 := cstr_nul_free s1
  obtain ⟨e1, hruns, hend⟩ := runs_of_accepted_cstr h1
  cases sep with
  | nil => exact absurd rfl hne
  | cons c sep =>
    have hc : c = 10 ∨ c = 59 := hsep c (List.mem_cons_self _ _)
    have ht : is_token_terminator c = true := by
      rcases hc with hc | hc <;> subst hc <;> rfl
    have e : cstr s1 ++ c :: sep ++ s2 = cstr s1 ++ c :: (sep ++ s2) := by simp
    rw [e, parse_eq_from, runs_append hruns h0 c (sep ++ s2) ht,
      parse_from_of_iter_next (sep_of_end hend (runs_tidy hruns init_tidy) c (sep ++ s2) hc),
      ← List.cons_append, dropWhile_sep_run _ _ hsep,
      parse_from_fresh_seps ⟨rfl, rfl, rfl, rfl, rfl⟩]
    have := parse_from_prepend sc1 s2.length PState.init s2 le_rfl
    rw [← parse_eq_from, h2] at this
    simpa [PState.prepend, PState.init, ParseResult.prepend] using this

/-- Witness for C7 on `a|b`, the run `;` newline `;`, and `c > d`. -/
theorem separator_composes_witness :
    parse (bytes "a|b" ++ [59, 10, 59] ++ bytes "c > d") =
      .ok ([[⟨[bytes "a"], none, none, 0⟩, ⟨[bytes "b"], none, none, 0⟩]] ++
        [[⟨[bytes "c"], none, some (bytes "d"), 0⟩]]) :=
  separator_composes (bytes "a|b") (bytes "c > d") [59, 10, 59] _ _ (by decide) (by decide)
    (by decide) (by decide)


/-! ## Stages written as items -/

theorem skip_inline_ws_ws (ws p : List Nat) (h : ws.all is_inline_ws = true) :
    skip_inline_ws (ws ++ p) = skip_inline_ws p := by
  induction ws with
  | nil => rfl
  | cons c ws ih =>
    simp only [List.all_cons, Bool.and_eq_true] at h
    have hc : c = 32 ∨ c = 9 ∨ c = 13 := by simpa [is_inline_ws] using h.1
    simp only [List.cons_append, skip_inline_ws, hc, if_true]
    exact ih h.2

theorem word_text_head {txt w : List Nat} (h : word_text txt w = true) :
    ∃ c q, txt = c :: q ∧ is_token_terminator c = false := by
  simp only [word_text, Bool.and_eq_true, decide_eq_true_eq] at h
  cases txt with
  | nil =>
    have := h.2
    simp [parse_word, pw_bare, word_end] at this
  | cons c q =>
    refine ⟨c, q, rfl, ?_⟩
    by_contra hc
    have hc : is_token_terminator c = true := by simpa using hc
    have := h.2
    unfold parse_word at this
    rw [pw_bare_at_terminator _ _ hc] at this
    simp [word_end] at this

theorem word_text_parse {txt w : List Nat} (h : word_text txt w = true) (rest : List Nat)
    (hrest : is_token_terminator (rest.headD 0) = true) :
    parse_word (txt ++ rest) = .word w rest := by
  simp only [word_text, Bool.and_eq_true, decide_eq_true_eq, List.all_eq_true] at h
  cases rest with
  | nil => rw [List.append_nil]; exact h.2
  | cons t x =>
    have := parse_word_append (fun c hc => by simpa using h.1 c hc) h.2 t x hrest
    simpa using this

theorem not_terminator {c : Nat} (h : is_token_terminator c = false) :
    c ≠ 0 ∧ ¬ (c = 32 ∨ c = 9 ∨ c = 13) ∧ ¬ (c = 10 ∨ c = 59) ∧ c ≠ 124 ∧
      ¬ (c = 62 ∨ c = 60) := by
  simp only [is_token_terminator, Bool.or_eq_false_iff, decide_eq_false_iff_not] at h
  omega

theorem skip_inline_ws_at {c : Nat} (q : List Nat) (h : ¬ (c = 32 ∨ c = 9 ∨ c = 13)) :
    skip_inline_ws (c :: q) = c :: q := by
  simp only [skip_inline_ws, h, if_false]

/-- The second half of the redirection branch on a target text. -/
theorem redir_target_text (s : PState) (op a : Nat) {ws2 txt w : List Nat} (rest : List Nat)
    (hws : ws2.all is_inline_ws = true) (ht : word_text txt w = true)
    (hrest : is_token_terminator (rest.headD 0) = true) :
    redir_target s op a (skip_inline_ws (ws2 ++ (txt ++ rest))) =
      if op = 60 then .next { s with st := { s.st with in_redir := some w } } rest
      else .next { s with st := { s.st with out_redir := some w, out_append := a } } rest := by
  obtain ⟨c, q, hq, hc⟩ := word_text_head ht
  obtain ⟨h0, h1, h2, h3, h4⟩ := not_terminator hc
  have hp := word_text_parse ht rest hrest
  subst hq
  rw [skip_inline_ws_ws _ _ hws, List.cons_append, skip_inline_ws_at _ h1]
  rw [List.cons_append] at hp
  unfold redir_target
  simp only [List.headD_cons]
  rw [if_neg (by omega), hp]

/-- One item is read in one iteration of the loop. -/
theorem parse_iter_item (s : PState) (it : Item) (rest : List Nat) (hv : it.valid = true)
    (hrest : is_token_terminator (rest.headD 0) = true) :
    parse_iter s (it.render ++ rest) = .next (s.item it) rest := by
  cases it with
  | word ws txt w =>
    simp only [Item.valid, Bool.and_eq_true] at hv
    obtain ⟨c, q, hq, hc⟩ := word_text_head hv.2
    obtain ⟨h0, h1, h2, h3, h4⟩ := not_terminator hc
    have hp := word_text_parse hv.2 rest hrest
    subst hq
    unfold parse_iter
    rw [Item.render, List.append_assoc, skip_inline_ws_ws _ _ hv.1, List.cons_append,
      skip_inline_ws_at _ h1]
    rw [List.cons_append] at hp
    simp only [h0, h2, h3, h4, if_false]
    unfold word_branch
    rw [hp]
    rfl
  | rin ws ws2 txt w =>
    simp only [Item.valid, Bool.and_eq_true] at hv
    have hskip : skip_inline_ws ((Item.rin ws ws2 txt w).render ++ rest) =
        60 :: (ws2 ++ (txt ++ rest)) := by
      rw [Item.render, List.append_assoc, skip_inline_ws_ws _ _ hv.1.1, List.cons_append,
        skip_inline_ws_at _ (by omega), List.append_assoc]
    rw [parse_iter_at s hskip, if_neg (by decide), if_neg (by decide), if_neg (by decide),
      if_pos (by decide)]
    unfold redir_branch
    rw [if_neg (by omega), redir_target_text s 60 0 rest hv.1.2 hv.2 hrest]
    rfl
  | rout ws app ws2 txt w =>
    simp only [Item.valid, Bool.and_eq_true] at hv
    obtain ⟨c, q, hq, hc⟩ := word_text_head hv.2
    obtain ⟨h0, h1, h2, h3, h4⟩ := not_terminator hc
    cases app with
    | true =>
      have hskip : skip_inline_ws ((Item.rout ws true ws2 txt w).render ++ rest) =
          62 :: 62 :: (ws2 ++ (txt ++ rest)) := by
        rw [Item.render, List.append_assoc, skip_inline_ws_ws _ _ hv.1.1]
        simp only [if_true, List.cons_append]
        rw [skip_inline_ws_at _ (by omega), List.append_assoc]
      rw [parse_iter_at s hskip, if_neg (by decide), if_neg (by decide), if_neg (by decide),
        if_pos (by decide)]
      unfold redir_branch
      rw [if_pos ⟨rfl, rfl⟩, List.tail_cons, redir_target_text s 62 1 rest hv.1.2 hv.2 hrest]
      rfl
    | false =>
      have hskip : skip_inline_ws ((Item.rout ws false ws2 txt w).render ++ rest) =
          62 :: (ws2 ++ (txt ++ rest)) := by
        rw [Item.render, List.append_assoc, skip_inline_ws_ws _ _ hv.1.1]
        simp only [Bool.false_eq_true, if_false, List.cons_append]
        rw [skip_inline_ws_at _ (by omega), List.append_assoc]
      rw [parse_iter_at s hskip, if_neg (by decide), if_neg (by decide), if_neg (by decide),
        if_pos (by decide)]
      unfold redir_branch
      have hhead : (ws2 ++ (txt ++ rest)).headD 0 ≠ 62 := by
        subst hq
        cases ws2 with
        | nil => simp only [List.nil_append, List.cons_append, List.headD_cons]; omega
        | cons d ws2 =>
          have := hv.1.2
          simp only [List.all_cons, Bool.and_eq_true, is_inline_ws, decide_eq_true_eq] at this
          simp only [List.cons_append, List.headD_cons]
          omega
      rw [if_neg (by intro h; exact hhead h.2), redir_target_text s 62 0 rest hv.1.2 hv.2 hrest]
      rfl


theorem item_head_terminator (it : Item) (x : List Nat) (hv : it.valid = true)
    (hs : it.spaced = true) : is_token_terminator ((it.render ++ x).headD 0) = true := by
  have ws_head : ∀ (ws y : List Nat), ws.all is_inline_ws = true → ws ≠ [] →
      is_token_terminator ((ws ++ y).headD 0) = true := by
    intro ws y hws hne
    cases ws with
    | nil => exact absurd rfl hne
    | cons c ws =>
      simp only [List.all_cons, Bool.and_eq_true, is_inline_ws, decide_eq_true_eq] at hws
      simp only [List.cons_append, List.headD_cons]
      rcases hws.1 with h | h | h <;> subst h <;> rfl
  cases it with
  | word ws txt w =>
    simp only [Item.valid, Bool.and_eq_true] at hv
    simp only [Item.spaced, Bool.not_eq_true', List.isEmpty_eq_false] at hs
    rw [Item.render, List.append_assoc]
    exact ws_head ws _ hv.1 (by simpa using hs)
  | rin ws ws2 txt w =>
    simp only [Item.valid, Bool.and_eq_true] at hv
    rw [Item.render, List.append_assoc]
    cases ws with
    | nil => rfl
    | cons c ws => exact ws_head _ _ hv.1.1 (by simp)
  | rout ws app ws2 txt w =>
    simp only [Item.valid, Bool.and_eq_true] at hv
    rw [Item.render, List.append_assoc]
    cases ws with
    | nil => cases app <;> rfl
    | cons c ws => exact ws_head _ _ hv.1.1 (by simp)

/-- The items of a stage are read one per iteration. -/
theorem parse_from_items : ∀ (items : List Item) (s : PState) (rest : List Nat),
    items.all Item.valid = true → items.tail.all Item.spaced = true →
    is_token_terminator (rest.headD 0) = true →
    parse_from s (render_items items ++ rest) = parse_from (items.foldl PState.item s) rest
  | [], _, _, _, _, _ => rfl
  | it :: more, s, rest, hv, hs, hrest => by
    simp only [List.all_cons, Bool.and_eq_true] at hv
    simp only [List.tail_cons] at hs
    have hb : is_token_terminator ((render_items more ++ rest).headD 0) = true := by
      cases more with
      | nil => exact hrest
      | cons it2 more2 =>
        simp only [List.all_cons, Bool.and_eq_true] at hv hs
        rw [render_items, List.append_assoc]
        exact item_head_terminator it2 _ hv.2.1 hs.1
    have hs2 : more.tail.all Item.spaced = true := by
      cases more with
      | nil => rfl
      | cons it2 more2 =>
        simp only [List.all_cons, Bool.and_eq_true] at hs
        exact hs.2
    rw [render_items, List.append_assoc,
      parse_from_of_iter_next (parse_iter_item s it _ hv.1 hb), List.foldl_cons]
    exact parse_from_items more _ rest hv.2 hs2 hrest

theorem foldl_item_state (items : List Item) : ∀ s : PState,
    items.foldl PState.item s =
      ⟨s.sc, s.cur, items.foldl Item.apply s.st,
        if items.any Item.is_word then false else s.expect_stage⟩ := by
  induction items with
  | nil => intro s; rfl
  | cons it items ih =>
    intro s
    rw [List.foldl_cons, ih, List.foldl_cons]
    simp only [PState.item, List.any_cons]
    rcases Bool.eq_false_or_eq_true it.is_word with h | h <;> simp [h]

theorem last_out_none_append (items : List Item) (h : last_out items = none) :
    last_is_append items = false := by
  induction items with
  | nil => rfl
  | cons it items ih =>
    cases it with
    | word ws txt w => exact ih h
    | rin ws ws2 txt w => exact ih h
    | rout ws app ws2 txt w =>
      simp only [last_out] at h
      cases hl : last_out items with
      | none => rw [hl] at h; cases h
      | some v => rw [hl] at h; cases h

/-- What reading the items of a stage does to the stage being built. -/
theorem foldl_item_stage (items : List Item) : ∀ st : Stage,
    items.foldl Item.apply st =
      ⟨st.argv ++ stage_words items, (last_in items).or st.in_redir,
        (last_out items).or st.out_redir,
        if (last_out items).isSome then (if last_is_append items then 1 else 0)
        else st.out_append⟩ := by
  induction items with
  | nil => intro st; simp [stage_words, last_in, last_out]
  | cons it items ih =>
    intro st
    rw [List.foldl_cons, ih]
    cases it with
    | word ws txt w => simp [Item.apply, stage_words, last_in, last_out, last_is_append]
    | rin ws ws2 txt w =>
      simp only [Item.apply, stage_words, last_in, last_out, last_is_append]
      rcases Option.eq_none_or_eq_some (last_in items) with h | ⟨v, h⟩ <;> simp [h]
    | rout ws app ws2 txt w =>
      simp only [Item.apply, stage_words, last_in, last_out, last_is_append]
      rcases Option.eq_none_or_eq_some (last_out items) with h | ⟨v, h⟩ <;> simp [h]

/-- Read from the zero stage, the items of a stage build the stage that keeps
the last redirection of each direction. -/
theorem foldl_item_zero (items : List Item) : items.foldl Item.apply Stage.zero = stage_of items := by
  rw [foldl_item_stage]
  unfold stage_of Stage.zero
  simp only [List.nil_append]
  rcases Option.eq_none_or_eq_some (last_out items) with h | ⟨v, h⟩
  · simp [h, last_out_none_append items h, Option.or_none]
  · simp [h, Option.or_none]

theorem stage_words_ne (items : List Item) (h : items.any Item.is_word = true) :
    stage_words items ≠ [] := by
  induction items with
  | nil => cases h
  | cons it items ih =>
    cases it with
    | word ws txt w => simp [stage_words]
    | rin ws ws2 txt w => exact ih (by simpa [Item.is_word] using h)
    | rout ws app ws2 txt w => exact ih (by simpa [Item.is_word] using h)

/-- A stage text read from a state whose stage is zero leaves the stage of the
text, ready to be pushed. -/
theorem parse_from_stage (items : List Item) (sc : Script) (cur : Pipeline) (e : Bool)
    (rest : List Nat) (hok : items_ok items = true)
    (hrest : is_token_terminator (rest.headD 0) = true) :
    parse_from ⟨sc, cur, Stage.zero, e⟩ (render_items items ++ rest) =
      parse_from ⟨sc, cur, stage_of items, false⟩ rest := by
  simp only [items_ok, Bool.and_eq_true] at hok
  rw [parse_from_items items _ rest hok.1.1 hok.1.2 hrest, foldl_item_state, foldl_item_zero,
    hok.2]
  rfl

theorem stage_of_argv (items : List Item) (hok : items_ok items = true) :
    (stage_of items).argv ≠ [] := by
  simp only [items_ok, Bool.and_eq_true] at hok
  exact stage_words_ne items hok.2

/-! ## Pipelines and scripts written as stage texts -/

/-- A stage text, trailing white space included, read from a state whose stage
is zero leaves the stage of the text, ready to be pushed. -/
theorem parse_from_stage_text (t : StageText) (sc : Script) (cur : Pipeline) (e : Bool)
    (rest : List Nat) (hok : t.ok = true)
    (hrest : is_token_terminator (rest.headD 0) = true) :
    parse_from ⟨sc, cur, Stage.zero, e⟩ (t.render ++ rest) =
      parse_from ⟨sc, cur, stage_of t.items, false⟩ rest := by
  simp only [StageText.ok, Bool.and_eq_true] at hok
  have hb : is_token_terminator ((t.trail ++ rest).headD 0) = true := by
    cases ht : t.trail with
    | nil => exact hrest
    | cons c q =>
      have := hok.2
      rw [ht] at this
      simp only [List.all_cons, Bool.and_eq_true, is_inline_ws, decide_eq_true_eq] at this
      simp only [List.cons_append, List.headD_cons]
      rcases this.1 with h | h | h <;> subst h <;> rfl
  rw [StageText.render, List.append_assoc, parse_from_stage t.items sc cur e _ hok.1 hb,
    ← parse_from_skip, skip_inline_ws_ws _ _ hok.2, parse_from_skip]

/-- Closing a stage with argv at the end of the input or at a separator pushes
the stage and the pipeline. -/
theorem parse_from_close (sc : Script) (cur : Pipeline) (st : Stage) (rest : List Nat)
    (hargv : st.argv ≠ []) (hrest : rest = [] ∨ is_sep (rest.headD 0) = true) :
    parse_from ⟨sc, cur, st, false⟩ rest =
      parse_from ⟨sc ++ [cur ++ [st]], [], Stage.zero, false⟩ (rest.dropWhile is_sep) := by
  have hlen : st.argv.length > 0 := List.length_pos.mpr hargv
  have hlen2 : ¬ st.argv.length = 0 := by omega
  have hclose : close_stage cur st = .ok (cur ++ [st], Stage.zero) := by
    unfold close_stage finish_stage
    rw [if_pos hlen, if_neg hlen2]
  cases rest with
  | nil =>
    have h1 : end_result ⟨sc, cur, st, false⟩ = .ok (sc ++ [cur ++ [st]]) := by
      unfold end_result parse_end
      simp only [Bool.false_eq_true, if_false, hclose]
      simp
    have h2 : end_result ⟨sc ++ [cur ++ [st]], [], Stage.zero, false⟩ =
        .ok (sc ++ [cur ++ [st]]) := by
      simp [end_result, parse_end, close_stage, Stage.zero]
    rw [List.dropWhile_nil, parse_from_nil, parse_from_nil, h1, h2]
  | cons c x =>
    have hc : c = 10 ∨ c = 59 := by
      rcases hrest with h | h
      · cases h
      · simpa [is_sep] using h
    have hit : parse_iter ⟨sc, cur, st, false⟩ (c :: x) =
        .next ⟨sc ++ [cur ++ [st]], [], Stage.zero, false⟩ ((c :: x).dropWhile is_sep) := by
      rw [parse_iter_at _ (skip_inline_ws_at _ (by omega)), if_neg (by omega), if_pos hc]
      unfold sep_branch
      simp [hclose]
    exact parse_from_of_iter_next hit

/-- A pipeline text, followed by the end of the input or a separator, is parsed
to the stages of its stage texts, pushed as one pipeline. -/
theorem parse_from_pipeline : ∀ (more : List StageText) (t : StageText) (sc : Script)
    (cur : Pipeline) (e : Bool) (rest : List Nat), (∀ u ∈ t :: more, u.ok = true) →
    (rest = [] ∨ is_sep (rest.headD 0) = true) →
    parse_from ⟨sc, cur, Stage.zero, e⟩ (render_pipeline (t :: more) ++ rest) =
      parse_from ⟨sc ++ [cur ++ (t :: more).map (fun u => stage_of u.items)], [], Stage.zero,
        false⟩ (rest.dropWhile is_sep)
  | [], t, sc, cur, e, rest, hok, hrest => by
    have h1 := hok t (List.mem_cons_self _ _)
    have hargv : (stage_of t.items).argv ≠ [] := by
      simp only [StageText.ok, Bool.and_eq_true] at h1
      exact stage_of_argv t.items h1.1
    have hb : is_token_terminator (rest.headD 0) = true := by
      rcases hrest with h | h
      · subst h; rfl
      · have : rest.headD 0 = 10 ∨ rest.headD 0 = 59 := by simpa [is_sep] using h
        rcases this with h | h <;> rw [h] <;> rfl
    rw [render_pipeline, parse_from_stage_text t sc cur e rest h1 hb,
      parse_from_close sc cur _ rest hargv hrest]
    rfl
  | t2 :: more, t, sc, cur, e, rest, hok, hrest => by
    have h1 := hok t (List.mem_cons_self _ _)
    have hargv : (stage_of t.items).argv ≠ [] := by
      simp only [StageText.ok, Bool.and_eq_true] at h1
      exact stage_of_argv t.items h1.1
    have hlen2 : ¬ (stage_of t.items).argv.length = 0 := by
      have := List.length_pos.mpr hargv
      omega
    have hit : parse_iter ⟨sc, cur, stage_of t.items, false⟩
        (124 :: (render_pipeline (t2 :: more) ++ rest)) =
        .next ⟨sc, cur ++ [stage_of t.items], Stage.zero, true⟩
          (render_pipeline (t2 :: more) ++ rest) := by
      rw [parse_iter_at _ (skip_inline_ws_at _ (by omega)), if_neg (by decide),
        if_neg (by decide), if_pos rfl]
      unfold pipe_branch finish_stage
      simp [hlen2]
    have e1 : render_pipeline (t :: t2 :: more) ++ rest =
        t.render ++ 124 :: (render_pipeline (t2 :: more) ++ rest) := by
      rw [render_pipeline, List.append_assoc, List.cons_append]
      intro h; cases h
    rw [e1, parse_from_stage_text t sc cur e (124 :: (render_pipeline (t2 :: more) ++ rest)) h1
      rfl, parse_from_of_iter_next hit,
      parse_from_pipeline more t2 sc _ true rest
        (fun u h => hok u (List.mem_cons_of_mem _ h)) hrest]
    simp

/-- Between statements, separators and inline white space change nothing. -/
theorem parse_from_gap {s : PState} (hs : s.fresh) (gap x : List Nat)
    (hgap : gap.all is_gap = true) : parse_from s (gap ++ x) = parse_from s x := by
  induction gap with
  | nil => rfl
  | cons c gap ih =>
    simp only [List.all_cons, Bool.and_eq_true] at hgap
    rw [List.cons_append]
    by_cases hc : is_sep c = true
    · rw [← parse_from_fresh_seps hs (c :: (gap ++ x)), List.dropWhile_cons, hc, if_pos rfl,
        parse_from_fresh_seps hs]
      exact ih hgap.2
    · have hw : c = 32 ∨ c = 9 ∨ c = 13 := by
        have := hgap.1
        simp only [is_gap, Bool.or_eq_true, is_inline_ws, decide_eq_true_eq] at this
        rcases this with h | h
        · exact absurd h hc
        · exact h
      rw [← parse_from_skip]
      simp only [skip_inline_ws, hw, if_true]
      rw [parse_from_skip]
      exact ih hgap.2

/-- A script text is parsed to the pipelines of its pipeline texts, in order. -/
theorem parse_from_script : ∀ (l : List (List StageText × List Nat)) (sc : Script),
    script_ok l = true →
    parse_from ⟨sc, [], Stage.zero, false⟩ (render_script l) = .ok (sc ++ script_of l)
  | [], sc, _ => by
    rw [render_script, parse_from_nil]
    simp [end_result, parse_end, close_stage, Stage.zero, script_of]
  | [(pl, gap)], sc, hok => by
    simp only [script_ok, pipeline_ok, Bool.and_eq_true, Bool.not_eq_true',
      List.isEmpty_eq_false] at hok
    cases pl with
    | nil => simp at hok
    | cons t more =>
      have hgap : gap = [] ∨ is_sep (gap.headD 0) = true := by
        cases gap with
        | nil => exact Or.inl rfl
        | cons c g =>
          have := hok.2
          simp only [gap_ok, Bool.and_eq_true] at this
          exact Or.inr this.1
      have hall : ∀ u ∈ t :: more, u.ok = true := by
        intro u hu
        exact List.all_eq_true.mp hok.1.2 u hu
      rw [render_script, render_script, List.append_nil,
        parse_from_pipeline more t sc [] false gap hall hgap]
      have hdrop : parse_from ⟨sc ++ [[] ++ (t :: more).map (fun u => stage_of u.items)], [],
          Stage.zero, false⟩ (gap.dropWhile is_sep) =
          parse_from ⟨sc ++ [[] ++ (t :: more).map (fun u => stage_of u.items)], [],
            Stage.zero, false⟩ [] := by
        rw [parse_from_fresh_seps ⟨rfl, rfl, rfl, rfl, rfl⟩]
        cases gap with
        | nil => rfl
        | cons c g =>
          have := hok.2
          simp only [gap_ok, Bool.and_eq_true] at this
          have hg : (c :: g).all is_gap = true := by
            simp only [List.all_cons, Bool.and_eq_true, is_gap, Bool.or_eq_true]
            exact ⟨Or.inl this.1, by simpa [is_gap] using this.2⟩
          have := parse_from_gap (s := ⟨sc ++ [[] ++ (t :: more).map (fun u => stage_of u.items)],
            [], Stage.zero, false⟩) ⟨rfl, rfl, rfl, rfl, rfl⟩ (c :: g) [] hg
          rw [List.append_nil] at this
          exact this
      rw [hdrop, parse_from_nil]
      simp [end_result, parse_end, close_stage, Stage.zero, script_of]
  | (pl, gap) :: x :: more2, sc, hok => by
    simp only [script_ok, pipeline_ok, Bool.and_eq_true, Bool.not_eq_true',
      List.isEmpty_eq_false] at hok
    obtain ⟨⟨⟨⟨hne, hst⟩, hg⟩, hgne⟩, hrest⟩ := hok
    cases pl with
    | nil => simp at hne
    | cons t more =>
      cases gap with
      | nil => simp at hgne
      | cons c g =>
        simp only [gap_ok, Bool.and_eq_true] at hg
        have hall : ∀ u ∈ t :: more, u.ok = true := by
          intro u hu
          exact List.all_eq_true.mp hst u hu
        have hgall : (c :: g).all is_gap = true := by
          simp only [List.all_cons, Bool.and_eq_true, is_gap, Bool.or_eq_true]
          exact ⟨Or.inl hg.1, by simpa [is_gap] using hg.2⟩
        have e1 : render_script ((t :: more, c :: g) :: x :: more2) =
            render_pipeline (t :: more) ++ (c :: (g ++ render_script (x :: more2))) := by
          rw [render_script, List.append_assoc, List.cons_append]
        rw [e1, parse_from_pipeline more t sc [] false
            (c :: (g ++ render_script (x :: more2))) hall (Or.inr hg.1),
          parse_from_fresh_seps ⟨rfl, rfl, rfl, rfl, rfl⟩, ← List.cons_append,
          parse_from_gap ⟨rfl, rfl, rfl, rfl, rfl⟩ (c :: g) _ hgall,
          parse_from_script (x :: more2) _ hrest]
        simp [script_of]

/-- C8: redirections are last-wins per direction.  For every script text (any
separators and inline white space before it; pipelines of stage texts whose
items are words and redirections in any quoting and spacing), the source is
accepted and each stage of the result is `stage_of` of its stage text: its
`in_redir` is the target of the last `<` written in that stage, its `out_redir`
the target of the last `>` or `>>`, its `out_append` is 1 exactly when that last
output operator is `>>`, and a direction without operator is unset. -/
theorem last_redirection_wins (lead : List Nat) (l : List (List StageText × List Nat))
    (hlead : lead.all is_gap = true) (hok : script_ok l = true) :
    parse (lead ++ render_script l) = .ok (script_of l) ∧
      ∀ its : List Item, (stage_of its).in_redir = last_in its ∧
        (stage_of its).out_redir = last_out its ∧
        ((stage_of its).out_append = 1 ↔ last_is_append its = true) ∧
        (last_out its = none → (stage_of its).out_append = 0) := by
  refine ⟨?_, ?_⟩
  · rw [parse_eq_from, parse_from_gap ⟨rfl, rfl, rfl, rfl, rfl⟩ lead _ hlead]
    have := parse_from_script l [] hok
    simpa using this
  · intro its
    refine ⟨rfl, rfl, ?_, ?_⟩
    · unfold stage_of
      cases last_is_append its <;> simp
    · intro h
      unfold stage_of
      rw [last_out_none_append its h]
      rfl

/-- Witness for C8 on `cmd >> a > b | cmd > a >>b <i <j;` newline `x <y`. -/
theorem last_redirection_wins_witness :
    [] ++ render_script
        [([⟨[.word [] (bytes "cmd") (bytes "cmd"), .rout [32] true [32] (bytes "a") (bytes "a"),
              .rout [32] false [32] (bytes "b") (bytes "b")], [32]⟩,
           ⟨[.word [32] (bytes "cmd") (bytes "cmd"),
              .rout [32] false [32] (bytes "a") (bytes "a"),
              .rout [32] true [] (bytes "b") (bytes "b"), .rin [32] [] (bytes "i") (bytes "i"),
              .rin [32] [] (bytes "j") (bytes "j")], []⟩], [59, 10]),
         ([⟨[.word [] (bytes "x") (bytes "x"), .rin [32] [] (bytes "y") (bytes "y")], []⟩], [])] =
        bytes "cmd >> a > b | cmd > a >>b <i <j;" ++ [10] ++ bytes "x <y" ∧
      parse (bytes "cmd >> a > b | cmd > a >>b <i <j;" ++ [10] ++ bytes "x <y") =
        .ok [[⟨[bytes "cmd"], none, some (bytes "b"), 0⟩,
          ⟨[bytes "cmd"], some (bytes "j"), some (bytes "b"), 1⟩],
          [⟨[bytes "x"], some (bytes "y"), none, 0⟩]] :=
  ⟨by decide,
    (last_redirection_wins []
      [([⟨[.word [] (bytes "cmd") (bytes "cmd"), .rout [32] true [32] (bytes "a") (bytes "a"),
              .rout [32] false [32] (bytes "b") (bytes "b")], [32]⟩,
           ⟨[.word [32] (bytes "cmd") (bytes "cmd"),
              .rout [32] false [32] (bytes "a") (bytes "a"),
              .rout [32] true [] (bytes "b") (bytes "b"), .rin [32] [] (bytes "i") (bytes "i"),
              .rin [32] [] (bytes "j") (bytes "j")], []⟩], [59, 10]),
         ([⟨[.word [] (bytes "x") (bytes "x"), .rin [32] [] (bytes "y") (bytes "y")], []⟩], [])]
      (by decide) (by decide)).1⟩


/-! ## A stage without a command word is rejected -/

theorem rd64_at (a c : List Nat) (v off : Nat) (hoff : off = a.length) :
    rd64 (a ++ le_bytes 8 v ++ c) off = v % 2 ^ 64 := by
  subst hoff
  unfold rd64
  rw [List.append_assoc, List.drop_left,
    List.take_append_of_le_length (by rw [le_bytes_length]),
    List.take_of_length_le (by rw [le_bytes_length]), le_val_le_bytes]
  norm_num

theorem rd64_append_left (a b : List Nat) (off : Nat) (h : off + 8 ≤ a.length) :
    rd64 (a ++ b) off = rd64 a off := by
  unfold rd64
  rw [List.drop_append_of_le_length (by omega),
    List.take_append_of_le_length (by rw [List.length_drop]; omega)]

theorem rd64_append_right (a b : List Nat) (off k : Nat) (h : k = a.length + off) :
    rd64 (a ++ b) k = rd64 b off := by
  subst h
  unfold rd64
  rw [List.drop_append]

theorem phdr_fields (f o v p fs ms al : Nat) :
    rd64 (phdr_bytes f o v p fs ms al) 0x08 = o % 2 ^ 64 ∧
      rd64 (phdr_bytes f o v p fs ms al) 0x10 = v % 2 ^ 64 ∧
      rd64 (phdr_bytes f o v p fs ms al) 0x20 = fs % 2 ^ 64 ∧
      rd64 (phdr_bytes f o v p fs ms al) 0x28 = ms % 2 ^ 64 := by
  unfold phdr_bytes
  refine ⟨?_, ?_, ?_, ?_⟩
  · have := rd64_at (le_bytes 4 1 ++ le_bytes 4 f) (le_bytes 8 v ++ le_bytes 8 p ++
      le_bytes 8 fs ++ le_bytes 8 ms ++ le_bytes 8 al) o 0x08 (by simp)
    simp only [List.append_assoc] at this ⊢
    exact this
  · have := rd64_at (le_bytes 4 1 ++ le_bytes 4 f ++ le_bytes 8 o) (le_bytes 8 p ++
      le_bytes 8 fs ++ le_bytes 8 ms ++ le_bytes 8 al) v 0x10 (by simp)
    simp only [List.append_assoc] at this ⊢
    exact this
  · have := rd64_at (le_bytes 4 1 ++ le_bytes 4 f ++ le_bytes 8 o ++ le_bytes 8 v ++ le_bytes 8 p)
      (le_bytes 8 ms ++ le_bytes 8 al) fs 0x20 (by simp)
    simp only [List.append_assoc] at this ⊢
    exact this
  · have := rd64_at (le_bytes 4 1 ++ le_bytes 4 f ++ le_bytes 8 o ++ le_bytes 8 v ++ le_bytes 8 p
      ++ le_bytes 8 fs) (le_bytes 8 al) ms 0x28 (by simp)
    simp only [List.append_assoc] at this ⊢
    exact this

theorem phdr_length (f o v p fs ms al : Nat) : (phdr_bytes f o v p fs ms al).length = 56 := by
  simp only [phdr_bytes, List.length_append, le_bytes_length]

/-- The header fields of the written file that the claims about the segments
read: `e_entry`, and `p_offset`, `p_vaddr`, `p_filesz`, `p_memsz` of both
program headers. -/
theorem write_elf_fields (g : Gen) :
    rd64 (write_elf g) 0x18 = 0x400000 + 0xB0 ∧
      rd64 (write_elf g) (0x40 + 0x08) = 0 ∧
      rd64 (write_elf g) (0x40 + 0x10) = 0x400000 ∧
      rd64 (write_elf g) (0x40 + 0x20) = (g.code.length + g.strs.pool.length) % 2 ^ 64 ∧
      rd64 (write_elf g) (0x40 + 0x28) = (g.code.length + g.strs.pool.length) % 2 ^ 64 ∧
      rd64 (write_elf g) (0x78 + 0x10) = 0x600000 ∧
      rd64 (write_elf g) (0x78 + 0x20) = 0 ∧
      rd64 (write_elf g) (0x78 + 0x28) =
        (if g.bss_off ≠ 0 then g.bss_off else 0x1000) % 2 ^ 64 := by
  rw [write_elf_layout]
  have hl : ehdr_bytes.length = 64 := by decide
  have f1 := phdr_fields 5 0 0x400000 0x400000 (g.code.length + g.strs.pool.length)
    (g.code.length + g.strs.pool.length) 0x1000
  have f2 := phdr_fields 6 0 0x600000 0x600000 0 (if g.bss_off ≠ 0 then g.bss_off else 0x1000)
    0x1000
  have l1 := phdr_length 5 0 0x400000 0x400000 (g.code.length + g.strs.pool.length)
    (g.code.length + g.strs.pool.length) 0x1000
  have l2 := phdr_length 6 0 0x600000 0x600000 0 (if g.bss_off ≠ 0 then g.bss_off else 0x1000)
    0x1000
  have p1 : ∀ off, off + 8 ≤ 56 → rd64 (ehdr_bytes ++
      phdr_bytes 5 0 0x400000 0x400000 (g.code.length + g.strs.pool.length)
        (g.code.length + g.strs.pool.length) 0x1000 ++
      phdr_bytes 6 0 0x600000 0x600000 0 (if g.bss_off ≠ 0 then g.bss_off else 0x1000) 0x1000 ++
      (patched_code g ++ g.strs.pool)) (0x40 + off) =
      rd64 (phdr_bytes 5 0 0x400000 0x400000 (g.code.length + g.strs.pool.length)
        (g.code.length + g.strs.pool.length) 0x1000) off := by
    intro off hoff
    rw [List.append_assoc, List.append_assoc, rd64_append_right _ _ off _ (by rw [hl]),
      rd64_append_left _ _ _ (by rw [l1]; exact hoff)]
  have p2 : ∀ off, off + 8 ≤ 56 → rd64 (ehdr_bytes ++
      phdr_bytes 5 0 0x400000 0x400000 (g.code.length + g.strs.pool.length)
        (g.code.length + g.strs.pool.length) 0x1000 ++
      phdr_bytes 6 0 0x600000 0x600000 0 (if g.bss_off ≠ 0 then g.bss_off else 0x1000) 0x1000 ++
      (patched_code g ++ g.strs.pool)) (0x78 + off) =
      rd64 (phdr_bytes 6 0 0x600000 0x600000 0 (if g.bss_off ≠ 0 then g.bss_off else 0x1000)
        0x1000) off := by
    intro off hoff
    rw [rd64_append_left _ _ _ (by simp only [List.length_append, hl, l1, l2]; omega),
      rd64_append_right _ _ off _ (by simp only [List.length_append, hl, l1])]
  refine ⟨?_, ?_, ?_, ?_, ?_, ?_, ?_, ?_⟩
  · rw [List.append_assoc, List.append_assoc, rd64_append_left _ _ _ (by rw [hl]; omega)]
    decide
  · rw [p1 _ (by omega), f1.1]; norm_num
  · rw [p1 _ (by omega), f1.2.1]; norm_num
  · rw [p1 _ (by omega), f1.2.2.1]
  · rw [p1 _ (by omega), f1.2.2.2]
  · rw [p2 _ (by omega), f2.2.1]; norm_num
  · rw [p2 _ (by omega), f2.2.2.1]; norm_num
  · rw [p2 _ (by omega), f2.2.2.2]


/-- C13 fails on the code: `write_elf` gives program header 1 the size
`code_len + ro_len`, without the `0xB0` bytes of headers that precede the code
in the same segment.  For the empty script, and for `echo hi`, the entry point
`0x4000B0` is therefore not below `p_vaddr + p_memsz`. -/
theorem entry_outside_segment :
    parse [] = .ok [] ∧
      rd64 (write_elf (gen_script Gen.start [])) 0x18 = 0x4000B0 ∧
      rd64 (write_elf (gen_script Gen.start [])) (0x40 + 0x10) = 0x400000 ∧
      rd64 (write_elf (gen_script Gen.start [])) (0x40 + 0x28) = 19 ∧
      ¬ (rd64 (write_elf (gen_script Gen.start [])) 0x18 <
          rd64 (write_elf (gen_script Gen.start [])) (0x40 + 0x10) +
            rd64 (write_elf (gen_script Gen.start [])) (0x40 + 0x28)) ∧
      parse (bytes "echo hi") = .ok [[⟨[bytes "echo", bytes "hi"], none, none, 0⟩]] ∧
      rd64 (write_elf (gen_script Gen.start [[⟨[bytes "echo", bytes "hi"], none, none, 0⟩]]))
        (0x40 + 0x28) = 102 ∧
      ¬ (rd64 (write_elf (gen_script Gen.start
            [[⟨[bytes "echo", bytes "hi"], none, none, 0⟩]])) 0x18 <
          rd64 (write_elf (gen_script Gen.start
            [[⟨[bytes "echo", bytes "hi"], none, none, 0⟩]])) (0x40 + 0x10) +
            rd64 (write_elf (gen_script Gen.start
              [[⟨[bytes "echo", bytes "hi"], none, none, 0⟩]])) (0x40 + 0x28)) := by
  have f0 := write_elf_fields (gen_script Gen.start [])
  have f1 := write_elf_fields (gen_script Gen.start
    [[⟨[bytes "echo", bytes "hi"], none, none, 0⟩]])
  have l0 : (gen_script Gen.start []).code.length + (gen_script Gen.start []).strs.pool.length
      = 19 := by decide!
  have l1 : (gen_script Gen.start [[⟨[bytes "echo", bytes "hi"], none, none, 0⟩]]).code.length +
      (gen_script Gen.start [[⟨[bytes "echo", bytes "hi"], none, none, 0⟩]]).strs.pool.length
      = 102 := by decide!
  rw [l0] at f0
  rw [l1] at f1
  refine ⟨by decide, f0.1, f0.2.2.1, f0.2.2.2.2.1, ?_, by decide, f1.2.2.2.2.1, ?_⟩
  · rw [f0.1, f0.2.2.1, f0.2.2.2.2.1]; norm_num
  · rw [f1.1, f1.2.2.1, f1.2.2.2.2.1]; norm_num

/-- In general the entry point lies in the range of program header 1 exactly
when code and pool together are longer than the headers. -/
theorem entry_in_segment_iff (g : Gen) (hsz : g.code.length + g.strs.pool.length < 2 ^ 64) :
    (rd64 (write_elf g) (0x40 + 0x10) ≤ rd64 (write_elf g) 0x18 ∧
      rd64 (write_elf g) 0x18 < rd64 (write_elf g) (0x40 + 0x10) + rd64 (write_elf g) (0x40 + 0x28))
      ↔ 0xB0 < g.code.length + g.strs.pool.length := by
  have f := write_elf_fields g
  rw [f.1, f.2.2.1, f.2.2.2.2.1, Nat.mod_eq_of_lt hsz]
  omega

/-- Counterexample to C15: the script `ls` is accepted, its generator state has
`bss_off = 24`, and the memsz field of program header 2 is 24, not
`max(24, 0x1000)`. -/
theorem bss_memsz_below_page :
    parse (bytes "ls") = .ok [[⟨[bytes "ls"], none, none, 0⟩]] ∧
      (gen_script Gen.start [[⟨[bytes "ls"], none, none, 0⟩]]).bss_off = 24 ∧
      rd64 (write_elf (gen_script Gen.start [[⟨[bytes "ls"], none, none, 0⟩]])) (0x78 + 0x28) = 24 ∧
      rd64 (write_elf (gen_script Gen.start [[⟨[bytes "ls"], none, none, 0⟩]])) (0x78 + 0x28) ≠
        max (gen_script Gen.start [[⟨[bytes "ls"], none, none, 0⟩]]).bss_off 0x1000 := by
  have f := (write_elf_fields (gen_script Gen.start [[⟨[bytes "ls"], none, none, 0⟩]])).2.2.2.2.2.2.2
  have hb : (gen_script Gen.start [[⟨[bytes "ls"], none, none, 0⟩]]).bss_off = 24 := by decide!
  rw [hb] at f ⊢
  refine ⟨by decide, rfl, ?_, ?_⟩
  · rw [f]; norm_num
  · rw [f]; norm_num

/-- C15, amended: for every accepted script the memsz field of program header 2
is `bss_off` when `bss_off` is not zero and `0x1000` when it is zero; it is
never zero, and it equals `max(bss_off, 0x1000)` exactly when `bss_off` is zero
or at least one page.  (`bss_off` is a `size_t`, so below `2^64`.) -/
theorem bss_memsz (src : List Nat) (sc : Script) (_hacc : parse src = .ok sc)
    (hsz : (gen_script Gen.start sc).bss_off < 2 ^ 64) :
    rd64 (write_elf (gen_script Gen.start sc)) (0x78 + 0x28) =
        (if (gen_script Gen.start sc).bss_off = 0 then 0x1000
          else (gen_script Gen.start sc).bss_off) ∧
      0 < rd64 (write_elf (gen_script Gen.start sc)) (0x78 + 0x28) ∧
      (rd64 (write_elf (gen_script Gen.start sc)) (0x78 + 0x28) =
          max (gen_script Gen.start sc).bss_off 0x1000 ↔
        ((gen_script Gen.start sc).bss_off = 0 ∨ 0x1000 ≤ (gen_script Gen.start sc).bss_off)) := by
  generalize gen_script Gen.start sc = g at hsz ⊢
  have f := (write_elf_fields g).2.2.2.2.2.2.2
  by_cases h0 : g.bss_off = 0
  · rw [f]; simp [h0]
  · rw [f, if_pos h0, if_neg h0, Nat.mod_eq_of_lt hsz]
    refine ⟨rfl, by omega, ?_⟩
    constructor
    · intro h
      right
      by_contra hc
      rw [max_eq_right (by omega)] at h
      omega
    · intro h
      rcases h with h | h
      · exact absurd h h0
      · rw [max_eq_left h]

/-- Witness for C15 (amended) on the script `ls`. -/
theorem bss_memsz_witness :
    parse (bytes "ls") = .ok [[⟨[bytes "ls"], none, none, 0⟩]] ∧
      rd64 (write_elf (gen_script Gen.start [[⟨[bytes "ls"], none, none, 0⟩]])) (0x78 + 0x28) =
        (if (gen_script Gen.start [[⟨[bytes "ls"], none, none, 0⟩]]).bss_off = 0 then 0x1000
          else (gen_script Gen.start [[⟨[bytes "ls"], none, none, 0⟩]]).bss_off) :=
  ⟨by decide, (bss_memsz (bytes "ls") [[⟨[bytes "ls"], none, none, 0⟩]] (by decide)
    (by decide!)).1⟩

/-! ## The relocation base and the extent of the first segment -/

/-- C17 fails on the code: for `echo hi` the relocation at code offset 2 is
patched with `0x400111`, the address of the pool string `hi`, while program
header 1 declares `p_filesz = 102`, so the segment ends at `0x400066`: the string
and its NUL lie wholly outside the declared segment.  The size written by
`write_elf` leaves out the `0xB0` header bytes that precede code and pool. -/
theorem pool_outside_segment :
    parse (bytes "echo hi") = .ok [[⟨[bytes "echo", bytes "hi"], none, none, 0⟩]] ∧
      (⟨2, 0⟩ : Rel) ∈ (gen_script Gen.start
        [[⟨[bytes "echo", bytes "hi"], none, none, 0⟩]]).rels ∧
      rd64 (write_elf (gen_script Gen.start [[⟨[bytes "echo", bytes "hi"], none, none, 0⟩]]))
        (0xB0 + 2) = 0x400111 ∧
      ((gen_script Gen.start [[⟨[bytes "echo", bytes "hi"], none, none, 0⟩]]).strs.pool.drop
        ((gen_script Gen.start [[⟨[bytes "echo", bytes "hi"], none, none, 0⟩]]).strs.offs.getD 0 0)
        ).take 3 = bytes "hi" ++ [0] ∧
      rd64 (write_elf (gen_script Gen.start [[⟨[bytes "echo", bytes "hi"], none, none, 0⟩]]))
        (0x40 + 0x20) = 102 ∧
      ¬ (rd64 (write_elf (gen_script Gen.start
            [[⟨[bytes "echo", bytes "hi"], none, none, 0⟩]])) (0xB0 + 2) + 3 ≤
          0x400000 + rd64 (write_elf (gen_script Gen.start
            [[⟨[bytes "echo", bytes "hi"], none, none, 0⟩]])) (0x40 + 0x20)) := by
  have ok := gen_script_ok Gen.start [[⟨[bytes "echo", bytes "hi"], none, none, 0⟩]]
  obtain ⟨ss, hss⟩ := ok.pool
  have hm : (⟨2, 0⟩ : Rel) ∈ (gen_script Gen.start
      [[⟨[bytes "echo", bytes "hi"], none, none, 0⟩]]).rels := by decide!
  have hs := (reloc_slot_sound _ ok ss hss (by decide!) ⟨2, 0⟩ hm).2.1
  have hc : (gen_script Gen.start [[⟨[bytes "echo", bytes "hi"], none, none, 0⟩]]).code.length
      = 97 := by decide!
  have ho : (gen_script Gen.start
      [[⟨[bytes "echo", bytes "hi"], none, none, 0⟩]]).strs.offs.getD 0 0 = 0 := by decide!
  have hp : (gen_script Gen.start
      [[⟨[bytes "echo", bytes "hi"], none, none, 0⟩]]).strs.pool.length = 5 := by decide!
  have f := (write_elf_fields (gen_script Gen.start
    [[⟨[bytes "echo", bytes "hi"], none, none, 0⟩]])).2.2.2.1
  rw [hc, hp] at f
  simp only [hc, ho] at hs
  refine ⟨by decide, hm, hs, by decide!, f, ?_⟩
  rw [hs, f]
  norm_num

/-- Counterexample to C19: for `echo hi` the slot of the relocation at code
offset 2 (string index 0, pool offset 0) is patched with `0x400111`, which is
`0x400000 + code_off + code_len`, not `0x400000 + code_off = 0x4000B0`. -/
theorem reloc_base_not_code_off :
    parse (bytes "echo hi") = .ok [[⟨[bytes "echo", bytes "hi"], none, none, 0⟩]] ∧
      (⟨2, 0⟩ : Rel) ∈ (gen_script Gen.start
        [[⟨[bytes "echo", bytes "hi"], none, none, 0⟩]]).rels ∧
      (gen_script Gen.start
        [[⟨[bytes "echo", bytes "hi"], none, none, 0⟩]]).strs.offs.getD 0 0 = 0 ∧
      rd64 (patched_code (gen_script Gen.start
        [[⟨[bytes "echo", bytes "hi"], none, none, 0⟩]])) 2 = 0x400111 ∧
      rd64 (patched_code (gen_script Gen.start
        [[⟨[bytes "echo", bytes "hi"], none, none, 0⟩]])) 2 ≠
        0x400000 + (0x40 + 0x38 * 2) + (gen_script Gen.start
          [[⟨[bytes "echo", bytes "hi"], none, none, 0⟩]]).strs.offs.getD 0 0 := by
  have h : rd64 (patched_code (gen_script Gen.start
        [[⟨[bytes "echo", bytes "hi"], none, none, 0⟩]])) 2 = 0x400111 := by decide!
  refine ⟨by decide, by decide!, by decide!, h, ?_⟩
  rw [h]
  decide!

/-- C19, amended: for every accepted script and every recorded relocation
`(at, idx)`, the eight bytes that the relocation loop of `write_elf` leaves at
`at` in the code buffer, and that the file holds at `code_off + at`, are the
little-endian bytes of `ro_base_vaddr + offs[idx]` with
`ro_base_vaddr = 0x400000 + ro_off`, where `ro_off = code_off + code_len` is the
file offset of the string pool and `code_off = 0x40 + 0x38*2`. -/
theorem reloc_base (src : List Nat) (sc : Script) (_hacc : parse src = .ok sc) :
    ∀ r ∈ (gen_script Gen.start sc).rels,
      ((patched_code (gen_script Gen.start sc)).drop r.at_).take 8 =
          le_bytes 8 (0x400000 + (0x40 + 0x38 * 2 + (gen_script Gen.start sc).code.length) +
            (gen_script Gen.start sc).strs.offs.getD r.str_idx 0) ∧
        ((write_elf (gen_script Gen.start sc)).drop (0x40 + 0x38 * 2 + r.at_)).take 8 =
          le_bytes 8 (0x400000 + (0x40 + 0x38 * 2 + (gen_script Gen.start sc).code.length) +
            (gen_script Gen.start sc).strs.offs.getD r.str_idx 0) := by
  have ok := gen_script_ok Gen.start sc
  generalize gen_script Gen.start sc = g at ok ⊢
  intro r hr
  have hslot := apply_rels_slot g.strs.offs (0x400000 + (0xB0 + g.code.length)) g.rels g.code
    ok.rels_in ok.rels_sep r hr
  have hin := ok.rels_in r hr
  have hp : ((patched_code g).drop r.at_).take 8 =
      le_bytes 8 (0x400000 + (0x40 + 0x38 * 2 + g.code.length) + g.strs.offs.getD r.str_idx 0) :=
    hslot
  refine ⟨hp, ?_⟩
  have hH := hdr_length (g.code.length + g.strs.pool.length)
    (if g.bss_off ≠ 0 then g.bss_off else 0x1000)
  rw [write_elf_layout, show 0x40 + 0x38 * 2 + r.at_ = 0xB0 + r.at_ from rfl, ← hH,
    List.drop_append, List.drop_append_of_le_length (by rw [patched_code_length]; omega),
    List.take_append_of_le_length (by rw [List.length_drop, patched_code_length]; omega), hp]

/-- Witness for C19 (amended) on the script `echo hi`. -/
theorem reloc_base_witness :
    parse (bytes "echo hi") = .ok [[⟨[bytes "echo", bytes "hi"], none, none, 0⟩]] ∧
      ∀ r ∈ (gen_script Gen.start [[⟨[bytes "echo", bytes "hi"], none, none, 0⟩]]).rels,
        ((patched_code (gen_script Gen.start
            [[⟨[bytes "echo", bytes "hi"], none, none, 0⟩]])).drop r.at_).take 8 =
          le_bytes 8 (0x400000 + (0x40 + 0x38 * 2 + (gen_script Gen.start
              [[⟨[bytes "echo", bytes "hi"], none, none, 0⟩]]).code.length) +
            (gen_script Gen.start
              [[⟨[bytes "echo", bytes "hi"], none, none, 0⟩]]).strs.offs.getD r.str_idx 0) :=
  ⟨by decide, fun r hr =>
    (reloc_base (bytes "echo hi") [[⟨[bytes "echo", bytes "hi"], none, none, 0⟩]] (by decide)
      r hr).1⟩

/-! ## The generator only appends code, and relocations sit at placeholders -/

theorem occ_extend {c1 c2 pat : List Nat} {k n : Nat} (hp : c1 <+: c2)
    (h : (c1.drop k).take n = pat) (hn : pat.length = n) : (c2.drop k).take n = pat := by
  obtain ⟨t, rfl⟩ := hp
  rcases Nat.eq_zero_or_pos n with h0 | h0
  · subst h0
    rw [List.take_zero] at h ⊢
    exact h
  · have hl : k + n ≤ c1.length := by
      have := congrArg List.length h
      simp only [List.length_take, List.length_drop] at this
      omega
    rw [List.drop_append_of_le_length (by omega),
      List.take_append_of_le_length (by rw [List.length_drop]; omega), h]

theorem occ_write_at {c bs pat : List Nat} {k n p : Nat} (h : (c.drop k).take n = pat)
    (hp : p + bs.length ≤ k) (hc : p + bs.length ≤ c.length) :
    ((write_at c p bs).drop k).take n = pat := by
  rw [write_at_eq c p bs hc]
  have hl : (c.take p ++ bs).length = p + bs.length := by
    simp only [List.length_append, List.length_take]; omega
  have hk : k = (c.take p ++ bs).length + (k - (p + bs.length)) := by omega
  rw [hk, List.drop_append, List.drop_drop, ← h]
  congr 2
  omega

theorem is_slot_extend {c1 c2 : List Nat} {a : Nat} (hp : c1 <+: c2)
    (h : is_slot c1 a = true) : is_slot c2 a = true := by
  simp only [is_slot, Bool.and_eq_true, Bool.or_eq_true, decide_eq_true_eq, beq_iff_eq] at h ⊢
  refine ⟨h.1, ?_⟩
  rcases h.2 with (h2 | h2) | h2
  · exact Or.inl (Or.inl (occ_extend hp h2 rfl))
  · exact Or.inl (Or.inr (occ_extend hp h2 rfl))
  · exact Or.inr (occ_extend hp h2 rfl)

theorem is_slot_write_at {c bs : List Nat} {a p : Nat} (h : is_slot c a = true)
    (hp : p + bs.length + 2 ≤ a) (hc : p + bs.length ≤ c.length) :
    is_slot (write_at c p bs) a = true := by
  simp only [is_slot, Bool.and_eq_true, Bool.or_eq_true, decide_eq_true_eq, beq_iff_eq] at h ⊢
  refine ⟨h.1, ?_⟩
  rcases h.2 with (h2 | h2) | h2
  · exact Or.inl (Or.inl (occ_write_at h2 (by omega) hc))
  · exact Or.inl (Or.inr (occ_write_at h2 (by omega) hc))
  · exact Or.inr (occ_write_at h2 (by omega) hc)

/-- What `is_slot` says about the code bytes. -/
theorem is_slot_spec {c : List Nat} {a : Nat} (h : is_slot c a = true) :
    2 ≤ a ∧ a + 8 ≤ c.length ∧ (c.drop a).take 8 = List.replicate 8 0 ∧
      ((c.drop (a - 2)).take 2 = [0x48, 0xBF] ∨ (c.drop (a - 2)).take 2 = [0x48, 0xBE] ∨
        (c.drop (a - 2)).take 2 = [0x48, 0xB8]) := by
  simp only [is_slot, Bool.and_eq_true, Bool.or_eq_true, decide_eq_true_eq, beq_iff_eq] at h
  obtain ⟨h1, h2⟩ := h
  have key : ∀ pat : List Nat, (c.drop (a - 2)).take 10 = pat → pat.length = 10 →
      a + 8 ≤ c.length ∧ (c.drop a).take 8 = (pat.drop 2).take 8 ∧
        (c.drop (a - 2)).take 2 = pat.take 2 := by
    intro pat hp hl
    have hlen : a - 2 + 10 ≤ c.length := by
      have := congrArg List.length hp
      simp only [List.length_take, List.length_drop, hl] at this
      omega
    refine ⟨by omega, ?_, ?_⟩
    · rw [← hp, List.drop_take, List.drop_drop, List.take_take]
      congr 2
      omega
    · rw [← hp, List.take_take]; rfl
  rcases h2 with (h2 | h2) | h2
  · obtain ⟨k1, k2, k3⟩ := key _ h2 rfl
    exact ⟨h1, k1, k2, Or.inl k3⟩
  · obtain ⟨k1, k2, k3⟩ := key _ h2 rfl
    exact ⟨h1, k1, k2, Or.inr (Or.inl k3)⟩
  · obtain ⟨k1, k2, k3⟩ := key _ h2 rfl
    exact ⟨h1, k1, k2, Or.inr (Or.inr k3)⟩

theorem Grow.grefl (g : Gen) : Grow g g :=
  ⟨List.prefix_refl _, ⟨[], by simp, by intro r hr; cases hr⟩, rfl⟩

theorem Grow.gtrans {a b c : Gen} (h1 : Grow a b) (h2 : Grow b c) : Grow a c := by
  obtain ⟨n1, e1, s1⟩ := h1.rels
  obtain ⟨n2, e2, s2⟩ := h2.rels
  refine ⟨h1.code.trans h2.code, ⟨n1 ++ n2, by rw [e2, e1, List.append_assoc], ?_⟩,
    h2.base.trans h1.base⟩
  intro r hr
  rcases List.mem_append.mp hr with hr | hr
  · exact ⟨(s1 r hr).1, is_slot_extend h2.code (s1 r hr).2⟩
  · have := h1.code.length_le
    exact ⟨by have := (s2 r hr).1; omega, (s2 r hr).2⟩

theorem Low.lrefl (g : Gen) : Low g g := ⟨Grow.grefl g, rfl⟩

theorem Low.ltrans {a b c : Gen} (h1 : Low a b) (h2 : Low b c) : Low a c :=
  ⟨h1.1.gtrans h2.1, h2.2.trans h1.2⟩

/-- A step that appends code and changes neither relocations nor BSS fields. -/
theorem Low.append {g0 g g2 : Gen} (h : Low g0 g) (x : List Nat) (hc : g2.code = g.code ++ x)
    (hr : g2.rels = g.rels) (hb : g2.bss_base = g.bss_base) (ho : g2.bss_off = g.bss_off) :
    Low g0 g2 :=
  h.ltrans ⟨⟨by rw [hc]; exact List.prefix_append _ _, ⟨[], by simp [hr], by intro r h; cases h⟩, hb⟩,
    ho⟩

theorem low_c8 {g0 g : Gen} (x : Nat) (h : Low g0 g) : Low g0 (c8 g x) :=
  h.append _ rfl rfl rfl rfl

theorem low_c32 {g0 g : Gen} (x : Nat) (h : Low g0 g) : Low g0 (c32 g x) :=
  h.append _ rfl rfl rfl rfl

theorem low_c64 {g0 g : Gen} (x : Nat) (h : Low g0 g) : Low g0 (c64 g x) :=
  h.append _ rfl rfl rfl rfl

theorem low_mov_rax_imm32 {g0 g : Gen} (x : Nat) (h : Low g0 g) : Low g0 (mov_rax_imm32 g x) :=
  low_c32 _ (low_c8 _ (low_c8 _ (low_c8 _ h)))

theorem low_mov_rdi_imm64 {g0 g : Gen} (x : Nat) (h : Low g0 g) : Low g0 (mov_rdi_imm64 g x) :=
  low_c64 _ (low_c8 _ (low_c8 _ h))

theorem low_mov_rsi_imm64 {g0 g : Gen} (x : Nat) (h : Low g0 g) : Low g0 (mov_rsi_imm64 g x) :=
  low_c64 _ (low_c8 _ (low_c8 _ h))

theorem low_mov_rdx_imm64 {g0 g : Gen} (x : Nat) (h : Low g0 g) : Low g0 (mov_rdx_imm64 g x) :=
  low_c64 _ (low_c8 _ (low_c8 _ h))

theorem low_mov_r10_imm64 {g0 g : Gen} (x : Nat) (h : Low g0 g) : Low g0 (mov_r10_imm64 g x) :=
  low_c64 _ (low_c8 _ (low_c8 _ h))

theorem low_xor_rsi_rsi {g0 g : Gen} (h : Low g0 g) : Low g0 (xor_rsi_rsi g) :=
  low_c8 _ (low_c8 _ (low_c8 _ h))

theorem low_xor_rdx_rdx {g0 g : Gen} (h : Low g0 g) : Low g0 (xor_rdx_rdx g) :=
  low_c8 _ (low_c8 _ (low_c8 _ h))

theorem low_xor_r10_r10 {g0 g : Gen} (h : Low g0 g) : Low g0 (xor_r10_r10 g) :=
  low_c8 _ (low_c8 _ (low_c8 _ h))

theorem low_mov_rsi_rdi {g0 g : Gen} (h : Low g0 g) : Low g0 (mov_rsi_rdi g) :=
  low_c8 _ (low_c8 _ (low_c8 _ h))

theorem low_mov_rdi_rax {g0 g : Gen} (h : Low g0 g) : Low g0 (mov_rdi_rax g) :=
  low_c8 _ (low_c8 _ (low_c8 _ h))

theorem low_mov_eax_mrdi {g0 g : Gen} (h : Low g0 g) : Low g0 (mov_eax_mrdi g) :=
  low_c8 _ (low_c8 _ h)

theorem low_syscall {g0 g : Gen} (h : Low g0 g) : Low g0 (syscall_ g) :=
  low_c8 _ (low_c8 _ h)

theorem low_mov_m8 {g0 g : Gen} (d : Nat) (h : Low g0 g) : Low g0 (mov_m8_rdi_disp32_rax g d) :=
  low_c32 _ (low_c8 _ (low_c8 _ (low_c8 _ h)))

theorem low_sys {g0 g : Gen} (n : Nat) (h : Low g0 g) : Low g0 (syscall_ (mov_rax_imm32 g n)) :=
  low_syscall (low_mov_rax_imm32 _ h)

theorem low_add_str {g0 g : Gen} (s : List Nat) (h : Low g0 g) : Low g0 (add_str g s).1 :=
  h.append [] (by simp [add_str]) rfl rfl rfl

/-- Emitting a `mov r64, imm64` opcode with an eight-byte zero placeholder and
recording a relocation at the placeholder. -/
theorem low_rel_slot {g0 g : Gen} (op sidx : Nat)
    (hop : op = 0xBF ∨ op = 0xBE ∨ op = 0xB8) (h : Low g0 g) :
    Low g0 (rels_add_here (c64 (c8 (c8 g 0x48) op) 0) (cpos (c8 (c8 g 0x48) op)) sidx) := by
  refine h.ltrans ⟨⟨?_, ⟨[⟨cpos (c8 (c8 g 0x48) op), sidx⟩], rfl, ?_⟩, rfl⟩, rfl⟩
  · simp only [rels_add_here, c64, c8, List.append_assoc]
    exact List.prefix_append _ _
  · intro r hr
    rw [List.mem_singleton] at hr
    subst hr
    refine ⟨by simp [cpos, c8], ?_⟩
    simp only [is_slot, rels_add_here, c64, c8, cpos, List.length_append, List.length_singleton,
      List.append_assoc, Nat.add_sub_cancel]
    rw [List.drop_left, Bool.and_eq_true]
    refine ⟨by simp, ?_⟩
    rcases hop with rfl | rfl | rfl <;> decide

theorem low_mov_rdi_str {g0 g : Gen} (sidx : Nat) (h : Low g0 g) : Low g0 (mov_rdi_str g sidx) :=
  low_rel_slot 0xBF sidx (Or.inl rfl) h

theorem low_mov_rsi_str {g0 g : Gen} (sidx : Nat) (h : Low g0 g) : Low g0 (mov_rsi_str g sidx) :=
  low_rel_slot 0xBE sidx (Or.inr (Or.inl rfl)) h

/-- Patching the rel32 of a jump emitted at the end of `g` after more code has
been appended keeps the growth relation: only the four placeholder bytes of the
jump change, and every relocation added since lies behind them. -/
theorem grow_patch_at (g g1 g5 : Gen) (x : List Nat) (hx : x.length = 2)
    (hc : g1.code = g.code ++ x ++ le_bytes 4 0) (hr : g1.rels = g.rels)
    (hb : g1.bss_base = g.bss_base) (h1 : Grow g1 g5) :
    Grow g (patch_here g5 (g.code.length + 2)) := by
  obtain ⟨t, ht⟩ := h1.code
  obtain ⟨nr, e, s⟩ := h1.rels
  rw [hc] at ht
  have hnew : (patch_here g5 (g.code.length + 2)).code =
      g.code ++ x ++ le_bytes 4 (cpos g5 - (g.code.length + 2 + 4)) ++ t := by
    simp only [patch_here, patch32]
    rw [← ht]
    exact write_at_block (g.code ++ x) (le_bytes 4 0) t _ _ (by simp [hx]) (by simp)
  refine ⟨?_, ⟨nr, by rw [← hr, ← e]; rfl, ?_⟩, h1.base.trans hb⟩
  · rw [hnew, List.append_assoc, List.append_assoc]
    exact List.prefix_append _ _
  · intro r hrm
    obtain ⟨s1, s2⟩ := s r hrm
    have hl : g1.code.length = g.code.length + 6 := by
      rw [hc]; simp [hx]
    refine ⟨by omega, ?_⟩
    simp only [patch_here, patch32]
    refine is_slot_write_at s2 (by rw [le_bytes_length]; omega) ?_
    have := h1.code.length_le
    rw [le_bytes_length]
    omega

theorem grow_jne_patch {g0 g g5 : Gen} (h0 : Grow g0 g) (h1 : Grow (jne_rel32 g).1 g5) :
    Grow g0 (patch_here g5 (jne_rel32 g).2) := by
  have e : (jne_rel32 g).2 = g.code.length + 2 := by simp [jne_rel32, cpos, c8]
  rw [e]
  exact h0.gtrans (grow_patch_at g (jne_rel32 g).1 g5 [0x0F % 256, 0x85 % 256] rfl
    (by simp [jne_rel32, c8, c32]) rfl rfl h1)

theorem grow_je_patch {g0 g g5 : Gen} (h0 : Grow g0 g) (h1 : Grow (je_rel32 g).1 g5) :
    Grow g0 (patch_here g5 (je_rel32 g).2) := by
  have e : (je_rel32 g).2 = g.code.length + 2 := by simp [je_rel32, cpos, c8]
  rw [e]
  exact h0.gtrans (grow_patch_at g (je_rel32 g).1 g5 [0x0F % 256, 0x84 % 256] rfl
    (by simp [je_rel32, c8, c32]) rfl rfl h1)

theorem low_jne {g0 g : Gen} (h : Low g0 g) : Low g0 (jne_rel32 g).1 :=
  low_c32 _ (low_c8 _ (low_c8 _ h))

theorem low_je {g0 g : Gen} (h : Low g0 g) : Low g0 (je_rel32 g).1 :=
  low_c32 _ (low_c8 _ (low_c8 _ h))

theorem low_jne_patch {g0 g g5 : Gen} (h0 : Low g0 g) (h1 : Low (jne_rel32 g).1 g5) :
    Low g0 (patch_here g5 (jne_rel32 g).2) :=
  ⟨grow_jne_patch h0.1 h1.1, by
    have := h1.2
    have e : (jne_rel32 g).1.bss_off = g.bss_off := rfl
    rw [e] at this
    exact (this.trans h0.2)⟩

theorem low_write_literal {g0 g : Gen} (s : List Nat) (h : Low g0 g) :
    Low g0 (write_literal g s) :=
  low_sys _ (low_mov_rdx_imm64 _ (low_mov_rdi_imm64 _ (low_mov_rsi_str _ (low_add_str s h))))

theorem low_build_argv_loop {g0 : Gen} (sidxv : List Nat) :
    ∀ (i : Nat) (g : Gen), Low g0 g → Low g0 (build_argv_loop i sidxv g) := by
  induction sidxv with
  | nil => intro i g h; exact h
  | cons s rest ih =>
    intro i g h
    exact ih (i + 1) _ (low_mov_m8 _ (low_rel_slot 0xB8 s (Or.inr (Or.inr rfl)) h))

theorem low_build_argv {g0 g : Gen} (off : Nat) (sidxv : List Nat) (h : Low g0 g) :
    Low g0 (build_argv g off sidxv) :=
  low_mov_rsi_rdi (low_mov_m8 _ (low_mov_rax_imm32 _
    (low_build_argv_loop sidxv 0 _ (low_mov_rdi_imm64 _ h))))

theorem low_emit_redir_in {g0 g : Gen} (path : List Nat) (h : Low g0 g) :
    Low g0 (emit_redir_in g path) :=
  low_sys _ (low_mov_rdi_rax (low_sys _ (low_mov_rsi_imm64 _ (low_mov_rdi_rax
    (low_sys _ (low_xor_r10_r10 (low_mov_rdx_imm64 _
      (low_mov_rsi_str _ (low_mov_rdi_imm64 _ (low_add_str path h))))))))))

theorem low_emit_redir_out {g0 g : Gen} (path : List Nat) (append : Nat) (h : Low g0 g) :
    Low g0 (emit_redir_out g path append) :=
  low_sys _ (low_mov_rdi_rax (low_sys _ (low_mov_rsi_imm64 _ (low_mov_rdi_rax
    (low_sys _ (low_mov_r10_imm64 _ (low_mov_rdx_imm64 _
      (low_mov_rsi_str _ (low_mov_rdi_imm64 _ (low_add_str path h))))))))))

theorem low_emit_redirs {g0 g : Gen} (i o : Option (List Nat)) (append : Nat) (h : Low g0 g) :
    Low g0 (emit_redirs g i o append) := by
  cases i <;> cases o <;> simp only [emit_redirs]
  · exact h
  · exact low_emit_redir_out _ _ h
  · exact low_emit_redir_in _ h
  · exact low_emit_redir_out _ _ (low_emit_redir_in _ h)

theorem low_echo_args {g0 : Gen} : ∀ (args : List (List Nat)) (g : Gen), Low g0 g →
    Low g0 (echo_args args g)
  | [], _, h => h
  | [a], _, h => low_write_literal a h
  | a :: b :: rest, _, h =>
    low_echo_args (b :: rest) _ (low_write_literal _ (low_write_literal a h))

theorem low_emit_builtin {g0 g : Gen} (st : Stage) (h : Low g0 g) :
    Low g0 (emit_builtin g st) := by
  unfold emit_builtin
  split
  · exact low_write_literal _ (low_echo_args _ _ h)
  · split
    · split
      · exact low_sys _ (low_mov_rdi_str _ (low_add_str (st.argv.getD 1 []) h))
      · exact h
    · split
      · exact low_sys _ (low_mov_rdi_imm64 _ h)
      · exact h

theorem low_add_argv {g0 : Gen} : ∀ (args : List (List Nat)) (g : Gen), Low g0 g →
    Low g0 (add_argv args g).1
  | [], _, h => h
  | a :: rest, _, h => low_add_argv rest _ (low_add_str a h)

theorem low_exec_failed {g0 g : Gen} (h : Low g0 g) : Low g0 (exec_failed g) :=
  low_sys _ (low_mov_rdi_imm64 _ (low_write_literal _ h))

theorem low_exec_paths {g0 g : Gen} (s1 s2 : Nat) (h : Low g0 g) :
    Low g0 (exec_paths g s1 s2) :=
  low_exec_failed (low_sys _ (low_mov_rdi_str _
    (low_jne_patch (low_c8 _ (low_c8 _ (low_c8 _ (low_sys _ (low_mov_rdi_str s1 h)))))
      (Low.lrefl _))))

theorem low_exec_dispatch {g0 g : Gen} (cmd0 : List Nat) (s0 : Nat) (h : Low g0 g) :
    Low g0 (exec_dispatch g cmd0 s0) := by
  unfold exec_dispatch
  split
  · exact low_exec_failed (low_sys _ (low_mov_rdi_str _ h))
  · exact low_exec_paths _ _ (low_add_str _ (low_add_str _ h))

theorem low_emit_exec {g0 g : Gen} (st : Stage) (a e : Nat) (h : Low g0 g) :
    Low g0 (emit_exec g st a e) :=
  low_exec_dispatch st.cmd _ (low_add_str st.cmd (low_mov_rdx_imm64 _
    (low_build_argv a _ (low_add_argv st.argv g h))))

theorem low_emit_simple_cmd {g0 g : Gen} (st : Stage) (a e : Nat) (h : Low g0 g) :
    Low g0 (emit_simple_cmd g st a e) := by
  unfold emit_simple_cmd
  split
  · exact low_emit_builtin st h
  · exact low_sys _ (low_xor_r10_r10 (low_xor_rdx_rdx (low_xor_rsi_rsi (low_c8 _ (low_c8 _
      (low_c8 _ (low_jne_patch (low_c8 _ (low_c8 _ (low_c8 _ (low_c8 _ (low_sys _ h)))))
        (low_emit_exec st a e (low_emit_redirs _ _ _ (Low.lrefl _))))))))))

theorem low_emit_child_prev {g0 g : Gen} (o : PipeOffs) (h : Low g0 g) :
    Low g0 (emit_child_prev g o) :=
  low_sys _ (low_mov_rdi_rax (low_c8 _ (low_c8 _ (low_c8 _ (low_mov_rdi_imm64 _
    (low_sys _ (low_mov_rsi_imm64 _ (low_mov_rdi_rax (low_c8 _ (low_c8 _ (low_c8 _
      (low_mov_rdi_imm64 _ h))))))))))))

theorem low_emit_child_next {g0 g : Gen} (o : PipeOffs) (h : Low g0 g) :
    Low g0 (emit_child_next g o) :=
  low_sys _ (low_mov_rdi_rax (low_mov_eax_mrdi (low_mov_rdi_imm64 _
    (low_sys _ (low_mov_rdi_rax (low_mov_eax_mrdi (low_mov_rdi_imm64 _
      (low_sys _ (low_mov_rsi_imm64 _ (low_mov_rdi_rax (low_mov_eax_mrdi
        (low_mov_rdi_imm64 _ h))))))))))))

theorem low_emit_parent_next {g0 g : Gen} (o : PipeOffs) (h : Low g0 g) :
    Low g0 (emit_parent_next g o) :=
  low_sys _ (low_mov_rdi_rax (low_mov_eax_mrdi (low_mov_rdi_imm64 _
    (low_c8 _ (low_c8 _ (low_c8 _ (low_mov_rdi_imm64 _ (low_mov_eax_mrdi
      (low_mov_rdi_imm64 _ h)))))))))

theorem low_emit_wait {g0 g : Gen} (o : PipeOffs) (i : Nat) (h : Low g0 g) :
    Low g0 (emit_wait g o i) :=
  low_sys _ (low_xor_r10_r10 (low_xor_rdx_rdx (low_xor_rsi_rsi (low_mov_rdi_rax
    (low_c8 _ (low_c8 _ (low_c8 _ (low_mov_rdi_imm64 _ h))))))))

theorem low_wait_loop {g0 : Gen} (o : PipeOffs) (l : List Nat) :
    ∀ g : Gen, Low g0 g → Low g0 (l.foldl (fun acc i => emit_wait acc o i) g) := by
  induction l with
  | nil => intro g h; exact h
  | cons i rest ih =>
    intro g h
    rw [List.foldl_cons]
    exact ih (emit_wait g o i) (low_emit_wait o i h)

theorem grow_bss (g : Gen) (n : Nat) : Grow g { g with bss_off := n } :=
  ⟨List.prefix_refl _, ⟨[], by simp, by intro r hr; cases hr⟩, rfl⟩

/-- Growth followed by a step that keeps the BSS cursor. -/
theorem Grow.low {a b c : Gen} (h1 : Grow a b) (h2 : Low b c) :
    Grow a c ∧ c.bss_off = b.bss_off := ⟨h1.gtrans h2.1, h2.2⟩

/-- One stage of a pipeline: the code grows, and the BSS cursor moves by the
argv vector of the stage when the stage is an external command. -/
theorem grow_emit_stage (g : Gen) (o : PipeOffs) (n i : Nat) (st : Stage) :
    Grow g (emit_stage g o n i st) ∧
      (emit_stage g o n i st).bss_off =
        g.bss_off + (if is_builtin st.cmd = true then 0 else 8 * (st.argv.length + 1)) := by
  unfold emit_stage
  simp only []
  have h1 : Low g (if (decide (i + 1 < n)) = true then
      sys_pipe (mov_rdi_imm64 g (g.bss_base + o.pipe_area_off)) else g) := by
    split
    · exact low_sys _ (low_mov_rdi_imm64 _ (Low.lrefl _))
    · exact Low.lrefl _
  generalize (if (decide (i + 1 < n)) = true then
      sys_pipe (mov_rdi_imm64 g (g.bss_base + o.pipe_area_off)) else g) = g1 at h1 ⊢
  have h3 : Low g (c8 (c8 (c8 (c8 (sys_fork g1) 0x48) 0x83) 0xF8) 0x00) :=
    low_c8 _ (low_c8 _ (low_c8 _ (low_c8 _ (low_sys _ h1))))
  generalize (c8 (c8 (c8 (c8 (sys_fork g1) 0x48) 0x83) 0xF8) 0x00) = g3 at h3 ⊢
  have hj : (jne_rel32 g3).1.bss_off = g3.bss_off := rfl
  have h5 : Low (jne_rel32 g3).1 (if i > 0 then emit_child_prev (jne_rel32 g3).1 o
      else (jne_rel32 g3).1) := by
    split
    · exact low_emit_child_prev o (Low.lrefl _)
    · exact Low.lrefl _
  generalize (if i > 0 then emit_child_prev (jne_rel32 g3).1 o else (jne_rel32 g3).1) = g5
    at h5 ⊢
  have h6 : Low (jne_rel32 g3).1
      (if (decide (i + 1 < n)) = true then emit_child_next g5 o else g5) := by
    split
    · exact low_emit_child_next o h5
    · exact h5
  generalize (if (decide (i + 1 < n)) = true then emit_child_next g5 o else g5) = g6 at h6 ⊢
  have h7 := low_emit_redirs st.in_redir st.out_redir st.out_append h6
  generalize emit_redirs g6 st.in_redir st.out_redir st.out_append = g7 at h7 ⊢
  have h8 : Grow (jne_rel32 g3).1 (if is_builtin st.cmd = true then
        sys_exit (mov_rdi_imm64 (emit_builtin g7 st) 0)
      else emit_exec { g7 with bss_off := g7.bss_off + 8 * (st.argv.length + 1) } st g7.bss_off
        o.envp_off) ∧
      (if is_builtin st.cmd = true then
        sys_exit (mov_rdi_imm64 (emit_builtin g7 st) 0)
      else emit_exec { g7 with bss_off := g7.bss_off + 8 * (st.argv.length + 1) } st g7.bss_off
        o.envp_off).bss_off =
        g7.bss_off + (if is_builtin st.cmd = true then 0 else 8 * (st.argv.length + 1)) := by
    split
    · have := low_sys 60 (low_mov_rdi_imm64 0 (low_emit_builtin st h7))
      exact ⟨this.1, by
        have e := (low_sys 60 (low_mov_rdi_imm64 0 (low_emit_builtin st (Low.lrefl g7)))).2
        exact e⟩
    · have := (h7.1.gtrans (grow_bss g7 (g7.bss_off + 8 * (st.argv.length + 1)))).low
        (low_emit_exec st g7.bss_off o.envp_off (Low.lrefl _))
      exact ⟨this.1, this.2⟩
  generalize (if is_builtin st.cmd = true then
      sys_exit (mov_rdi_imm64 (emit_builtin g7 st) 0)
    else emit_exec { g7 with bss_off := g7.bss_off + 8 * (st.argv.length + 1) } st g7.bss_off
      o.envp_off) = g8 at h8 ⊢
  have h9 : Grow g (patch_here g8 (jne_rel32 g3).2) := grow_jne_patch h3.1 h8.1
  have b9 : (patch_here g8 (jne_rel32 g3).2).bss_off =
      g.bss_off + (if is_builtin st.cmd = true then 0 else 8 * (st.argv.length + 1)) := by
    have : (patch_here g8 (jne_rel32 g3).2).bss_off = g8.bss_off := rfl
    rw [this, h8.2, h7.2, hj, h3.2]
  generalize patch_here g8 (jne_rel32 g3).2 = g9 at h9 b9 ⊢
  have h11 := h9.low (low_c8 0x07 (low_c8 0x89 (low_c8 0x48
    (low_mov_rdi_imm64 (g9.bss_base + o.pid_arr_off + i * 8) (Low.lrefl g9)))))
  split
  · have := h9.low (low_emit_parent_next o (low_c8 0x07 (low_c8 0x89 (low_c8 0x48
      (low_mov_rdi_imm64 (g9.bss_base + o.pid_arr_off + i * 8) (Low.lrefl g9))))))
    exact ⟨this.1, this.2.trans b9⟩
  · exact ⟨h11.1, h11.2.trans b9⟩

theorem grow_emit_stages (o : PipeOffs) (n : Nat) :
    ∀ (sts : List Stage) (i : Nat) (g : Gen), Grow g (emit_stages o n i sts g) ∧
      g.bss_off ≤ (emit_stages o n i sts g).bss_off
  | [], _, g => ⟨Grow.grefl g, le_rfl⟩
  | st :: rest, i, g => by
    have h1 := grow_emit_stage g o n i st
    have h2 := grow_emit_stages o n rest (i + 1) (emit_stage g o n i st)
    exact ⟨h1.1.gtrans h2.1, by rw [h1.2] at h2; exact le_trans (Nat.le_add_right _ _) h2.2⟩

theorem grow_emit_pipeline (g : Gen) (pl : Pipeline) :
    Grow g (emit_pipeline g pl) ∧ g.bss_off ≤ (emit_pipeline g pl).bss_off := by
  unfold emit_pipeline
  simp only []
  have h2 := (grow_bss g (g.bss_off + 8 + 8 + 8 * pl.length + 8 * 2)).low
    (low_c8 0x17 (low_c8 0x89 (low_c8 0x48 (low_mov_rdx_imm64 (2 ^ 64 - 1)
      (low_mov_rdi_imm64 (g.bss_base + (g.bss_off + 8)) (Low.lrefl _))))))
  generalize hg2 : c8 (c8 (c8 (mov_rdx_imm64 (mov_rdi_imm64
    { g with bss_off := g.bss_off + 8 + 8 + 8 * pl.length + 8 * 2 }
      (g.bss_base + (g.bss_off + 8))) (2 ^ 64 - 1)) 0x48) 0x89) 0x17 = g2 at h2 ⊢
  have h3 := grow_emit_stages ⟨g.bss_off, g.bss_off + 8, g.bss_off + 8 + 8,
    g.bss_off + 8 + 8 + 8 * pl.length⟩ pl.length pl 0 g2
  generalize emit_stages ⟨g.bss_off, g.bss_off + 8, g.bss_off + 8 + 8,
    g.bss_off + 8 + 8 + 8 * pl.length⟩ pl.length 0 pl g2 = g3 at h3 ⊢
  have h6 : Low g3 (c8 (c8 (c8 (c8 (c8 (c8 (c8 (mov_rdi_imm64 g3
      (g3.bss_base + (g.bss_off + 8))) 0x48) 0x8B) 0x07) 0x48) 0x83) 0xF8) 0x00) :=
    low_c8 _ (low_c8 _ (low_c8 _ (low_c8 _ (low_c8 _ (low_c8 _ (low_c8 _
      (low_mov_rdi_imm64 _ (Low.lrefl _))))))))
  generalize (c8 (c8 (c8 (c8 (c8 (c8 (c8 (mov_rdi_imm64 g3
      (g3.bss_base + (g.bss_off + 8))) 0x48) 0x8B) 0x07) 0x48) 0x83) 0xF8) 0x00) = g6 at h6 ⊢
  have h9 : Low g3 (patch_here (sys_close (mov_rdi_rax (je_rel32 g6).1)) (je_rel32 g6).2) :=
    ⟨grow_je_patch h6.1 (low_sys 3 (low_mov_rdi_rax (Low.lrefl _))).1, h6.2⟩
  have h10 := low_wait_loop ⟨g.bss_off, g.bss_off + 8, g.bss_off + 8 + 8,
    g.bss_off + 8 + 8 + 8 * pl.length⟩ (List.range pl.length) _ h9
  refine ⟨h2.1.gtrans (h3.1.gtrans h10.1), ?_⟩
  rw [h10.2]
  have := h2.2
  simp only [] at this
  omega

theorem grow_gen_pipeline (g : Gen) (pl : Pipeline) :
    Grow g (gen_pipeline g pl) ∧ g.bss_off ≤ (gen_pipeline g pl).bss_off := by
  unfold gen_pipeline
  split
  · simp only []
    split
    · have := low_emit_builtin (pl.headD Stage.zero) (Low.lrefl g)
      exact ⟨this.1, by rw [this.2]⟩
    · have := (grow_bss g (g.bss_off + 8 + 8 * ((pl.headD Stage.zero).argv.length + 1))).low
        (low_emit_simple_cmd (pl.headD Stage.zero) (g.bss_off + 8) g.bss_off (Low.lrefl _))
      exact ⟨this.1, by rw [this.2]; simp only []; omega⟩
  · exact grow_emit_pipeline g pl

theorem grow_gen_loop (sc : Script) : ∀ g : Gen, Grow g (sc.foldl gen_pipeline g) := by
  induction sc with
  | nil => intro g; exact Grow.grefl g
  | cons pl rest ih =>
    intro g
    rw [List.foldl_cons]
    exact (grow_gen_pipeline g pl).1.gtrans (ih _)

/-- Every relocation recorded by `gen_script` sits at a placeholder of the
final code. -/
theorem gen_script_slots (g : Gen) (sc : Script) :
    ∀ r ∈ (gen_script g sc).rels, is_slot (gen_script g sc).code r.at_ = true := by
  have h := (grow_gen_loop sc
    { g with code := [], strs := ⟨[], []⟩, rels := [], bss_off := 0 }).low
      (low_sys 60 (low_mov_rdi_imm64 0 (Low.lrefl _)))
  obtain ⟨nr, e, s⟩ := h.1.rels
  intro r hr
  have e2 : (gen_script g sc).rels = nr := by
    unfold gen_script
    simp only []
    rw [show sys_exit = fun x => syscall_ (mov_rax_imm32 x 60) from rfl]
    rw [e]
    rfl
  rw [e2] at hr
  exact (s r hr).2

/-! ## The relocation loop is safe -/

theorem write_at_getD_outside (buf bs : List Nat) (off i : Nat)
    (h : off + bs.length ≤ buf.length) (hi : i < off ∨ off + bs.length ≤ i) :
    (write_at buf off bs).getD i 0 = buf.getD i 0 := by
  rw [write_at_eq buf off bs h]
  simp only [List.getD_eq_getElem?_getD]
  congr 1
  rcases hi with hi | hi
  · rw [List.append_assoc, List.getElem?_append_left (by simp only [List.length_take]; omega),
      List.getElem?_take_of_lt hi]
  · have hl : (buf.take off ++ bs).length = off + bs.length := by
      simp only [List.length_append, List.length_take]; omega
    rw [List.getElem?_append_right (by omega), hl, List.getElem?_drop]
    congr 1
    omega

/-- The relocation loop changes no byte outside the slots. -/
theorem apply_rels_outside (offs : List Nat) (base : Nat) (rels : List Rel) :
    ∀ code : List Nat, (∀ r ∈ rels, r.at_ + 8 ≤ code.length) →
      ∀ i, (∀ r ∈ rels, i < r.at_ ∨ r.at_ + 8 ≤ i) →
        (apply_rels code offs base rels).getD i 0 = code.getD i 0 := by
  induction rels with
  | nil => intro code _ i _; rfl
  | cons x rest ih =>
    intro code hin i hi
    rw [apply_rels, ih _ (by
      intro y hy
      rw [write_at_length]
      exact hin y (List.mem_cons_of_mem _ hy)) i (fun r hr => hi r (List.mem_cons_of_mem _ hr))]
    exact write_at_getD_outside _ _ _ _ (by rw [le_bytes_length]; exact hin x (List.mem_cons_self _ _))
      (by rw [le_bytes_length]; exact hi x (List.mem_cons_self _ _))

/-- C18: for every accepted script, every relocation `(at, idx)` recorded by
`gen_script` has `at + 8 ≤ code length` and `idx <` the number of pool strings;
the eight bytes at `at` are zero before patching and the two bytes before them
are a mov-imm64 opcode (`48 BF`, `48 BE` or `48 B8`); relocations are recorded in
increasing order with disjoint slots; and the patch loop of `write_elf` keeps
the length of the code and changes no byte outside the slots. -/
theorem relocs_safe (src : List Nat) (sc : Script) (_hacc : parse src = .ok sc) :
    (∀ r ∈ (gen_script Gen.start sc).rels,
        r.at_ + 8 ≤ (gen_script Gen.start sc).code.length ∧
        r.str_idx < (gen_script Gen.start sc).strs.offs.length ∧
        2 ≤ r.at_ ∧
        ((gen_script Gen.start sc).code.drop r.at_).take 8 = List.replicate 8 0 ∧
        (((gen_script Gen.start sc).code.drop (r.at_ - 2)).take 2 = [0x48, 0xBF] ∨
          ((gen_script Gen.start sc).code.drop (r.at_ - 2)).take 2 = [0x48, 0xBE] ∨
          ((gen_script Gen.start sc).code.drop (r.at_ - 2)).take 2 = [0x48, 0xB8])) ∧
      (gen_script Gen.start sc).rels.Pairwise (fun a b => a.at_ + 8 ≤ b.at_) ∧
      (∀ r1 ∈ (gen_script Gen.start sc).rels, ∀ r2 ∈ (gen_script Gen.start sc).rels, r1 ≠ r2 →
        r1.at_ + 8 ≤ r2.at_ ∨ r2.at_ + 8 ≤ r1.at_) ∧
      (patched_code (gen_script Gen.start sc)).length = (gen_script Gen.start sc).code.length ∧
      (∀ i, (∀ r ∈ (gen_script Gen.start sc).rels, i < r.at_ ∨ r.at_ + 8 ≤ i) →
        (patched_code (gen_script Gen.start sc)).getD i 0 =
          (gen_script Gen.start sc).code.getD i 0) := by
  have ok := gen_script_ok Gen.start sc
  have sl := gen_script_slots Gen.start sc
  generalize gen_script Gen.start sc = g at ok sl ⊢
  refine ⟨?_, ok.rels_sep, ?_, patched_code_length g, ?_⟩
  · intro r hr
    obtain ⟨h1, h2, h3, h4⟩ := is_slot_spec (sl r hr)
    exact ⟨h2, ok.rels_idx r hr, h1, h3, h4⟩
  · have hp : g.rels.Pairwise (fun a b => a.at_ + 8 ≤ b.at_ ∨ b.at_ + 8 ≤ a.at_) :=
      ok.rels_sep.imp (fun h => Or.inl h)
    intro r1 h1 r2 h2 hne
    exact hp.forall (fun a b h => h.symm) h1 h2 hne
  · intro i hi
    exact apply_rels_outside _ _ _ _ ok.rels_in i hi

/-- Witness for C18 on the script `cat < in.txt | wc > n.txt`. -/
theorem relocs_safe_witness :
    parse (bytes "cat < in.txt | wc > n.txt") =
        .ok [[⟨[bytes "cat"], some (bytes "in.txt"), none, 0⟩,
          ⟨[bytes "wc"], none, some (bytes "n.txt"), 0⟩]] ∧
      (gen_script Gen.start [[⟨[bytes "cat"], some (bytes "in.txt"), none, 0⟩,
        ⟨[bytes "wc"], none, some (bytes "n.txt"), 0⟩]]).rels.Pairwise
          (fun a b => a.at_ + 8 ≤ b.at_) :=
  ⟨by decide, (relocs_safe (bytes "cat < in.txt | wc > n.txt")
    [[⟨[bytes "cat"], some (bytes "in.txt"), none, 0⟩,
      ⟨[bytes "wc"], none, some (bytes "n.txt"), 0⟩]] (by decide)).2.1⟩

/-! ## Properties of the words collected by the parser -/

theorem stage_zero_words (P : List Nat → Prop) : Stage.words_ok P Stage.zero :=
  ⟨(by intro w h; cases h), (by intro w h; cases h), (by intro w h; cases h)⟩

theorem close_stage_words {P : List Nat → Prop} {cur cur2 : Pipeline} {st st2 : Stage}
    (h : close_stage cur st = .ok (cur2, st2))
    (hcur : ∀ x ∈ cur, Stage.words_ok P x) (hst : Stage.words_ok P st) :
    (∀ x ∈ cur2, Stage.words_ok P x) ∧ Stage.words_ok P st2 := by
  rcases close_stage_ok h with ⟨_, h2, h3⟩ | ⟨_, _, _, h2, h3⟩
  · subst h2 h3
    refine ⟨?_, stage_zero_words P⟩
    intro x hx
    rcases List.mem_append.mp hx with hx | hx
    · exact hcur x hx
    · simp only [List.mem_singleton] at hx
      subst hx
      exact hst
  · subst h2 h3
    exact ⟨hcur, hst⟩

theorem finish_stage_words {P : List Nat → Prop} {cur cur2 : Pipeline} {st st2 : Stage}
    (h : finish_stage cur st = .ok (cur2, st2))
    (hcur : ∀ x ∈ cur, Stage.words_ok P x) (hst : Stage.words_ok P st) :
    (∀ x ∈ cur2, Stage.words_ok P x) ∧ Stage.words_ok P st2 := by
  unfold finish_stage at h
  split at h
  · split at h
    · cases h
    · cases h; exact ⟨hcur, hst⟩
  · cases h
    refine ⟨?_, stage_zero_words P⟩
    intro x hx
    rcases List.mem_append.mp hx with hx | hx
    · exact hcur x hx
    · simp only [List.mem_singleton] at hx
      subst hx
      exact hst

theorem words_push {P : List Nat → Prop} {sc : Script} {cur : Pipeline}
    (hsc : Script.words_ok P sc) (hcur : ∀ x ∈ cur, Stage.words_ok P x) :
    Script.words_ok P (sc ++ [cur]) := by
  intro pl hpl
  rcases List.mem_append.mp hpl with hpl | hpl
  · exact hsc pl hpl
  · simp only [List.mem_singleton] at hpl
    subst hpl
    exact hcur

theorem sep_branch_words {P : List Nat → Prop} {s s2 : PState} {p p2 : List Nat}
    (hs : PState.words_ok P s) (h : sep_branch s p = .next s2 p2) : PState.words_ok P s2 := by
  unfold sep_branch at h
  split at h
  · cases h
  · split at h
    · cases h
    · rename_i cur st hr
      have hc := close_stage_words hr hs.2.1 hs.2.2
      split at h
      · cases h
        exact ⟨words_push hs.1 hc.1, (by intro x hx; cases hx), hc.2⟩
      · cases h
        exact ⟨hs.1, hc.1, hc.2⟩

theorem pipe_branch_words {P : List Nat → Prop} {s s2 : PState} {p p2 : List Nat}
    (hs : PState.words_ok P s) (h : pipe_branch s p = .next s2 p2) : PState.words_ok P s2 := by
  unfold pipe_branch at h
  split at h
  · cases h
  · split at h
    · cases h
    · rename_i cur st hr
      have hc := finish_stage_words hr hs.2.1 hs.2.2
      cases h
      exact ⟨hs.1, hc.1, hc.2⟩

theorem redir_target_words {P : List Nat → Prop}
    (hW : ∀ p w rest : List Nat, parse_word p = .word w rest → P w)
    {s s2 : PState} {op append : Nat} {p p2 : List Nat}
    (hs : PState.words_ok P s) (h : redir_target s op append p = .next s2 p2) :
    PState.words_ok P s2 := by
  unfold redir_target at h
  simp only at h
  split at h
  · cases h
  · split at h
    · cases h
    · cases h
    · rename_i target p3 hw
      have ht : P target := hW _ _ _ hw
      split at h
      · cases h
        refine ⟨hs.1, hs.2.1, hs.2.2.1, ?_, hs.2.2.2.2⟩
        intro w hw2
        cases hw2
        exact ht
      · cases h
        refine ⟨hs.1, hs.2.1, hs.2.2.1, hs.2.2.2.1, ?_⟩
        intro w hw2
        cases hw2
        exact ht

theorem redir_branch_words {P : List Nat → Prop}
    (hW : ∀ p w rest : List Nat, parse_word p = .word w rest → P w)
    {s s2 : PState} {op : Nat} {p p2 : List Nat}
    (hs : PState.words_ok P s) (h : redir_branch s op p = .next s2 p2) :
    PState.words_ok P s2 := by
  unfold redir_branch at h
  split at h
  · exact redir_target_words hW hs h
  · exact redir_target_words hW hs h

theorem word_branch_words {P : List Nat → Prop}
    (hW : ∀ p w rest : List Nat, parse_word p = .word w rest → P w)
    {s s2 : PState} {p p2 : List Nat}
    (hs : PState.words_ok P s) (h : word_branch s p = .next s2 p2) : PState.words_ok P s2 := by
  unfold word_branch at h
  split at h
  · cases h
  · cases h
  · rename_i w p3 hw
    cases h
    refine ⟨hs.1, hs.2.1, ?_, hs.2.2.2.1, hs.2.2.2.2⟩
    intro x hx
    rcases List.mem_append.mp hx with hx | hx
    · exact hs.2.2.1 x hx
    · simp only [List.mem_singleton] at hx
      subst hx
      exact hW _ _ _ hw

theorem parse_iter_words {P : List Nat → Prop}
    (hW : ∀ p w rest : List Nat, parse_word p = .word w rest → P w)
    {s s2 : PState} {p p2 : List Nat}
    (hs : PState.words_ok P s) (h : parse_iter s p = .next s2 p2) : PState.words_ok P s2 := by
  unfold parse_iter at h
  split at h
  · cases h
  · split at h
    · cases h
    · split at h
      · exact sep_branch_words hs h
      · split at h
        · exact pipe_branch_words hs h
        · split at h
          · exact redir_branch_words hW hs h
          · exact word_branch_words hW hs h

theorem parse_end_words {P : List Nat → Prop} {s : PState} {sc : Script}
    (hs : PState.words_ok P s) (h : parse_end s = .ok sc) : Script.words_ok P sc := by
  unfold parse_end at h
  split at h
  · cases h
  · split at h
    · cases h
    · rename_i cur st hr
      have hc := close_stage_words hr hs.2.1 hs.2.2
      split at h
      · cases h
        exact words_push hs.1 hc.1
      · cases h
        exact hs.1

theorem parse_loop_words {P : List Nat → Prop}
    (hW : ∀ p w rest : List Nat, parse_word p = .word w rest → P w) (fuel : Nat) :
    ∀ (s : PState) (p : List Nat) (sc : Script),
      PState.words_ok P s → parse_loop fuel s p = .ok sc → Script.words_ok P sc := by
  induction fuel with
  | zero => intro s p sc _ h; cases h
  | succ n ih =>
    intro s p sc hs h
    unfold parse_loop at h
    split at h
    · cases h
    · rename_i s2 hit
      have := parse_iter_done hit
      subst this
      split at h
      · cases h
      · rename_i sc2 hend
        cases h
        exact parse_end_words hs hend
    · rename_i s2 p2 hit
      exact ih s2 p2 sc (parse_iter_words hW hs hit) h

/-- Whatever holds of every word returned by `parse_word` holds of every argv
entry and every redirection target of an accepted script. -/
theorem parse_words {P : List Nat → Prop}
    (hW : ∀ p w rest : List Nat, parse_word p = .word w rest → P w)
    {src : List Nat} {sc : Script} (h : parse src = .ok sc) : Script.words_ok P sc :=
  parse_loop_words hW _ PState.init src sc
    ⟨(by intro pl hpl; cases hpl), (by intro st hst; cases hst), stage_zero_words P⟩ h

theorem nul_free_snoc {buf : List Nat} {c : Nat} (hb : ∀ x ∈ buf, x ≠ 0) (hc : c ≠ 0) :
    ∀ x ∈ buf ++ [c], x ≠ 0 := by
  intro x hx
  rcases List.mem_append.mp hx with hx | hx
  · exact hb x hx
  · simp only [List.mem_singleton] at hx
    subst hx
    exact hc

/-- The word loops never store a NUL: a word built from a NUL-free buffer is
NUL-free. -/
theorem pw_nul_free (n : Nat) : ∀ p : List Nat, p.length ≤ n → ∀ buf w rest : List Nat,
    (∀ x ∈ buf, x ≠ 0) →
    (pw_bare buf p = .word w rest → ∀ x ∈ w, x ≠ 0) ∧
    (pw_dq buf p = .word w rest → ∀ x ∈ w, x ≠ 0) ∧
    (pw_sq buf p = .word w rest → ∀ x ∈ w, x ≠ 0) := by
  induction n with
  | zero =>
    intro p hp buf w rest hb
    have : p = [] := List.length_eq_zero.mp (Nat.le_zero.mp hp)
    subst this
    refine ⟨?_, ?_, ?_⟩
    · intro h
      rw [pw_bare] at h
      rw [(word_end_word h).1]
      exact hb
    · intro h; rw [pw_dq] at h; cases h
    · intro h; rw [pw_sq] at h; cases h
  | succ n ih =>
    intro p hp buf w rest hb
    cases p with
    | nil =>
      refine ⟨?_, ?_, ?_⟩
      · intro h
        rw [pw_bare] at h
        rw [(word_end_word h).1]
        exact hb
      · intro h; rw [pw_dq] at h; cases h
      · intro h; rw [pw_sq] at h; cases h
    | cons c p =>
      have hp1 : p.length ≤ n := by simpa using hp
      refine ⟨?_, ?_, ?_⟩
      · intro h
        rw [pw_bare.eq_def] at h; simp only [] at h
        split at h
        · rw [(word_end_word h).1]
          exact hb
        · rename_i hc0
          split at h
          · split at h
            · cases h
            · rename_i d q
              split at h
              · cases h
              · rename_i hd0
                have hq : q.length ≤ n := by simp only [List.length_cons] at hp1; omega
                exact (ih q hq _ w rest (nul_free_snoc hb hd0)).1 h
          · split at h
            · exact (ih p hp1 _ w rest hb).2.1 h
            · split at h
              · exact (ih p hp1 _ w rest hb).2.2 h
              · split at h
                · rw [(word_end_word h).1]
                  exact hb
                · exact (ih p hp1 _ w rest (nul_free_snoc hb hc0)).1 h
      · intro h
        rw [pw_dq.eq_def] at h; simp only [] at h
        split at h
        · cases h
        · rename_i hc0
          split at h
          · exact (ih p hp1 _ w rest hb).1 h
          · split at h
            · split at h
              · cases h
              · rename_i d q
                have hq : q.length ≤ n := by simp only [List.length_cons] at hp1; omega
                split at h
                · cases h
                · rename_i hd0
                  split at h
                  · exact (ih q hq _ w rest (nul_free_snoc hb hd0)).2.1 h
                  · split at h
                    · exact (ih q hq _ w rest hb).2.1 h
                    · refine (ih q hq _ w rest ?_).2.1 h
                      intro x hx
                      rcases List.mem_append.mp hx with hx | hx
                      · exact hb x hx
                      · simp only [List.mem_cons, List.mem_singleton, List.mem_nil_iff,
                          or_false] at hx
                        rcases hx with hx | hx
                        · subst hx; decide
                        · subst hx; exact hd0
            · exact (ih p hp1 _ w rest (nul_free_snoc hb hc0)).2.1 h
      · intro h
        rw [pw_sq.eq_def] at h; simp only [] at h
        split at h
        · cases h
        · rename_i hc0
          split at h
          · exact (ih p hp1 _ w rest hb).1 h
          · exact (ih p hp1 _ w rest (nul_free_snoc hb hc0)).2.2 h

/-- A word returned by `parse_word` holds no NUL, so it is its own C string. -/
theorem parse_word_nul_free (p w rest : List Nat) (h : parse_word p = .word w rest) :
    ∀ x ∈ w, x ≠ 0 :=
  (pw_nul_free p.length p le_rfl [] w rest (by intro x hx; cases hx)).1 h

/-- No argv entry and no redirection target of an accepted script holds a NUL. -/
theorem parse_nul_free {src : List Nat} {sc : Script} (h : parse src = .ok sc) :
    Script.words_ok (fun w => ∀ x ∈ w, x ≠ 0) sc :=
  parse_words parse_word_nul_free h

theorem mem_intersperse_cases {α : Type} (s : α) : ∀ (l : List α) (e : α),
    e ∈ l.intersperse s → e ∈ l ∨ e = s
  | [], e, h => by cases h
  | [a], e, h => by
    simp only [List.intersperse, List.mem_singleton] at h
    exact Or.inl (by rw [h]; exact List.mem_singleton.mpr rfl)
  | a :: b :: l, e, h => by
    simp only [List.intersperse, List.mem_cons] at h
    rcases h with h | h | h
    · exact Or.inl (by rw [h]; exact List.mem_cons_self _ _)
    · exact Or.inr h
    · have h2 : e ∈ (b :: l).intersperse s := h
      rcases mem_intersperse_cases s (b :: l) e h2 with h3 | h3
      · exact Or.inl (List.mem_cons_of_mem _ h3)
      · exact Or.inr h3

/-- The pool entries of an `echo` statement hold no NUL when its arguments hold
none. -/
theorem echo_entries_nul_free (args : List (List Nat)) (h : ∀ a ∈ args, ∀ x ∈ a, x ≠ 0) :
    ∀ e ∈ echo_entries args, ∀ x ∈ e, x ≠ 0 := by
  intro e he
  unfold echo_entries at he
  rcases List.mem_append.mp he with he | he
  · rcases mem_intersperse_cases _ _ _ he with h2 | h2
    · exact h e h2
    · subst h2; decide
  · simp only [List.mem_singleton] at he
    subst he; decide

theorem echo_args_nul_free {src : List Nat} {args : List (List Nat)}
    (hacc : parse src = .ok [[⟨bytes "echo" :: args, none, none, 0⟩]]) :
    ∀ e ∈ echo_entries args, cstr e = e ∧ strlen e = e.length := by
  have h1 := parse_nul_free hacc _ (List.mem_singleton.mpr rfl) _ (List.mem_singleton.mpr rfl)
  have h2 : ∀ a ∈ args, ∀ x ∈ a, x ≠ 0 := fun a ha => h1.1 a (List.mem_cons_of_mem _ ha)
  intro e he
  have h3 := cstr_of_nul_free e (echo_entries_nul_free args h2 e he)
  exact ⟨h3, by unfold strlen; rw [h3]⟩

/-! ## The program of a single `echo` statement -/

theorem pool_fold (es : List (List Nat)) : ∀ sp : StrPool,
    es.foldl (fun sp s => (sp_add sp s).1) sp =
      ⟨sp.pool ++ pool_bytes es, sp.offs ++ pool_offsets sp.pool.length es⟩ := by
  induction es with
  | nil => intro sp; simp [pool_bytes, pool_offsets]
  | cons e rest ih =>
    intro sp
    rw [List.foldl_cons, ih]
    simp [sp_add, pool_bytes, pool_offsets, strlen, Nat.add_assoc]

/-- A pool built by `sp_add` from the empty pool holds its strings back to back,
each with its NUL. -/
theorem pool_of_eq (es : List (List Nat)) :
    pool_of es = ⟨pool_bytes es, pool_offsets 0 es⟩ := by
  have := pool_fold es ⟨[], []⟩
  simpa [pool_of] using this

theorem write_seq_length (a l : Nat) : (write_seq a l).length = 39 := by
  simp [write_seq]

/-- The effect of `write_literal` on the generator state. -/
theorem write_literal_eq (g : Gen) (s : List Nat) :
    write_literal g s =
      { g with
        code := g.code ++ write_seq 0 (strlen s)
        strs := (sp_add g.strs s).1
        rels := g.rels ++ [⟨g.code.length + 2, g.strs.offs.length⟩] } := by
  simp [write_literal, add_str, mov_rsi_str, mov_rdi_imm64, mov_rdx_imm64, sys_write,
    mov_rax_imm32, syscall_, rels_add_here, c8, c32, c64, cpos, write_seq, sp_add]

/-- A run of `write_literal` calls. -/
theorem write_lits_eq (es : List (List Nat)) : ∀ g : Gen,
    es.foldl write_literal g =
      { g with
        code := g.code ++ lits_code (fun _ => 0) 0 es
        strs := es.foldl (fun sp s => (sp_add sp s).1) g.strs
        rels := g.rels ++ lits_rels g.code.length g.strs.offs.length es } := by
  have shift : ∀ (es : List (List Nat)) (i : Nat),
      lits_code (fun _ => 0) i es = lits_code (fun _ => 0) 0 es := by
    intro es
    induction es with
    | nil => intro i; rfl
    | cons e rest ih => intro i; simp only [lits_code]; rw [ih (i + 1), ih 1]
  induction es with
  | nil => intro g; simp [lits_code, lits_rels]
  | cons e rest ih =>
    intro g
    rw [List.foldl_cons, ih, write_literal_eq]
    simp only [lits_code, lits_rels, List.foldl_cons, List.length_append, write_seq_length,
      List.append_assoc, shift rest 1]
    simp [sp_add, Nat.add_assoc]

theorem echo_args_eq : ∀ (args : List (List Nat)) (g : Gen),
    echo_args args g = (args.intersperse (bytes " ")).foldl write_literal g
  | [], _ => by simp [echo_args]
  | [_], _ => by simp [echo_args]
  | a :: b :: rest, g => by
    rw [echo_args, echo_args_eq (b :: rest)]
    simp only [List.intersperse, List.foldl_cons]

theorem lits_code_zero (es : List (List Nat)) :
    ∀ i : Nat, lits_code (fun _ => 0) i es = lits_code (fun _ => 0) 0 es := by
  induction es with
  | nil => intro i; rfl
  | cons e rest ih => intro i; simp only [lits_code]; rw [ih (i + 1), ih 1]

theorem lits_code_length (f : Nat → Nat) (es : List (List Nat)) :
    ∀ i : Nat, (lits_code f i es).length = 39 * es.length := by
  induction es with
  | nil => intro i; rfl
  | cons e rest ih =>
    intro i
    simp only [lits_code, List.length_append, write_seq_length, ih, List.length_cons]
    omega

/-- The relocation loop on a run of write sequences fills in the address of
each string. -/
theorem apply_lits (offs : List Nat) (base : Nat) (es : List (List Nat)) :
    ∀ (pre post : List Nat) (n : Nat),
      apply_rels (pre ++ lits_code (fun _ => 0) 0 es ++ post) offs base
          (lits_rels pre.length n es) =
        pre ++ lits_code (fun i => base + offs.getD i 0) n es ++ post := by
  induction es with
  | nil => intro pre post n; rfl
  | cons e rest ih =>
    intro pre post n
    simp only [lits_code, lits_rels, apply_rels]
    rw [lits_code_zero rest 1]
    have hw : write_at (pre ++ (write_seq 0 (strlen e) ++ lits_code (fun _ => 0) 0 rest) ++ post)
        (pre.length + 2) (le_bytes 8 (base + offs.getD n 0)) =
        (pre ++ write_seq (base + offs.getD n 0) (strlen e)) ++
          lits_code (fun _ => 0) 0 rest ++ post := by
      have := write_at_block (pre ++ [0x48, 0xBE]) (le_bytes 8 0)
        (([0x48, 0xBF] ++ le_bytes 8 1) ++ ([0x48, 0xBA] ++ le_bytes 8 (strlen e)) ++
          ([0x48, 0xC7, 0xC0] ++ le_bytes 4 1) ++ [0x0F, 0x05] ++
          lits_code (fun _ => 0) 0 rest ++ post)
        (le_bytes 8 (base + offs.getD n 0)) (pre.length + 2) (by simp) (by simp)
      simp only [write_seq, List.append_assoc] at this ⊢
      exact this
    rw [hw]
    have hl : pre.length + 39 = (pre ++ write_seq (base + offs.getD n 0) (strlen e)).length := by
      rw [List.length_append, write_seq_length]
    rw [hl, ih]
    simp only [List.append_assoc]

theorem lits_rels_eq (es : List (List Nat)) : ∀ c n : Nat,
    lits_rels c n es = (List.range es.length).map (fun i => ⟨c + 2 + 39 * i, n + i⟩) := by
  induction es with
  | nil => intro c n; rfl
  | cons e rest ih =>
    intro c n
    rw [lits_rels, ih, List.length_cons, List.range_succ_eq_map, List.map_cons, List.map_map]
    refine congrArg₂ _ rfl ?_
    apply List.map_congr_left
    intro i _
    simp only [Function.comp, Rel.mk.injEq]
    omega

/-- The generator state for the single statement `echo a1 ... ak`. -/
theorem gen_echo (args : List (List Nat)) :
    gen_script Gen.start [[⟨bytes "echo" :: args, none, none, 0⟩]] =
      ⟨lits_code (fun _ => 0) 0 (echo_entries args) ++ exit_seq 0,
        ⟨pool_bytes (echo_entries args), pool_offsets 0 (echo_entries args)⟩,
        lits_rels 0 0 (echo_entries args), 0x600000, 0⟩ := by
  have hc : Stage.cmd ⟨bytes "echo" :: args, none, none, 0⟩ = bytes "echo" := rfl
  have hb : is_builtin (Stage.cmd ⟨bytes "echo" :: args, none, none, 0⟩) = true := by
    rw [hc]; decide
  have he : cstr (Stage.cmd ⟨bytes "echo" :: args, none, none, 0⟩) = bytes "echo" := by
    rw [hc]; decide
  have h1 : gen_pipeline ⟨[], ⟨[], []⟩, [], 0x600000, 0⟩
      [⟨bytes "echo" :: args, none, none, 0⟩] =
      (echo_entries args).foldl write_literal ⟨[], ⟨[], []⟩, [], 0x600000, 0⟩ := by
    simp only [gen_pipeline, List.length_singleton, if_true, List.headD_cons, hb, emit_builtin, he,
      List.tail_cons, echo_args_eq, echo_entries, List.foldl_append, List.foldl_cons,
      List.foldl_nil]
  unfold gen_script
  simp only [Gen.start, List.foldl_cons, List.foldl_nil]
  rw [h1, write_lits_eq, pool_fold]
  simp [sys_exit, mov_rdi_imm64, mov_rax_imm32, syscall_, c8, c32, c64, exit_seq]

/-- C11: for a script that is the single statement `echo a1 ... ak` without
redirection, `gen_script` leaves a pool that holds exactly `a1`, a space, `a2`,
..., `ak`, newline, each followed by its NUL (only the newline when `k = 0`);
the relocations are one per entry, in order; and the code, before and after the
relocation loop, is one sequence `mov rsi, addr; mov rdi, 1; mov rdx, len;
mov rax, 1; syscall` per entry, in order, followed by `mov rdi, 0; mov rax, 60;
syscall`, where `len` is the byte length of the entry and `addr` is zero before
the loop and `0x400000 + ro_off + offs[i]` after it.  No entry holds a NUL, so
each is stored whole and `len` is the length of the whole argument. -/
theorem echo_program (src : List Nat) (args : List (List Nat))
    (hacc : parse src = .ok [[⟨bytes "echo" :: args, none, none, 0⟩]]) :
    (gen_script Gen.start [[⟨bytes "echo" :: args, none, none, 0⟩]]).strs =
        pool_of (echo_entries args) ∧
      (gen_script Gen.start [[⟨bytes "echo" :: args, none, none, 0⟩]]).strs.pool =
        pool_bytes (echo_entries args) ∧
      (gen_script Gen.start [[⟨bytes "echo" :: args, none, none, 0⟩]]).strs.offs =
        pool_offsets 0 (echo_entries args) ∧
      (gen_script Gen.start [[⟨bytes "echo" :: args, none, none, 0⟩]]).rels =
        (List.range (echo_entries args).length).map (fun i => ⟨2 + 39 * i, i⟩) ∧
      (gen_script Gen.start [[⟨bytes "echo" :: args, none, none, 0⟩]]).code =
        lits_code (fun _ => 0) 0 (echo_entries args) ++ exit_seq 0 ∧
      patched_code (gen_script Gen.start [[⟨bytes "echo" :: args, none, none, 0⟩]]) =
        lits_code (fun i => 0x400000 + (0xB0 + (39 * (echo_entries args).length + 19)) +
          (pool_offsets 0 (echo_entries args)).getD i 0) 0 (echo_entries args) ++ exit_seq 0 ∧
      (∀ e ∈ echo_entries args, cstr e = e ∧ strlen e = e.length) := by
  rw [gen_echo]
  refine ⟨(pool_of_eq _).symm, rfl, rfl, ?_, rfl, ?_, echo_args_nul_free hacc⟩
  · simp only []
    rw [lits_rels_eq]
    apply List.map_congr_left
    intro i _
    refine congrArg₂ Rel.mk ?_ ?_ <;> omega
  · simp only [patched_code]
    have hlen : (lits_code (fun _ => 0) 0 (echo_entries args) ++ exit_seq 0).length =
        39 * (echo_entries args).length + 19 := by
      rw [List.length_append, lits_code_length]
      rfl
    rw [hlen]
    have := apply_lits (pool_offsets 0 (echo_entries args))
      (0x400000 + (0xB0 + (39 * (echo_entries args).length + 19))) (echo_entries args) []
      (exit_seq 0) 0
    simp only [List.nil_append, List.length_nil] at this
    exact this

/-- Witness for C11 on `echo hello world`: the pool is `hello`, space, `world`,
newline, each with its NUL. -/
theorem echo_program_witness :
    parse (bytes "echo hello world") =
        .ok [[⟨[bytes "echo", bytes "hello", bytes "world"], none, none, 0⟩]] ∧
      (gen_script Gen.start
        [[⟨[bytes "echo", bytes "hello", bytes "world"], none, none, 0⟩]]).strs.pool =
        pool_bytes (echo_entries [bytes "hello", bytes "world"]) ∧
      pool_bytes (echo_entries [bytes "hello", bytes "world"]) =
        bytes "hello" ++ [0] ++ bytes " " ++ [0] ++ bytes "world" ++ [0] ++ [10, 0] ∧
      (gen_script Gen.start
        [[⟨[bytes "echo", bytes "hello", bytes "world"], none, none, 0⟩]]).rels =
        [⟨2, 0⟩, ⟨41, 1⟩, ⟨80, 2⟩, ⟨119, 3⟩] :=
  ⟨by decide,
    (echo_program (bytes "echo hello world") [bytes "hello", bytes "world"] (by decide)).2.1,
    by decide, by decide!⟩

/-! ## The search paths of an external command -/

/-- A jump whose target is the next instruction: the patch writes displacement
zero. -/
theorem jne_patch_next (g : Gen) :
    patch_here (jne_rel32 g).1 (jne_rel32 g).2 =
      { g with code := g.code ++ ([0x0F, 0x85] ++ le_bytes 4 0) } := by
  have e2 : (jne_rel32 g).2 = g.code.length + 2 := by simp [jne_rel32, cpos, c8]
  have e1 : (jne_rel32 g).1 = { g with code := (g.code ++ [0x0F, 0x85]) ++ le_bytes 4 0 ++ [] } := by
    simp [jne_rel32, c8, c32]
  rw [e2, e1]
  simp only [patch_here, patch32, cpos]
  rw [write_at_block (g.code ++ [0x0F, 0x85]) (le_bytes 4 0) [] _ _ (by simp) (by simp)]
  simp

theorem add_argv_eq : ∀ (args : List (List Nat)) (g : Gen),
    (add_argv args g).1 = { g with strs := args.foldl (fun sp s => (sp_add sp s).1) g.strs } ∧
      (add_argv args g).2 = (List.range args.length).map (fun i => g.strs.offs.length + i)
  | [], g => ⟨rfl, rfl⟩
  | a :: rest, g => by
    obtain ⟨h1, h2⟩ := add_argv_eq rest (add_str g a).1
    refine ⟨?_, ?_⟩
    · simp only [add_argv, h1, List.foldl_cons]
      rfl
    · simp only [add_argv, h2, List.length_cons, List.range_succ_eq_map, List.map_cons,
        List.map_map]
      refine congrArg₂ _ (by simp [add_str, sp_add]) ?_
      apply List.map_congr_left
      intro i _
      simp [add_str, sp_add]
      omega

theorem build_argv_loop_strs (sidxv : List Nat) : ∀ (i : Nat) (g : Gen),
    (build_argv_loop i sidxv g).strs = g.strs := by
  induction sidxv with
  | nil => intro i g; rfl
  | cons s rest ih => intro i g; rw [build_argv_loop, ih]; rfl

theorem build_argv_strs (g : Gen) (off : Nat) (sidxv : List Nat) :
    (build_argv g off sidxv).strs = g.strs := by
  simp only [build_argv, mov_rsi_rdi, mov_m8_rdi_disp32_rax, mov_rax_imm32, c8, c32]
  rw [build_argv_loop_strs]
  rfl

/-- The effect of the two `execve` attempts on the generator state. -/
theorem exec_paths_eq (g : Gen) (s1 s2 : Nat) :
    exec_paths g s1 s2 =
      { g with
        code := g.code ++ exec_paths_code 0 0 0
        strs := (sp_add g.strs (bytes "exec failed" ++ [10])).1
        rels := g.rels ++ [⟨g.code.length + 2, s1⟩, ⟨g.code.length + 30, s2⟩,
          ⟨g.code.length + 49, g.strs.offs.length⟩] } := by
  unfold exec_paths
  simp only []
  rw [jne_patch_next, exec_failed, write_literal_eq]
  have hl : strlen (bytes "exec failed" ++ [10]) = 12 := by decide
  rw [hl]
  simp [mov_rdi_str, sys_execve, sys_exit, mov_rdi_imm64, mov_rax_imm32, syscall_, rels_add_here,
    c8, c32, c64, cpos, exec_paths_code, execve_seq, exit_seq, write_seq]

theorem pool_fold_offs_length (es : List (List Nat)) (sp : StrPool) :
    (es.foldl (fun sp s => (sp_add sp s).1) sp).offs.length = sp.offs.length + es.length := by
  rw [pool_fold]
  have : ∀ (es : List (List Nat)) (o : Nat), (pool_offsets o es).length = es.length := by
    intro es
    induction es with
    | nil => intro o; rfl
    | cons e rest ih => intro o; simp [pool_offsets, ih]
  simp [this]

/-- The state after `emit_exec` for a command without `/`: the pool gains the
argv strings, the command, the two search paths as `snprintf` stored them and
the failure message; the code ends with the two `execve` attempts, whose
relocations name the two search paths in order. -/
theorem emit_exec_eq (g : Gen) (st : Stage) (a e : Nat) (h : 47 ∉ cstr st.cmd) :
    (emit_exec g st a e).strs =
        (st.argv ++ [st.cmd, snprintf256 (bytes "/bin/") st.cmd,
          snprintf256 (bytes "/usr/bin/") st.cmd, bytes "exec failed" ++ [10]]).foldl
          (fun sp s => (sp_add sp s).1) g.strs ∧
      ∃ pre prels, (emit_exec g st a e).code = pre ++ exec_paths_code 0 0 0 ∧
        (emit_exec g st a e).rels = prels ++
          [⟨pre.length + 2, g.strs.offs.length + st.argv.length + 1⟩,
            ⟨pre.length + 30, g.strs.offs.length + st.argv.length + 2⟩,
            ⟨pre.length + 49, g.strs.offs.length + st.argv.length + 3⟩] := by
  unfold emit_exec exec_dispatch
  simp only [if_neg h]
  rw [exec_paths_eq]
  obtain ⟨h1, _⟩ := add_argv_eq st.argv g
  have hs : (mov_rdx_imm64 (build_argv (add_argv st.argv g).1 a (add_argv st.argv g).2)
      ((build_argv (add_argv st.argv g).1 a (add_argv st.argv g).2).bss_base + e)).strs =
      st.argv.foldl (fun sp s => (sp_add sp s).1) g.strs := by
    have : ∀ x y, (mov_rdx_imm64 x y).strs = x.strs := fun _ _ => rfl
    rw [this, build_argv_strs, h1]
  generalize (mov_rdx_imm64 (build_argv (add_argv st.argv g).1 a (add_argv st.argv g).2)
      ((build_argv (add_argv st.argv g).1 a (add_argv st.argv g).2).bss_base + e)) = g3 at hs ⊢
  have hn := pool_fold_offs_length st.argv g.strs
  rw [← hs] at hn
  refine ⟨?_, g3.code, g3.rels, ?_, ?_⟩
  · simp only [add_str, List.foldl_append, List.foldl_cons, List.foldl_nil, hs]
  · simp only [add_str]
  · simp only [add_str, sp_add, List.length_append, List.length_singleton, hn]

/-- Counterexample to C12: for the command name made of 251 letters `a` (an
external command without `/`), `emit_exec` pools `/bin/` followed by only 250
letters and `/usr/bin/` followed by only 246 letters: `snprintf` into the
256-byte buffer cuts both paths at 255 bytes.  Neither `"/bin/" ++ cmd` nor
`"/usr/bin/" ++ cmd` is in the pool. -/
theorem exec_path_truncated :
    is_builtin (List.replicate 251 97) = false ∧ 47 ∉ cstr (List.replicate 251 97) ∧
      (emit_exec Gen.start ⟨[List.replicate 251 97], none, none, 0⟩ 8 0).strs =
        pool_of [List.replicate 251 97, List.replicate 251 97,
          bytes "/bin/" ++ List.replicate 250 97, bytes "/usr/bin/" ++ List.replicate 246 97,
          bytes "exec failed" ++ [10]] ∧
      bytes "/bin/" ++ List.replicate 251 97 ∉
        [List.replicate 251 97, List.replicate 251 97,
          bytes "/bin/" ++ List.replicate 250 97, bytes "/usr/bin/" ++ List.replicate 246 97,
          bytes "exec failed" ++ [10]] ∧
      bytes "/usr/bin/" ++ List.replicate 251 97 ∉
        [List.replicate 251 97, List.replicate 251 97,
          bytes "/bin/" ++ List.replicate 250 97, bytes "/usr/bin/" ++ List.replicate 246 97,
          bytes "exec failed" ++ [10]] := by
  have hs : 47 ∉ cstr (Stage.cmd ⟨[List.replicate 251 97], none, none, 0⟩) := by
    rw [show Stage.cmd ⟨[List.replicate 251 97], none, none, 0⟩ = List.replicate 251 97 from rfl]
    decide
  refine ⟨by decide, by decide, ?_, by decide!, by decide!⟩
  rw [(emit_exec_eq Gen.start ⟨[List.replicate 251 97], none, none, 0⟩ 8 0 hs).1]
  have e1 : snprintf256 (bytes "/bin/") (List.replicate 251 97) =
      bytes "/bin/" ++ List.replicate 250 97 := by decide!
  have e2 : snprintf256 (bytes "/usr/bin/") (List.replicate 251 97) =
      bytes "/usr/bin/" ++ List.replicate 246 97 := by decide!
  rw [show Stage.cmd ⟨[List.replicate 251 97], none, none, 0⟩ = List.replicate 251 97 from rfl,
    e1, e2]
  rfl

/-- C12, amended: for every external command whose name `cmd` contains no `/`,
`emit_exec` adds to the pool, after the argv strings and the command itself, the
first 255 bytes of `"/bin/" ++ cmd` and the first 255 bytes of
`"/usr/bin/" ++ cmd` (the whole strings when `cmd` has at most 246 bytes), then
the failure message; the code ends with the two `execve` attempts, and the
relocations of their `mov rdi` name these two pool strings, in that order. -/
theorem exec_search_paths (g : Gen) (ss : List (List Nat)) (st : Stage) (a e : Nat)
    (hss : g.strs = pool_of ss) (_hext : is_builtin st.cmd = false)
    (hslash : 47 ∉ cstr st.cmd) :
    (emit_exec g st a e).strs =
        pool_of (ss ++ st.argv ++ [st.cmd, (bytes "/bin/" ++ cstr st.cmd).take 255,
          (bytes "/usr/bin/" ++ cstr st.cmd).take 255, bytes "exec failed" ++ [10]]) ∧
      ((cstr st.cmd).length ≤ 246 →
        (bytes "/bin/" ++ cstr st.cmd).take 255 = bytes "/bin/" ++ cstr st.cmd ∧
        (bytes "/usr/bin/" ++ cstr st.cmd).take 255 = bytes "/usr/bin/" ++ cstr st.cmd) ∧
      ∃ pre prels, (emit_exec g st a e).code = pre ++ exec_paths_code 0 0 0 ∧
        (emit_exec g st a e).rels = prels ++
          [⟨pre.length + 2, ss.length + st.argv.length + 1⟩,
            ⟨pre.length + 30, ss.length + st.argv.length + 2⟩,
            ⟨pre.length + 49, ss.length + st.argv.length + 3⟩] := by
  obtain ⟨h1, pre, prels, h2, h3⟩ := emit_exec_eq g st a e hslash
  have hn : g.strs.offs.length = ss.length := by rw [hss]; exact (pool_of_entry ss).1
  refine ⟨?_, ?_, pre, prels, h2, by rw [h3, hn]⟩
  · rw [h1, hss]
    simp only [pool_of, List.foldl_append, snprintf256]
  · intro hl
    have l1 : (bytes "/bin/").length = 5 := by decide
    have l2 : (bytes "/usr/bin/").length = 9 := by decide
    exact ⟨List.take_of_length_le (by rw [List.length_append, l1]; omega),
      List.take_of_length_le (by rw [List.length_append, l2]; omega)⟩

/-- Witness for C12 (amended) on the command `ls`. -/
theorem exec_search_paths_witness :
    (emit_exec Gen.start ⟨[bytes "ls"], none, none, 0⟩ 8 0).strs =
      pool_of ([] ++ [bytes "ls"] ++ [bytes "ls", (bytes "/bin/" ++ cstr (bytes "ls")).take 255,
        (bytes "/usr/bin/" ++ cstr (bytes "ls")).take 255, bytes "exec failed" ++ [10]]) ∧
      (bytes "/bin/" ++ cstr (bytes "ls")).take 255 = bytes "/bin/ls" ∧
      (bytes "/usr/bin/" ++ cstr (bytes "ls")).take 255 = bytes "/usr/bin/ls" :=
  ⟨(exec_search_paths Gen.start [] ⟨[bytes "ls"], none, none, 0⟩ 8 0 rfl (by decide)
    (by decide)).1, by decide, by decide⟩

/-! ## Running the redirection code -/

theorem take_le_bytes (n v : Nat) (t : List Nat) : (le_bytes n v ++ t).take n = le_bytes n v := by
  rw [List.take_append_of_le_length (by rw [le_bytes_length]),
    List.take_of_length_le (by rw [le_bytes_length])]

theorem drop_le_bytes (n v : Nat) (t : List Nat) : (le_bytes n v ++ t).drop n = t := by
  have := List.drop_left (le_bytes n v) t
  rw [le_bytes_length] at this
  exact this

theorem exec_end (res mem : Nat → Nat) (fuel : Nat) (r : Regs) (tr : List Sys) :
    exec res mem (fuel + 1) [] r tr = some (r, tr) := by
  rw [exec]; simp

theorem exec_mov_rdi (res mem : Nat → Nat) (fuel v : Nat) (t : List Nat) (r : Regs)
    (tr : List Sys) :
    exec res mem (fuel + 1) (0x48 :: 0xBF :: (le_bytes 8 v ++ t)) r tr =
      exec res mem fuel t { r with rdi := v % 2 ^ 64 } tr := by
  rw [exec]
  have h1 : (0x48 :: 0xBF :: (le_bytes 8 v ++ t)).drop 10 = t := drop_le_bytes 8 v t
  have h2 : ((0x48 :: 0xBF :: (le_bytes 8 v ++ t)).drop 2).take 8 = le_bytes 8 v :=
    take_le_bytes 8 v t
  rw [h1, h2, le_val_le_bytes]
  simp

theorem exec_mov_rsi (res mem : Nat → Nat) (fuel v : Nat) (t : List Nat) (r : Regs)
    (tr : List Sys) :
    exec res mem (fuel + 1) (0x48 :: 0xBE :: (le_bytes 8 v ++ t)) r tr =
      exec res mem fuel t { r with rsi := v % 2 ^ 64 } tr := by
  rw [exec]
  have h1 : (0x48 :: 0xBE :: (le_bytes 8 v ++ t)).drop 10 = t := drop_le_bytes 8 v t
  have h2 : ((0x48 :: 0xBE :: (le_bytes 8 v ++ t)).drop 2).take 8 = le_bytes 8 v :=
    take_le_bytes 8 v t
  rw [h1, h2, le_val_le_bytes]
  simp

theorem exec_mov_rdx (res mem : Nat → Nat) (fuel v : Nat) (t : List Nat) (r : Regs)
    (tr : List Sys) :
    exec res mem (fuel + 1) (0x48 :: 0xBA :: (le_bytes 8 v ++ t)) r tr =
      exec res mem fuel t { r with rdx := v % 2 ^ 64 } tr := by
  rw [exec]
  have h1 : (0x48 :: 0xBA :: (le_bytes 8 v ++ t)).drop 10 = t := drop_le_bytes 8 v t
  have h2 : ((0x48 :: 0xBA :: (le_bytes 8 v ++ t)).drop 2).take 8 = le_bytes 8 v :=
    take_le_bytes 8 v t
  rw [h1, h2, le_val_le_bytes]
  simp

theorem exec_mov_r10 (res mem : Nat → Nat) (fuel v : Nat) (t : List Nat) (r : Regs)
    (tr : List Sys) :
    exec res mem (fuel + 1) (0x49 :: 0xBA :: (le_bytes 8 v ++ t)) r tr =
      exec res mem fuel t { r with r10 := v % 2 ^ 64 } tr := by
  rw [exec]
  have h1 : (0x49 :: 0xBA :: (le_bytes 8 v ++ t)).drop 10 = t := drop_le_bytes 8 v t
  have h2 : ((0x49 :: 0xBA :: (le_bytes 8 v ++ t)).drop 2).take 8 = le_bytes 8 v :=
    take_le_bytes 8 v t
  rw [h1, h2, le_val_le_bytes]
  simp

theorem exec_mov_rax (res mem : Nat → Nat) (fuel v : Nat) (t : List Nat) (r : Regs)
    (tr : List Sys) :
    exec res mem (fuel + 1) (0x48 :: 0xC7 :: 0xC0 :: (le_bytes 4 v ++ t)) r tr =
      exec res mem fuel t { r with rax := sext32 (v % 2 ^ 32) } tr := by
  rw [exec]
  have h1 : (0x48 :: 0xC7 :: 0xC0 :: (le_bytes 4 v ++ t)).drop 7 = t := drop_le_bytes 4 v t
  have h2 : ((0x48 :: 0xC7 :: 0xC0 :: (le_bytes 4 v ++ t)).drop 3).take 4 = le_bytes 4 v :=
    take_le_bytes 4 v t
  rw [h1, h2, le_val_le_bytes]
  simp

theorem exec_xor_r10 (res mem : Nat → Nat) (fuel : Nat) (t : List Nat) (r : Regs)
    (tr : List Sys) :
    exec res mem (fuel + 1) (0x4D :: 0x31 :: 0xD2 :: t) r tr =
      exec res mem fuel t { r with r10 := 0, zf := true } tr := by
  rw [exec]; simp

theorem exec_mov_rdi_rax (res mem : Nat → Nat) (fuel : Nat) (t : List Nat) (r : Regs)
    (tr : List Sys) :
    exec res mem (fuel + 1) (0x48 :: 0x89 :: 0xC7 :: t) r tr =
      exec res mem fuel t { r with rdi := r.rax } tr := by
  rw [exec]; simp

theorem exec_load_rax (res mem : Nat → Nat) (fuel : Nat) (t : List Nat) (r : Regs)
    (tr : List Sys) :
    exec res mem (fuel + 1) (0x48 :: 0x8B :: 0x07 :: t) r tr =
      exec res mem fuel t { r with rax := mem r.rdi % 2 ^ 64 } tr := by
  rw [exec]; simp

theorem exec_cmp_rax (res mem : Nat → Nat) (fuel ib : Nat) (t : List Nat) (r : Regs)
    (tr : List Sys) :
    exec res mem (fuel + 1) (0x48 :: 0x83 :: 0xF8 :: ib :: t) r tr =
      exec res mem fuel t { r with zf := decide (r.rax = sext8 ib) } tr := by
  rw [exec]; simp

theorem exec_syscall (res mem : Nat → Nat) (fuel : Nat) (t : List Nat) (r : Regs)
    (tr : List Sys) :
    exec res mem (fuel + 1) (0x0F :: 0x05 :: t) r tr =
      exec res mem fuel t { r with rax := res tr.length % 2 ^ 64 }
        (tr ++ [⟨r.rax, r.rdi, r.rsi, r.rdx, r.r10⟩]) := by
  rw [exec]; simp

theorem exec_je (res mem : Nat → Nat) (fuel v : Nat) (t : List Nat) (r : Regs)
    (tr : List Sys) (hv : v < 2 ^ 31) :
    exec res mem (fuel + 1) (0x0F :: 0x84 :: (le_bytes 4 v ++ t)) r tr =
      exec res mem fuel (if r.zf then t.drop v else t) r tr := by
  rw [exec]
  have h1 : (0x0F :: 0x84 :: (le_bytes 4 v ++ t)).drop 6 = t := drop_le_bytes 4 v t
  have h2 : ((0x0F :: 0x84 :: (le_bytes 4 v ++ t)).drop 2).take 4 = le_bytes 4 v :=
    take_le_bytes 4 v t
  have h3 : (0x0F :: 0x84 :: (le_bytes 4 v ++ t)).drop (6 + v) = t.drop v := by
    rw [← List.drop_drop, h1]
  have h4 : v % 256 ^ 4 = v := Nat.mod_eq_of_lt (by norm_num; omega)
  have hv2 : ¬ (2147483648 ≤ v) := by
    have := hv
    norm_num at this
    omega
  rw [h1, h2, le_val_le_bytes, h4, h3]
  simp [hv2]

theorem emit_redir_in_eq (g : Gen) (path : List Nat) :
    emit_redir_in g path =
      { g with
        code := g.code ++ redir_in_code 0
        strs := (sp_add g.strs path).1
        rels := g.rels ++ [⟨g.code.length + 12, g.strs.offs.length⟩] } := by
  simp [emit_redir_in, add_str, mov_rsi_str, mov_rdi_imm64, mov_rdx_imm64, mov_rsi_imm64,
    sys_openat, sys_dup2, sys_close, xor_r10_r10, mov_rdi_rax, mov_rax_imm32, syscall_,
    rels_add_here, c8, c32, c64, cpos, redir_in_code, sp_add]

theorem emit_redir_out_eq (g : Gen) (path : List Nat) (ap : Nat) :
    emit_redir_out g path ap =
      { g with
        code := g.code ++ redir_out_code 0 (1 ||| 64 ||| (if ap ≠ 0 then 1024 else 512))
        strs := (sp_add g.strs path).1
        rels := g.rels ++ [⟨g.code.length + 12, g.strs.offs.length⟩] } := by
  simp [emit_redir_out, add_str, mov_rsi_str, mov_rdi_imm64, mov_rdx_imm64, mov_rsi_imm64,
    mov_r10_imm64, sys_openat, sys_dup2, sys_close, mov_rdi_rax, mov_rax_imm32, syscall_,
    rels_add_here, c8, c32, c64, cpos, redir_out_code, sp_add]

theorem redir_in_patched (a : Nat) :
    write_at (redir_in_code 0) 12 (le_bytes 8 a) = redir_in_code a := by
  have := write_at_block ([0x48, 0xBF] ++ le_bytes 8 (2 ^ 64 - 100) ++ [0x48, 0xBE])
    (le_bytes 8 0)
    (([0x48, 0xBA] ++ le_bytes 8 0) ++ [0x4D, 0x31, 0xD2] ++
      ([0x48, 0xC7, 0xC0] ++ le_bytes 4 257) ++ [0x0F, 0x05] ++ [0x48, 0x89, 0xC7] ++
      ([0x48, 0xBE] ++ le_bytes 8 0) ++ ([0x48, 0xC7, 0xC0] ++ le_bytes 4 33) ++ [0x0F, 0x05] ++
      [0x48, 0x89, 0xC7] ++ ([0x48, 0xC7, 0xC0] ++ le_bytes 4 3) ++ [0x0F, 0x05])
    (le_bytes 8 a) 12 (by simp) (by simp)
  simp only [redir_in_code, List.append_assoc] at this ⊢
  exact this

theorem redir_out_patched (a flags : Nat) :
    write_at (redir_out_code 0 flags) 12 (le_bytes 8 a) = redir_out_code a flags := by
  have := write_at_block ([0x48, 0xBF] ++ le_bytes 8 (2 ^ 64 - 100) ++ [0x48, 0xBE])
    (le_bytes 8 0)
    (([0x48, 0xBA] ++ le_bytes 8 flags) ++ ([0x49, 0xBA] ++ le_bytes 8 0o644) ++
      ([0x48, 0xC7, 0xC0] ++ le_bytes 4 257) ++ [0x0F, 0x05] ++ [0x48, 0x89, 0xC7] ++
      ([0x48, 0xBE] ++ le_bytes 8 1) ++ ([0x48, 0xC7, 0xC0] ++ le_bytes 4 33) ++ [0x0F, 0x05] ++
      [0x48, 0x89, 0xC7] ++ ([0x48, 0xC7, 0xC0] ++ le_bytes 4 3) ++ [0x0F, 0x05])
    (le_bytes 8 a) 12 (by simp) (by simp)
  simp only [redir_out_code, List.append_assoc] at this ⊢
  exact this

/-- Running the input redirection code: the third system call, `close`, gets
in rdi the value that the second one, `dup2`, returned. -/
theorem exec_redir_in (res mem : Nat → Nat) (a : Nat) (r : Regs) :
    exec res mem 20 (redir_in_code a) r [] =
      some (⟨res 2 % 2 ^ 64, res 1 % 2 ^ 64, 0, 0, 0, true⟩,
        [⟨257, 2 ^ 64 - 100, a % 2 ^ 64, 0, 0⟩, ⟨33, res 0 % 2 ^ 64, 0, 0, 0⟩,
          ⟨3, res 1 % 2 ^ 64, 0, 0, 0⟩]) := by
  simp only [redir_in_code, List.cons_append, List.nil_append, List.append_assoc]
  rw [exec_mov_rdi, exec_mov_rsi, exec_mov_rdx, exec_xor_r10, exec_mov_rax, exec_syscall,
    exec_mov_rdi_rax, exec_mov_rsi, exec_mov_rax, exec_syscall, exec_mov_rdi_rax, exec_mov_rax,
    exec_syscall, exec_end]
  simp [sext32]

/-- Running the output redirection code. -/
theorem exec_redir_out (res mem : Nat → Nat) (a flags : Nat) (r : Regs) :
    exec res mem 20 (redir_out_code a flags) r [] =
      some (⟨res 2 % 2 ^ 64, res 1 % 2 ^ 64, 1, flags % 2 ^ 64, 0o644, r.zf⟩,
        [⟨257, 2 ^ 64 - 100, a % 2 ^ 64, flags % 2 ^ 64, 0o644⟩,
          ⟨33, res 0 % 2 ^ 64, 1, flags % 2 ^ 64, 0o644⟩,
          ⟨3, res 1 % 2 ^ 64, 1, flags % 2 ^ 64, 0o644⟩]) := by
  simp only [redir_out_code, List.cons_append, List.nil_append, List.append_assoc]
  rw [exec_mov_rdi, exec_mov_rsi, exec_mov_rdx, exec_mov_r10, exec_mov_rax, exec_syscall,
    exec_mov_rdi_rax, exec_mov_rsi, exec_mov_rax, exec_syscall, exec_mov_rdi_rax, exec_mov_rax,
    exec_syscall, exec_end]
  simp [sext32]

/-- C16 fails on the code: in the code `emit_redirs` emits for an input
redirection (and likewise for an output redirection), with any address `a` in
the relocation slot and any system call results `res`, the three system calls
are `openat(-100, a, ...)`, `dup2(res 0, 0)` and `close(res 1)`: the second
`mov rdi, rax` copies what `dup2` returned, so `close` gets the result of `dup2`,
not the descriptor `res 0` that `openat` returned.  When `openat` returns 3 and
`dup2` succeeds, returning 0, the code closes descriptor 0. -/
theorem close_gets_dup2_result (g : Gen) (path : List Nat) (ap a : Nat) (res mem : Nat → Nat)
    (r : Regs) :
    (emit_redirs g (some path) none ap).rels =
        g.rels ++ [⟨g.code.length + 12, g.strs.offs.length⟩] ∧
      exec res mem 20
          (write_at ((emit_redirs g (some path) none ap).code.drop g.code.length) 12
            (le_bytes 8 a)) r [] =
        some (⟨res 2 % 2 ^ 64, res 1 % 2 ^ 64, 0, 0, 0, true⟩,
          [⟨257, 2 ^ 64 - 100, a % 2 ^ 64, 0, 0⟩, ⟨33, res 0 % 2 ^ 64, 0, 0, 0⟩,
            ⟨3, res 1 % 2 ^ 64, 0, 0, 0⟩]) ∧
      (emit_redirs g none (some path) ap).rels =
        g.rels ++ [⟨g.code.length + 12, g.strs.offs.length⟩] ∧
      exec res mem 20
          (write_at ((emit_redirs g none (some path) ap).code.drop g.code.length) 12
            (le_bytes 8 a)) r [] =
        some (⟨res 2 % 2 ^ 64, res 1 % 2 ^ 64, 1,
            (1 ||| 64 ||| (if ap ≠ 0 then 1024 else 512)) % 2 ^ 64, 0o644, r.zf⟩,
          [⟨257, 2 ^ 64 - 100, a % 2 ^ 64,
              (1 ||| 64 ||| (if ap ≠ 0 then 1024 else 512)) % 2 ^ 64, 0o644⟩,
            ⟨33, res 0 % 2 ^ 64, 1, (1 ||| 64 ||| (if ap ≠ 0 then 1024 else 512)) % 2 ^ 64,
              0o644⟩,
            ⟨3, res 1 % 2 ^ 64, 1, (1 ||| 64 ||| (if ap ≠ 0 then 1024 else 512)) % 2 ^ 64,
              0o644⟩]) ∧
      exec (fun k => [3, 0, 0].getD k 0) mem 20
          (write_at ((emit_redirs g (some path) none ap).code.drop g.code.length) 12
            (le_bytes 8 a)) r [] =
        some (⟨0, 0, 0, 0, 0, true⟩,
          [⟨257, 2 ^ 64 - 100, a % 2 ^ 64, 0, 0⟩, ⟨33, 3, 0, 0, 0⟩, ⟨3, 0, 0, 0, 0⟩]) := by
  have hin : emit_redirs g (some path) none ap = emit_redir_in g path := rfl
  have hout : emit_redirs g none (some path) ap = emit_redir_out g path ap := rfl
  rw [hin, hout, emit_redir_in_eq, emit_redir_out_eq]
  simp only [List.drop_left, redir_in_patched, redir_out_patched]
  refine ⟨trivial, exec_redir_in res mem a r, trivial, exec_redir_out res mem a _ r, ?_⟩
  rw [exec_redir_in]
  rfl

/-! ## The guard after the last stage of a pipeline -/

theorem je_close_patch (g : Gen) :
    patch_here (sys_close (mov_rdi_rax (je_rel32 g).1)) (je_rel32 g).2 =
      { g with code := g.code ++ (([0x0F, 0x84] ++ le_bytes 4 12) ++ [0x48, 0x89, 0xC7] ++
          ([0x48, 0xC7, 0xC0] ++ le_bytes 4 3) ++ [0x0F, 0x05]) } := by
  have e2 : (je_rel32 g).2 = g.code.length + 2 := by simp [je_rel32, cpos, c8]
  have e1 : sys_close (mov_rdi_rax (je_rel32 g).1) =
      { g with code := (g.code ++ [0x0F, 0x84]) ++ le_bytes 4 0 ++
        ([0x48, 0x89, 0xC7] ++ ([0x48, 0xC7, 0xC0] ++ le_bytes 4 3) ++ [0x0F, 0x05]) } := by
    simp [je_rel32, sys_close, mov_rdi_rax, mov_rax_imm32, syscall_, c8, c32]
  rw [e2, e1]
  simp only [patch_here, patch32, cpos]
  rw [write_at_block (g.code ++ [0x0F, 0x84]) (le_bytes 4 0) _ _ _ (by simp) (by simp)]
  have hv : (g.code ++ [0x0F, 0x84] ++ le_bytes 4 0 ++
      ([0x48, 0x89, 0xC7] ++ ([0x48, 0xC7, 0xC0] ++ le_bytes 4 3) ++ [0x0F, 0x05])).length -
      (g.code.length + 2 + 4) = 12 := by
    simp
  rw [hv]
  simp

theorem guard_eq (g : Gen) (a : Nat) :
    patch_here (sys_close (mov_rdi_rax (je_rel32 (c8 (c8 (c8 (c8 (c8 (c8 (c8
        (mov_rdi_imm64 g a) 0x48) 0x8B) 0x07) 0x48) 0x83) 0xF8) 0x00)).1))
      (je_rel32 (c8 (c8 (c8 (c8 (c8 (c8 (c8
        (mov_rdi_imm64 g a) 0x48) 0x8B) 0x07) 0x48) 0x83) 0xF8) 0x00)).2 =
      { g with code := g.code ++ guard_code a } := by
  rw [je_close_patch]
  simp [mov_rdi_imm64, c8, c64, guard_code]

theorem emit_pipeline_split (g : Gen) (pl : Pipeline) :
    emit_pipeline g pl = (List.range pl.length).foldl
      (fun acc i => emit_wait acc ⟨g.bss_off, g.bss_off + 8, g.bss_off + 8 + 8,
        g.bss_off + 8 + 8 + 8 * pl.length⟩ i)
      { pipeline_stages_end g pl with
        code := (pipeline_stages_end g pl).code ++
          guard_code ((pipeline_stages_end g pl).bss_base + (g.bss_off + 8)) } := by
  unfold emit_pipeline pipeline_stages_end
  simp only []
  rw [guard_eq]

/-- `emit_pipeline` is the stage loop, then the guard, then the wait loop. -/
theorem emit_pipeline_guard (g : Gen) (pl : Pipeline) :
    g.code ++ sentinel_code (g.bss_base + (g.bss_off + 8)) <+: (pipeline_stages_end g pl).code ∧
      ∃ post, (emit_pipeline g pl).code =
        (pipeline_stages_end g pl).code ++ guard_code (g.bss_base + (g.bss_off + 8)) ++ post := by
  have hb : (pipeline_stages_end g pl).bss_base = g.bss_base := by
    unfold pipeline_stages_end
    simp only []
    rw [(grow_emit_stages _ _ pl 0 _).1.base]
    rfl
  constructor
  · unfold pipeline_stages_end
    simp only []
    refine List.IsPrefix.trans ?_ (grow_emit_stages _ _ pl 0 _).1.code
    simp [sentinel_code, mov_rdx_imm64, mov_rdi_imm64, c8, c64]
  · rw [emit_pipeline_split, hb]
    have hw := (low_wait_loop ⟨g.bss_off, g.bss_off + 8, g.bss_off + 8 + 8,
      g.bss_off + 8 + 8 + 8 * pl.length⟩ (List.range pl.length) _ (Low.lrefl
        { pipeline_stages_end g pl with
          code := (pipeline_stages_end g pl).code ++
            guard_code (g.bss_base + (g.bss_off + 8)) })).1.code
    obtain ⟨post, hp⟩ := hw
    exact ⟨post, hp.symm⟩

/-- Running the guard with the value `v` in the `prev_read` slot: `close(v)` is
issued exactly when `v` is not zero. -/
theorem exec_guard (res mem : Nat → Nat) (addr : Nat) (r : Regs) (tr : List Sys) :
    exec res mem 10 (guard_code addr) r tr =
      if mem (addr % 2 ^ 64) % 2 ^ 64 = 0 then
        some (⟨0, addr % 2 ^ 64, r.rsi, r.rdx, r.r10, true⟩, tr)
      else
        some (⟨res tr.length % 2 ^ 64, mem (addr % 2 ^ 64) % 2 ^ 64, r.rsi, r.rdx, r.r10, false⟩,
          tr ++ [⟨3, mem (addr % 2 ^ 64) % 2 ^ 64, r.rsi, r.rdx, r.r10⟩]) := by
  simp only [guard_code, List.cons_append, List.nil_append, List.append_assoc]
  rw [exec_mov_rdi, exec_load_rax, exec_cmp_rax, exec_je _ _ _ _ _ _ _ (by norm_num)]
  have hd : List.drop 12 (0x48 :: 0x89 :: 0xC7 :: 0x48 :: 0xC7 :: 0xC0 ::
      (le_bytes 4 3 ++ [0x0F, 0x05])) = [] := by decide
  have hs : sext8 0 = 0 := by decide
  rw [hd, hs]
  by_cases hz : mem (addr % 2 ^ 64) % 2 ^ 64 = 0
  · simp only [hz, decide_True, if_true]
    rw [exec_end]
  · simp only [hz, decide_False, if_false, Bool.false_eq_true]
    rw [exec_mov_rdi_rax, exec_mov_rax, exec_syscall, exec_end]
    simp [sext32]

/-- C20 fails on the code: `emit_pipeline` initialises the `prev_read` slot with
`-1`, but the guard it emits after the last stage is `cmp rax, 0` (bytes
`48 83 F8 00`) followed by `je` over the `close`.  Running the guard, `close` is
issued exactly when the loaded value is not zero: with the sentinel `-1` in the
slot the code calls `close(-1)`, and with `0` in the slot, which differs from the
sentinel, it skips the `close`. -/
theorem guard_compares_zero (g : Gen) (pl : Pipeline) (res mem : Nat → Nat) (r : Regs)
    (tr : List Sys) :
    g.code ++ sentinel_code (g.bss_base + (g.bss_off + 8)) <+: (pipeline_stages_end g pl).code ∧
      (∃ post, (emit_pipeline g pl).code =
        (pipeline_stages_end g pl).code ++ guard_code (g.bss_base + (g.bss_off + 8)) ++ post) ∧
      ((guard_code (g.bss_base + (g.bss_off + 8))).drop 13).take 4 = [0x48, 0x83, 0xF8, 0x00] ∧
      exec res mem 10 (guard_code (g.bss_base + (g.bss_off + 8))) r tr =
        (if mem ((g.bss_base + (g.bss_off + 8)) % 2 ^ 64) % 2 ^ 64 = 0 then
          some (⟨0, (g.bss_base + (g.bss_off + 8)) % 2 ^ 64, r.rsi, r.rdx, r.r10, true⟩, tr)
        else
          some (⟨res tr.length % 2 ^ 64, mem ((g.bss_base + (g.bss_off + 8)) % 2 ^ 64) % 2 ^ 64,
              r.rsi, r.rdx, r.r10, false⟩,
            tr ++ [⟨3, mem ((g.bss_base + (g.bss_off + 8)) % 2 ^ 64) % 2 ^ 64, r.rsi, r.rdx,
              r.r10⟩])) ∧
      exec res (fun _ => 2 ^ 64 - 1) 10 (guard_code (g.bss_base + (g.bss_off + 8))) r tr =
        some (⟨res tr.length % 2 ^ 64, 2 ^ 64 - 1, r.rsi, r.rdx, r.r10, false⟩,
          tr ++ [⟨3, 2 ^ 64 - 1, r.rsi, r.rdx, r.r10⟩]) ∧
      exec res (fun _ => 0) 10 (guard_code (g.bss_base + (g.bss_off + 8))) r tr =
        some (⟨0, (g.bss_base + (g.bss_off + 8)) % 2 ^ 64, r.rsi, r.rdx, r.r10, true⟩, tr) := by
  obtain ⟨h1, h2⟩ := emit_pipeline_guard g pl
  refine ⟨h1, h2, ?_, exec_guard res mem _ r tr, ?_, ?_⟩
  · simp only [guard_code, List.cons_append, List.nil_append, List.append_assoc]
    have e : ∀ (v : Nat) (t : List Nat), (0x48 :: 0xBF :: (le_bytes 8 v ++ t)).drop 13 =
        t.drop 3 := by
      intro v t
      have : (0x48 :: 0xBF :: (le_bytes 8 v ++ t)).drop 10 = t := drop_le_bytes 8 v t
      rw [show 13 = 10 + 3 from rfl, ← List.drop_drop, this]
    rw [e]
    rfl
  · rw [exec_guard]
    simp
  · rw [exec_guard]
    simp

/-! ## BSS regions are handed out without overlap -/

theorem chain_nil (lo hi : Nat) (h : lo ≤ hi) : Chain lo hi [] :=
  ⟨List.Pairwise.nil, (by intro r hr; cases hr), h⟩

theorem chain_single (k : Purpose) (lo n : Nat) : Chain lo (lo + n) [⟨k, lo, n⟩] :=
  ⟨List.pairwise_singleton _ _, (by
    intro r hr
    rw [List.mem_singleton] at hr
    subst hr
    exact ⟨le_rfl, le_rfl⟩), Nat.le_add_right _ _⟩

theorem chain_join {a b c : Nat} {l1 l2 : List Region} (h1 : Chain a b l1) (h2 : Chain b c l2) :
    Chain a c (l1 ++ l2) := by
  refine ⟨?_, ?_, le_trans h1.le h2.le⟩
  · rw [List.pairwise_append]
    refine ⟨h1.sorted, h2.sorted, ?_⟩
    intro x hx y hy
    exact le_trans (h1.within x hx).2 (h2.within y hy).1
  · intro r hr
    rcases List.mem_append.mp hr with hr | hr
    · exact ⟨(h1.within r hr).1, le_trans (h1.within r hr).2 h2.le⟩
    · exact ⟨le_trans h1.le (h2.within r hr).1, (h2.within r hr).2⟩

/-- The pid slots of a pipeline of `n` stages. -/
theorem chain_pids (b : Nat) : ∀ n : Nat,
    Chain b (b + 8 * n) ((List.range n).map (fun i => (⟨.pid, b + i * 8, 8⟩ : Region))) := by
  intro n
  induction n with
  | zero => exact chain_nil _ _ le_rfl
  | succ k ih =>
    rw [List.range_succ, List.map_append, List.map_singleton]
    have h2 : Chain (b + 8 * k) (b + 8 * (k + 1)) [(⟨.pid, b + k * 8, 8⟩ : Region)] := by
      have := chain_single .pid (b + k * 8) 8
      have e1 : b + k * 8 = b + 8 * k := by omega
      have e2 : b + k * 8 + 8 = b + 8 * (k + 1) := by omega
      rw [e2] at this
      refine ⟨this.sorted, ?_, by omega⟩
      intro r hr
      have := this.within r hr
      omega
    exact chain_join ih h2

theorem stage_child_bss (g : Gen) (o : PipeOffs) (n i : Nat) (st : Stage) :
    (stage_child g o n i st).bss_off = g.bss_off := by
  unfold stage_child
  simp only []
  have h1 : Low g (if (decide (i + 1 < n)) = true then
      sys_pipe (mov_rdi_imm64 g (g.bss_base + o.pipe_area_off)) else g) := by
    split
    · exact low_sys _ (low_mov_rdi_imm64 _ (Low.lrefl _))
    · exact Low.lrefl _
  generalize (if (decide (i + 1 < n)) = true then
      sys_pipe (mov_rdi_imm64 g (g.bss_base + o.pipe_area_off)) else g) = g1 at h1 ⊢
  have h4 : Low g (jne_rel32 (c8 (c8 (c8 (c8 (sys_fork g1) 0x48) 0x83) 0xF8) 0x00)).1 :=
    low_jne (low_c8 _ (low_c8 _ (low_c8 _ (low_c8 _ (low_sys _ h1)))))
  generalize (jne_rel32 (c8 (c8 (c8 (c8 (sys_fork g1) 0x48) 0x83) 0xF8) 0x00)) = j at h4 ⊢
  have h5 : Low g (if i > 0 then emit_child_prev j.1 o else j.1) := by
    split
    · exact low_emit_child_prev o h4
    · exact h4
  generalize (if i > 0 then emit_child_prev j.1 o else j.1) = g5 at h5 ⊢
  have h6 : Low g (if (decide (i + 1 < n)) = true then emit_child_next g5 o else g5) := by
    split
    · exact low_emit_child_next o h5
    · exact h5
  generalize (if (decide (i + 1 < n)) = true then emit_child_next g5 o else g5) = g6 at h6 ⊢
  exact (low_emit_redirs st.in_redir st.out_redir st.out_append h6).2

theorem chain_stage (g : Gen) (o : PipeOffs) (n i : Nat) (st : Stage) :
    Chain g.bss_off (emit_stage g o n i st).bss_off (stage_allocs g o n i st) := by
  rw [(grow_emit_stage g o n i st).2]
  unfold stage_allocs
  rw [stage_child_bss]
  split
  · exact chain_nil _ _ (by omega)
  · exact chain_single .argv g.bss_off _

theorem chain_stages (o : PipeOffs) (n : Nat) : ∀ (sts : List Stage) (i : Nat) (g : Gen),
    Chain g.bss_off (emit_stages o n i sts g).bss_off (stages_allocs o n i sts g)
  | [], _, g => chain_nil _ _ le_rfl
  | st :: rest, i, g => by
    rw [emit_stages, stages_allocs]
    exact chain_join (chain_stage g o n i st) (chain_stages o n rest (i + 1) _)

theorem pipeline_start_bss (g : Gen) (pl : Pipeline) :
    (pipeline_start g pl).bss_off = g.bss_off + 8 + 8 + 8 * pl.length + 8 * 2 := rfl

theorem emit_pipeline_bss (g : Gen) (pl : Pipeline) :
    (emit_pipeline g pl).bss_off =
      (emit_stages (pipeline_offs g pl) pl.length 0 pl (pipeline_start g pl)).bss_off := by
  rw [emit_pipeline_split]
  exact (low_wait_loop _ _ _ (Low.lrefl _)).2

theorem chain_pipeline (g : Gen) (pl : Pipeline) :
    Chain g.bss_off (emit_pipeline g pl).bss_off (pipeline_allocs g pl) := by
  rw [emit_pipeline_bss]
  unfold pipeline_allocs
  have h1 : Chain g.bss_off (g.bss_off + 8 + 8) [(⟨.envp, g.bss_off, 8⟩ : Region),
      ⟨.prev_read, g.bss_off + 8, 8⟩] :=
    chain_join (chain_single .envp g.bss_off 8) (chain_single .prev_read (g.bss_off + 8) 8)
  have h2 := chain_pids (g.bss_off + 8 + 8) pl.length
  have h3 := chain_single .pipe (g.bss_off + 8 + 8 + 8 * pl.length) (8 * 2)
  have h4 := chain_stages (pipeline_offs g pl) pl.length pl 0 (pipeline_start g pl)
  rw [pipeline_start_bss] at h4
  exact chain_join (chain_join (chain_join h1 h2) h3) h4

theorem chain_gen_pipeline (g : Gen) (pl : Pipeline) :
    Chain g.bss_off (gen_pipeline g pl).bss_off (gen_pipeline_allocs g pl) := by
  unfold gen_pipeline gen_pipeline_allocs
  split
  · simp only []
    split
    · rw [(low_emit_builtin (pl.headD Stage.zero) (Low.lrefl g)).2]
      exact chain_nil _ _ le_rfl
    · rw [(low_emit_simple_cmd (pl.headD Stage.zero) (g.bss_off + 8) g.bss_off
        (Low.lrefl _)).2]
      have := chain_join (chain_single .envp g.bss_off 8)
        (chain_single .argv (g.bss_off + 8) (8 * ((pl.headD Stage.zero).argv.length + 1)))
      exact this
  · exact chain_pipeline g pl

theorem chain_script : ∀ (sc : Script) (g : Gen),
    Chain g.bss_off (sc.foldl gen_pipeline g).bss_off (script_allocs sc g)
  | [], g => chain_nil _ _ le_rfl
  | pl :: rest, g => by
    rw [List.foldl_cons, script_allocs]
    exact chain_join (chain_gen_pipeline g pl) (chain_script rest _)

theorem covered_iff (l : List Region) (u : Region) :
    covered l u = true ↔
      ∃ a ∈ l, a.kind = u.kind ∧ a.off ≤ u.off ∧ u.off + u.size ≤ a.off + a.size := by
  simp only [covered, List.any_eq_true, Bool.and_eq_true, decide_eq_true_eq, and_assoc]

theorem covered_subset {l l2 : List Region} {u : Region} (hs : ∀ a ∈ l, a ∈ l2)
    (h : covered l u = true) : covered l2 u = true := by
  rw [covered_iff] at h ⊢
  obtain ⟨a, ha, h1⟩ := h
  exact ⟨a, hs a ha, h1⟩

theorem covered_mem {l : List Region} {u a : Region} (ha : a ∈ l) (hk : a.kind = u.kind)
    (h1 : a.off ≤ u.off) (h2 : u.off + u.size ≤ a.off + a.size) : covered l u = true :=
  (covered_iff l u).mpr ⟨a, ha, hk, h1, h2⟩

theorem forall_mem_append {P : Region → Prop} {l1 l2 : List Region} (h1 : ∀ u ∈ l1, P u)
    (h2 : ∀ u ∈ l2, P u) : ∀ u ∈ l1 ++ l2, P u := by
  intro u hu
  rcases List.mem_append.mp hu with h | h
  · exact h1 u h
  · exact h2 u h

theorem forall_mem_ite {P : Region → Prop} {c : Prop} [Decidable c] {l : List Region}
    (h : ∀ u ∈ l, P u) : ∀ u ∈ (if c then l else []), P u := by
  intro u hu
  split at hu
  · exact h u hu
  · cases hu

theorem forall_mem_cons {P : Region → Prop} {a : Region} {l : List Region} (h1 : P a)
    (h2 : ∀ u ∈ l, P u) : ∀ u ∈ a :: l, P u := by
  intro u hu
  rcases List.mem_cons.mp hu with h | h
  · rw [h]; exact h1
  · exact h2 u h

theorem forall_mem_nil {P : Region → Prop} : ∀ u ∈ ([] : List Region), P u := by
  intro u hu; cases hu

/-- Every region addressed by the code of one stage lies in a region handed out
for the pipeline or for the stage. -/
theorem stage_uses_covered (F : List Region) (g : Gen) (o : PipeOffs) (n i : Nat) (st : Stage)
    (hi : i < n) (he : (⟨.envp, o.envp_off, 8⟩ : Region) ∈ F)
    (hp : (⟨.prev_read, o.prev_read_off, 8⟩ : Region) ∈ F)
    (hpipe : (⟨.pipe, o.pipe_area_off, 8 * 2⟩ : Region) ∈ F)
    (hpid : ∀ k, k < n → (⟨.pid, o.pid_arr_off + k * 8, 8⟩ : Region) ∈ F) :
    ∀ u ∈ stage_uses g o n i st, covered (F ++ stage_allocs g o n i st) u = true := by
  have inF : ∀ {a : Region}, a ∈ F → a ∈ F ++ stage_allocs g o n i st :=
    fun h => List.mem_append_left _ h
  have cprev : covered (F ++ stage_allocs g o n i st) ⟨.prev_read, o.prev_read_off, 8⟩ = true :=
    covered_mem (inF hp) rfl le_rfl le_rfl
  have cpipe : ∀ d s, d + s ≤ 8 →
      covered (F ++ stage_allocs g o n i st) ⟨.pipe, o.pipe_area_off + d, s⟩ = true := by
    intro d s hds
    exact covered_mem (inF hpipe) rfl (Nat.le_add_right _ _) (by simp only []; omega)
  unfold stage_uses
  refine forall_mem_append (forall_mem_append (forall_mem_append (forall_mem_append
    (forall_mem_append ?_ ?_) ?_) ?_) ?_) ?_
  · exact forall_mem_ite (forall_mem_cons (cpipe 0 8 (by omega)) forall_mem_nil)
  · exact forall_mem_ite (forall_mem_cons cprev (forall_mem_cons cprev forall_mem_nil))
  · exact forall_mem_ite (forall_mem_cons (cpipe 4 4 (by omega))
      (forall_mem_cons (cpipe 0 4 (by omega))
        (forall_mem_cons (cpipe 4 4 (by omega)) forall_mem_nil)))
  · by_cases hb : is_builtin st.cmd = true
    · rw [if_pos hb]; exact forall_mem_nil
    · rw [if_neg hb]
      unfold exec_uses
      refine forall_mem_cons ?_ (forall_mem_cons ?_ forall_mem_nil)
      · refine covered_mem (List.mem_append_right _ ?_) rfl le_rfl le_rfl
        unfold stage_allocs
        rw [if_neg hb]
        exact List.mem_singleton.mpr rfl
      · exact covered_mem (inF he) rfl le_rfl le_rfl
  · exact forall_mem_cons (covered_mem (inF (hpid i hi)) rfl le_rfl le_rfl) forall_mem_nil
  · exact forall_mem_ite (forall_mem_cons (cpipe 0 4 (by omega))
      (forall_mem_cons cprev (forall_mem_cons (cpipe 4 4 (by omega)) forall_mem_nil)))

theorem stages_uses_covered (F : List Region) (o : PipeOffs) (n : Nat)
    (he : (⟨.envp, o.envp_off, 8⟩ : Region) ∈ F)
    (hp : (⟨.prev_read, o.prev_read_off, 8⟩ : Region) ∈ F)
    (hpipe : (⟨.pipe, o.pipe_area_off, 8 * 2⟩ : Region) ∈ F)
    (hpid : ∀ k, k < n → (⟨.pid, o.pid_arr_off + k * 8, 8⟩ : Region) ∈ F) :
    ∀ (sts : List Stage) (i : Nat) (g : Gen), i + sts.length ≤ n →
      ∀ u ∈ stages_uses o n i sts g, covered (F ++ stages_allocs o n i sts g) u = true
  | [], _, _, _ => by intro u hu; cases hu
  | st :: rest, i, g, hn => by
    rw [stages_uses, stages_allocs]
    rw [List.length_cons] at hn
    refine forall_mem_append ?_ ?_
    · intro u hu
      refine covered_subset ?_ (stage_uses_covered F g o n i st (by omega) he hp hpipe hpid u hu)
      intro a ha
      rcases List.mem_append.mp ha with h | h
      · exact List.mem_append_left _ h
      · exact List.mem_append_right _ (List.mem_append_left _ h)
    · intro u hu
      refine covered_subset ?_ (stages_uses_covered F o n he hp hpipe hpid rest (i + 1)
        (emit_stage g o n i st) (by omega) u hu)
      intro a ha
      rcases List.mem_append.mp ha with h | h
      · exact List.mem_append_left _ h
      · exact List.mem_append_right _ (List.mem_append_right _ h)

theorem pipeline_uses_covered (g : Gen) (pl : Pipeline) :
    ∀ u ∈ pipeline_uses g pl, covered (pipeline_allocs g pl) u = true := by
  have he : (⟨.envp, (pipeline_offs g pl).envp_off, 8⟩ : Region) ∈
      [(⟨.envp, g.bss_off, 8⟩ : Region), ⟨.prev_read, g.bss_off + 8, 8⟩] ++
        (List.range pl.length).map (fun i => (⟨.pid, g.bss_off + 8 + 8 + i * 8, 8⟩ : Region)) ++
        [⟨.pipe, g.bss_off + 8 + 8 + 8 * pl.length, 8 * 2⟩] := by
    simp [pipeline_offs]
  have hp : (⟨.prev_read, (pipeline_offs g pl).prev_read_off, 8⟩ : Region) ∈
      [(⟨.envp, g.bss_off, 8⟩ : Region), ⟨.prev_read, g.bss_off + 8, 8⟩] ++
        (List.range pl.length).map (fun i => (⟨.pid, g.bss_off + 8 + 8 + i * 8, 8⟩ : Region)) ++
        [⟨.pipe, g.bss_off + 8 + 8 + 8 * pl.length, 8 * 2⟩] := by
    simp [pipeline_offs]
  have hpipe : (⟨.pipe, (pipeline_offs g pl).pipe_area_off, 8 * 2⟩ : Region) ∈
      [(⟨.envp, g.bss_off, 8⟩ : Region), ⟨.prev_read, g.bss_off + 8, 8⟩] ++
        (List.range pl.length).map (fun i => (⟨.pid, g.bss_off + 8 + 8 + i * 8, 8⟩ : Region)) ++
        [⟨.pipe, g.bss_off + 8 + 8 + 8 * pl.length, 8 * 2⟩] := by
    simp [pipeline_offs]
  have hpid : ∀ k, k < pl.length →
      (⟨.pid, (pipeline_offs g pl).pid_arr_off + k * 8, 8⟩ : Region) ∈
      [(⟨.envp, g.bss_off, 8⟩ : Region), ⟨.prev_read, g.bss_off + 8, 8⟩] ++
        (List.range pl.length).map (fun i => (⟨.pid, g.bss_off + 8 + 8 + i * 8, 8⟩ : Region)) ++
        [⟨.pipe, g.bss_off + 8 + 8 + 8 * pl.length, 8 * 2⟩] := by
    intro k hk
    refine List.mem_append_left _ (List.mem_append_right _ ?_)
    exact List.mem_map.mpr ⟨k, List.mem_range.mpr hk, rfl⟩
  have hs := stages_uses_covered _ (pipeline_offs g pl) pl.length he hp hpipe hpid pl 0
    (pipeline_start g pl) (by omega)
  have inF : ∀ {u : Region}, u ∈ [(⟨.envp, g.bss_off, 8⟩ : Region),
      ⟨.prev_read, g.bss_off + 8, 8⟩] ++
        (List.range pl.length).map (fun i => (⟨.pid, g.bss_off + 8 + 8 + i * 8, 8⟩ : Region)) ++
        [⟨.pipe, g.bss_off + 8 + 8 + 8 * pl.length, 8 * 2⟩] →
      covered (pipeline_allocs g pl) u = true := by
    intro u hu
    exact covered_mem (List.mem_append_left _ hu) rfl le_rfl le_rfl
  unfold pipeline_uses
  refine forall_mem_append (forall_mem_append (forall_mem_append ?_ ?_) ?_) ?_
  · exact forall_mem_cons (inF hp) forall_mem_nil
  · exact hs
  · exact forall_mem_cons (inF hp) forall_mem_nil
  · intro u hu
    obtain ⟨k, hk, rfl⟩ := List.mem_map.mp hu
    exact inF (hpid k (List.mem_range.mp hk))

theorem gen_pipeline_uses_covered (g : Gen) (pl : Pipeline) :
    ∀ u ∈ gen_pipeline_uses g pl, covered (gen_pipeline_allocs g pl) u = true := by
  unfold gen_pipeline_uses gen_pipeline_allocs
  split
  · split
    · exact forall_mem_nil
    · unfold exec_uses
      exact forall_mem_cons
        (covered_mem (List.mem_cons_of_mem _ (List.mem_singleton.mpr rfl)) rfl le_rfl le_rfl)
        (forall_mem_cons (covered_mem (List.mem_cons_self _ _) rfl le_rfl le_rfl) forall_mem_nil)
  · exact pipeline_uses_covered g pl

theorem script_uses_covered : ∀ (sc : Script) (g : Gen),
    ∀ u ∈ script_uses sc g, covered (script_allocs sc g) u = true
  | [], _ => by intro u hu; cases hu
  | pl :: rest, g => by
    rw [script_uses, script_allocs]
    refine forall_mem_append ?_ ?_
    · intro u hu
      exact covered_subset (fun a ha => List.mem_append_left _ ha)
        (gen_pipeline_uses_covered g pl u hu)
    · intro u hu
      exact covered_subset (fun a ha => List.mem_append_right _ ha)
        (script_uses_covered rest _ u hu)

theorem gen_script_bss (g : Gen) (sc : Script) :
    (gen_script g sc).bss_off =
      (sc.foldl gen_pipeline
        { g with code := [], strs := ⟨[], []⟩, rels := [], bss_off := 0 }).bss_off := rfl

/-- The regions handed out by `gen_script` follow one another from offset 0 up
to the final `bss_off`. -/
theorem chain_gen_script (g : Gen) (sc : Script) :
    Chain 0 (gen_script g sc).bss_off (gen_script_allocs g sc) := by
  rw [gen_script_bss]
  exact chain_script sc { g with code := [], strs := ⟨[], []⟩, rels := [], bss_off := 0 }

/-! ## The code depends on the BSS base only through the listed addresses -/

theorem rebased_same_list (B C : Nat) : ∀ s : List Nat, Rebased B C s s []
  | [] => Rebased.nil
  | x :: s => Rebased.same x (rebased_same_list B C s)

theorem rebased_append {B C : Nat} {a a2 b b2 : List Nat} {u v : List Region}
    (h1 : Rebased B C a a2 u) (h2 : Rebased B C b b2 v) :
    Rebased B C (a ++ b) (a2 ++ b2) (u ++ v) := by
  induction h1 with
  | nil => exact h2
  | same x _ ih => exact Rebased.same x ih
  | addr r op hop _ ih =>
    have := Rebased.addr r op hop ih
    simp only [List.cons_append, List.append_assoc] at this ⊢
    exact this

theorem rebased_length {B C : Nat} {a a2 : List Nat} {u : List Region}
    (h : Rebased B C a a2 u) : a2.length = a.length := by
  induction h with
  | nil => rfl
  | same x _ ih => simp [ih]
  | addr r op _ _ ih => simp [ih]

theorem rebased_cast {B C : Nat} {a a2 : List Nat} {u v : List Region}
    (h : Rebased B C a a2 u) (e : u = v) : Rebased B C a a2 v := e ▸ h

theorem par_start (B C : Nat) (g gc : Gen) (hl : gc.code.length = g.code.length)
    (hs : gc.strs = g.strs) (hr : gc.rels = g.rels) (ho : gc.bss_off = g.bss_off)
    (hb : g.bss_base = B) (hc : gc.bss_base = C) : Par B C g gc g gc [] :=
  ⟨⟨[], [], by simp, by simp, Rebased.nil⟩, hl, hs, hr, ho, hb, hc⟩

theorem par_cast {B C : Nat} {g gc h hc : Gen} {u v : List Region} (p : Par B C g gc h hc u)
    (e : u = v) : Par B C g gc h hc v := e ▸ p

theorem par_length {B C : Nat} {g gc h hc : Gen} {u : List Region} (p : Par B C g gc h hc u) :
    hc.code.length = h.code.length := by
  obtain ⟨t, tc, e1, e2, r⟩ := p.code
  rw [e1, e2, List.length_append, List.length_append, p.len, rebased_length r]

/-- Both runs take a step that appends code related by `Rebased` and treats the
other fields alike. -/
theorem par_step {B C : Nat} {g gc h hc k kc : Gen} {u v : List Region} {s sc : List Nat}
    (p : Par B C g gc h hc u) (r : Rebased B C s sc v) (e1 : k.code = h.code ++ s)
    (e2 : kc.code = hc.code ++ sc) (hs : kc.strs = k.strs) (hr : kc.rels = k.rels)
    (ho : kc.bss_off = k.bss_off) (hb : k.bss_base = h.bss_base)
    (hb2 : kc.bss_base = hc.bss_base) : Par B C g gc k kc (u ++ v) := by
  obtain ⟨t, tc, c1, c2, r0⟩ := p.code
  refine ⟨⟨t ++ s, tc ++ sc, ?_, ?_, rebased_append r0 r⟩, p.len, hs, hr, ho, hb.trans p.base,
    hb2.trans p.base2⟩
  · rw [e1, c1, List.append_assoc]
  · rw [e2, c2, List.append_assoc]

/-- A step that appends the same bytes in both runs. -/
theorem par_bytes {B C : Nat} {g gc h hc k kc : Gen} {u : List Region} (s : List Nat)
    (p : Par B C g gc h hc u) (e1 : k.code = h.code ++ s)
    (e2 : kc.code = hc.code ++ s) (hs : kc.strs = k.strs) (hr : kc.rels = k.rels)
    (ho : kc.bss_off = k.bss_off) (hb : k.bss_base = h.bss_base)
    (hb2 : kc.bss_base = hc.bss_base) : Par B C g gc k kc u :=
  par_cast (par_step p (rebased_same_list B C s) e1 e2 hs hr ho hb hb2) (List.append_nil u)

theorem par_c8 {B C : Nat} {g gc h hc : Gen} {u : List Region} (x : Nat)
    (p : Par B C g gc h hc u) : Par B C g gc (c8 h x) (c8 hc x) u :=
  par_bytes [x % 256] p rfl rfl p.strs p.rels p.off rfl rfl

theorem par_c32 {B C : Nat} {g gc h hc : Gen} {u : List Region} (x : Nat)
    (p : Par B C g gc h hc u) : Par B C g gc (c32 h x) (c32 hc x) u :=
  par_bytes (le_bytes 4 x) p rfl rfl p.strs p.rels p.off rfl rfl

theorem par_c64 {B C : Nat} {g gc h hc : Gen} {u : List Region} (x : Nat)
    (p : Par B C g gc h hc u) : Par B C g gc (c64 h x) (c64 hc x) u :=
  par_bytes (le_bytes 8 x) p rfl rfl p.strs p.rels p.off rfl rfl

theorem par_mov_rax_imm32 {B C : Nat} {g gc h hc : Gen} {u : List Region} (x : Nat)
    (p : Par B C g gc h hc u) : Par B C g gc (mov_rax_imm32 h x) (mov_rax_imm32 hc x) u :=
  par_c32 _ (par_c8 _ (par_c8 _ (par_c8 _ p)))

theorem par_mov_rdi_imm64 {B C : Nat} {g gc h hc : Gen} {u : List Region} (x : Nat)
    (p : Par B C g gc h hc u) : Par B C g gc (mov_rdi_imm64 h x) (mov_rdi_imm64 hc x) u :=
  par_c64 _ (par_c8 _ (par_c8 _ p))

theorem par_mov_rsi_imm64 {B C : Nat} {g gc h hc : Gen} {u : List Region} (x : Nat)
    (p : Par B C g gc h hc u) : Par B C g gc (mov_rsi_imm64 h x) (mov_rsi_imm64 hc x) u :=
  par_c64 _ (par_c8 _ (par_c8 _ p))

theorem par_mov_rdx_imm64 {B C : Nat} {g gc h hc : Gen} {u : List Region} (x : Nat)
    (p : Par B C g gc h hc u) : Par B C g gc (mov_rdx_imm64 h x) (mov_rdx_imm64 hc x) u :=
  par_c64 _ (par_c8 _ (par_c8 _ p))

theorem par_mov_r10_imm64 {B C : Nat} {g gc h hc : Gen} {u : List Region} (x : Nat)
    (p : Par B C g gc h hc u) : Par B C g gc (mov_r10_imm64 h x) (mov_r10_imm64 hc x) u :=
  par_c64 _ (par_c8 _ (par_c8 _ p))

theorem par_xor_rsi_rsi {B C : Nat} {g gc h hc : Gen} {u : List Region}
    (p : Par B C g gc h hc u) : Par B C g gc (xor_rsi_rsi h) (xor_rsi_rsi hc) u :=
  par_c8 _ (par_c8 _ (par_c8 _ p))

theorem par_xor_rdx_rdx {B C : Nat} {g gc h hc : Gen} {u : List Region}
    (p : Par B C g gc h hc u) : Par B C g gc (xor_rdx_rdx h) (xor_rdx_rdx hc) u :=
  par_c8 _ (par_c8 _ (par_c8 _ p))

theorem par_xor_r10_r10 {B C : Nat} {g gc h hc : Gen} {u : List Region}
    (p : Par B C g gc h hc u) : Par B C g gc (xor_r10_r10 h) (xor_r10_r10 hc) u :=
  par_c8 _ (par_c8 _ (par_c8 _ p))

theorem par_mov_rsi_rdi {B C : Nat} {g gc h hc : Gen} {u : List Region}
    (p : Par B C g gc h hc u) : Par B C g gc (mov_rsi_rdi h) (mov_rsi_rdi hc) u :=
  par_c8 _ (par_c8 _ (par_c8 _ p))

theorem par_mov_rdi_rax {B C : Nat} {g gc h hc : Gen} {u : List Region}
    (p : Par B C g gc h hc u) : Par B C g gc (mov_rdi_rax h) (mov_rdi_rax hc) u :=
  par_c8 _ (par_c8 _ (par_c8 _ p))

theorem par_mov_eax_mrdi {B C : Nat} {g gc h hc : Gen} {u : List Region}
    (p : Par B C g gc h hc u) : Par B C g gc (mov_eax_mrdi h) (mov_eax_mrdi hc) u :=
  par_c8 _ (par_c8 _ p)

theorem par_syscall {B C : Nat} {g gc h hc : Gen} {u : List Region}
    (p : Par B C g gc h hc u) : Par B C g gc (syscall_ h) (syscall_ hc) u :=
  par_c8 _ (par_c8 _ p)

theorem par_mov_m8 {B C : Nat} {g gc h hc : Gen} {u : List Region} (d : Nat)
    (p : Par B C g gc h hc u) :
    Par B C g gc (mov_m8_rdi_disp32_rax h d) (mov_m8_rdi_disp32_rax hc d) u :=
  par_c32 _ (par_c8 _ (par_c8 _ (par_c8 _ p)))

theorem par_sys {B C : Nat} {g gc h hc : Gen} {u : List Region} (n : Nat)
    (p : Par B C g gc h hc u) :
    Par B C g gc (syscall_ (mov_rax_imm32 h n)) (syscall_ (mov_rax_imm32 hc n)) u :=
  par_syscall (par_mov_rax_imm32 _ p)

/-- Loading the address of the region `r` into rdi. -/
theorem par_addr_rdi {B C : Nat} {g gc h hc : Gen} {u : List Region} (r : Region)
    (p : Par B C g gc h hc u) :
    Par B C g gc (mov_rdi_imm64 h (h.bss_base + r.off)) (mov_rdi_imm64 hc (hc.bss_base + r.off))
      (u ++ [r]) := by
  refine par_step p (Rebased.addr r 0xBF (Or.inl rfl) Rebased.nil) ?_ ?_ p.strs p.rels p.off
    rfl rfl
  · rw [p.base]; simp [mov_rdi_imm64, c8, c64]
  · rw [p.base2]; simp [mov_rdi_imm64, c8, c64]

/-- Loading the address of the region `r` into rdx. -/
theorem par_addr_rdx {B C : Nat} {g gc h hc : Gen} {u : List Region} (r : Region)
    (p : Par B C g gc h hc u) :
    Par B C g gc (mov_rdx_imm64 h (h.bss_base + r.off)) (mov_rdx_imm64 hc (hc.bss_base + r.off))
      (u ++ [r]) := by
  refine par_step p (Rebased.addr r 0xBA (Or.inr rfl) Rebased.nil) ?_ ?_ p.strs p.rels p.off
    rfl rfl
  · rw [p.base]; simp [mov_rdx_imm64, c8, c64]
  · rw [p.base2]; simp [mov_rdx_imm64, c8, c64]

theorem par_add_str {B C : Nat} {g gc h hc : Gen} {u : List Region} (s : List Nat)
    (p : Par B C g gc h hc u) :
    Par B C g gc (add_str h s).1 (add_str hc s).1 u ∧ (add_str hc s).2 = (add_str h s).2 :=
  ⟨par_bytes [] p (by simp [add_str]) (by simp [add_str])
    (by simp only [add_str]; rw [p.strs]) p.rels p.off rfl rfl,
    by simp only [add_str]; rw [p.strs]⟩

/-- Emitting a relocated `mov r64, imm64`: opcode, zero placeholder, relocation
record. -/
theorem par_rel_slot {B C : Nat} {g gc h hc : Gen} {u : List Region} (op sidx : Nat)
    (p : Par B C g gc h hc u) :
    Par B C g gc (rels_add_here (c64 (c8 (c8 h 0x48) op) 0) (cpos (c8 (c8 h 0x48) op)) sidx)
      (rels_add_here (c64 (c8 (c8 hc 0x48) op) 0) (cpos (c8 (c8 hc 0x48) op)) sidx) u := by
  have q := par_c64 0 (par_c8 op (par_c8 0x48 p))
  have hl := par_length (par_c8 op (par_c8 0x48 p))
  refine ⟨q.code, q.len, q.strs, ?_, q.off, q.base, q.base2⟩
  simp only [rels_add_here, cpos]
  rw [hl, q.rels]

theorem par_mov_rdi_str {B C : Nat} {g gc h hc : Gen} {u : List Region} (sidx : Nat)
    (p : Par B C g gc h hc u) : Par B C g gc (mov_rdi_str h sidx) (mov_rdi_str hc sidx) u :=
  par_rel_slot 0xBF sidx p

theorem par_mov_rsi_str {B C : Nat} {g gc h hc : Gen} {u : List Region} (sidx : Nat)
    (p : Par B C g gc h hc u) : Par B C g gc (mov_rsi_str h sidx) (mov_rsi_str hc sidx) u :=
  par_rel_slot 0xBE sidx p

/-- Patching a jump in both runs after both have appended related code. -/
theorem par_patch_at {B C : Nat} {g gc h hc j jc e ec : Gen} {u v : List Region} (x : List Nat)
    (hx : x.length = 2) (p : Par B C g gc h hc u) (q : Par B C j jc e ec v)
    (hj : j.code = h.code ++ x ++ le_bytes 4 0) (hjc : jc.code = hc.code ++ x ++ le_bytes 4 0) :
    Par B C g gc (patch_here e (h.code.length + 2)) (patch_here ec (hc.code.length + 2))
      (u ++ v) := by
  obtain ⟨t, tc, e1, e2, r⟩ := q.code
  have hl := par_length p
  have hle := par_length q
  rw [hj] at e1
  rw [hjc] at e2
  have n1 : (patch_here e (h.code.length + 2)).code =
      h.code ++ (x ++ le_bytes 4 (cpos e - (h.code.length + 2 + 4)) ++ t) := by
    simp only [patch_here, patch32]
    rw [e1]
    have := write_at_block (h.code ++ x) (le_bytes 4 0) t
      (le_bytes 4 (cpos e - (h.code.length + 2 + 4))) (h.code.length + 2) (by simp [hx])
      (by simp)
    simp only [List.append_assoc] at this ⊢
    exact this
  have n2 : (patch_here ec (hc.code.length + 2)).code =
      hc.code ++ (x ++ le_bytes 4 (cpos e - (h.code.length + 2 + 4)) ++ tc) := by
    have hv : cpos ec - (hc.code.length + 2 + 4) = cpos e - (h.code.length + 2 + 4) := by
      simp only [cpos]; rw [hle, hl]
    simp only [patch_here, patch32]
    rw [hv, e2]
    have := write_at_block (hc.code ++ x) (le_bytes 4 0) tc
      (le_bytes 4 (cpos e - (h.code.length + 2 + 4))) (hc.code.length + 2) (by simp [hx])
      (by simp)
    simp only [List.append_assoc] at this ⊢
    exact this
  have rb : Rebased B C (x ++ le_bytes 4 (cpos e - (h.code.length + 2 + 4)) ++ t)
      (x ++ le_bytes 4 (cpos e - (h.code.length + 2 + 4)) ++ tc) v := by
    have := rebased_append (rebased_same_list B C
      (x ++ le_bytes 4 (cpos e - (h.code.length + 2 + 4)))) r
    exact rebased_cast this (List.nil_append v)
  exact par_step p rb n1 n2 q.strs q.rels q.off (q.base.trans p.base.symm)
    (q.base2.trans p.base2.symm)

theorem par_jne_patch {B C : Nat} {g gc h hc e ec : Gen} {u v : List Region}
    (p : Par B C g gc h hc u) (q : Par B C (jne_rel32 h).1 (jne_rel32 hc).1 e ec v) :
    Par B C g gc (patch_here e (jne_rel32 h).2) (patch_here ec (jne_rel32 hc).2) (u ++ v) := by
  have e1 : (jne_rel32 h).2 = h.code.length + 2 := by simp [jne_rel32, cpos, c8]
  have e2 : (jne_rel32 hc).2 = hc.code.length + 2 := by simp [jne_rel32, cpos, c8]
  rw [e1, e2]
  exact par_patch_at [0x0F % 256, 0x85 % 256] rfl p q (by simp [jne_rel32, c8, c32])
    (by simp [jne_rel32, c8, c32])

theorem par_je_patch {B C : Nat} {g gc h hc e ec : Gen} {u v : List Region}
    (p : Par B C g gc h hc u) (q : Par B C (je_rel32 h).1 (je_rel32 hc).1 e ec v) :
    Par B C g gc (patch_here e (je_rel32 h).2) (patch_here ec (je_rel32 hc).2) (u ++ v) := by
  have e1 : (je_rel32 h).2 = h.code.length + 2 := by simp [je_rel32, cpos, c8]
  have e2 : (je_rel32 hc).2 = hc.code.length + 2 := by simp [je_rel32, cpos, c8]
  rw [e1, e2]
  exact par_patch_at [0x0F % 256, 0x84 % 256] rfl p q (by simp [je_rel32, c8, c32])
    (by simp [je_rel32, c8, c32])

/-- The state right after a jump is emitted, as the start of a new pair of
runs. -/
theorem par_after {B C : Nat} {g gc h hc : Gen} {u : List Region} (p : Par B C g gc h hc u) :
    Par B C h hc h hc [] :=
  par_start B C h hc (par_length p) p.strs p.rels p.off p.base p.base2

theorem par_write_literal {B C : Nat} {g gc h hc : Gen} {u : List Region} (s : List Nat)
    (p : Par B C g gc h hc u) : Par B C g gc (write_literal h s) (write_literal hc s) u := by
  obtain ⟨q, hi⟩ := par_add_str s p
  unfold write_literal
  simp only []
  rw [hi]
  exact par_sys _ (par_mov_rdx_imm64 _ (par_mov_rdi_imm64 _ (par_mov_rsi_str _ q)))

theorem par_build_argv_loop {B C : Nat} {g gc : Gen} {u : List Region} (sidxv : List Nat) :
    ∀ (i : Nat) (h hc : Gen), Par B C g gc h hc u →
      Par B C g gc (build_argv_loop i sidxv h) (build_argv_loop i sidxv hc) u := by
  induction sidxv with
  | nil => intro i h hc p; exact p
  | cons s rest ih =>
    intro i h hc p
    exact ih (i + 1) _ _ (par_mov_m8 _ (par_rel_slot 0xB8 s p))

/-- `build_argv` loads the address of the argv area `r`. -/
theorem par_build_argv {B C : Nat} {g gc h hc : Gen} {u : List Region} (r : Region)
    (sidxv : List Nat) (p : Par B C g gc h hc u) :
    Par B C g gc (build_argv h r.off sidxv) (build_argv hc r.off sidxv) (u ++ [r]) :=
  par_mov_rsi_rdi (par_mov_m8 _ (par_mov_rax_imm32 _
    (par_build_argv_loop sidxv 0 _ _ (par_addr_rdi r p))))

theorem par_emit_redir_in {B C : Nat} {g gc h hc : Gen} {u : List Region} (path : List Nat)
    (p : Par B C g gc h hc u) : Par B C g gc (emit_redir_in h path) (emit_redir_in hc path) u := by
  obtain ⟨q, hi⟩ := par_add_str path p
  unfold emit_redir_in
  simp only []
  rw [hi]
  exact par_sys _ (par_mov_rdi_rax (par_sys _ (par_mov_rsi_imm64 _ (par_mov_rdi_rax
    (par_sys _ (par_xor_r10_r10 (par_mov_rdx_imm64 _
      (par_mov_rsi_str _ (par_mov_rdi_imm64 _ q)))))))))

theorem par_emit_redir_out {B C : Nat} {g gc h hc : Gen} {u : List Region} (path : List Nat)
    (ap : Nat) (p : Par B C g gc h hc u) :
    Par B C g gc (emit_redir_out h path ap) (emit_redir_out hc path ap) u := by
  obtain ⟨q, hi⟩ := par_add_str path p
  unfold emit_redir_out
  simp only []
  rw [hi]
  exact par_sys _ (par_mov_rdi_rax (par_sys _ (par_mov_rsi_imm64 _ (par_mov_rdi_rax
    (par_sys _ (par_mov_r10_imm64 _ (par_mov_rdx_imm64 _
      (par_mov_rsi_str _ (par_mov_rdi_imm64 _ q)))))))))

theorem par_emit_redirs {B C : Nat} {g gc h hc : Gen} {u : List Region}
    (i o : Option (List Nat)) (ap : Nat) (p : Par B C g gc h hc u) :
    Par B C g gc (emit_redirs h i o ap) (emit_redirs hc i o ap) u := by
  cases i <;> cases o <;> simp only [emit_redirs]
  · exact p
  · exact par_emit_redir_out _ _ p
  · exact par_emit_redir_in _ p
  · exact par_emit_redir_out _ _ (par_emit_redir_in _ p)

theorem par_echo_args {B C : Nat} {g gc : Gen} {u : List Region} :
    ∀ (args : List (List Nat)) (h hc : Gen), Par B C g gc h hc u →
      Par B C g gc (echo_args args h) (echo_args args hc) u
  | [], _, _, p => p
  | [a], _, _, p => par_write_literal a p
  | a :: b :: rest, _, _, p =>
    par_echo_args (b :: rest) _ _ (par_write_literal _ (par_write_literal a p))

theorem par_emit_builtin {B C : Nat} {g gc h hc : Gen} {u : List Region} (st : Stage)
    (p : Par B C g gc h hc u) : Par B C g gc (emit_builtin h st) (emit_builtin hc st) u := by
  unfold emit_builtin
  split
  · exact par_write_literal _ (par_echo_args _ _ _ p)
  · split
    · split
      · obtain ⟨q, hi⟩ := par_add_str (st.argv.getD 1 []) p
        simp only []
        rw [hi]
        exact par_sys _ (par_mov_rdi_str _ q)
      · exact p
    · split
      · exact par_sys _ (par_mov_rdi_imm64 _ p)
      · exact p

theorem par_add_argv {B C : Nat} {g gc : Gen} {u : List Region} :
    ∀ (args : List (List Nat)) (h hc : Gen), Par B C g gc h hc u →
      Par B C g gc (add_argv args h).1 (add_argv args hc).1 u ∧
        (add_argv args hc).2 = (add_argv args h).2
  | [], _, _, p => ⟨p, rfl⟩
  | a :: rest, h, hc, p => by
    obtain ⟨q, hi⟩ := par_add_str a p
    obtain ⟨q2, hi2⟩ := par_add_argv rest _ _ q
    exact ⟨q2, by simp only [add_argv]; rw [hi, hi2]⟩

theorem par_exec_failed {B C : Nat} {g gc h hc : Gen} {u : List Region}
    (p : Par B C g gc h hc u) : Par B C g gc (exec_failed h) (exec_failed hc) u :=
  par_sys _ (par_mov_rdi_imm64 _ (par_write_literal _ p))

theorem par_exec_paths {B C : Nat} {g gc h hc : Gen} {u : List Region} (s1 s2 : Nat)
    (p : Par B C g gc h hc u) : Par B C g gc (exec_paths h s1 s2) (exec_paths hc s1 s2) u := by
  have q := par_c8 0xC0 (par_c8 0x85 (par_c8 0x48 (par_sys 59 (par_mov_rdi_str s1 p))))
  have q2 := par_jne_patch q (par_after (par_c32 0 (par_c8 0x85 (par_c8 0x0F q))))
  exact par_exec_failed (par_sys _ (par_mov_rdi_str _ (par_cast q2 (List.append_nil u))))

theorem par_exec_dispatch {B C : Nat} {g gc h hc : Gen} {u : List Region} (cmd0 : List Nat)
    (s0 : Nat) (p : Par B C g gc h hc u) :
    Par B C g gc (exec_dispatch h cmd0 s0) (exec_dispatch hc cmd0 s0) u := by
  unfold exec_dispatch
  split
  · exact par_exec_failed (par_sys _ (par_mov_rdi_str _ p))
  · obtain ⟨q1, i1⟩ := par_add_str (snprintf256 (bytes "/bin/") cmd0) p
    obtain ⟨q2, i2⟩ := par_add_str (snprintf256 (bytes "/usr/bin/") cmd0) q1
    simp only []
    rw [i1, i2]
    exact par_exec_paths _ _ q2

/-- `emit_exec` loads the addresses of the argv area and of the envp slot. -/
theorem par_emit_exec {B C : Nat} {g gc h hc : Gen} {u : List Region} (st : Stage) (a e : Nat)
    (p : Par B C g gc h hc u) :
    Par B C g gc (emit_exec h st a e) (emit_exec hc st a e) (u ++ exec_uses st a e) := by
  obtain ⟨q1, i1⟩ := par_add_argv st.argv h hc p
  have q2 := par_build_argv ⟨.argv, a, 8 * (st.argv.length + 1)⟩ (add_argv st.argv h).2 q1
  have q3 := par_addr_rdx ⟨.envp, e, 8⟩ q2
  obtain ⟨q4, i4⟩ := par_add_str st.cmd q3
  unfold emit_exec
  simp only []
  rw [i1, i4]
  refine par_cast (par_exec_dispatch st.cmd _ q4) ?_
  simp [exec_uses]

theorem par_emit_simple_cmd {B C : Nat} {g gc h hc : Gen} {u : List Region} (st : Stage)
    (a e : Nat) (p : Par B C g gc h hc u) :
    Par B C g gc (emit_simple_cmd h st a e) (emit_simple_cmd hc st a e)
      (u ++ (if is_builtin st.cmd then [] else exec_uses st a e)) := by
  unfold emit_simple_cmd
  by_cases hb : is_builtin st.cmd = true
  · rw [if_pos hb, if_pos hb, if_pos hb, List.append_nil]
    exact par_emit_builtin st p
  · rw [if_neg hb, if_neg hb, if_neg hb]
    simp only []
    have q := par_c8 0x00 (par_c8 0xF8 (par_c8 0x83 (par_c8 0x48 (par_sys 57 p))))
    have q2 := par_jne_patch q (par_cast (par_emit_exec st a e (par_emit_redirs st.in_redir
      st.out_redir st.out_append (par_after (par_c32 0 (par_c8 0x85 (par_c8 0x0F q))))))
      (List.nil_append _))
    exact par_sys _ (par_xor_r10_r10 (par_xor_rdx_rdx (par_xor_rsi_rsi (par_c8 _ (par_c8 _
      (par_c8 _ q2))))))

theorem stage_child_eq (g : Gen) (o : PipeOffs) (n i : Nat) (st : Stage) :
    stage_child g o n i st =
      emit_redirs
        (if (decide (i + 1 < n)) = true then
          emit_child_next (if i > 0 then emit_child_prev (jne_rel32 (stage_fork g o n i)).1 o
            else (jne_rel32 (stage_fork g o n i)).1) o
        else (if i > 0 then emit_child_prev (jne_rel32 (stage_fork g o n i)).1 o
            else (jne_rel32 (stage_fork g o n i)).1))
        st.in_redir st.out_redir st.out_append := rfl

theorem emit_stage_eq (g : Gen) (o : PipeOffs) (n i : Nat) (st : Stage) :
    emit_stage g o n i st =
      (if (decide (i + 1 < n)) = true then
        emit_parent_next (c8 (c8 (c8 (mov_rdi_imm64
          (patch_here (if is_builtin st.cmd = true then
              sys_exit (mov_rdi_imm64 (emit_builtin (stage_child g o n i st) st) 0)
            else emit_exec { stage_child g o n i st with
                bss_off := (stage_child g o n i st).bss_off + 8 * (st.argv.length + 1) } st
              (stage_child g o n i st).bss_off o.envp_off) (jne_rel32 (stage_fork g o n i)).2)
          ((patch_here (if is_builtin st.cmd = true then
              sys_exit (mov_rdi_imm64 (emit_builtin (stage_child g o n i st) st) 0)
            else emit_exec { stage_child g o n i st with
                bss_off := (stage_child g o n i st).bss_off + 8 * (st.argv.length + 1) } st
              (stage_child g o n i st).bss_off o.envp_off)
            (jne_rel32 (stage_fork g o n i)).2).bss_base + o.pid_arr_off + i * 8))
          0x48) 0x89) 0x07) o
      else
        c8 (c8 (c8 (mov_rdi_imm64
          (patch_here (if is_builtin st.cmd = true then
              sys_exit (mov_rdi_imm64 (emit_builtin (stage_child g o n i st) st) 0)
            else emit_exec { stage_child g o n i st with
                bss_off := (stage_child g o n i st).bss_off + 8 * (st.argv.length + 1) } st
              (stage_child g o n i st).bss_off o.envp_off) (jne_rel32 (stage_fork g o n i)).2)
          ((patch_here (if is_builtin st.cmd = true then
              sys_exit (mov_rdi_imm64 (emit_builtin (stage_child g o n i st) st) 0)
            else emit_exec { stage_child g o n i st with
                bss_off := (stage_child g o n i st).bss_off + 8 * (st.argv.length + 1) } st
              (stage_child g o n i st).bss_off o.envp_off)
            (jne_rel32 (stage_fork g o n i)).2).bss_base + o.pid_arr_off + i * 8))
          0x48) 0x89) 0x07) := rfl


theorem par_emit_child_prev {B C : Nat} {g gc h hc : Gen} {u : List Region} (o : PipeOffs)
    (p : Par B C g gc h hc u) :
    Par B C g gc (emit_child_prev h o) (emit_child_prev hc o)
      (u ++ [⟨.prev_read, o.prev_read_off, 8⟩, ⟨.prev_read, o.prev_read_off, 8⟩]) := by
  have q := par_sys 3 (par_mov_rdi_rax (par_c8 0x07 (par_c8 0x8B (par_c8 0x48
    (par_addr_rdi ⟨.prev_read, o.prev_read_off, 8⟩
      (par_sys 33 (par_mov_rsi_imm64 0 (par_mov_rdi_rax (par_c8 0x07 (par_c8 0x8B (par_c8 0x48
        (par_addr_rdi ⟨.prev_read, o.prev_read_off, 8⟩ p))))))))))))
  exact par_cast q (by simp)

theorem par_emit_child_next {B C : Nat} {g gc h hc : Gen} {u : List Region} (o : PipeOffs)
    (p : Par B C g gc h hc u) :
    Par B C g gc (emit_child_next h o) (emit_child_next hc o)
      (u ++ [⟨.pipe, o.pipe_area_off + 4, 4⟩, ⟨.pipe, o.pipe_area_off + 0, 4⟩,
        ⟨.pipe, o.pipe_area_off + 4, 4⟩]) := by
  have q := par_sys 3 (par_mov_rdi_rax (par_mov_eax_mrdi
    (par_addr_rdi ⟨.pipe, o.pipe_area_off + 4, 4⟩
      (par_sys 3 (par_mov_rdi_rax (par_mov_eax_mrdi
        (par_addr_rdi ⟨.pipe, o.pipe_area_off + 0, 4⟩
          (par_sys 33 (par_mov_rsi_imm64 1 (par_mov_rdi_rax (par_mov_eax_mrdi
            (par_addr_rdi ⟨.pipe, o.pipe_area_off + 4, 4⟩ p))))))))))))
  unfold emit_child_next
  simp only [Nat.add_assoc]
  exact par_cast q (by simp)

theorem par_emit_parent_next {B C : Nat} {g gc h hc : Gen} {u : List Region} (o : PipeOffs)
    (p : Par B C g gc h hc u) :
    Par B C g gc (emit_parent_next h o) (emit_parent_next hc o)
      (u ++ [⟨.pipe, o.pipe_area_off + 0, 4⟩, ⟨.prev_read, o.prev_read_off, 8⟩,
        ⟨.pipe, o.pipe_area_off + 4, 4⟩]) := by
  have q := par_sys 3 (par_mov_rdi_rax (par_mov_eax_mrdi
    (par_addr_rdi ⟨.pipe, o.pipe_area_off + 4, 4⟩
      (par_c8 0x07 (par_c8 0x89 (par_c8 0x48
        (par_addr_rdi ⟨.prev_read, o.prev_read_off, 8⟩
          (par_mov_eax_mrdi (par_addr_rdi ⟨.pipe, o.pipe_area_off + 0, 4⟩ p)))))))))
  unfold emit_parent_next
  simp only [Nat.add_assoc]
  exact par_cast q (by simp)

theorem par_emit_wait {B C : Nat} {g gc h hc : Gen} {u : List Region} (o : PipeOffs) (i : Nat)
    (p : Par B C g gc h hc u) :
    Par B C g gc (emit_wait h o i) (emit_wait hc o i) (u ++ [⟨.pid, o.pid_arr_off + i * 8, 8⟩]) := by
  have q := par_sys 61 (par_xor_r10_r10 (par_xor_rdx_rdx (par_xor_rsi_rsi (par_mov_rdi_rax
    (par_c8 0x07 (par_c8 0x8B (par_c8 0x48
      (par_addr_rdi ⟨.pid, o.pid_arr_off + i * 8, 8⟩ p))))))))
  unfold emit_wait
  simp only [Nat.add_assoc]
  exact q

theorem par_wait_loop {B C : Nat} {g gc : Gen} (o : PipeOffs) (l : List Nat) :
    ∀ (u : List Region) (h hc : Gen), Par B C g gc h hc u →
      Par B C g gc (l.foldl (fun acc i => emit_wait acc o i) h)
        (l.foldl (fun acc i => emit_wait acc o i) hc)
        (u ++ l.map (fun i => ⟨.pid, o.pid_arr_off + i * 8, 8⟩)) := by
  induction l with
  | nil => intro u h hc p; exact par_cast p (by simp)
  | cons i rest ih =>
    intro u h hc p
    rw [List.foldl_cons, List.foldl_cons]
    exact par_cast (ih _ _ _ (par_emit_wait o i p)) (by simp)

theorem par_stage_fork {B C : Nat} {g gc h hc : Gen} {u : List Region} (o : PipeOffs) (n i : Nat)
    (p : Par B C g gc h hc u) :
    Par B C g gc (stage_fork h o n i) (stage_fork hc o n i)
      (u ++ (if i + 1 < n then [⟨.pipe, o.pipe_area_off, 8⟩] else [])) := by
  unfold stage_fork
  simp only []
  by_cases hn : i + 1 < n
  · simp only [hn, decide_True, if_true]
    exact par_c8 _ (par_c8 _ (par_c8 _ (par_c8 _ (par_sys 57 (par_sys 22
      (par_addr_rdi ⟨.pipe, o.pipe_area_off, 8⟩ p))))))
  · simp only [hn, decide_False, if_false, List.append_nil, Bool.false_eq_true]
    exact par_c8 _ (par_c8 _ (par_c8 _ (par_c8 _ (par_sys 57 p))))

theorem par_stage_child {B C : Nat} (o : PipeOffs) (n i : Nat) (st : Stage)
    (h hc : Gen) (p : Par B C (jne_rel32 (stage_fork h o n i)).1 (jne_rel32 (stage_fork hc o n i)).1
      (jne_rel32 (stage_fork h o n i)).1 (jne_rel32 (stage_fork hc o n i)).1 []) :
    Par B C (jne_rel32 (stage_fork h o n i)).1 (jne_rel32 (stage_fork hc o n i)).1
      (stage_child h o n i st) (stage_child hc o n i st)
      ((if i > 0 then [⟨.prev_read, o.prev_read_off, 8⟩, ⟨.prev_read, o.prev_read_off, 8⟩]
        else []) ++
      (if i + 1 < n then
        [⟨.pipe, o.pipe_area_off + 4, 4⟩, ⟨.pipe, o.pipe_area_off + 0, 4⟩,
          ⟨.pipe, o.pipe_area_off + 4, 4⟩]
        else [])) := by
  rw [stage_child_eq, stage_child_eq]
  have q5 : Par B C (jne_rel32 (stage_fork h o n i)).1 (jne_rel32 (stage_fork hc o n i)).1
      (if i > 0 then emit_child_prev (jne_rel32 (stage_fork h o n i)).1 o
        else (jne_rel32 (stage_fork h o n i)).1)
      (if i > 0 then emit_child_prev (jne_rel32 (stage_fork hc o n i)).1 o
        else (jne_rel32 (stage_fork hc o n i)).1)
      (if i > 0 then [⟨.prev_read, o.prev_read_off, 8⟩, ⟨.prev_read, o.prev_read_off, 8⟩]
        else []) := by
    by_cases hi : i > 0
    · simp only [hi, if_true]
      exact par_cast (par_emit_child_prev o p) (List.nil_append _)
    · simp only [hi, if_false]
      exact p
  by_cases hn : i + 1 < n
  · simp only [hn, decide_True, if_true]
    exact par_emit_redirs _ _ _ (par_emit_child_next o q5)
  · simp only [hn, decide_False, if_false, List.append_nil, Bool.false_eq_true]
    exact par_emit_redirs _ _ _ q5

theorem par_jne {B C : Nat} {g gc h hc : Gen} {u : List Region} (p : Par B C g gc h hc u) :
    Par B C g gc (jne_rel32 h).1 (jne_rel32 hc).1 u :=
  par_c32 0 (par_c8 0x85 (par_c8 0x0F p))

theorem par_bss {B C : Nat} {g gc h hc : Gen} {u : List Region} (k : Nat)
    (p : Par B C g gc h hc u) :
    Par B C g gc { h with bss_off := k } { hc with bss_off := k } u :=
  ⟨p.code, p.len, p.strs, p.rels, rfl, p.base, p.base2⟩

/-- Both runs of one stage differ exactly in the addresses of `stage_uses`. -/
theorem par_emit_stage {B C : Nat} {g gc h hc : Gen} {u : List Region} (o : PipeOffs)
    (n i : Nat) (st : Stage) (p : Par B C g gc h hc u) :
    Par B C g gc (emit_stage h o n i st) (emit_stage hc o n i st) (u ++ stage_uses h o n i st) := by
  rw [emit_stage_eq, emit_stage_eq]
  have qf := par_stage_fork o n i p
  have q7 := par_stage_child o n i st h hc (par_after (par_jne qf))
  have b7c : (stage_child hc o n i st).bss_off = (stage_child h o n i st).bss_off := q7.off
  rw [b7c]
  have q8 : Par B C (jne_rel32 (stage_fork h o n i)).1 (jne_rel32 (stage_fork hc o n i)).1
      (if is_builtin st.cmd = true then
        sys_exit (mov_rdi_imm64 (emit_builtin (stage_child h o n i st) st) 0)
      else emit_exec { stage_child h o n i st with
          bss_off := (stage_child h o n i st).bss_off + 8 * (st.argv.length + 1) } st
        (stage_child h o n i st).bss_off o.envp_off)
      (if is_builtin st.cmd = true then
        sys_exit (mov_rdi_imm64 (emit_builtin (stage_child hc o n i st) st) 0)
      else emit_exec { stage_child hc o n i st with
          bss_off := (stage_child h o n i st).bss_off + 8 * (st.argv.length + 1) } st
        (stage_child h o n i st).bss_off o.envp_off)
      (((if i > 0 then [⟨.prev_read, o.prev_read_off, 8⟩, ⟨.prev_read, o.prev_read_off, 8⟩]
        else []) ++
      (if i + 1 < n then
        [⟨.pipe, o.pipe_area_off + 4, 4⟩, ⟨.pipe, o.pipe_area_off + 0, 4⟩,
          ⟨.pipe, o.pipe_area_off + 4, 4⟩]
        else [])) ++
      (if is_builtin st.cmd = true then []
        else exec_uses st (stage_child h o n i st).bss_off o.envp_off)) := by
    by_cases hb : is_builtin st.cmd = true
    · simp only [hb, if_true, List.append_nil]
      exact par_sys 60 (par_mov_rdi_imm64 0 (par_emit_builtin st q7))
    · simp only [hb, if_false, Bool.false_eq_true]
      exact par_emit_exec st _ _ (par_bss _ q7)
  have q9 := par_jne_patch qf q8
  generalize patch_here (if is_builtin st.cmd = true then
        sys_exit (mov_rdi_imm64 (emit_builtin (stage_child h o n i st) st) 0)
      else emit_exec { stage_child h o n i st with
          bss_off := (stage_child h o n i st).bss_off + 8 * (st.argv.length + 1) } st
        (stage_child h o n i st).bss_off o.envp_off) (jne_rel32 (stage_fork h o n i)).2 = g9
    at q9 ⊢
  generalize patch_here (if is_builtin st.cmd = true then
        sys_exit (mov_rdi_imm64 (emit_builtin (stage_child hc o n i st) st) 0)
      else emit_exec { stage_child hc o n i st with
          bss_off := (stage_child h o n i st).bss_off + 8 * (st.argv.length + 1) } st
        (stage_child h o n i st).bss_off o.envp_off) (jne_rel32 (stage_fork hc o n i)).2 = g9c
    at q9 ⊢
  have q11 := par_c8 0x07 (par_c8 0x89 (par_c8 0x48
    (par_addr_rdi ⟨.pid, o.pid_arr_off + i * 8, 8⟩ q9)))
  simp only [Nat.add_assoc]
  simp only [Nat.add_assoc] at q11
  unfold stage_uses
  by_cases hn : i + 1 < n
  · simp only [hn, decide_True, if_true]
    refine par_cast (par_emit_parent_next o q11) ?_
    simp only [hn, if_true, List.append_assoc, Nat.add_assoc]
  · simp only [hn, decide_False, if_false, Bool.false_eq_true]
    refine par_cast q11 ?_
    simp only [hn, if_false, List.append_assoc, List.append_nil, List.nil_append, Nat.add_assoc]

theorem par_emit_stages {B C : Nat} {g gc : Gen} (o : PipeOffs) (n : Nat) :
    ∀ (sts : List Stage) (i : Nat) (u : List Region) (h hc : Gen), Par B C g gc h hc u →
      Par B C g gc (emit_stages o n i sts h) (emit_stages o n i sts hc)
        (u ++ stages_uses o n i sts h)
  | [], _, u, _, _, p => par_cast p (by simp [stages_uses])
  | st :: rest, i, u, h, hc, p => by
    rw [emit_stages, emit_stages, stages_uses]
    exact par_cast (par_emit_stages o n rest (i + 1) _ _ _ (par_emit_stage o n i st p))
      (List.append_assoc _ _ _)

theorem pipeline_stages_end_eq (g : Gen) (pl : Pipeline) :
    pipeline_stages_end g pl =
      emit_stages (pipeline_offs g pl) pl.length 0 pl (pipeline_start g pl) := rfl

theorem par_pipeline_start {B C : Nat} {g gc h hc : Gen} {u : List Region} (pl : Pipeline)
    (p : Par B C g gc h hc u) :
    Par B C g gc (pipeline_start h pl) (pipeline_start hc pl)
      (u ++ [⟨.prev_read, (pipeline_offs h pl).prev_read_off, 8⟩]) := by
  unfold pipeline_start pipeline_offs
  simp only []
  rw [p.off]
  exact par_c8 0x17 (par_c8 0x89 (par_c8 0x48 (par_mov_rdx_imm64 (2 ^ 64 - 1)
    (par_addr_rdi ⟨.prev_read, h.bss_off + 8, 8⟩
      (par_bss (h.bss_off + 8 + 8 + 8 * pl.length + 8 * 2) p)))))

theorem rebased_guard (B C : Nat) (r : Region) :
    Rebased B C (guard_code (B + r.off)) (guard_code (C + r.off)) [r] := by
  have := Rebased.addr r 0xBF (Or.inl rfl) (rebased_same_list B C
    ([0x48, 0x8B, 0x07] ++ [0x48, 0x83, 0xF8, 0x00] ++ ([0x0F, 0x84] ++ le_bytes 4 12) ++
      [0x48, 0x89, 0xC7] ++ ([0x48, 0xC7, 0xC0] ++ le_bytes 4 3) ++ [0x0F, 0x05]))
  simp only [guard_code, List.cons_append, List.nil_append, List.append_assoc] at this ⊢
  exact this

/-- Both runs of `emit_pipeline` differ exactly in the addresses of
`pipeline_uses`. -/
theorem par_emit_pipeline {B C : Nat} {g gc h hc : Gen} {u : List Region} (pl : Pipeline)
    (p : Par B C g gc h hc u) :
    Par B C g gc (emit_pipeline h pl) (emit_pipeline hc pl) (u ++ pipeline_uses h pl) := by
  rw [emit_pipeline_split, emit_pipeline_split, pipeline_stages_end_eq, pipeline_stages_end_eq]
  have ho : pipeline_offs hc pl = pipeline_offs h pl := by
    unfold pipeline_offs; rw [p.off]
  rw [ho, p.off]
  have q3 := par_emit_stages (pipeline_offs h pl) pl.length pl 0 _ _ _ (par_pipeline_start pl p)
  have q4 : Par B C g gc
      { emit_stages (pipeline_offs h pl) pl.length 0 pl (pipeline_start h pl) with
        code := (emit_stages (pipeline_offs h pl) pl.length 0 pl (pipeline_start h pl)).code ++
          guard_code ((emit_stages (pipeline_offs h pl) pl.length 0 pl
            (pipeline_start h pl)).bss_base + (h.bss_off + 8)) }
      { emit_stages (pipeline_offs h pl) pl.length 0 pl (pipeline_start hc pl) with
        code := (emit_stages (pipeline_offs h pl) pl.length 0 pl (pipeline_start hc pl)).code ++
          guard_code ((emit_stages (pipeline_offs h pl) pl.length 0 pl
            (pipeline_start hc pl)).bss_base + (h.bss_off + 8)) }
      (u ++ [⟨.prev_read, (pipeline_offs h pl).prev_read_off, 8⟩] ++
        stages_uses (pipeline_offs h pl) pl.length 0 pl (pipeline_start h pl) ++
        [⟨.prev_read, h.bss_off + 8, 8⟩]) := by
    refine par_step q3 (rebased_guard B C ⟨.prev_read, h.bss_off + 8, 8⟩) ?_ ?_ q3.strs q3.rels
      q3.off rfl rfl
    · rw [q3.base]
    · rw [q3.base2]
  have q5 := par_wait_loop (pipeline_offs h pl) (List.range pl.length) _ _ _ q4
  refine par_cast q5 ?_
  simp only [pipeline_uses, pipeline_offs, List.append_assoc]

theorem par_gen_pipeline {B C : Nat} {g gc h hc : Gen} {u : List Region} (pl : Pipeline)
    (p : Par B C g gc h hc u) :
    Par B C g gc (gen_pipeline h pl) (gen_pipeline hc pl) (u ++ gen_pipeline_uses h pl) := by
  unfold gen_pipeline gen_pipeline_uses
  by_cases h1 : pl.length = 1
  · simp only [h1, if_true]
    by_cases hb : is_builtin (pl.headD Stage.zero).cmd = true
    · simp only [hb, if_true, List.append_nil]
      exact par_emit_builtin _ p
    · simp only [hb, if_false, Bool.false_eq_true]
      rw [p.off]
      have := par_emit_simple_cmd (pl.headD Stage.zero) (h.bss_off + 8) h.bss_off
        (par_bss (h.bss_off + 8 + 8 * ((pl.headD Stage.zero).argv.length + 1)) p)
      simp only [hb, if_false, Bool.false_eq_true] at this
      exact this
  · simp only [h1, if_false]
    exact par_emit_pipeline pl p

theorem par_script {B C : Nat} {g gc : Gen} : ∀ (sc : Script) (u : List Region) (h hc : Gen),
    Par B C g gc h hc u →
      Par B C g gc (sc.foldl gen_pipeline h) (sc.foldl gen_pipeline hc) (u ++ script_uses sc h)
  | [], u, _, _, p => par_cast p (by simp [script_uses])
  | pl :: rest, u, h, hc, p => by
    rw [List.foldl_cons, List.foldl_cons, script_uses]
    exact par_cast (par_script rest _ _ _ (par_gen_pipeline pl p)) (List.append_assoc _ _ _)

/-- The program generated for the BSS base `C` is the program generated for the
base of `g` with the address of every region of `gen_script_uses` moved by the
difference of the bases, and nothing else changed: the listed regions are all
the BSS addresses the code holds. -/
theorem gen_script_rebased (g : Gen) (C : Nat) (sc : Script) :
    Rebased g.bss_base C (gen_script g sc).code
        (gen_script { g with bss_base := C } sc).code (gen_script_uses g sc) ∧
      (gen_script { g with bss_base := C } sc).bss_off = (gen_script g sc).bss_off := by
  have p0 : Par g.bss_base C
      { g with code := [], strs := ⟨[], []⟩, rels := [], bss_off := 0 }
      { g with code := [], strs := ⟨[], []⟩, rels := [], bss_off := 0, bss_base := C }
      { g with code := [], strs := ⟨[], []⟩, rels := [], bss_off := 0 }
      { g with code := [], strs := ⟨[], []⟩, rels := [], bss_off := 0, bss_base := C } [] :=
    par_start _ _ _ _ rfl rfl rfl rfl rfl rfl
  have q := par_sys 60 (par_mov_rdi_imm64 0 (par_script sc _ _ _ p0))
  obtain ⟨t, tc, e1, e2, r⟩ := q.code
  simp only [List.nil_append] at e1 e2 r
  refine ⟨?_, q.off⟩
  have a1 : (gen_script g sc).code = t := e1
  have a2 : (gen_script { g with bss_base := C } sc).code = tc := e2
  rw [a1, a2]
  exact r

/-! ## Running fragments of code -/

theorem run_end (inp : Nat → Nat) (fuel : Nat) (r : Regs) (tr : List Event) :
    run inp (fuel + 1) [] r tr = some (r, tr) := by
  rw [run]; simp

theorem run_mov_rdi (inp : Nat → Nat) (fuel v : Nat) (t : List Nat) (r : Regs)
    (tr : List Event) :
    run inp (fuel + 1) (0x48 :: 0xBF :: (le_bytes 8 v ++ t)) r tr =
      run inp fuel t { r with rdi := v % 2 ^ 64 } tr := by
  rw [run]
  have h1 : (0x48 :: 0xBF :: (le_bytes 8 v ++ t)).drop 10 = t := drop_le_bytes 8 v t
  have h2 : ((0x48 :: 0xBF :: (le_bytes 8 v ++ t)).drop 2).take 8 = le_bytes 8 v :=
    take_le_bytes 8 v t
  rw [h1, h2, le_val_le_bytes]
  simp

theorem run_mov_rsi (inp : Nat → Nat) (fuel v : Nat) (t : List Nat) (r : Regs)
    (tr : List Event) :
    run inp (fuel + 1) (0x48 :: 0xBE :: (le_bytes 8 v ++ t)) r tr =
      run inp fuel t { r with rsi := v % 2 ^ 64 } tr := by
  rw [run]
  have h1 : (0x48 :: 0xBE :: (le_bytes 8 v ++ t)).drop 10 = t := drop_le_bytes 8 v t
  have h2 : ((0x48 :: 0xBE :: (le_bytes 8 v ++ t)).drop 2).take 8 = le_bytes 8 v :=
    take_le_bytes 8 v t
  rw [h1, h2, le_val_le_bytes]
  simp

theorem run_mov_rdx (inp : Nat → Nat) (fuel v : Nat) (t : List Nat) (r : Regs)
    (tr : List Event) :
    run inp (fuel + 1) (0x48 :: 0xBA :: (le_bytes 8 v ++ t)) r tr =
      run inp fuel t { r with rdx := v % 2 ^ 64 } tr := by
  rw [run]
  have h1 : (0x48 :: 0xBA :: (le_bytes 8 v ++ t)).drop 10 = t := drop_le_bytes 8 v t
  have h2 : ((0x48 :: 0xBA :: (le_bytes 8 v ++ t)).drop 2).take 8 = le_bytes 8 v :=
    take_le_bytes 8 v t
  rw [h1, h2, le_val_le_bytes]
  simp

theorem run_mov_rax64 (inp : Nat → Nat) (fuel v : Nat) (t : List Nat) (r : Regs)
    (tr : List Event) :
    run inp (fuel + 1) (0x48 :: 0xB8 :: (le_bytes 8 v ++ t)) r tr =
      run inp fuel t { r with rax := v % 2 ^ 64 } tr := by
  rw [run]
  have h1 : (0x48 :: 0xB8 :: (le_bytes 8 v ++ t)).drop 10 = t := drop_le_bytes 8 v t
  have h2 : ((0x48 :: 0xB8 :: (le_bytes 8 v ++ t)).drop 2).take 8 = le_bytes 8 v :=
    take_le_bytes 8 v t
  rw [h1, h2, le_val_le_bytes]
  simp

theorem run_mov_r10 (inp : Nat → Nat) (fuel v : Nat) (t : List Nat) (r : Regs)
    (tr : List Event) :
    run inp (fuel + 1) (0x49 :: 0xBA :: (le_bytes 8 v ++ t)) r tr =
      run inp fuel t { r with r10 := v % 2 ^ 64 } tr := by
  rw [run]
  have h1 : (0x49 :: 0xBA :: (le_bytes 8 v ++ t)).drop 10 = t := drop_le_bytes 8 v t
  have h2 : ((0x49 :: 0xBA :: (le_bytes 8 v ++ t)).drop 2).take 8 = le_bytes 8 v :=
    take_le_bytes 8 v t
  rw [h1, h2, le_val_le_bytes]
  simp

theorem run_mov_rax (inp : Nat → Nat) (fuel v : Nat) (t : List Nat) (r : Regs)
    (tr : List Event) :
    run inp (fuel + 1) (0x48 :: 0xC7 :: 0xC0 :: (le_bytes 4 v ++ t)) r tr =
      run inp fuel t { r with rax := sext32 (v % 2 ^ 32) } tr := by
  rw [run]
  have h1 : (0x48 :: 0xC7 :: 0xC0 :: (le_bytes 4 v ++ t)).drop 7 = t := drop_le_bytes 4 v t
  have h2 : ((0x48 :: 0xC7 :: 0xC0 :: (le_bytes 4 v ++ t)).drop 3).take 4 = le_bytes 4 v :=
    take_le_bytes 4 v t
  rw [h1, h2, le_val_le_bytes]
  simp

theorem run_xor_rsi (inp : Nat → Nat) (fuel : Nat) (t : List Nat) (r : Regs)
    (tr : List Event) :
    run inp (fuel + 1) (0x48 :: 0x31 :: 0xF6 :: t) r tr =
      run inp fuel t { r with rsi := 0, zf := true } tr := by
  rw [run]; simp

theorem run_xor_rdx (inp : Nat → Nat) (fuel : Nat) (t : List Nat) (r : Regs)
    (tr : List Event) :
    run inp (fuel + 1) (0x48 :: 0x31 :: 0xD2 :: t) r tr =
      run inp fuel t { r with rdx := 0, zf := true } tr := by
  rw [run]; simp

theorem run_xor_r10 (inp : Nat → Nat) (fuel : Nat) (t : List Nat) (r : Regs)
    (tr : List Event) :
    run inp (fuel + 1) (0x4D :: 0x31 :: 0xD2 :: t) r tr =
      run inp fuel t { r with r10 := 0, zf := true } tr := by
  rw [run]; simp

theorem run_mov_rdi_rax (inp : Nat → Nat) (fuel : Nat) (t : List Nat) (r : Regs)
    (tr : List Event) :
    run inp (fuel + 1) (0x48 :: 0x89 :: 0xC7 :: t) r tr =
      run inp fuel t { r with rdi := r.rax } tr := by
  rw [run]; simp

theorem run_mov_rsi_rdi (inp : Nat → Nat) (fuel : Nat) (t : List Nat) (r : Regs)
    (tr : List Event) :
    run inp (fuel + 1) (0x48 :: 0x89 :: 0xFE :: t) r tr =
      run inp fuel t { r with rsi := r.rdi } tr := by
  rw [run]; simp

theorem run_load_rax (inp : Nat → Nat) (fuel : Nat) (t : List Nat) (r : Regs)
    (tr : List Event) :
    run inp (fuel + 1) (0x48 :: 0x8B :: 0x07 :: t) r tr =
      run inp fuel t { r with rax := inp tr.length % 2 ^ 64 } (tr ++ [.load r.rdi 8]) := by
  rw [run]; simp

theorem run_load_eax (inp : Nat → Nat) (fuel : Nat) (t : List Nat) (r : Regs)
    (tr : List Event) :
    run inp (fuel + 1) (0x8B :: 0x07 :: t) r tr =
      run inp fuel t { r with rax := inp tr.length % 2 ^ 32 } (tr ++ [.load r.rdi 4]) := by
  rw [run]; simp

theorem run_store_rdx (inp : Nat → Nat) (fuel : Nat) (t : List Nat) (r : Regs)
    (tr : List Event) :
    run inp (fuel + 1) (0x48 :: 0x89 :: 0x17 :: t) r tr =
      run inp fuel t r (tr ++ [.store r.rdi 8]) := by
  rw [run]; simp

theorem run_store_rax (inp : Nat → Nat) (fuel : Nat) (t : List Nat) (r : Regs)
    (tr : List Event) :
    run inp (fuel + 1) (0x48 :: 0x89 :: 0x07 :: t) r tr =
      run inp fuel t r (tr ++ [.store r.rdi 8]) := by
  rw [run]; simp

theorem run_store_disp (inp : Nat → Nat) (fuel d : Nat) (t : List Nat) (r : Regs)
    (tr : List Event) :
    run inp (fuel + 1) (0x48 :: 0x89 :: 0x87 :: (le_bytes 4 d ++ t)) r tr =
      run inp fuel t r (tr ++ [.store ((r.rdi + sext32 (d % 2 ^ 32)) % 2 ^ 64) 8]) := by
  rw [run]
  have h1 : (0x48 :: 0x89 :: 0x87 :: (le_bytes 4 d ++ t)).drop 7 = t := drop_le_bytes 4 d t
  have h2 : ((0x48 :: 0x89 :: 0x87 :: (le_bytes 4 d ++ t)).drop 3).take 4 = le_bytes 4 d :=
    take_le_bytes 4 d t
  rw [h1, h2, le_val_le_bytes]
  simp

theorem run_cmp_rax (inp : Nat → Nat) (fuel ib : Nat) (t : List Nat) (r : Regs)
    (tr : List Event) :
    run inp (fuel + 1) (0x48 :: 0x83 :: 0xF8 :: ib :: t) r tr =
      run inp fuel t { r with zf := decide (r.rax = sext8 ib) } tr := by
  rw [run]; simp

theorem run_test_rax (inp : Nat → Nat) (fuel : Nat) (t : List Nat) (r : Regs)
    (tr : List Event) :
    run inp (fuel + 1) (0x48 :: 0x85 :: 0xC0 :: t) r tr =
      run inp fuel t { r with zf := decide (r.rax = 0) } tr := by
  rw [run]; simp

theorem run_syscall (inp : Nat → Nat) (fuel : Nat) (t : List Nat) (r : Regs)
    (tr : List Event) :
    run inp (fuel + 1) (0x0F :: 0x05 :: t) r tr =
      run inp fuel t { r with rax := inp tr.length % 2 ^ 64 }
        (tr ++ [.sys ⟨r.rax, r.rdi, r.rsi, r.rdx, r.r10⟩]) := by
  rw [run]; simp

theorem run_je (inp : Nat → Nat) (fuel v : Nat) (t : List Nat) (r : Regs)
    (tr : List Event) (hv : v < 2 ^ 31) :
    run inp (fuel + 1) (0x0F :: 0x84 :: (le_bytes 4 v ++ t)) r tr =
      run inp fuel (if r.zf then t.drop v else t) r tr := by
  rw [run]
  have h1 : (0x0F :: 0x84 :: (le_bytes 4 v ++ t)).drop 6 = t := drop_le_bytes 4 v t
  have h2 : ((0x0F :: 0x84 :: (le_bytes 4 v ++ t)).drop 2).take 4 = le_bytes 4 v :=
    take_le_bytes 4 v t
  have h3 : (0x0F :: 0x84 :: (le_bytes 4 v ++ t)).drop (6 + v) = t.drop v := by
    rw [← List.drop_drop, h1]
  have h4 : v % 256 ^ 4 = v := Nat.mod_eq_of_lt (by norm_num; omega)
  have hv2 : ¬ (2147483648 ≤ v) := by
    have := hv
    norm_num at this
    omega
  rw [h1, h2, le_val_le_bytes, h4, h3]
  simp [hv2]

theorem run_jne (inp : Nat → Nat) (fuel v : Nat) (t : List Nat) (r : Regs)
    (tr : List Event) (hv : v < 2 ^ 31) :
    run inp (fuel + 1) (0x0F :: 0x85 :: (le_bytes 4 v ++ t)) r tr =
      run inp fuel (if r.zf then t else t.drop v) r tr := by
  rw [run]
  have h1 : (0x0F :: 0x85 :: (le_bytes 4 v ++ t)).drop 6 = t := drop_le_bytes 4 v t
  have h2 : ((0x0F :: 0x85 :: (le_bytes 4 v ++ t)).drop 2).take 4 = le_bytes 4 v :=
    take_le_bytes 4 v t
  have h3 : (0x0F :: 0x85 :: (le_bytes 4 v ++ t)).drop (6 + v) = t.drop v := by
    rw [← List.drop_drop, h1]
  have h4 : v % 256 ^ 4 = v := Nat.mod_eq_of_lt (by norm_num; omega)
  have hv2 : ¬ (2147483648 ≤ v) := by
    have := hv
    norm_num at this
    omega
  rw [h1, h2, le_val_le_bytes, h4, h3]
  simp [hv2]

/-! ## Composing fragments -/

theorem frag_nil (inp : Nat → Nat) (E : Event → Prop) (P : Regs → Prop) : Frag inp E P [] P := by
  intro k r tr hP
  exact ⟨0, r, [], Nat.le_refl _, hP, (by intro e he; cases he), fun fuel => by simp⟩

theorem frag_seq {inp : Nat → Nat} {E : Event → Prop} {P Q R : Regs → Prop} {a b : List Nat}
    (h1 : Frag inp E P a Q) (h2 : Frag inp E Q b R) : Frag inp E P (a ++ b) R := by
  intro k r tr hP
  obtain ⟨n1, r1, e1, l1, q1, s1, x1⟩ := h1 (b ++ k) r tr hP
  obtain ⟨n2, r2, e2, l2, q2, s2, x2⟩ := h2 k r1 (tr ++ e1) q1
  refine ⟨n2 + n1, r2, e1 ++ e2, ?_, q2, ?_, ?_⟩
  · rw [List.length_append]; omega
  · intro e he
    rcases List.mem_append.mp he with he | he
    · exact s1 e he
    · exact s2 e he
  · intro fuel
    rw [List.append_assoc, ← Nat.add_assoc, x1, x2, List.append_assoc]

theorem frag_weaken {inp : Nat → Nat} {E E2 : Event → Prop} {P P2 Q Q2 : Regs → Prop}
    {t : List Nat} (h : Frag inp E P t Q) (hE : ∀ e, E e → E2 e) (hP : ∀ r, P2 r → P r)
    (hQ : ∀ r, Q r → Q2 r) : Frag inp E2 P2 t Q2 := by
  intro k r tr hp
  obtain ⟨n, r2, evs, l, q, s, x⟩ := h k r tr (hP r hp)
  exact ⟨n, r2, evs, l, hQ r2 q, fun e he => hE e (s e he), x⟩

/-- A fragment that is one instruction. -/
theorem frag_one {inp : Nat → Nat} {E : Event → Prop} {P Q : Regs → Prop} (bs : List Nat)
    (hb : 1 ≤ bs.length)
    (h : ∀ (k : List Nat) (r : Regs) (tr : List Event), P r →
      ∃ (r2 : Regs) (evs : List Event), Q r2 ∧ (∀ e ∈ evs, E e) ∧
        ∀ fuel, run inp (fuel + 1) (bs ++ k) r tr = run inp fuel k r2 (tr ++ evs)) :
    Frag inp E P bs Q := by
  intro k r tr hP
  obtain ⟨r2, evs, q, s, x⟩ := h k r tr hP
  exact ⟨1, r2, evs, hb, q, s, x⟩

/-- A forward conditional jump over `body`: the run either skips the body or
runs it. -/
theorem frag_jump {inp : Nat → Nat} {E : Event → Prop} {P Q : Regs → Prop} (x body : List Nat)
    (hx : x = [0x0F, 0x84] ∨ x = [0x0F, 0x85]) (hL : body.length < 2 ^ 31)
    (hb : Frag inp E P body Q) (hPQ : ∀ r, P r → Q r) :
    Frag inp E P (x ++ le_bytes 4 body.length ++ body) Q := by
  intro k r tr hP
  have hdrop : (body ++ k).drop body.length = k := List.drop_left body k
  have hlen : (x ++ le_bytes 4 body.length ++ body).length = 6 + body.length := by
    rcases hx with hx | hx <;> subst hx <;> simp only [List.length_append, le_bytes_length] <;>
      simp
  have taken : ∀ fuel, run inp fuel ((body ++ k).drop body.length) r tr =
      run inp fuel k r (tr ++ []) := by
    intro fuel
    rw [hdrop, List.append_nil]
  obtain ⟨n, r2, evs, l, q, s, hrun⟩ := hb k r tr hP
  have e84 := fun fuel => run_je inp fuel body.length (body ++ k) r tr hL
  have e85 := fun fuel => run_jne inp fuel body.length (body ++ k) r tr hL
  by_cases hz : r.zf = true
  · simp only [hz, if_true] at e84 e85
    rcases hx with hx | hx
    · subst hx
      refine ⟨1, r, [], by rw [hlen]; omega, hPQ r hP, (by intro e he; cases he), fun fuel => ?_⟩
      simp only [List.cons_append, List.nil_append, List.append_assoc]
      rw [e84, taken]
    · subst hx
      refine ⟨n + 1, r2, evs, by rw [hlen]; omega, q, s, fun fuel => ?_⟩
      simp only [List.cons_append, List.nil_append, List.append_assoc]
      rw [← Nat.add_assoc, e85, hrun]
  · simp only [hz, if_false, Bool.false_eq_true] at e84 e85
    rcases hx with hx | hx
    · subst hx
      refine ⟨n + 1, r2, evs, by rw [hlen]; omega, q, s, fun fuel => ?_⟩
      simp only [List.cons_append, List.nil_append, List.append_assoc]
      rw [← Nat.add_assoc, e84, hrun]
    · subst hx
      refine ⟨1, r, [], by rw [hlen]; omega, hPQ r hP, (by intro e he; cases he), fun fuel => ?_⟩
      simp only [List.cons_append, List.nil_append, List.append_assoc]
      rw [e85, taken]

/-! ## The relocation loop on growing code -/

@[simp] theorem fill_length (v : Nat → Nat) (rels : List Rel) :
    ∀ code : List Nat, (fill v code rels).length = code.length := by
  induction rels with
  | nil => intro code; rfl
  | cons r rest ih => intro code; simp [fill, ih]

theorem apply_rels_eq_fill (offs : List Nat) (base : Nat) (rels : List Rel) :
    ∀ code : List Nat,
      apply_rels code offs base rels = fill (fun i => base + offs.getD i 0) code rels := by
  induction rels with
  | nil => intro code; rfl
  | cons r rest ih => intro code; rw [apply_rels, fill, ih]

theorem fill_append_rels (v : Nat → Nat) (a b : List Rel) :
    ∀ code : List Nat, fill v code (a ++ b) = fill v (fill v code a) b := by
  induction a with
  | nil => intro code; rfl
  | cons r rest ih =>
    intro code
    rw [List.cons_append, fill, fill]
    exact ih _

theorem write_at_append (c t bs : List Nat) (off : Nat) (h : off + bs.length ≤ c.length) :
    write_at (c ++ t) off bs = write_at c off bs ++ t := by
  rw [write_at_eq c off bs h, write_at_eq (c ++ t) off bs (by rw [List.length_append]; omega),
    List.take_append_of_le_length (by omega), List.drop_append_of_le_length (by omega)]
  simp only [List.append_assoc]

/-- Code appended behind every slot is left alone by the relocation loop. -/
theorem fill_append (v : Nat → Nat) (t : List Nat) (rels : List Rel) :
    ∀ code : List Nat, (∀ r ∈ rels, r.at_ + 8 ≤ code.length) →
      fill v (code ++ t) rels = fill v code rels ++ t := by
  induction rels with
  | nil => intro code _; rfl
  | cons r rest ih =>
    intro code h
    rw [fill, fill, write_at_append _ _ _ _
      (by rw [le_bytes_length]; exact h r (List.mem_cons_self _ _))]
    exact ih _ (by
      intro y hy
      rw [write_at_length]
      exact h y (List.mem_cons_of_mem _ hy))

theorem write_at_getElem (buf bs : List Nat) (off i : Nat) (h : off + bs.length ≤ buf.length) :
    (write_at buf off bs)[i]? =
      if i < off then buf[i]? else if i < off + bs.length then bs[i - off]? else buf[i]? := by
  rw [write_at_eq buf off bs h]
  by_cases h1 : i < off
  · rw [if_pos h1, List.append_assoc,
      List.getElem?_append_left (by simp only [List.length_take]; omega),
      List.getElem?_take_of_lt h1]
  · rw [if_neg h1]
    have hl : (buf.take off).length = off := by simp only [List.length_take]; omega
    rw [List.append_assoc, List.getElem?_append_right (by omega), hl]
    by_cases h2 : i < off + bs.length
    · rw [if_pos h2, List.getElem?_append_left (by omega)]
    · rw [if_neg h2, List.getElem?_append_right (by omega), List.getElem?_drop]
      congr 1
      omega

/-- Two writes to disjoint ranges of a buffer commute. -/
theorem write_at_comm (buf x y : List Nat) (a b : Nat) (ha : a + x.length ≤ buf.length)
    (hb : b + y.length ≤ buf.length) (hd : a + x.length ≤ b ∨ b + y.length ≤ a) :
    write_at (write_at buf a x) b y = write_at (write_at buf b y) a x := by
  apply List.ext_getElem?
  intro i
  rw [write_at_getElem (write_at buf a x) y b i (by rw [write_at_length]; exact hb),
    write_at_getElem (write_at buf b y) x a i (by rw [write_at_length]; exact ha),
    write_at_getElem buf x a i ha, write_at_getElem buf y b i hb]
  by_cases h1 : i < a <;> by_cases h2 : i < a + x.length <;> by_cases h3 : i < b <;>
    by_cases h4 : i < b + y.length <;> simp only [h1, h2, h3, h4, if_true, if_false]
  omega

/-- A patch outside every slot commutes with the relocation loop. -/
theorem fill_write_at (v : Nat → Nat) (bs : List Nat) (p : Nat) (rels : List Rel) :
    ∀ code : List Nat, p + bs.length ≤ code.length →
      (∀ r ∈ rels, r.at_ + 8 ≤ code.length ∧ (r.at_ + 8 ≤ p ∨ p + bs.length ≤ r.at_)) →
      fill v (write_at code p bs) rels = write_at (fill v code rels) p bs := by
  induction rels with
  | nil => intro code _ _; rfl
  | cons r rest ih =>
    intro code hp h
    have hr := h r (List.mem_cons_self _ _)
    rw [fill, fill, write_at_comm code bs (le_bytes 8 (v r.str_idx)) p r.at_ hp
      (by rw [le_bytes_length]; exact hr.1)
      (by rw [le_bytes_length]; rcases hr.2 with h2 | h2
          · exact Or.inr h2
          · exact Or.inl h2)]
    exact ih _ (by rw [write_at_length]; exact hp) (by
      intro y hy
      rw [write_at_length]
      exact h y (List.mem_cons_of_mem _ hy))

theorem patched_code_eq_fill (g : Gen) :
    patched_code g =
      fill (fun i => 0x400000 + (0xB0 + g.code.length) + g.strs.offs.getD i 0) g.code g.rels :=
  apply_rels_eq_fill _ _ _ _

/-! ## Regions and events -/

theorem in_regions_intro {B : Nat} {us : List Region} {a w : Nat} (u : Region) (hu : u ∈ us)
    (h1 : B + u.off ≤ a) (h2 : a + w ≤ B + u.off + u.size) : in_regions B us a w = true := by
  simp only [in_regions, List.any_eq_true, Bool.and_eq_true, decide_eq_true_eq]
  exact ⟨u, hu, h1, h2⟩

theorem in_regions_iff {B : Nat} {us : List Region} {a w : Nat} :
    in_regions B us a w = true ↔ ∃ u ∈ us, B + u.off ≤ a ∧ a + w ≤ B + u.off + u.size := by
  simp only [in_regions, List.any_eq_true, Bool.and_eq_true, decide_eq_true_eq]

theorem region_start_intro {B : Nat} {us : List Region} {k : Purpose} {a w : Nat} (u : Region)
    (hu : u ∈ us) (hk : u.kind = k) (h1 : a = B + u.off) (h2 : w ≤ u.size) :
    region_start B us k a w = true := by
  simp only [region_start, List.any_eq_true, Bool.and_eq_true, decide_eq_true_eq]
  exact ⟨u, hu, ⟨hk, h1⟩, h2⟩

theorem in_regions_mono {B : Nat} {us ws : List Region} {a w : Nat}
    (hs : ∀ u ∈ us, u ∈ ws) (h : in_regions B us a w = true) : in_regions B ws a w = true := by
  simp only [in_regions, List.any_eq_true, Bool.and_eq_true, decide_eq_true_eq] at h ⊢
  obtain ⟨u, hu, h1⟩ := h
  exact ⟨u, hs u hu, h1⟩

theorem region_start_mono {B : Nat} {us ws : List Region} {k : Purpose} {a w : Nat}
    (hs : ∀ u ∈ us, u ∈ ws) (h : region_start B us k a w = true) :
    region_start B ws k a w = true := by
  simp only [region_start, List.any_eq_true, Bool.and_eq_true, decide_eq_true_eq] at h ⊢
  obtain ⟨u, hu, h1⟩ := h
  exact ⟨u, hs u hu, h1⟩

/-- An event inside the regions `us` is inside every longer list of regions. -/
theorem event_safe_mono {B : Nat} {us ws : List Region} (hs : ∀ u ∈ us, u ∈ ws) (e : Event)
    (h : Event.safe B us e = true) : Event.safe B ws e = true := by
  cases e with
  | load a w => exact in_regions_mono hs h
  | store a w => exact in_regions_mono hs h
  | sys s =>
    simp only [Event.safe, Bool.and_eq_true, Bool.or_eq_true] at h ⊢
    refine ⟨?_, ?_⟩
    · rcases h.1 with h1 | h1
      · exact Or.inl h1
      · exact Or.inr (region_start_mono hs h1)
    · rcases h.2 with h1 | h1
      · exact Or.inl h1
      · exact Or.inr ⟨region_start_mono hs h1.1, region_start_mono hs h1.2⟩

/-! ## What is known about the registers -/

theorem known_top_holds (r : Regs) : Known.top.holds r :=
  ⟨(by intro x h; cases h), (by intro x h; cases h), (by intro x h; cases h),
    (by intro x h; cases h)⟩

theorem holds_rax {a : Known} {r : Regs} (h : a.holds r) (x : Option Nat) (y : Nat)
    (hx : ∀ z, x = some z → y = z) : ({ a with rax := x } : Known).holds { r with rax := y } :=
  ⟨hx, h.2.1, h.2.2.1, h.2.2.2⟩

theorem holds_rdi {a : Known} {r : Regs} (h : a.holds r) (x : Option Nat) (y : Nat)
    (hx : ∀ z, x = some z → y = z) : ({ a with rdi := x } : Known).holds { r with rdi := y } :=
  ⟨h.1, hx, h.2.2.1, h.2.2.2⟩

theorem holds_rsi {a : Known} {r : Regs} (h : a.holds r) (x : Option Nat) (y : Nat)
    (hx : ∀ z, x = some z → y = z) : ({ a with rsi := x } : Known).holds { r with rsi := y } :=
  ⟨h.1, h.2.1, hx, h.2.2.2⟩

theorem holds_rdx {a : Known} {r : Regs} (h : a.holds r) (x : Option Nat) (y : Nat)
    (hx : ∀ z, x = some z → y = z) : ({ a with rdx := x } : Known).holds { r with rdx := y } :=
  ⟨h.1, h.2.1, h.2.2.1, hx⟩

theorem known_some {x : Nat} : ∀ z, some x = some z → x = z := fun _ h => Option.some.inj h

theorem known_none {x : Nat} : ∀ z, (none : Option Nat) = some z → x = z := fun _ h => by cases h

/-! ## Steps of the generator -/

theorem emits_start (v : Nat → Nat) (B : Nat) (g : Gen) (a : Known)
    (hg : ∀ r ∈ g.rels, r.at_ + 8 ≤ g.code.length) (hb : g.bss_base = B) :
    Emits v B g g a a [] :=
  ⟨⟨[], by simp, fun _ _ inp => frag_nil inp _ _⟩, hg, hg,
    ⟨[], by simp, by intro r hr; cases hr⟩, hb⟩

theorem emits_cast {v : Nat → Nat} {B : Nat} {g h : Gen} {a0 a : Known} {us vs : List Region}
    (p : Emits v B g h a0 a us) (e : us = vs) : Emits v B g h a0 a vs := e ▸ p

theorem emits_len {v : Nat → Nat} {B : Nat} {g h : Gen} {a0 a : Known} {us : List Region}
    (p : Emits v B g h a0 a us) : g.code.length ≤ h.code.length := by
  obtain ⟨t, e, _⟩ := p.code
  have := congrArg List.length e
  rw [fill_length, List.length_append, fill_length] at this
  omega

/-- Forgetting part of what is known at the end. -/
theorem emits_weaken {v : Nat → Nat} {B : Nat} {g h : Gen} {a0 a : Known} {us : List Region}
    (p : Emits v B g h a0 a us) (a2 : Known) (hw : ∀ r, a.holds r → a2.holds r) :
    Emits v B g h a0 a2 us := by
  obtain ⟨t, e, f⟩ := p.code
  exact ⟨⟨t, e, fun hl hb inp => frag_weaken (f hl hb inp) (fun _ h => h) (fun _ h => h) hw⟩,
    p.okg, p.okh, p.rels, p.base⟩

theorem emits_top {v : Nat → Nat} {B : Nat} {g h : Gen} {a0 a : Known} {us : List Region}
    (p : Emits v B g h a0 a us) : Emits v B g h a0 Known.top us :=
  emits_weaken p Known.top (fun r _ => known_top_holds r)

/-- The generator appends the bytes `bs`, which run as a fragment that touches
only the regions `us ++ vs`. -/
theorem emits_step {v : Nat → Nat} {B : Nat} {g h k : Gen} {a0 a : Known} {us : List Region}
    (p : Emits v B g h a0 a us) (bs : List Nat) (a2 : Known) (vs : List Region)
    (hc : k.code = h.code ++ bs) (hr : k.rels = h.rels) (hb : k.bss_base = h.bss_base)
    (hF : (∀ u ∈ us ++ vs, u.size < 2 ^ 31 ∧ B + u.off + u.size ≤ 2 ^ 64) →
      ∀ inp, Frag inp (fun e => Event.safe B (us ++ vs) e = true) a.holds bs a2.holds) :
    Emits v B g k a0 a2 (us ++ vs) := by
  obtain ⟨t, e, f⟩ := p.code
  refine ⟨⟨t ++ bs, ?_, ?_⟩, p.okg, ?_, ?_, hb.trans p.base⟩
  · rw [hc, hr, fill_append v bs h.rels h.code p.okh, e, List.append_assoc]
  · intro hl hbd inp
    rw [List.length_append] at hl
    have f1 := f (by omega) (fun u hu => hbd u (List.mem_append_left _ hu)) inp
    exact frag_seq (frag_weaken f1
      (event_safe_mono (fun u hu => List.mem_append_left _ hu)) (fun _ h => h) (fun _ h => h))
      (hF hbd inp)
  · intro r hr2
    rw [hr] at hr2
    have := p.okh r hr2
    rw [hc, List.length_append]
    omega
  · rw [hr]
    exact p.rels

/-- A step of the generator that appends bytes and names no new region. -/
theorem emits_instr {v : Nat → Nat} {B : Nat} {g h k : Gen} {a0 a : Known} {us : List Region}
    (p : Emits v B g h a0 a us) (bs : List Nat) (a2 : Known)
    (hc : k.code = h.code ++ bs) (hr : k.rels = h.rels) (hb : k.bss_base = h.bss_base)
    (hF : (∀ u ∈ us, u.size < 2 ^ 31 ∧ B + u.off + u.size ≤ 2 ^ 64) →
      ∀ inp, Frag inp (fun e => Event.safe B us e = true) a.holds bs a2.holds) :
    Emits v B g k a0 a2 us := by
  have := emits_step p bs a2 [] hc hr hb (by
    rw [List.append_nil]
    exact hF)
  exact emits_cast this (List.append_nil us)

/-- A step of the generator that changes neither code nor relocations. -/
theorem emits_same {v : Nat → Nat} {B : Nat} {g h k : Gen} {a0 a : Known} {us : List Region}
    (p : Emits v B g h a0 a us) (hc : k.code = h.code) (hr : k.rels = h.rels)
    (hb : k.bss_base = h.bss_base) : Emits v B g k a0 a us :=
  emits_instr p [] a (by rw [hc, List.append_nil]) hr hb (fun _ inp => frag_nil inp _ _)

theorem emits_bss {v : Nat → Nat} {B : Nat} {g h : Gen} {a0 a : Known} {us : List Region}
    (n : Nat) (p : Emits v B g h a0 a us) : Emits v B g { h with bss_off := n } a0 a us :=
  emits_same p rfl rfl rfl

theorem emits_add_str {v : Nat → Nat} {B : Nat} {g h : Gen} {a0 a : Known} {us : List Region}
    (s : List Nat) (p : Emits v B g h a0 a us) : Emits v B g (add_str h s).1 a0 a us :=
  emits_same p rfl rfl rfl

/-- Emitting a relocated `mov r64, imm64`: the slot holds `v sidx` when the code
runs. -/
theorem emits_slot {v : Nat → Nat} {B : Nat} {g h : Gen} {a0 a : Known} {us : List Region}
    (op sidx : Nat) (a2 : Known) (p : Emits v B g h a0 a us)
    (hF : ∀ inp, Frag inp (fun e => Event.safe B us e = true) a.holds
      ([0x48, op % 256] ++ le_bytes 8 (v sidx)) a2.holds) :
    Emits v B g (rels_add_here (c64 (c8 (c8 h 0x48) op) 0) (cpos (c8 (c8 h 0x48) op)) sidx)
      a0 a2 us := by
  obtain ⟨t, e, f⟩ := p.code
  obtain ⟨nr, en, hn⟩ := p.rels
  have hlen := emits_len p
  have hcode : (rels_add_here (c64 (c8 (c8 h 0x48) op) 0) (cpos (c8 (c8 h 0x48) op)) sidx).code =
      h.code ++ ([0x48, op % 256] ++ le_bytes 8 0) := by
    simp [rels_add_here, c64, c8]
  have hrels : (rels_add_here (c64 (c8 (c8 h 0x48) op) 0) (cpos (c8 (c8 h 0x48) op)) sidx).rels =
      h.rels ++ [⟨h.code.length + 2, sidx⟩] := by
    simp [rels_add_here, c64, c8, cpos]
  refine ⟨⟨t ++ ([0x48, op % 256] ++ le_bytes 8 (v sidx)), ?_, ?_⟩, p.okg, ?_, ?_, p.base⟩
  · rw [hcode, hrels, fill_append_rels, fill_append v _ h.rels h.code p.okh]
    simp only [fill]
    have := write_at_block (fill v h.code h.rels ++ [0x48, op % 256]) (le_bytes 8 0) []
      (le_bytes 8 (v sidx)) (h.code.length + 2) (by simp) (by simp)
    simp only [List.append_nil, List.append_assoc] at this
    rw [this, e]
    simp only [List.append_assoc]
  · intro hl hbd inp
    rw [List.length_append] at hl
    exact frag_seq (f (by omega) hbd inp) (hF inp)
  · intro r hr
    rw [hrels] at hr
    rw [hcode]
    simp only [List.length_append, List.length_cons, List.length_nil, le_bytes_length]
    rcases List.mem_append.mp hr with hr | hr
    · have := p.okh r hr
      omega
    · simp only [List.mem_singleton] at hr
      subst hr
      simp only []
      omega
  · refine ⟨nr ++ [⟨h.code.length + 2, sidx⟩], ?_, ?_⟩
    · rw [hrels, en, List.append_assoc]
    · intro r hr
      rcases List.mem_append.mp hr with hr | hr
      · exact hn r hr
      · simp only [List.mem_singleton] at hr
        subst hr
        simp only []
        omega

/-- Patching a forward jump after the body has been emitted: the body runs or
is skipped, so what is known afterwards must hold in both cases. -/
theorem emits_patch_at {v : Nat → Nat} {B : Nat} {g h j e : Gen} {a0 a ab : Known}
    {u w : List Region} (x : List Nat) (hx : x = [0x0F, 0x84] ∨ x = [0x0F, 0x85])
    (a2 : Known) (p : Emits v B g h a0 a u) (q : Emits v B j e a ab w)
    (hj : j.code = h.code ++ x ++ le_bytes 4 0) (hjr : j.rels = h.rels)
    (h1 : ∀ r, a.holds r → a2.holds r) (h2 : ∀ r, ab.holds r → a2.holds r) :
    Emits v B g (patch_here e (h.code.length + 2)) a0 a2 (u ++ w) := by
  obtain ⟨t, ep, fp⟩ := p.code
  obtain ⟨b, eq, fq⟩ := q.code
  obtain ⟨nr1, en1, hn1⟩ := p.rels
  obtain ⟨nr, en, hn⟩ := q.rels
  have hxl : x.length = 2 := by rcases hx with hx | hx <;> subst hx <;> rfl
  have hjl : j.code.length = h.code.length + 6 := by
    rw [hj]; simp only [List.length_append, le_bytes_length, hxl]
  have hel : e.code.length = h.code.length + 6 + b.length := by
    have := congrArg List.length eq
    rw [fill_length, List.length_append, fill_length, hjl] at this
    exact this
  have hv : cpos e - (h.code.length + 2 + 4) = b.length := by
    simp only [cpos]; omega
  have hfj : fill v j.code j.rels = fill v h.code h.rels ++ x ++ le_bytes 4 0 := by
    rw [hj, hjr, List.append_assoc, fill_append v _ h.rels h.code p.okh, List.append_assoc]
  have hcode : fill v (patch_here e (h.code.length + 2)).code (patch_here e (h.code.length + 2)).rels =
      fill v g.code g.rels ++ (t ++ (x ++ le_bytes 4 b.length ++ b)) := by
    simp only [patch_here, patch32]
    rw [hv, fill_write_at v _ _ e.rels e.code (by rw [le_bytes_length]; omega) (by
      intro r hr
      refine ⟨q.okh r hr, ?_⟩
      rw [le_bytes_length]
      rw [en] at hr
      rcases List.mem_append.mp hr with hr | hr
      · rw [hjr] at hr
        have := p.okh r hr
        exact Or.inl (by omega)
      · have := hn r hr
        exact Or.inr (by omega)), eq, hfj]
    have := write_at_block (fill v h.code h.rels ++ x) (le_bytes 4 0) b
      (le_bytes 4 b.length) (h.code.length + 2) (by simp [hxl]) (by simp)
    rw [this, ep]
    simp only [List.append_assoc]
  refine ⟨⟨_, hcode, ?_⟩, p.okg, ?_, ?_, q.base⟩
  · intro hl hbd inp
    simp only [List.length_append, le_bytes_length, hxl] at hl
    have f1 := fp (by omega) (fun r hr => hbd r (List.mem_append_left _ hr)) inp
    have f2 := fq (by omega) (fun r hr => hbd r (List.mem_append_right _ hr)) inp
    have f3 : Frag inp (fun e => Event.safe B (u ++ w) e = true) a.holds b a2.holds :=
      frag_weaken f2 (event_safe_mono (fun r hr => List.mem_append_right _ hr)) (fun _ h => h) h2
    exact frag_seq (frag_weaken f1 (event_safe_mono (fun r hr => List.mem_append_left _ hr))
      (fun _ h => h) (fun _ h => h)) (frag_jump x b hx (by omega) f3 h1)
  · intro r hr
    have := q.okh r hr
    simp only [patch_here, patch32, write_at_length]
    exact this
  · refine ⟨nr1 ++ nr, ?_, ?_⟩
    · show e.rels = _
      rw [en, hjr, en1, List.append_assoc]
    · have hgl := emits_len p
      intro r hr
      rcases List.mem_append.mp hr with hr | hr
      · exact hn1 r hr
      · have := hn r hr
        omega

theorem emits_jne_patch {v : Nat → Nat} {B : Nat} {g h e : Gen} {a0 a ab : Known}
    {u w : List Region} (a2 : Known) (p : Emits v B g h a0 a u)
    (q : Emits v B (jne_rel32 h).1 e a ab w)
    (h1 : ∀ r, a.holds r → a2.holds r) (h2 : ∀ r, ab.holds r → a2.holds r) :
    Emits v B g (patch_here e (jne_rel32 h).2) a0 a2 (u ++ w) := by
  have e1 : (jne_rel32 h).2 = h.code.length + 2 := by simp [jne_rel32, cpos, c8]
  rw [e1]
  exact emits_patch_at [0x0F, 0x85] (Or.inr rfl) a2 p q (by simp [jne_rel32, c8, c32]) rfl h1 h2

theorem emits_je_patch {v : Nat → Nat} {B : Nat} {g h e : Gen} {a0 a ab : Known}
    {u w : List Region} (a2 : Known) (p : Emits v B g h a0 a u)
    (q : Emits v B (je_rel32 h).1 e a ab w)
    (h1 : ∀ r, a.holds r → a2.holds r) (h2 : ∀ r, ab.holds r → a2.holds r) :
    Emits v B g (patch_here e (je_rel32 h).2) a0 a2 (u ++ w) := by
  have e1 : (je_rel32 h).2 = h.code.length + 2 := by simp [je_rel32, cpos, c8]
  rw [e1]
  exact emits_patch_at [0x0F, 0x84] (Or.inl rfl) a2 p q (by simp [je_rel32, c8, c32]) rfl h1 h2

/-- The state right after a `jne` is emitted, as the start of the body. -/
theorem emits_jne_start {v : Nat → Nat} {B : Nat} {g h : Gen} {a0 a : Known} {u : List Region}
    (p : Emits v B g h a0 a u) : Emits v B (jne_rel32 h).1 (jne_rel32 h).1 a a [] :=
  emits_start v B _ a (by
    intro r hr
    have := p.okh r hr
    simp only [jne_rel32, c8, c32, List.length_append]
    omega) p.base

/-- The state right after a `je` is emitted, as the start of the body. -/
theorem emits_je_start {v : Nat → Nat} {B : Nat} {g h : Gen} {a0 a : Known} {u : List Region}
    (p : Emits v B g h a0 a u) : Emits v B (je_rel32 h).1 (je_rel32 h).1 a a [] :=
  emits_start v B _ a (by
    intro r hr
    have := p.okh r hr
    simp only [je_rel32, c8, c32, List.length_append]
    omega) p.base

/-! ## One instruction at a time -/

theorem emits_mov_rdi_imm64 {v : Nat → Nat} {B : Nat} {g h : Gen} {a0 a : Known}
    {us : List Region} (x : Nat) (p : Emits v B g h a0 a us) :
    Emits v B g (mov_rdi_imm64 h x) a0 { a with rdi := some (x % 2 ^ 64) } us :=
  emits_instr p ([0x48, 0xBF] ++ le_bytes 8 x) _ (by simp [mov_rdi_imm64, c8, c64]) rfl rfl
    (fun _ inp => frag_one _ (by simp) (fun k r tr hP =>
      ⟨{ r with rdi := x % 2 ^ 64 }, [], holds_rdi hP _ _ known_some, (by intro e he; cases he),
        fun fuel => by
          simp only [List.cons_append, List.nil_append, List.append_assoc, List.append_nil]
          rw [run_mov_rdi]⟩))

theorem emits_mov_rsi_imm64 {v : Nat → Nat} {B : Nat} {g h : Gen} {a0 a : Known}
    {us : List Region} (x : Nat) (p : Emits v B g h a0 a us) :
    Emits v B g (mov_rsi_imm64 h x) a0 { a with rsi := some (x % 2 ^ 64) } us :=
  emits_instr p ([0x48, 0xBE] ++ le_bytes 8 x) _ (by simp [mov_rsi_imm64, c8, c64]) rfl rfl
    (fun _ inp => frag_one _ (by simp) (fun k r tr hP =>
      ⟨{ r with rsi := x % 2 ^ 64 }, [], holds_rsi hP _ _ known_some, (by intro e he; cases he),
        fun fuel => by
          simp only [List.cons_append, List.nil_append, List.append_assoc, List.append_nil]
          rw [run_mov_rsi]⟩))

theorem emits_mov_rdx_imm64 {v : Nat → Nat} {B : Nat} {g h : Gen} {a0 a : Known}
    {us : List Region} (x : Nat) (p : Emits v B g h a0 a us) :
    Emits v B g (mov_rdx_imm64 h x) a0 { a with rdx := some (x % 2 ^ 64) } us :=
  emits_instr p ([0x48, 0xBA] ++ le_bytes 8 x) _ (by simp [mov_rdx_imm64, c8, c64]) rfl rfl
    (fun _ inp => frag_one _ (by simp) (fun k r tr hP =>
      ⟨{ r with rdx := x % 2 ^ 64 }, [], holds_rdx hP _ _ known_some, (by intro e he; cases he),
        fun fuel => by
          simp only [List.cons_append, List.nil_append, List.append_assoc, List.append_nil]
          rw [run_mov_rdx]⟩))

theorem emits_mov_r10_imm64 {v : Nat → Nat} {B : Nat} {g h : Gen} {a0 a : Known}
    {us : List Region} (x : Nat) (p : Emits v B g h a0 a us) :
    Emits v B g (mov_r10_imm64 h x) a0 a us :=
  emits_instr p ([0x49, 0xBA] ++ le_bytes 8 x) _ (by simp [mov_r10_imm64, c8, c64]) rfl rfl
    (fun _ inp => frag_one _ (by simp) (fun k r tr hP =>
      ⟨{ r with r10 := x % 2 ^ 64 }, [], hP, (by intro e he; cases he),
        fun fuel => by
          simp only [List.cons_append, List.nil_append, List.append_assoc, List.append_nil]
          rw [run_mov_r10]⟩))

theorem emits_mov_rax_imm32 {v : Nat → Nat} {B : Nat} {g h : Gen} {a0 a : Known}
    {us : List Region} (x : Nat) (p : Emits v B g h a0 a us) :
    Emits v B g (mov_rax_imm32 h x) a0 { a with rax := some (sext32 (x % 2 ^ 32)) } us :=
  emits_instr p ([0x48, 0xC7, 0xC0] ++ le_bytes 4 x) _ (by simp [mov_rax_imm32, c8, c32]) rfl rfl
    (fun _ inp => frag_one _ (by simp) (fun k r tr hP =>
      ⟨{ r with rax := sext32 (x % 2 ^ 32) }, [], holds_rax hP _ _ known_some,
        (by intro e he; cases he),
        fun fuel => by
          simp only [List.cons_append, List.nil_append, List.append_assoc, List.append_nil]
          rw [run_mov_rax]⟩))

theorem emits_xor_rsi_rsi {v : Nat → Nat} {B : Nat} {g h : Gen} {a0 a : Known}
    {us : List Region} (p : Emits v B g h a0 a us) :
    Emits v B g (xor_rsi_rsi h) a0 { a with rsi := some 0 } us :=
  emits_instr p [0x48, 0x31, 0xF6] _ (by simp [xor_rsi_rsi, c8]) rfl rfl
    (fun _ inp => frag_one _ (by simp) (fun k r tr hP =>
      ⟨{ r with rsi := 0, zf := true }, [], ⟨hP.1, hP.2.1, known_some, hP.2.2.2⟩,
        (by intro e he; cases he),
        fun fuel => by
          simp only [List.cons_append, List.nil_append, List.append_nil]
          rw [run_xor_rsi]⟩))

theorem emits_xor_rdx_rdx {v : Nat → Nat} {B : Nat} {g h : Gen} {a0 a : Known}
    {us : List Region} (p : Emits v B g h a0 a us) :
    Emits v B g (xor_rdx_rdx h) a0 { a with rdx := some 0 } us :=
  emits_instr p [0x48, 0x31, 0xD2] _ (by simp [xor_rdx_rdx, c8]) rfl rfl
    (fun _ inp => frag_one _ (by simp) (fun k r tr hP =>
      ⟨{ r with rdx := 0, zf := true }, [], ⟨hP.1, hP.2.1, hP.2.2.1, known_some⟩,
        (by intro e he; cases he),
        fun fuel => by
          simp only [List.cons_append, List.nil_append, List.append_nil]
          rw [run_xor_rdx]⟩))

theorem emits_xor_r10_r10 {v : Nat → Nat} {B : Nat} {g h : Gen} {a0 a : Known}
    {us : List Region} (p : Emits v B g h a0 a us) :
    Emits v B g (xor_r10_r10 h) a0 a us :=
  emits_instr p [0x4D, 0x31, 0xD2] _ (by simp [xor_r10_r10, c8]) rfl rfl
    (fun _ inp => frag_one _ (by simp) (fun k r tr hP =>
      ⟨{ r with r10 := 0, zf := true }, [], hP,
        (by intro e he; cases he),
        fun fuel => by
          simp only [List.cons_append, List.nil_append, List.append_nil]
          rw [run_xor_r10]⟩))

theorem emits_mov_rdi_rax {v : Nat → Nat} {B : Nat} {g h : Gen} {a0 a : Known}
    {us : List Region} (p : Emits v B g h a0 a us) :
    Emits v B g (mov_rdi_rax h) a0 { a with rdi := a.rax } us :=
  emits_instr p [0x48, 0x89, 0xC7] _ (by simp [mov_rdi_rax, c8]) rfl rfl
    (fun _ inp => frag_one _ (by simp) (fun k r tr hP =>
      ⟨{ r with rdi := r.rax }, [], holds_rdi hP _ _ hP.1, (by intro e he; cases he),
        fun fuel => by
          simp only [List.cons_append, List.nil_append, List.append_nil]
          rw [run_mov_rdi_rax]⟩))

theorem emits_mov_rsi_rdi {v : Nat → Nat} {B : Nat} {g h : Gen} {a0 a : Known}
    {us : List Region} (p : Emits v B g h a0 a us) :
    Emits v B g (mov_rsi_rdi h) a0 { a with rsi := a.rdi } us :=
  emits_instr p [0x48, 0x89, 0xFE] _ (by simp [mov_rsi_rdi, c8]) rfl rfl
    (fun _ inp => frag_one _ (by simp) (fun k r tr hP =>
      ⟨{ r with rsi := r.rdi }, [], holds_rsi hP _ _ hP.2.1, (by intro e he; cases he),
        fun fuel => by
          simp only [List.cons_append, List.nil_append, List.append_nil]
          rw [run_mov_rsi_rdi]⟩))

/-- The bytes `48 83 F8 ib`: `cmp rax, imm8`. -/
theorem emits_cmp_rax {v : Nat → Nat} {B : Nat} {g h : Gen} {a0 a : Known}
    {us : List Region} (ib : Nat) (p : Emits v B g h a0 a us) :
    Emits v B g (c8 (c8 (c8 (c8 h 0x48) 0x83) 0xF8) ib) a0 a us :=
  emits_instr p [0x48, 0x83, 0xF8, ib % 256] _ (by simp [c8]) rfl rfl
    (fun _ inp => frag_one _ (by simp) (fun k r tr hP =>
      ⟨{ r with zf := decide (r.rax = sext8 (ib % 256)) }, [], hP,
        (by intro e he; cases he),
        fun fuel => by
          simp only [List.cons_append, List.nil_append, List.append_nil]
          rw [run_cmp_rax]⟩))

/-- The bytes `48 85 C0`: `test rax, rax`. -/
theorem emits_test_rax {v : Nat → Nat} {B : Nat} {g h : Gen} {a0 a : Known}
    {us : List Region} (p : Emits v B g h a0 a us) :
    Emits v B g (c8 (c8 (c8 h 0x48) 0x85) 0xC0) a0 a us :=
  emits_instr p [0x48, 0x85, 0xC0] _ (by simp [c8]) rfl rfl
    (fun _ inp => frag_one _ (by simp) (fun k r tr hP =>
      ⟨{ r with zf := decide (r.rax = 0) }, [], hP, (by intro e he; cases he),
        fun fuel => by
          simp only [List.cons_append, List.nil_append, List.append_nil]
          rw [run_test_rax]⟩))

theorem emits_mov_rdi_str {v : Nat → Nat} {B : Nat} {g h : Gen} {a0 a : Known}
    {us : List Region} (sidx : Nat) (p : Emits v B g h a0 a us) :
    Emits v B g (mov_rdi_str h sidx) a0 { a with rdi := none } us :=
  emits_slot 0xBF sidx _ p (fun inp => frag_one _ (by simp) (fun k r tr hP =>
    ⟨{ r with rdi := v sidx % 2 ^ 64 }, [], holds_rdi hP _ _ known_none, (by intro e he; cases he),
      fun fuel => by
        simp only [List.cons_append, List.nil_append, List.append_assoc, List.append_nil]
        rw [show (191 % 256) = 0xBF from rfl, run_mov_rdi]⟩))

theorem emits_mov_rsi_str {v : Nat → Nat} {B : Nat} {g h : Gen} {a0 a : Known}
    {us : List Region} (sidx : Nat) (p : Emits v B g h a0 a us) :
    Emits v B g (mov_rsi_str h sidx) a0 { a with rsi := none } us :=
  emits_slot 0xBE sidx _ p (fun inp => frag_one _ (by simp) (fun k r tr hP =>
    ⟨{ r with rsi := v sidx % 2 ^ 64 }, [], holds_rsi hP _ _ known_none, (by intro e he; cases he),
      fun fuel => by
        simp only [List.cons_append, List.nil_append, List.append_assoc, List.append_nil]
        rw [show (190 % 256) = 0xBE from rfl, run_mov_rsi]⟩))

/-- The relocated `mov rax, imm64` of `build_argv`. -/
theorem emits_mov_rax_str {v : Nat → Nat} {B : Nat} {g h : Gen} {a0 a : Known}
    {us : List Region} (sidx : Nat) (p : Emits v B g h a0 a us) :
    Emits v B g (rels_add_here (c64 (c8 (c8 h 0x48) 0xB8) 0) (cpos (c8 (c8 h 0x48) 0xB8)) sidx)
      a0 { a with rax := none } us :=
  emits_slot 0xB8 sidx _ p (fun inp => frag_one _ (by simp) (fun k r tr hP =>
    ⟨{ r with rax := v sidx % 2 ^ 64 }, [], holds_rax hP _ _ known_none, (by intro e he; cases he),
      fun fuel => by
        simp only [List.cons_append, List.nil_append, List.append_assoc, List.append_nil]
        rw [show (184 % 256) = 0xB8 from rfl, run_mov_rax64]⟩))

/-- Loading the address of the region `r` into rdi. -/
theorem emits_addr_rdi {v : Nat → Nat} {B : Nat} {g h : Gen} {a0 a : Known}
    {us : List Region} (r : Region) (p : Emits v B g h a0 a us) :
    Emits v B g (mov_rdi_imm64 h (h.bss_base + r.off)) a0
      { a with rdi := some ((B + r.off) % 2 ^ 64) } (us ++ [r]) :=
  emits_step p ([0x48, 0xBF] ++ le_bytes 8 (B + r.off)) _ [r]
    (by rw [p.base]; simp [mov_rdi_imm64, c8, c64]) rfl rfl
    (fun _ inp => frag_one _ (by simp) (fun k x tr hP =>
      ⟨{ x with rdi := (B + r.off) % 2 ^ 64 }, [], holds_rdi hP _ _ known_some,
        (by intro e he; cases he),
        fun fuel => by
          simp only [List.cons_append, List.nil_append, List.append_assoc, List.append_nil]
          rw [run_mov_rdi]⟩))

/-- Loading the address of the region `r` into rdx. -/
theorem emits_addr_rdx {v : Nat → Nat} {B : Nat} {g h : Gen} {a0 a : Known}
    {us : List Region} (r : Region) (p : Emits v B g h a0 a us) :
    Emits v B g (mov_rdx_imm64 h (h.bss_base + r.off)) a0
      { a with rdx := some ((B + r.off) % 2 ^ 64) } (us ++ [r]) :=
  emits_step p ([0x48, 0xBA] ++ le_bytes 8 (B + r.off)) _ [r]
    (by rw [p.base]; simp [mov_rdx_imm64, c8, c64]) rfl rfl
    (fun _ inp => frag_one _ (by simp) (fun k x tr hP =>
      ⟨{ x with rdx := (B + r.off) % 2 ^ 64 }, [], holds_rdx hP _ _ known_some,
        (by intro e he; cases he),
        fun fuel => by
          simp only [List.cons_append, List.nil_append, List.append_assoc, List.append_nil]
          rw [run_mov_rdx]⟩))

/-- The address of a region that ends below `2 ^ 64` is not reduced. -/
theorem region_addr {B : Nat} {u : Region} (h0 : 0 < u.size)
    (hb : B + u.off + u.size ≤ 2 ^ 64) : (B + u.off) % 2 ^ 64 = B + u.off :=
  Nat.mod_eq_of_lt (by omega)

/-- An access of `w` bytes at the start of the region `u`. -/
theorem access_safe {B : Nat} {us : List Region} {u : Region} {w : Nat} (hu : u ∈ us)
    (hw : w ≤ u.size) (h0 : 0 < w)
    (hbd : ∀ u ∈ us, u.size < 2 ^ 31 ∧ B + u.off + u.size ≤ 2 ^ 64) :
    in_regions B us ((B + u.off) % 2 ^ 64) w = true := by
  rw [region_addr (by omega) (hbd u hu).2]
  exact in_regions_intro u hu (Nat.le_refl _) (by omega)

/-- The bytes `48 8B 07`: `mov rax, [rdi]` with rdi at the region `u`. -/
theorem emits_load8 {v : Nat → Nat} {B : Nat} {g h : Gen} {a0 a : Known}
    {us : List Region} (u : Region) (hu : u ∈ us) (hw : 8 ≤ u.size)
    (hA : a.rdi = some ((B + u.off) % 2 ^ 64)) (p : Emits v B g h a0 a us) :
    Emits v B g (c8 (c8 (c8 h 0x48) 0x8B) 0x07) a0 { a with rax := none } us :=
  emits_instr p [0x48, 0x8B, 0x07] _ (by simp [c8]) rfl rfl
    (fun hbd inp => frag_one _ (by simp) (fun k r tr hP =>
      ⟨{ r with rax := inp tr.length % 2 ^ 64 }, [.load r.rdi 8], holds_rax hP _ _ known_none,
        (by
          intro e he
          simp only [List.mem_singleton] at he
          subst he
          rw [hP.2.1 _ hA]
          exact access_safe hu hw (by norm_num) hbd),
        fun fuel => by
          simp only [List.cons_append, List.nil_append, List.append_nil]
          rw [run_load_rax]⟩))

/-- The bytes `8B 07`: `mov eax, [rdi]` with rdi at the region `u`. -/
theorem emits_load4 {v : Nat → Nat} {B : Nat} {g h : Gen} {a0 a : Known}
    {us : List Region} (u : Region) (hu : u ∈ us) (hw : 4 ≤ u.size)
    (hA : a.rdi = some ((B + u.off) % 2 ^ 64)) (p : Emits v B g h a0 a us) :
    Emits v B g (mov_eax_mrdi h) a0 { a with rax := none } us :=
  emits_instr p [0x8B, 0x07] _ (by simp [mov_eax_mrdi, c8]) rfl rfl
    (fun hbd inp => frag_one _ (by simp) (fun k r tr hP =>
      ⟨{ r with rax := inp tr.length % 2 ^ 32 }, [.load r.rdi 4], holds_rax hP _ _ known_none,
        (by
          intro e he
          simp only [List.mem_singleton] at he
          subst he
          rw [hP.2.1 _ hA]
          exact access_safe hu hw (by norm_num) hbd),
        fun fuel => by
          simp only [List.cons_append, List.nil_append, List.append_nil]
          rw [run_load_eax]⟩))

/-- The bytes `48 89 17`: `mov [rdi], rdx` with rdi at the region `u`. -/
theorem emits_store_rdx {v : Nat → Nat} {B : Nat} {g h : Gen} {a0 a : Known}
    {us : List Region} (u : Region) (hu : u ∈ us) (hw : 8 ≤ u.size)
    (hA : a.rdi = some ((B + u.off) % 2 ^ 64)) (p : Emits v B g h a0 a us) :
    Emits v B g (c8 (c8 (c8 h 0x48) 0x89) 0x17) a0 a us :=
  emits_instr p [0x48, 0x89, 0x17] _ (by simp [c8]) rfl rfl
    (fun hbd inp => frag_one _ (by simp) (fun k r tr hP =>
      ⟨r, [.store r.rdi 8], hP,
        (by
          intro e he
          simp only [List.mem_singleton] at he
          subst he
          rw [hP.2.1 _ hA]
          exact access_safe hu hw (by norm_num) hbd),
        fun fuel => by
          simp only [List.cons_append, List.nil_append, List.append_nil]
          rw [run_store_rdx]⟩))

/-- The bytes `48 89 07`: `mov [rdi], rax` with rdi at the region `u`. -/
theorem emits_store_rax {v : Nat → Nat} {B : Nat} {g h : Gen} {a0 a : Known}
    {us : List Region} (u : Region) (hu : u ∈ us) (hw : 8 ≤ u.size)
    (hA : a.rdi = some ((B + u.off) % 2 ^ 64)) (p : Emits v B g h a0 a us) :
    Emits v B g (c8 (c8 (c8 h 0x48) 0x89) 0x07) a0 a us :=
  emits_instr p [0x48, 0x89, 0x07] _ (by simp [c8]) rfl rfl
    (fun hbd inp => frag_one _ (by simp) (fun k r tr hP =>
      ⟨r, [.store r.rdi 8], hP,
        (by
          intro e he
          simp only [List.mem_singleton] at he
          subst he
          rw [hP.2.1 _ hA]
          exact access_safe hu hw (by norm_num) hbd),
        fun fuel => by
          simp only [List.cons_append, List.nil_append, List.append_nil]
          rw [run_store_rax]⟩))

/-- The store `mov [rdi + d], rax` of `build_argv` with rdi at the region `u`:
the eight bytes at displacement `d` lie inside the region. -/
theorem emits_store_disp {v : Nat → Nat} {B : Nat} {g h : Gen} {a0 a : Known}
    {us : List Region} (u : Region) (d : Nat) (hu : u ∈ us) (hw : d + 8 ≤ u.size)
    (hA : a.rdi = some ((B + u.off) % 2 ^ 64)) (p : Emits v B g h a0 a us) :
    Emits v B g (mov_m8_rdi_disp32_rax h d) a0 a us :=
  emits_instr p ([0x48, 0x89, 0x87] ++ le_bytes 4 d) _
    (by simp [mov_m8_rdi_disp32_rax, c8, c32]) rfl rfl
    (fun hbd inp => frag_one _ (by simp) (fun k r tr hP =>
      ⟨r, [.store ((r.rdi + sext32 (d % 2 ^ 32)) % 2 ^ 64) 8], hP,
        (by
          intro e he
          simp only [List.mem_singleton] at he
          subst he
          have hb := hbd u hu
          have hd : d < 2 ^ 31 := by omega
          have h1 : d % 2 ^ 32 = d := Nat.mod_eq_of_lt (by omega)
          have h2 : sext32 d = d := by simp only [sext32, if_pos hd]
          rw [hP.2.1 _ hA, h1, h2, region_addr (by omega) hb.2,
            Nat.mod_eq_of_lt (by omega)]
          exact in_regions_intro u hu (by omega) (by omega)),
        fun fuel => by
          simp only [List.cons_append, List.nil_append, List.append_assoc, List.append_nil]
          rw [run_store_disp]⟩))

theorem sext32_small {n : Nat} (hn : n < 2 ^ 31) : sext32 (n % 2 ^ 32) = n := by
  rw [Nat.mod_eq_of_lt (by omega)]
  simp only [sext32, if_pos hn]

/-- A system call other than `pipe` and `execve`. -/
theorem emits_sys {v : Nat → Nat} {B : Nat} {g h : Gen} {a0 a : Known}
    {us : List Region} (n : Nat) (hn : n < 2 ^ 31) (h22 : n ≠ 22) (h59 : n ≠ 59)
    (p : Emits v B g h a0 a us) :
    Emits v B g (syscall_ (mov_rax_imm32 h n)) a0 { a with rax := none } us :=
  emits_instr (emits_mov_rax_imm32 n p) [0x0F, 0x05] _ (by simp [syscall_, c8]) rfl rfl
    (fun _ inp => frag_one _ (by simp) (fun k r tr hP =>
      ⟨{ r with rax := inp tr.length % 2 ^ 64 }, [.sys ⟨r.rax, r.rdi, r.rsi, r.rdx, r.r10⟩],
        ⟨known_none, hP.2.1, hP.2.2.1, hP.2.2.2⟩,
        (by
          intro e he
          simp only [List.mem_singleton] at he
          subst he
          have hr : r.rax = n := (hP.1 _ rfl).trans (sext32_small hn)
          simp only [Event.safe, hr, Bool.and_eq_true, Bool.or_eq_true, bne_iff_ne, ne_eq]
          exact ⟨Or.inl h22, Or.inl h59⟩),
        fun fuel => by
          simp only [List.cons_append, List.nil_append, List.append_nil]
          rw [run_syscall]⟩))

/-- The system call `pipe` with rdi at the pipe region `u`. -/
theorem emits_sys_pipe {v : Nat → Nat} {B : Nat} {g h : Gen} {a0 a : Known}
    {us : List Region} (u : Region) (hu : u ∈ us) (hk : u.kind = .pipe) (hw : 8 ≤ u.size)
    (hA : a.rdi = some ((B + u.off) % 2 ^ 64)) (p : Emits v B g h a0 a us) :
    Emits v B g (sys_pipe h) a0 { a with rax := none } us :=
  emits_instr (emits_mov_rax_imm32 22 p) [0x0F, 0x05] _ (by simp [sys_pipe, syscall_, c8]) rfl rfl
    (fun hbd inp => frag_one _ (by simp) (fun k r tr hP =>
      ⟨{ r with rax := inp tr.length % 2 ^ 64 }, [.sys ⟨r.rax, r.rdi, r.rsi, r.rdx, r.r10⟩],
        ⟨known_none, hP.2.1, hP.2.2.1, hP.2.2.2⟩,
        (by
          intro e he
          simp only [List.mem_singleton] at he
          subst he
          have hr : r.rax = 22 := (hP.1 _ rfl).trans (sext32_small (by norm_num))
          have hd : r.rdi = B + u.off :=
            (hP.2.1 _ hA).trans (region_addr (by omega) (hbd u hu).2)
          simp only [Event.safe, hr, hd, Bool.and_eq_true, Bool.or_eq_true, bne_iff_ne, ne_eq]
          exact ⟨Or.inr (region_start_intro u hu hk rfl hw), Or.inl (by decide)⟩),
        fun fuel => by
          simp only [List.cons_append, List.nil_append, List.append_nil]
          rw [run_syscall]⟩))

/-- The system call `execve` with rsi at the argv region `ua` and rdx at the
envp region `ue`. -/
theorem emits_sys_execve {v : Nat → Nat} {B : Nat} {g h : Gen} {a0 a : Known}
    {us : List Region} (ua ue : Region) (hua : ua ∈ us) (hue : ue ∈ us)
    (hka : ua.kind = .argv) (hke : ue.kind = .envp) (hwa : 8 ≤ ua.size) (hwe : 8 ≤ ue.size)
    (hA : a.rsi = some ((B + ua.off) % 2 ^ 64)) (hE : a.rdx = some ((B + ue.off) % 2 ^ 64))
    (p : Emits v B g h a0 a us) :
    Emits v B g (sys_execve h) a0 { a with rax := none } us :=
  emits_instr (emits_mov_rax_imm32 59 p) [0x0F, 0x05] _ (by simp [sys_execve, syscall_, c8]) rfl rfl
    (fun hbd inp => frag_one _ (by simp) (fun k r tr hP =>
      ⟨{ r with rax := inp tr.length % 2 ^ 64 }, [.sys ⟨r.rax, r.rdi, r.rsi, r.rdx, r.r10⟩],
        ⟨known_none, hP.2.1, hP.2.2.1, hP.2.2.2⟩,
        (by
          intro e he
          simp only [List.mem_singleton] at he
          subst he
          have hr : r.rax = 59 := (hP.1 _ rfl).trans (sext32_small (by norm_num))
          have hs : r.rsi = B + ua.off :=
            (hP.2.2.1 _ hA).trans (region_addr (by omega) (hbd ua hua).2)
          have hd : r.rdx = B + ue.off :=
            (hP.2.2.2 _ hE).trans (region_addr (by omega) (hbd ue hue).2)
          simp only [Event.safe, hr, hs, hd, Bool.and_eq_true, Bool.or_eq_true, bne_iff_ne,
            ne_eq]
          exact ⟨Or.inl (by decide), Or.inr ⟨region_start_intro ua hua hka rfl hwa,
            region_start_intro ue hue hke rfl hwe⟩⟩),
        fun fuel => by
          simp only [List.cons_append, List.nil_append, List.append_nil]
          rw [run_syscall]⟩))

/-! ## The emitters touch only their regions -/

theorem emits_write_literal {v : Nat → Nat} {B : Nat} {g h : Gen} {a0 a : Known}
    {us : List Region} (s : List Nat) (p : Emits v B g h a0 a us) :
    Emits v B g (write_literal h s) a0 Known.top us := by
  unfold write_literal
  simp only []
  exact emits_top (emits_sys 1 (by norm_num) (by decide) (by decide) (emits_mov_rdx_imm64 _
    (emits_mov_rdi_imm64 _ (emits_mov_rsi_str _ (emits_add_str s p)))))

/-- The loop of `build_argv` with rdi at the argv region `u`: the store of
iteration `i` goes to displacement `i * 8`, inside the region. -/
theorem emits_build_argv_loop {v : Nat → Nat} {B : Nat} {g : Gen} {a0 : Known}
    {us : List Region} (u : Region) (hu : u ∈ us) (sidxv : List Nat) :
    ∀ (i : Nat) (h : Gen) (a : Known), (i + sidxv.length) * 8 ≤ u.size →
      a.rdi = some ((B + u.off) % 2 ^ 64) → Emits v B g h a0 a us →
      Emits v B g (build_argv_loop i sidxv h) a0 { a with rax := none } us := by
  induction sidxv with
  | nil =>
    intro i h a _ _ p
    exact emits_weaken p _ (fun r hr => ⟨known_none, hr.2.1, hr.2.2.1, hr.2.2.2⟩)
  | cons s rest ih =>
    intro i h a hsz hA p
    rw [List.length_cons] at hsz
    rw [build_argv_loop]
    exact ih (i + 1) _ { a with rax := none } (by omega) hA
      (emits_store_disp u (i * 8) hu (by omega) (by exact hA) (emits_mov_rax_str s p))

/-- `build_argv` loads the address of the argv area `r`, stores `argc` pointers
and the null pointer inside it, and leaves its address in rsi. -/
theorem emits_build_argv {v : Nat → Nat} {B : Nat} {g h : Gen} {a0 a : Known}
    {us : List Region} (r : Region) (sidxv : List Nat) (hr : sidxv.length * 8 + 8 ≤ r.size)
    (p : Emits v B g h a0 a us) :
    Emits v B g (build_argv h r.off sidxv) a0 ⟨none, none, some ((B + r.off) % 2 ^ 64), none⟩
      (us ++ [r]) := by
  have hu : r ∈ us ++ [r] := List.mem_append_right _ (List.mem_singleton_self r)
  have q1 := emits_build_argv_loop r hu sidxv 0 _ _ (by omega) rfl (emits_addr_rdi r p)
  have q2 := emits_mov_rsi_rdi (emits_store_disp r (sidxv.length * 8) hu hr rfl
    (emits_mov_rax_imm32 0 q1))
  exact emits_weaken q2 _ (fun x hx => ⟨known_none, known_none, hx.2.2.1, known_none⟩)

theorem emits_emit_redir_in {v : Nat → Nat} {B : Nat} {g h : Gen} {a0 a : Known}
    {us : List Region} (path : List Nat) (p : Emits v B g h a0 a us) :
    Emits v B g (emit_redir_in h path) a0 Known.top us := by
  unfold emit_redir_in
  simp only []
  exact emits_top (emits_sys 3 (by norm_num) (by decide) (by decide) (emits_mov_rdi_rax
    (emits_sys 33 (by norm_num) (by decide) (by decide) (emits_mov_rsi_imm64 _ (emits_mov_rdi_rax
      (emits_sys 257 (by norm_num) (by decide) (by decide) (emits_xor_r10_r10
        (emits_mov_rdx_imm64 _ (emits_mov_rsi_str _ (emits_mov_rdi_imm64 _
          (emits_add_str path p)))))))))))

theorem emits_emit_redir_out {v : Nat → Nat} {B : Nat} {g h : Gen} {a0 a : Known}
    {us : List Region} (path : List Nat) (ap : Nat) (p : Emits v B g h a0 a us) :
    Emits v B g (emit_redir_out h path ap) a0 Known.top us := by
  unfold emit_redir_out
  simp only []
  exact emits_top (emits_sys 3 (by norm_num) (by decide) (by decide) (emits_mov_rdi_rax
    (emits_sys 33 (by norm_num) (by decide) (by decide) (emits_mov_rsi_imm64 _ (emits_mov_rdi_rax
      (emits_sys 257 (by norm_num) (by decide) (by decide) (emits_mov_r10_imm64 _
        (emits_mov_rdx_imm64 _ (emits_mov_rsi_str _ (emits_mov_rdi_imm64 _
          (emits_add_str path p)))))))))))

theorem emits_emit_redirs {v : Nat → Nat} {B : Nat} {g h : Gen} {a0 a : Known}
    {us : List Region} (i o : Option (List Nat)) (ap : Nat) (p : Emits v B g h a0 a us) :
    Emits v B g (emit_redirs h i o ap) a0 Known.top us := by
  cases i <;> cases o <;> simp only [emit_redirs]
  · exact emits_top p
  · exact emits_emit_redir_out _ _ p
  · exact emits_emit_redir_in _ p
  · exact emits_emit_redir_out _ _ (emits_emit_redir_in _ p)

theorem emits_echo_args {v : Nat → Nat} {B : Nat} {g : Gen} {a0 : Known} {us : List Region} :
    ∀ (args : List (List Nat)) (h : Gen) (a : Known), Emits v B g h a0 a us →
      Emits v B g (echo_args args h) a0 Known.top us
  | [], _, _, p => emits_top p
  | [a], _, _, p => emits_write_literal a p
  | a :: b :: rest, _, _, p =>
    emits_echo_args (b :: rest) _ _ (emits_write_literal _ (emits_write_literal a p))

theorem emits_emit_builtin {v : Nat → Nat} {B : Nat} {g h : Gen} {a0 a : Known}
    {us : List Region} (st : Stage) (p : Emits v B g h a0 a us) :
    Emits v B g (emit_builtin h st) a0 Known.top us := by
  unfold emit_builtin
  split
  · exact emits_write_literal _ (emits_echo_args _ _ _ p)
  · split
    · split
      · simp only []
        exact emits_top (emits_sys 80 (by norm_num) (by decide) (by decide)
          (emits_mov_rdi_str _ (emits_add_str _ p)))
      · exact emits_top p
    · split
      · exact emits_top (emits_sys 60 (by norm_num) (by decide) (by decide)
          (emits_mov_rdi_imm64 _ p))
      · exact emits_top p

theorem emits_add_argv {v : Nat → Nat} {B : Nat} {g : Gen} {a0 a : Known} {us : List Region} :
    ∀ (args : List (List Nat)) (h : Gen), Emits v B g h a0 a us →
      Emits v B g (add_argv args h).1 a0 a us
  | [], _, p => p
  | x :: rest, _, p => emits_add_argv rest _ (emits_add_str x p)

theorem add_argv_length (args : List (List Nat)) (g : Gen) :
    (add_argv args g).2.length = args.length := by
  rw [(add_argv_eq args g).2, List.length_map, List.length_range]

theorem emits_exec_failed {v : Nat → Nat} {B : Nat} {g h : Gen} {a0 a : Known}
    {us : List Region} (p : Emits v B g h a0 a us) :
    Emits v B g (exec_failed h) a0 Known.top us :=
  emits_top (emits_sys 60 (by norm_num) (by decide) (by decide)
    (emits_mov_rdi_imm64 _ (emits_write_literal _ p)))

/-- The two `execve` attempts with rsi at the argv region and rdx at the envp
region: the jump between them leaves both registers alone. -/
theorem emits_exec_paths {v : Nat → Nat} {B : Nat} {g h : Gen} {a0 a : Known}
    {us : List Region} (ua ue : Region) (hua : ua ∈ us) (hue : ue ∈ us)
    (hka : ua.kind = .argv) (hke : ue.kind = .envp) (hwa : 8 ≤ ua.size) (hwe : 8 ≤ ue.size)
    (hA : a.rsi = some ((B + ua.off) % 2 ^ 64)) (hE : a.rdx = some ((B + ue.off) % 2 ^ 64))
    (s1 s2 : Nat) (p : Emits v B g h a0 a us) :
    Emits v B g (exec_paths h s1 s2) a0 Known.top us := by
  have q := emits_test_rax (emits_sys_execve ua ue hua hue hka hke hwa hwe (by exact hA) (by exact hE)
    (emits_mov_rdi_str s1 p))
  have q2 := emits_cast (emits_jne_patch _ q (emits_jne_start q) (fun _ hr => hr)
    (fun _ hr => hr)) (List.append_nil us)
  exact emits_exec_failed (emits_sys_execve ua ue hua hue hka hke hwa hwe (by exact hA) (by exact hE)
    (emits_mov_rdi_str s2 q2))

theorem emits_exec_dispatch {v : Nat → Nat} {B : Nat} {g h : Gen} {a0 a : Known}
    {us : List Region} (ua ue : Region) (hua : ua ∈ us) (hue : ue ∈ us)
    (hka : ua.kind = .argv) (hke : ue.kind = .envp) (hwa : 8 ≤ ua.size) (hwe : 8 ≤ ue.size)
    (hA : a.rsi = some ((B + ua.off) % 2 ^ 64)) (hE : a.rdx = some ((B + ue.off) % 2 ^ 64))
    (cmd0 : List Nat) (s0 : Nat) (p : Emits v B g h a0 a us) :
    Emits v B g (exec_dispatch h cmd0 s0) a0 Known.top us := by
  unfold exec_dispatch
  split
  · exact emits_exec_failed (emits_sys_execve ua ue hua hue hka hke hwa hwe (by exact hA) (by exact hE)
      (emits_mov_rdi_str _ p))
  · simp only []
    exact emits_exec_paths ua ue hua hue hka hke hwa hwe hA hE _ _
      (emits_add_str _ (emits_add_str _ p))

/-- `emit_exec` touches the argv area, of `(argc + 1) * 8` bytes, and hands the
argv area and the envp slot to `execve`. -/
theorem emits_emit_exec {v : Nat → Nat} {B : Nat} {g h : Gen} {a0 a : Known}
    {us : List Region} (st : Stage) (x e : Nat) (p : Emits v B g h a0 a us) :
    Emits v B g (emit_exec h st x e) a0 Known.top (us ++ exec_uses st x e) := by
  have q2 := emits_build_argv ⟨.argv, x, 8 * (st.argv.length + 1)⟩ (add_argv st.argv h).2
    (by rw [add_argv_length]; simp only []; omega) (emits_add_argv st.argv h p)
  have q3 := emits_addr_rdx ⟨.envp, e, 8⟩ q2
  have q4 := emits_add_str st.cmd q3
  have q5 := emits_exec_dispatch ⟨.argv, x, 8 * (st.argv.length + 1)⟩ ⟨.envp, e, 8⟩
    (by simp) (by simp) rfl rfl (by simp only []; omega) (Nat.le_refl _) rfl rfl st.cmd
    (add_str (mov_rdx_imm64 (build_argv (add_argv st.argv h).1 x (add_argv st.argv h).2)
      ((build_argv (add_argv st.argv h).1 x (add_argv st.argv h).2).bss_base + e)) st.cmd).2 q4
  unfold emit_exec
  simp only []
  refine emits_cast q5 ?_
  simp [exec_uses]

theorem emits_emit_simple_cmd {v : Nat → Nat} {B : Nat} {g h : Gen} {a0 a : Known}
    {us : List Region} (st : Stage) (x e : Nat) (p : Emits v B g h a0 a us) :
    Emits v B g (emit_simple_cmd h st x e) a0 Known.top
      (us ++ (if is_builtin st.cmd then [] else exec_uses st x e)) := by
  unfold emit_simple_cmd
  by_cases hb : is_builtin st.cmd = true
  · rw [if_pos hb, if_pos hb, List.append_nil]
    exact emits_emit_builtin st p
  · rw [if_neg hb, if_neg hb]
    simp only []
    have q := emits_top (emits_cmp_rax 0x00 (emits_sys 57 (by norm_num) (by decide) (by decide) p))
    have q2 := emits_jne_patch Known.top q (emits_cast (emits_emit_exec st x e
      (emits_emit_redirs st.in_redir st.out_redir st.out_append (emits_jne_start q)))
      (List.nil_append _)) (fun _ hr => hr) (fun _ hr => hr)
    exact emits_top (emits_sys 61 (by norm_num) (by decide) (by decide) (emits_xor_r10_r10
      (emits_xor_rdx_rdx (emits_xor_rsi_rsi (emits_mov_rdi_rax q2)))))

theorem mem_last {r : Region} {us : List Region} : r ∈ us ++ [r] :=
  List.mem_append_right _ (List.mem_singleton_self r)

theorem emits_emit_child_prev {v : Nat → Nat} {B : Nat} {g h : Gen} {a0 a : Known}
    {us : List Region} (o : PipeOffs) (p : Emits v B g h a0 a us) :
    Emits v B g (emit_child_prev h o) a0 Known.top
      (us ++ [⟨.prev_read, o.prev_read_off, 8⟩, ⟨.prev_read, o.prev_read_off, 8⟩]) := by
  have q := emits_top (emits_sys 3 (by norm_num) (by decide) (by decide) (emits_mov_rdi_rax
    (emits_load8 ⟨.prev_read, o.prev_read_off, 8⟩ mem_last (Nat.le_refl _) (by rfl)
      (emits_addr_rdi ⟨.prev_read, o.prev_read_off, 8⟩
        (emits_sys 33 (by norm_num) (by decide) (by decide) (emits_mov_rsi_imm64 0
          (emits_mov_rdi_rax
            (emits_load8 ⟨.prev_read, o.prev_read_off, 8⟩ mem_last (Nat.le_refl _) (by rfl)
              (emits_addr_rdi ⟨.prev_read, o.prev_read_off, 8⟩ p)))))))))
  exact emits_cast q (by simp)

theorem emits_emit_child_next {v : Nat → Nat} {B : Nat} {g h : Gen} {a0 a : Known}
    {us : List Region} (o : PipeOffs) (p : Emits v B g h a0 a us) :
    Emits v B g (emit_child_next h o) a0 Known.top
      (us ++ [⟨.pipe, o.pipe_area_off + 4, 4⟩, ⟨.pipe, o.pipe_area_off + 0, 4⟩,
        ⟨.pipe, o.pipe_area_off + 4, 4⟩]) := by
  have q := emits_top (emits_sys 3 (by norm_num) (by decide) (by decide) (emits_mov_rdi_rax
    (emits_load4 ⟨.pipe, o.pipe_area_off + 4, 4⟩ mem_last (Nat.le_refl _) (by rfl)
      (emits_addr_rdi ⟨.pipe, o.pipe_area_off + 4, 4⟩
        (emits_sys 3 (by norm_num) (by decide) (by decide) (emits_mov_rdi_rax
          (emits_load4 ⟨.pipe, o.pipe_area_off + 0, 4⟩ mem_last (Nat.le_refl _) (by rfl)
            (emits_addr_rdi ⟨.pipe, o.pipe_area_off + 0, 4⟩
              (emits_sys 33 (by norm_num) (by decide) (by decide) (emits_mov_rsi_imm64 1
                (emits_mov_rdi_rax
                  (emits_load4 ⟨.pipe, o.pipe_area_off + 4, 4⟩ mem_last (Nat.le_refl _) (by rfl)
                    (emits_addr_rdi ⟨.pipe, o.pipe_area_off + 4, 4⟩ p)))))))))))))
  unfold emit_child_next
  simp only [Nat.add_assoc]
  exact emits_cast q (by simp)

theorem emits_emit_parent_next {v : Nat → Nat} {B : Nat} {g h : Gen} {a0 a : Known}
    {us : List Region} (o : PipeOffs) (p : Emits v B g h a0 a us) :
    Emits v B g (emit_parent_next h o) a0 Known.top
      (us ++ [⟨.pipe, o.pipe_area_off + 0, 4⟩, ⟨.prev_read, o.prev_read_off, 8⟩,
        ⟨.pipe, o.pipe_area_off + 4, 4⟩]) := by
  have q := emits_top (emits_sys 3 (by norm_num) (by decide) (by decide) (emits_mov_rdi_rax
    (emits_load4 ⟨.pipe, o.pipe_area_off + 4, 4⟩ mem_last (Nat.le_refl _) (by rfl)
      (emits_addr_rdi ⟨.pipe, o.pipe_area_off + 4, 4⟩
        (emits_store_rax ⟨.prev_read, o.prev_read_off, 8⟩ mem_last (Nat.le_refl _) (by rfl)
          (emits_addr_rdi ⟨.prev_read, o.prev_read_off, 8⟩
            (emits_load4 ⟨.pipe, o.pipe_area_off + 0, 4⟩ mem_last (Nat.le_refl _) (by rfl)
              (emits_addr_rdi ⟨.pipe, o.pipe_area_off + 0, 4⟩ p))))))))
  unfold emit_parent_next
  simp only [Nat.add_assoc]
  exact emits_cast q (by simp)

theorem emits_emit_wait {v : Nat → Nat} {B : Nat} {g h : Gen} {a0 a : Known}
    {us : List Region} (o : PipeOffs) (i : Nat) (p : Emits v B g h a0 a us) :
    Emits v B g (emit_wait h o i) a0 Known.top (us ++ [⟨.pid, o.pid_arr_off + i * 8, 8⟩]) := by
  have q := emits_top (emits_sys 61 (by norm_num) (by decide) (by decide) (emits_xor_r10_r10
    (emits_xor_rdx_rdx (emits_xor_rsi_rsi (emits_mov_rdi_rax
      (emits_load8 ⟨.pid, o.pid_arr_off + i * 8, 8⟩ mem_last (Nat.le_refl _) (by rfl)
        (emits_addr_rdi ⟨.pid, o.pid_arr_off + i * 8, 8⟩ p)))))))
  unfold emit_wait
  simp only [Nat.add_assoc]
  exact q

theorem emits_wait_loop {v : Nat → Nat} {B : Nat} {g : Gen} {a0 : Known} (o : PipeOffs)
    (l : List Nat) :
    ∀ (u : List Region) (h : Gen), Emits v B g h a0 Known.top u →
      Emits v B g (l.foldl (fun acc i => emit_wait acc o i) h) a0 Known.top
        (u ++ l.map (fun i => ⟨.pid, o.pid_arr_off + i * 8, 8⟩)) := by
  induction l with
  | nil => intro u h p; exact emits_cast p (by simp)
  | cons i rest ih =>
    intro u h p
    rw [List.foldl_cons]
    exact emits_cast (ih _ _ (emits_emit_wait o i p)) (by simp)

theorem emits_stage_fork {v : Nat → Nat} {B : Nat} {g h : Gen} {a0 a : Known}
    {us : List Region} (o : PipeOffs) (n i : Nat) (p : Emits v B g h a0 a us) :
    Emits v B g (stage_fork h o n i) a0 Known.top
      (us ++ (if i + 1 < n then [⟨.pipe, o.pipe_area_off, 8⟩] else [])) := by
  unfold stage_fork
  simp only []
  by_cases hn : i + 1 < n
  · simp only [hn, decide_True, if_true]
    exact emits_top (emits_cmp_rax 0x00 (emits_sys 57 (by norm_num) (by decide) (by decide)
      (emits_sys_pipe ⟨.pipe, o.pipe_area_off, 8⟩ mem_last rfl (Nat.le_refl _) (by rfl)
        (emits_addr_rdi ⟨.pipe, o.pipe_area_off, 8⟩ p))))
  · simp only [hn, decide_False, if_false, List.append_nil, Bool.false_eq_true]
    exact emits_top (emits_cmp_rax 0x00 (emits_sys 57 (by norm_num) (by decide) (by decide) p))

theorem emits_stage_child {v : Nat → Nat} {B : Nat} (o : PipeOffs) (n i : Nat) (st : Stage)
    (h : Gen) {a0 : Known}
    (p : Emits v B (jne_rel32 (stage_fork h o n i)).1 (jne_rel32 (stage_fork h o n i)).1
      a0 Known.top []) :
    Emits v B (jne_rel32 (stage_fork h o n i)).1 (stage_child h o n i st) a0 Known.top
      ((if i > 0 then [⟨.prev_read, o.prev_read_off, 8⟩, ⟨.prev_read, o.prev_read_off, 8⟩]
        else []) ++
      (if i + 1 < n then
        [⟨.pipe, o.pipe_area_off + 4, 4⟩, ⟨.pipe, o.pipe_area_off + 0, 4⟩,
          ⟨.pipe, o.pipe_area_off + 4, 4⟩]
        else [])) := by
  rw [stage_child_eq]
  have q5 : Emits v B (jne_rel32 (stage_fork h o n i)).1
      (if i > 0 then emit_child_prev (jne_rel32 (stage_fork h o n i)).1 o
        else (jne_rel32 (stage_fork h o n i)).1) a0 Known.top
      (if i > 0 then [⟨.prev_read, o.prev_read_off, 8⟩, ⟨.prev_read, o.prev_read_off, 8⟩]
        else []) := by
    by_cases hi : i > 0
    · simp only [hi, if_true]
      exact emits_cast (emits_emit_child_prev o p) (List.nil_append _)
    · simp only [hi, if_false]
      exact p
  by_cases hn : i + 1 < n
  · simp only [hn, decide_True, if_true]
    exact emits_emit_redirs _ _ _ (emits_emit_child_next o q5)
  · simp only [hn, decide_False, if_false, List.append_nil, Bool.false_eq_true]
    exact emits_emit_redirs _ _ _ q5

/-- The code of one stage touches only the regions of `stage_uses`. -/
theorem emits_emit_stage {v : Nat → Nat} {B : Nat} {g h : Gen} {a0 a : Known}
    {u : List Region} (o : PipeOffs) (n i : Nat) (st : Stage) (p : Emits v B g h a0 a u) :
    Emits v B g (emit_stage h o n i st) a0 Known.top (u ++ stage_uses h o n i st) := by
  rw [emit_stage_eq]
  have qf := emits_stage_fork o n i p
  have q7 := emits_stage_child o n i st h (emits_jne_start qf)
  have q8 : Emits v B (jne_rel32 (stage_fork h o n i)).1
      (if is_builtin st.cmd = true then
        sys_exit (mov_rdi_imm64 (emit_builtin (stage_child h o n i st) st) 0)
      else emit_exec { stage_child h o n i st with
          bss_off := (stage_child h o n i st).bss_off + 8 * (st.argv.length + 1) } st
        (stage_child h o n i st).bss_off o.envp_off) Known.top Known.top
      (((if i > 0 then [⟨.prev_read, o.prev_read_off, 8⟩, ⟨.prev_read, o.prev_read_off, 8⟩]
        else []) ++
      (if i + 1 < n then
        [⟨.pipe, o.pipe_area_off + 4, 4⟩, ⟨.pipe, o.pipe_area_off + 0, 4⟩,
          ⟨.pipe, o.pipe_area_off + 4, 4⟩]
        else [])) ++
      (if is_builtin st.cmd = true then []
        else exec_uses st (stage_child h o n i st).bss_off o.envp_off)) := by
    by_cases hb : is_builtin st.cmd = true
    · simp only [hb, if_true, List.append_nil]
      exact emits_top (emits_sys 60 (by norm_num) (by decide) (by decide)
        (emits_mov_rdi_imm64 0 (emits_emit_builtin st q7)))
    · simp only [hb, if_false, Bool.false_eq_true]
      exact emits_emit_exec st _ _ (emits_bss _ q7)
  have q9 := emits_jne_patch Known.top qf q8 (fun _ hr => hr) (fun _ hr => hr)
  generalize patch_here (if is_builtin st.cmd = true then
        sys_exit (mov_rdi_imm64 (emit_builtin (stage_child h o n i st) st) 0)
      else emit_exec { stage_child h o n i st with
          bss_off := (stage_child h o n i st).bss_off + 8 * (st.argv.length + 1) } st
        (stage_child h o n i st).bss_off o.envp_off) (jne_rel32 (stage_fork h o n i)).2 = g9
    at q9 ⊢
  have q11 := emits_top (emits_store_rax ⟨.pid, o.pid_arr_off + i * 8, 8⟩ mem_last
    (Nat.le_refl _) (by rfl) (emits_addr_rdi ⟨.pid, o.pid_arr_off + i * 8, 8⟩ q9))
  simp only [Nat.add_assoc]
  simp only [Nat.add_assoc] at q11
  unfold stage_uses
  by_cases hn : i + 1 < n
  · simp only [hn, decide_True, if_true]
    refine emits_cast (emits_emit_parent_next o q11) ?_
    simp only [hn, if_true, List.append_assoc, Nat.add_assoc]
  · simp only [hn, decide_False, if_false, Bool.false_eq_true]
    refine emits_cast q11 ?_
    simp only [hn, if_false, List.append_assoc, List.append_nil, List.nil_append, Nat.add_assoc]

theorem emits_emit_stages {v : Nat → Nat} {B : Nat} {g : Gen} {a0 : Known} (o : PipeOffs)
    (n : Nat) :
    ∀ (sts : List Stage) (i : Nat) (u : List Region) (h : Gen), Emits v B g h a0 Known.top u →
      Emits v B g (emit_stages o n i sts h) a0 Known.top (u ++ stages_uses o n i sts h)
  | [], _, u, _, p => emits_cast p (by simp [stages_uses])
  | st :: rest, i, u, h, p => by
    rw [emit_stages, stages_uses]
    exact emits_cast (emits_emit_stages o n rest (i + 1) _ _ (emits_emit_stage o n i st p))
      (List.append_assoc _ _ _)

theorem emits_pipeline_start {v : Nat → Nat} {B : Nat} {g h : Gen} {a0 a : Known}
    {u : List Region} (pl : Pipeline) (p : Emits v B g h a0 a u) :
    Emits v B g (pipeline_start h pl) a0 Known.top
      (u ++ [⟨.prev_read, (pipeline_offs h pl).prev_read_off, 8⟩]) := by
  unfold pipeline_start pipeline_offs
  simp only []
  exact emits_top (emits_store_rdx ⟨.prev_read, h.bss_off + 8, 8⟩ mem_last (Nat.le_refl _)
    (by rfl) (emits_mov_rdx_imm64 (2 ^ 64 - 1)
      (emits_addr_rdi ⟨.prev_read, h.bss_off + 8, 8⟩
        (emits_bss (h.bss_off + 8 + 8 + 8 * pl.length + 8 * 2) p))))

/-- The code of `emit_pipeline` touches only the regions of `pipeline_uses`. -/
theorem emits_emit_pipeline {v : Nat → Nat} {B : Nat} {g h : Gen} {a0 a : Known}
    {u : List Region} (pl : Pipeline) (p : Emits v B g h a0 a u) :
    Emits v B g (emit_pipeline h pl) a0 Known.top (u ++ pipeline_uses h pl) := by
  have q3 := emits_emit_stages (pipeline_offs h pl) pl.length pl 0 _ _ (emits_pipeline_start pl p)
  have q6 := emits_top (emits_cmp_rax 0x00 (emits_load8 ⟨.prev_read, h.bss_off + 8, 8⟩ mem_last
    (Nat.le_refl _) (by rfl) (emits_addr_rdi ⟨.prev_read, h.bss_off + 8, 8⟩ q3)))
  have q8 := emits_top (emits_sys 3 (by norm_num) (by decide) (by decide)
    (emits_mov_rdi_rax (emits_je_start q6)))
  have q9 := emits_cast (emits_je_patch Known.top q6 q8 (fun _ hr => hr) (fun _ hr => hr))
    (List.append_nil _)
  have q10 := emits_wait_loop (pipeline_offs h pl) (List.range pl.length) _ _ q9
  refine emits_cast q10 ?_
  simp only [pipeline_uses, pipeline_offs, List.append_assoc]

theorem emits_gen_pipeline {v : Nat → Nat} {B : Nat} {g h : Gen} {a0 a : Known}
    {u : List Region} (pl : Pipeline) (p : Emits v B g h a0 a u) :
    Emits v B g (gen_pipeline h pl) a0 Known.top (u ++ gen_pipeline_uses h pl) := by
  unfold gen_pipeline gen_pipeline_uses
  by_cases h1 : pl.length = 1
  · simp only [h1, if_true]
    by_cases hb : is_builtin (pl.headD Stage.zero).cmd = true
    · simp only [hb, if_true, List.append_nil]
      exact emits_emit_builtin _ p
    · simp only [hb, if_false, Bool.false_eq_true]
      have := emits_emit_simple_cmd (pl.headD Stage.zero) (h.bss_off + 8) h.bss_off
        (emits_bss (h.bss_off + 8 + 8 * ((pl.headD Stage.zero).argv.length + 1)) p)
      simp only [hb, if_false, Bool.false_eq_true] at this
      exact this
  · simp only [h1, if_false]
    exact emits_emit_pipeline pl p

theorem emits_script {v : Nat → Nat} {B : Nat} {g : Gen} {a0 : Known} :
    ∀ (sc : Script) (u : List Region) (h : Gen), Emits v B g h a0 Known.top u →
      Emits v B g (sc.foldl gen_pipeline h) a0 Known.top (u ++ script_uses sc h)
  | [], u, _, p => emits_cast p (by simp [script_uses])
  | pl :: rest, u, h, p => by
    rw [List.foldl_cons, script_uses]
    exact emits_cast (emits_script rest _ _ (emits_gen_pipeline pl p)) (List.append_assoc _ _ _)

/-! ## Every run of the generated program stays inside the BSS -/

/-- The program of `gen_script`, with any values in the relocation slots, runs
as one fragment that touches only the regions of `gen_script_uses`. -/
theorem emits_gen_script (v : Nat → Nat) (g : Gen) (sc : Script) :
    Emits v g.bss_base { g with code := [], strs := ⟨[], []⟩, rels := [], bss_off := 0 }
      (gen_script g sc) Known.top Known.top (gen_script_uses g sc) := by
  have p0 : Emits v g.bss_base
      { g with code := [], strs := ⟨[], []⟩, rels := [], bss_off := 0 }
      { g with code := [], strs := ⟨[], []⟩, rels := [], bss_off := 0 } Known.top Known.top [] :=
    emits_start v _ _ _ (by intro r hr; cases hr) rfl
  have q := emits_top (emits_sys 60 (by norm_num) (by decide) (by decide)
    (emits_mov_rdi_imm64 0 (emits_script sc _ _ p0)))
  exact emits_cast q (List.nil_append _)

/-- A fragment that is the whole code runs to its end within `length + 1`
steps. -/
theorem frag_total {inp : Nat → Nat} {E : Event → Prop} {P Q : Regs → Prop} {t : List Nat}
    (h : Frag inp E P t Q) (r : Regs) (hP : P r) :
    ∃ (r2 : Regs) (evs : List Event),
      run inp (t.length + 1) t r [] = some (r2, evs) ∧ ∀ e ∈ evs, E e := by
  obtain ⟨n, r2, evs, l, _, s, x⟩ := h [] r [] hP
  refine ⟨r2, evs, ?_, s⟩
  have := x (t.length - n + 1)
  rw [List.append_nil, List.nil_append, run_end] at this
  rw [← this]
  congr 1
  omega

/-- For a script whose BSS and code are below `2 ^ 31` bytes, the patched code
runs to its end for every outcome of the loads and system calls, and every
memory access it makes lies inside a region of `gen_script_uses`, hence inside
the `memsz` bytes from the BSS base. -/
theorem gen_script_run (sc : Script) (hb : (gen_script Gen.start sc).bss_off < 2 ^ 31)
    (hl : (gen_script Gen.start sc).code.length < 2 ^ 31) (inp : Nat → Nat) (r : Regs) :
    ∃ (r2 : Regs) (evs : List Event),
      run inp ((gen_script Gen.start sc).code.length + 1)
          (patched_code (gen_script Gen.start sc)) r [] = some (r2, evs) ∧
        (∀ e ∈ evs, Event.safe 0x600000 (gen_script_uses Gen.start sc) e = true) ∧
        ∀ a w, Event.load a w ∈ evs ∨ Event.store a w ∈ evs →
          0x600000 ≤ a ∧ a + w ≤ 0x600000 + (if (gen_script Gen.start sc).bss_off ≠ 0
            then (gen_script Gen.start sc).bss_off else 0x1000) := by
  have hc := chain_gen_script Gen.start sc
  have hu : ∀ u ∈ gen_script_uses Gen.start sc,
      u.off + u.size ≤ (gen_script Gen.start sc).bss_off := by
    intro u hu
    obtain ⟨a, ha, _, _, h2⟩ := (covered_iff _ _).mp (script_uses_covered sc _ u hu)
    exact le_trans h2 (hc.within a ha).2
  have p := emits_gen_script
    (fun i => 0x400000 + (0xB0 + (gen_script Gen.start sc).code.length) +
      (gen_script Gen.start sc).strs.offs.getD i 0) Gen.start sc
  obtain ⟨t, e, f⟩ := p.code
  have et : patched_code (gen_script Gen.start sc) = t := by
    rw [patched_code_eq_fill, e]
    rfl
  have htl : t.length = (gen_script Gen.start sc).code.length := by
    rw [← et, patched_code_length]
  have hB : Gen.start.bss_base = 0x600000 := rfl
  rw [hB] at f
  have fr := f (by rw [htl]; exact hl) (by
    intro u hmem
    have := hu u hmem
    have h31 : (2 : Nat) ^ 31 = 2147483648 := by norm_num
    have h64 : (2 : Nat) ^ 64 = 18446744073709551616 := by norm_num
    rw [h31] at hb ⊢
    rw [h64]
    constructor <;> omega) inp
  obtain ⟨r2, evs, hrun, hs⟩ := frag_total fr r (known_top_holds r)
  rw [et, ← htl]
  refine ⟨r2, evs, hrun, hs, ?_⟩
  have key : ∀ a w, in_regions 0x600000 (gen_script_uses Gen.start sc) a w = true →
      0x600000 ≤ a ∧ a + w ≤ 0x600000 + (if (gen_script Gen.start sc).bss_off ≠ 0
        then (gen_script Gen.start sc).bss_off else 0x1000) := by
    intro a w h
    obtain ⟨u, hmem, h1, h2⟩ := in_regions_iff.mp h
    have := hu u hmem
    constructor
    · omega
    · split <;> omega
  intro a w h
  rcases h with h | h
  · exact key a w (hs _ h)
  · exact key a w (hs _ h)

/-- The code in the file starts at offset `0xB0` and is the patched code. -/
theorem write_elf_code (g : Gen) :
    ((write_elf g).drop 0xB0).take g.code.length = patched_code g := by
  rw [write_elf_layout]
  have he : ehdr_bytes.length = 64 := by decide
  have hp : ∀ a b c d e f h : Nat, (phdr_bytes a b c d e f h).length = 56 := by
    intro a b c d e f h
    simp only [phdr_bytes, List.length_append, le_bytes_length]
  have : (ehdr_bytes ++
      phdr_bytes 5 0 0x400000 0x400000 (g.code.length + g.strs.pool.length)
        (g.code.length + g.strs.pool.length) 0x1000 ++
      phdr_bytes 6 0 0x600000 0x600000 0 (if g.bss_off ≠ 0 then g.bss_off else 0x1000)
        0x1000).length = 0xB0 := by
    simp only [List.length_append, he, hp]
  rw [← this, List.drop_left, ← patched_code_length g, List.take_left]

/-! ## BSS sufficiency -/

/-- The code generated for `ls | wc` is 737 bytes long. -/
theorem ls_wc_code_length :
    (gen_script Gen.start
      [[⟨[bytes "ls"], none, none, 0⟩, ⟨[bytes "wc"], none, none, 0⟩]]).code.length = 737 := by
  decide!

theorem ls_wc_code_small :
    (gen_script Gen.start
      [[⟨[bytes "ls"], none, none, 0⟩, ⟨[bytes "wc"], none, none, 0⟩]]).code.length < 2 ^ 31 := by
  rw [ls_wc_code_length]
  norm_num

theorem ls_wc_bss_small :
    (gen_script Gen.start
      [[⟨[bytes "ls"], none, none, 0⟩, ⟨[bytes "wc"], none, none, 0⟩]]).bss_off < 2 ^ 31 := by
  decide!

/-- C14: for every accepted script, (1) the regions of `gen_script_uses` are all
the BSS addresses in the generated code: generating for any other BSS base `C`
changes the code only in the `mov rdi/rdx, imm64` immediates that hold
`bss_base + off` for these regions; (2) each such region (envp slot, `prev_read`
slot, pid slot, pipe area or part of it, argv vector of `(argc+1)*8` bytes) lies
inside a region of the same purpose handed out by the generator and ends at or
below the memsz written into the RW program header; (3) the regions handed out
follow one another without overlap and end at or below that memsz.  The header
field holds that memsz modulo `2 ^ 64`; when the BSS cursor fits in 64 bits the
bounds are against the eight bytes read back from the header.  (4) The sizes are
those of the accesses the code makes: when the BSS and the code are below
`2 ^ 31` bytes, the code bytes of the file, run from any registers and for any
values that loads and system calls return, run to their end, and every load and
store (the stores of `build_argv` at displacements `8 * i` included), the
buffer handed to `pipe` and the argv and envp pointers handed to `execve` lie
inside a region of `gen_script_uses`; every load and store lies between the
`p_vaddr` of the RW program header and `p_vaddr + p_memsz`, both read back from
the header. -/
theorem bss_sufficient (src : List Nat) (sc : Script) (_hacc : parse src = .ok sc) :
    (∀ C : Nat, Rebased 0x600000 C (gen_script Gen.start sc).code
        (gen_script { Gen.start with bss_base := C } sc).code (gen_script_uses Gen.start sc)) ∧
      (∀ u ∈ gen_script_uses Gen.start sc,
        covered (gen_script_allocs Gen.start sc) u = true ∧
        u.off + u.size ≤ (if (gen_script Gen.start sc).bss_off ≠ 0
          then (gen_script Gen.start sc).bss_off else 0x1000)) ∧
      (gen_script_allocs Gen.start sc).Pairwise (fun a b => a.off + a.size ≤ b.off) ∧
      (∀ a ∈ gen_script_allocs Gen.start sc, ∀ b ∈ gen_script_allocs Gen.start sc, a ≠ b →
        a.off + a.size ≤ b.off ∨ b.off + b.size ≤ a.off) ∧
      (∀ a ∈ gen_script_allocs Gen.start sc,
        a.off + a.size ≤ (if (gen_script Gen.start sc).bss_off ≠ 0
          then (gen_script Gen.start sc).bss_off else 0x1000)) ∧
      rd64 (write_elf (gen_script Gen.start sc)) (0x78 + 0x28) =
        (if (gen_script Gen.start sc).bss_off ≠ 0 then (gen_script Gen.start sc).bss_off
          else 0x1000) % 2 ^ 64 ∧
      ((gen_script Gen.start sc).bss_off < 2 ^ 64 →
        (∀ u ∈ gen_script_uses Gen.start sc,
          u.off + u.size ≤ rd64 (write_elf (gen_script Gen.start sc)) (0x78 + 0x28)) ∧
        (∀ a ∈ gen_script_allocs Gen.start sc,
          a.off + a.size ≤ rd64 (write_elf (gen_script Gen.start sc)) (0x78 + 0x28))) ∧
      ((gen_script Gen.start sc).bss_off < 2 ^ 31 →
        (gen_script Gen.start sc).code.length < 2 ^ 31 →
        ∀ (inp : Nat → Nat) (r : Regs), ∃ (r2 : Regs) (evs : List Event),
          run inp ((gen_script Gen.start sc).code.length + 1)
              (((write_elf (gen_script Gen.start sc)).drop 0xB0).take
                (gen_script Gen.start sc).code.length) r [] = some (r2, evs) ∧
            (∀ e ∈ evs, Event.safe 0x600000 (gen_script_uses Gen.start sc) e = true) ∧
            ∀ a w, Event.load a w ∈ evs ∨ Event.store a w ∈ evs →
              rd64 (write_elf (gen_script Gen.start sc)) (0x78 + 0x10) ≤ a ∧
                a + w ≤ rd64 (write_elf (gen_script Gen.start sc)) (0x78 + 0x10) +
                  rd64 (write_elf (gen_script Gen.start sc)) (0x78 + 0x28)) := by
  have hc := chain_gen_script Gen.start sc
  have hm : (gen_script Gen.start sc).bss_off ≤
      (if (gen_script Gen.start sc).bss_off ≠ 0 then (gen_script Gen.start sc).bss_off
        else 0x1000) := by
    split <;> omega
  have hall : ∀ a ∈ gen_script_allocs Gen.start sc,
      a.off + a.size ≤ (if (gen_script Gen.start sc).bss_off ≠ 0
        then (gen_script Gen.start sc).bss_off else 0x1000) :=
    fun a ha => le_trans (hc.within a ha).2 hm
  refine ⟨fun C => (gen_script_rebased Gen.start C sc).1, ?_, hc.sorted, ?_, hall,
    (write_elf_fields _).2.2.2.2.2.2.2, ?_, ?_⟩
  · intro u hu
    have hcov := script_uses_covered sc _ u hu
    refine ⟨hcov, ?_⟩
    obtain ⟨a, ha, _, h1, h2⟩ := (covered_iff _ _).mp hcov
    have := hall a ha
    exact le_trans h2 this
  · have hp : (gen_script_allocs Gen.start sc).Pairwise
        (fun a b => a.off + a.size ≤ b.off ∨ b.off + b.size ≤ a.off) :=
      hc.sorted.imp (fun h => Or.inl h)
    intro a ha b hb hne
    exact hp.forall (fun x y h => h.symm) ha hb hne
  · intro hsz
    have h4 : (if (gen_script Gen.start sc).bss_off ≠ 0 then (gen_script Gen.start sc).bss_off
        else 0x1000) < 2 ^ 64 := by
      split
      · exact hsz
      · norm_num
    rw [(write_elf_fields _).2.2.2.2.2.2.2, Nat.mod_eq_of_lt h4]
    refine ⟨?_, hall⟩
    intro u hu
    obtain ⟨a, ha, _, _, h2⟩ := (covered_iff _ _).mp (script_uses_covered sc _ u hu)
    exact le_trans h2 (hall a ha)
  · intro hb hl inp r
    obtain ⟨r2, evs, hrun, hs, hacc⟩ := gen_script_run sc hb hl inp r
    have h4 : (if (gen_script Gen.start sc).bss_off ≠ 0 then (gen_script Gen.start sc).bss_off
        else 0x1000) < 2 ^ 64 := by
      have h31 : (2 : Nat) ^ 31 = 2147483648 := by norm_num
      have h64 : (2 : Nat) ^ 64 = 18446744073709551616 := by norm_num
      rw [h31] at hb
      rw [h64]
      split <;> omega
    rw [write_elf_code, (write_elf_fields _).2.2.2.2.2.1, (write_elf_fields _).2.2.2.2.2.2.2,
      Nat.mod_eq_of_lt h4]
    exact ⟨r2, evs, hrun, hs, hacc⟩

/-- Witness for C14 on the script `ls | wc`: seven regions are handed out, up
to offset 80; every run of the code in the file stays inside the regions; and
the code `build_argv` emits for the one argument of `ls`, whose argv area is at
offset 48, stores at `0x600030` and `0x600038`. -/
theorem bss_sufficient_witness :
    parse (bytes "ls | wc") =
        .ok [[⟨[bytes "ls"], none, none, 0⟩, ⟨[bytes "wc"], none, none, 0⟩]] ∧
      gen_script_allocs Gen.start [[⟨[bytes "ls"], none, none, 0⟩, ⟨[bytes "wc"], none, none, 0⟩]] =
        [⟨.envp, 0, 8⟩, ⟨.prev_read, 8, 8⟩, ⟨.pid, 16, 8⟩, ⟨.pid, 24, 8⟩, ⟨.pipe, 32, 16⟩,
          ⟨.argv, 48, 16⟩, ⟨.argv, 64, 16⟩] ∧
      (gen_script Gen.start
        [[⟨[bytes "ls"], none, none, 0⟩, ⟨[bytes "wc"], none, none, 0⟩]]).bss_off = 80 ∧
      (∀ u ∈ gen_script_uses Gen.start
          [[⟨[bytes "ls"], none, none, 0⟩, ⟨[bytes "wc"], none, none, 0⟩]],
        covered (gen_script_allocs Gen.start
          [[⟨[bytes "ls"], none, none, 0⟩, ⟨[bytes "wc"], none, none, 0⟩]]) u = true ∧
        u.off + u.size ≤ (if (gen_script Gen.start
            [[⟨[bytes "ls"], none, none, 0⟩, ⟨[bytes "wc"], none, none, 0⟩]]).bss_off ≠ 0
          then (gen_script Gen.start
            [[⟨[bytes "ls"], none, none, 0⟩, ⟨[bytes "wc"], none, none, 0⟩]]).bss_off
          else 0x1000)) ∧
      rd64 (write_elf (gen_script Gen.start
          [[⟨[bytes "ls"], none, none, 0⟩, ⟨[bytes "wc"], none, none, 0⟩]])) (0x78 + 0x28) = 80 ∧
      (∀ u ∈ gen_script_uses Gen.start
          [[⟨[bytes "ls"], none, none, 0⟩, ⟨[bytes "wc"], none, none, 0⟩]],
        u.off + u.size ≤ rd64 (write_elf (gen_script Gen.start
          [[⟨[bytes "ls"], none, none, 0⟩, ⟨[bytes "wc"], none, none, 0⟩]])) (0x78 + 0x28)) ∧
      (∀ (inp : Nat → Nat) (r : Regs), ∃ (r2 : Regs) (evs : List Event),
        run inp ((gen_script Gen.start
              [[⟨[bytes "ls"], none, none, 0⟩, ⟨[bytes "wc"], none, none, 0⟩]]).code.length + 1)
            (((write_elf (gen_script Gen.start
              [[⟨[bytes "ls"], none, none, 0⟩, ⟨[bytes "wc"], none, none, 0⟩]])).drop 0xB0).take
              (gen_script Gen.start
                [[⟨[bytes "ls"], none, none, 0⟩, ⟨[bytes "wc"], none, none, 0⟩]]).code.length)
            r [] = some (r2, evs) ∧
          (∀ e ∈ evs, Event.safe 0x600000 (gen_script_uses Gen.start
            [[⟨[bytes "ls"], none, none, 0⟩, ⟨[bytes "wc"], none, none, 0⟩]]) e = true) ∧
          ∀ a w, Event.load a w ∈ evs ∨ Event.store a w ∈ evs →
            rd64 (write_elf (gen_script Gen.start
              [[⟨[bytes "ls"], none, none, 0⟩, ⟨[bytes "wc"], none, none, 0⟩]])) (0x78 + 0x10) ≤ a ∧
              a + w ≤ rd64 (write_elf (gen_script Gen.start
                [[⟨[bytes "ls"], none, none, 0⟩, ⟨[bytes "wc"], none, none, 0⟩]])) (0x78 + 0x10) +
                rd64 (write_elf (gen_script Gen.start
                  [[⟨[bytes "ls"], none, none, 0⟩, ⟨[bytes "wc"], none, none, 0⟩]]))
                  (0x78 + 0x28)) ∧
      (gen_script Gen.start
        [[⟨[bytes "ls"], none, none, 0⟩, ⟨[bytes "wc"], none, none, 0⟩]]).code.length = 737 ∧
      run (fun _ => 0) 8 (build_argv Gen.start 48 [0]).code ⟨0, 0, 0, 0, 0, false⟩ [] =
        some (⟨0, 0x600030, 0x600030, 0, 0, false⟩, [.store 0x600030 8, .store 0x600038 8]) :=
  ⟨by decide, by decide!, by decide!,
    (bss_sufficient (bytes "ls | wc")
      [[⟨[bytes "ls"], none, none, 0⟩, ⟨[bytes "wc"], none, none, 0⟩]] (by decide)).2.1,
    by decide!,
    ((bss_sufficient (bytes "ls | wc")
      [[⟨[bytes "ls"], none, none, 0⟩, ⟨[bytes "wc"], none, none, 0⟩]]
      (by decide)).2.2.2.2.2.2.1 (by decide!)).1,
    (bss_sufficient (bytes "ls | wc")
      [[⟨[bytes "ls"], none, none, 0⟩, ⟨[bytes "wc"], none, none, 0⟩]]
      (by decide)).2.2.2.2.2.2.2 ls_wc_bss_small ls_wc_code_small,
    ls_wc_code_length, by decide!⟩

/-! ## A word made only of empty quotes is no word -/

/-- The outer loop of `parse_word` passes over a run of empty quote pairs and
leaves the buffer as it is. -/
theorem pw_bare_empty_quotes (buf x : List Nat) :
    ∀ k : List Bool, pw_bare buf (empty_quotes k ++ x) = pw_bare buf x
  | [] => rfl
  | true :: k => by
    have h1 : pw_bare buf (34 :: 34 :: (empty_quotes k ++ x)) =
        pw_dq buf (34 :: (empty_quotes k ++ x)) := by
      rw [pw_bare.eq_def]; simp
    have h2 : pw_dq buf (34 :: (empty_quotes k ++ x)) = pw_bare buf (empty_quotes k ++ x) := by
      rw [pw_dq.eq_def]; simp
    show pw_bare buf (34 :: 34 :: (empty_quotes k ++ x)) = pw_bare buf x
    rw [h1, h2, pw_bare_empty_quotes buf x k]
  | false :: k => by
    have h1 : pw_bare buf (39 :: 39 :: (empty_quotes k ++ x)) =
        pw_sq buf (39 :: (empty_quotes k ++ x)) := by
      rw [pw_bare.eq_def]; simp
    have h2 : pw_sq buf (39 :: (empty_quotes k ++ x)) = pw_bare buf (empty_quotes k ++ x) := by
      rw [pw_sq.eq_def]; simp
    show pw_bare buf (39 :: 39 :: (empty_quotes k ++ x)) = pw_bare buf x
    rw [h1, h2, pw_bare_empty_quotes buf x k]

/-- At the end of the text or at a token terminator the outer loop stops. -/
theorem pw_bare_stop (buf x : List Nat) (h : is_token_terminator (x.headD 0) = true) :
    pw_bare buf x = word_end buf x := by
  cases x with
  | nil => rw [pw_bare]
  | cons t y => exact pw_bare_at_terminator buf y h

/-- A run of empty quote pairs followed by the end of the text or by a token
terminator is no word: `parse_word` returns NULL. -/
theorem parse_word_empty_quotes (k : List Bool) (x : List Nat)
    (h : is_token_terminator (x.headD 0) = true) :
    parse_word (empty_quotes k ++ x) = .null := by
  unfold parse_word
  rw [pw_bare_empty_quotes, pw_bare_stop _ _ h]
  rfl

/-- A non-empty run of empty quote pairs starts with a quote. -/
theorem empty_quotes_head (k : List Bool) (hk : k ≠ []) (x : List Nat) :
    ∃ c y, empty_quotes k ++ x = c :: y ∧ (c = 34 ∨ c = 39) := by
  cases k with
  | nil => exact absurd rfl hk
  | cons b k =>
    cases b
    · exact ⟨39, 39 :: (empty_quotes k ++ x), rfl, Or.inr rfl⟩
    · exact ⟨34, 34 :: (empty_quotes k ++ x), rfl, Or.inl rfl⟩

/-- Where a word is required and `parse_word` returns NULL at a quote, the loop
fails with `expected word`, whatever the state. -/
theorem parse_iter_word_null (s : PState) (ws : List Nat) (c : Nat) (y : List Nat)
    (hws : ws.all is_inline_ws = true) (hc : c = 34 ∨ c = 39)
    (h : parse_word (c :: y) = .null) :
    parse_iter s (ws ++ c :: y) = .error .expected_word := by
  unfold parse_iter
  have h0 : ¬ (c = 32 ∨ c = 9 ∨ c = 13) := by omega
  rw [skip_inline_ws_ws ws _ hws, skip_inline_ws_at y h0]
  have h1 : c ≠ 0 := by omega
  have h2 : ¬ (c = 10 ∨ c = 59) := by omega
  have h3 : c ≠ 124 := by omega
  have h4 : ¬ (c = 62 ∨ c = 60) := by omega
  simp only [h1, h2, h3, h4, if_false]
  unfold word_branch
  rw [h]

/-- The second half of the redirection branch fails with `missing redirection
target` when `parse_word` returns NULL. -/
theorem redir_target_null (s : PState) (op a : Nat) (p2 : List Nat)
    (h : parse_word p2 = .null) :
    redir_target s op a p2 = .error .missing_redirection_target := by
  unfold redir_target
  simp only []
  split
  · rfl
  · rw [h]

theorem inline_ws_head_ne (ws : List Nat) (c : Nat) (y : List Nat)
    (hws : ws.all is_inline_ws = true) (hc : c = 34 ∨ c = 39) :
    (ws ++ c :: y).headD 0 ≠ 62 := by
  cases ws with
  | nil => simp only [List.nil_append, List.headD_cons]; omega
  | cons d ws =>
    simp only [List.all_cons, Bool.and_eq_true] at hws
    have hd : d = 32 ∨ d = 9 ∨ d = 13 := by simpa [is_inline_ws] using hws.1
    simp only [List.cons_append, List.headD_cons]
    omega

/-- A redirection operator whose target text is only empty quotes fails with
`missing redirection target`, whatever the state. -/
theorem parse_iter_redir_null (s : PState) (ws op ws2 : List Nat) (c : Nat) (y : List Nat)
    (hws : ws.all is_inline_ws = true) (hop : op = [60] ∨ op = [62] ∨ op = [62, 62])
    (hws2 : ws2.all is_inline_ws = true) (hc : c = 34 ∨ c = 39)
    (h : parse_word (c :: y) = .null) :
    parse_iter s (ws ++ (op ++ (ws2 ++ c :: y))) = .error .missing_redirection_target := by
  have h0 : ¬ (c = 32 ∨ c = 9 ∨ c = 13) := by omega
  have hskip : skip_inline_ws (ws2 ++ c :: y) = c :: y := by
    rw [skip_inline_ws_ws ws2 _ hws2, skip_inline_ws_at y h0]
  have hne := inline_ws_head_ne ws2 c y hws2 hc
  unfold parse_iter
  rw [skip_inline_ws_ws ws _ hws]
  rcases hop with hop | hop | hop <;> subst hop
  · rw [List.singleton_append, skip_inline_ws_at _ (by omega)]
    simp only []
    have e : redir_branch s 60 (ws2 ++ c :: y) = .error .missing_redirection_target := by
      unfold redir_branch
      rw [if_neg (by omega), hskip]
      exact redir_target_null s 60 0 _ h
    simpa using e
  · rw [List.singleton_append, skip_inline_ws_at _ (by omega)]
    simp only []
    have e : redir_branch s 62 (ws2 ++ c :: y) = .error .missing_redirection_target := by
      unfold redir_branch
      rw [if_neg (fun hh => hne hh.2), hskip]
      exact redir_target_null s 62 0 _ h
    simpa using e
  · have e0 : [62, 62] ++ (ws2 ++ c :: y) = 62 :: 62 :: (ws2 ++ c :: y) := rfl
    rw [e0, skip_inline_ws_at _ (by omega)]
    simp only []
    have e : redir_branch s 62 (62 :: (ws2 ++ c :: y)) = .error .missing_redirection_target := by
      unfold redir_branch
      rw [if_pos ⟨rfl, rfl⟩, List.tail_cons, hskip]
      exact redir_target_null s 62 1 _ h
    simpa using e

/-- No word returned by `parse_word` is empty or holds a NUL. -/
theorem parse_word_proper (p w rest : List Nat) (h : parse_word p = .word w rest) :
    w ≠ [] ∧ cstr w = w :=
  ⟨(parse_word_progress h).1, cstr_of_nul_free w (parse_word_nul_free p w rest h)⟩

/-- C21: an empty concatenation is no word, and it is an error where a word is
required.  For every accepted source `s` (taken as the C string `cstr s` it
holds, which is `s` itself when `s` has no NUL): `s` followed by a space and
`""`, or by a space and `''`, is rejected with `expected word`; `s` followed by
a space, `>` , a space and `""` is rejected with `missing redirection target`.
In general, for every non-empty run of empty quote pairs that is followed by
the end of the text or by a token terminator, `parse_word` returns NULL on it,
the run as an argument is rejected with `expected word`, and the run as the
target of `<`, `>` or `>>` is rejected with `missing redirection target`.
Consequently every argv entry and every redirection target of the accepted
script is a non-empty string without NUL. -/
theorem empty_word_rejected (s : List Nat) (sc : Script) (hacc : parse s = .ok sc) :
    parse (cstr s ++ [32, 34, 34]) = .error .expected_word ∧
      parse (cstr s ++ [32, 39, 39]) = .error .expected_word ∧
      parse (cstr s ++ [32, 62, 32, 34, 34]) = .error .missing_redirection_target ∧
      (∀ (k : List Bool) (x : List Nat), k ≠ [] → is_token_terminator (x.headD 0) = true →
        parse_word (empty_quotes k ++ x) = .null ∧
        parse (cstr s ++ 32 :: (empty_quotes k ++ x)) = .error .expected_word ∧
        ∀ op ws : List Nat, op = [60] ∨ op = [62] ∨ op = [62, 62] →
          ws.all is_inline_ws = true →
          parse (cstr s ++ 32 :: (op ++ (ws ++ (empty_quotes k ++ x)))) =
            .error .missing_redirection_target) ∧
      (∀ pl ∈ sc, ∀ st ∈ pl,
        (∀ w ∈ st.argv, w ≠ [] ∧ cstr w = w) ∧
        (∀ w, st.in_redir = some w → w ≠ [] ∧ cstr w = w) ∧
        (∀ w, st.out_redir = some w → w ≠ [] ∧ cstr w = w)) := by
  obtain ⟨s2, hruns, _⟩ := runs_of_accepted_cstr hacc
  have key : ∀ x : List Nat, parse (cstr s ++ 32 :: x) = parse_from s2 (32 :: x) := fun x =>
    runs_append hruns (cstr_nul_free s) 32 x (by decide)
  have gen : ∀ (k : List Bool) (x : List Nat), k ≠ [] →
      is_token_terminator (x.headD 0) = true →
      parse_word (empty_quotes k ++ x) = .null ∧
      parse (cstr s ++ 32 :: (empty_quotes k ++ x)) = .error .expected_word ∧
      ∀ op ws : List Nat, op = [60] ∨ op = [62] ∨ op = [62, 62] →
        ws.all is_inline_ws = true →
        parse (cstr s ++ 32 :: (op ++ (ws ++ (empty_quotes k ++ x)))) =
          .error .missing_redirection_target := by
    intro k x hk hx
    have hnull := parse_word_empty_quotes k x hx
    obtain ⟨c, y, e, hc⟩ := empty_quotes_head k hk x
    rw [e] at hnull ⊢
    refine ⟨hnull, ?_, ?_⟩
    · rw [key]
      exact parse_from_of_iter_error
        (parse_iter_word_null s2 [32] c y (by decide) hc hnull)
    · intro op ws hop hws
      rw [key]
      exact parse_from_of_iter_error
        (parse_iter_redir_null s2 [32] op ws c y (by decide) hop hws hc hnull)
  refine ⟨?_, ?_, ?_, gen, ?_⟩
  · exact (gen [true] [] (by decide) (by decide)).2.1
  · exact (gen [false] [] (by decide) (by decide)).2.1
  · exact (gen [true] [] (by decide) (by decide)).2.2 [62] [32] (Or.inr (Or.inl rfl)) (by decide)
  · exact parse_words parse_word_proper hacc

/-- Witness for C21 on `echo ""`, `echo ''` and `cmd > ""`. -/
theorem empty_word_rejected_witness :
    parse (bytes "echo") = .ok [[⟨[bytes "echo"], none, none, 0⟩]] ∧
      parse (bytes "echo" ++ [32, 34, 34]) = .error .expected_word ∧
      parse (bytes "echo" ++ [32, 39, 39]) = .error .expected_word ∧
      parse (bytes "cmd" ++ [32, 62, 32, 34, 34]) = .error .missing_redirection_target :=
  have h := empty_word_rejected (bytes "echo") [[⟨[bytes "echo"], none, none, 0⟩]] (by decide)
  have h2 := empty_word_rejected (bytes "cmd") [[⟨[bytes "cmd"], none, none, 0⟩]] (by decide)
  ⟨by decide, h.1, h.2.1, h2.2.2.1⟩

end Sh2elf
